import Mathlib

/-! AMDMIGraphX: horizontal fusion and pre-scheduling.

A shallow embedding of `src/opt/horizontal_fusion_impl.{hpp,cpp}`,
`src/opt/pre_scheduling_impl.cpp` and the parts of `instruction.hpp` they use.

Conventions of the embedding.

* `instruction_ref` (an iterator into the program's `std::list`) is a stable
  natural-number identity; the program is the ordered list of these identities
  together with the table that dereferences them.
* `hash_value_ptr` always points into the vector `values`, whose element at
  index `i` has `id = i`; a pointer is therefore represented by that id.
* `dag_node*` always points at the node paired with one instruction
  (`instr2_node`), so a node pointer is represented by the instruction's
  identity and the node table is keyed by it.
* `std::unordered_map` is a function into `Option` (`find(k) == end()` is
  `none`), `std::set<unsigned>` is a strictly ascending list.
* `std::sort` is a parameter (`std_sort`) of which only what the C++ standard
  promises is assumed (`std_sort_contract`); `libstdcxx.sort` embeds the
  `std::sort` of the GNU C++ library, to be passed for this parameter.
* `unsigned long long` arithmetic is taken modulo `2 ^ 64` and `unsigned`
  byte counts and offsets modulo `2 ^ 32`; a value stored in an `int` (the
  sums of dimensions in `concat`, the weight sums and the cycles of
  pre-scheduling) is converted by `to_int`, the 32-bit two's complement.
* Undefined behaviour (failed `assert`, `front()` of an empty vector,
  out-of-range index, decrementing `begin()`) is the result `none`.
-/

namespace migraphx

/-! ## The IR consumed by the passes -/

abbrev instruction_ref := Nat

/-- Conversion to `int` (32 bits, two's complement): the value an `int`
variable holds after an arithmetic result is stored in it. -/
def to_int (x : Int) : Int := (x + 2 ^ 31) % 2 ^ 32 - 2 ^ 31

/-- Result shape: element type tag and dimension vector. -/
structure shape where
  type : Nat
  lens : List Nat
deriving DecidableEq, Repr

/-- Typed parameters of the operators the passes downcast to. -/
inductive op_params where
  | other
  | broadcast (axis : Nat) (broadcast_shape : shape)
  | split (axis : Int) (slice_dims : List Int) (slice_selector : Int × Int)
  | load (s : shape) (offset : Nat)
  | reshape (dims : List Int)
deriving DecidableEq, Repr

/-- An operator: its `name()`, the text `operator<<` prints for it (the key of
`opcode_table`), and its typed parameters. -/
structure operation where
  name : String
  text : String
  params : op_params := op_params.other
deriving DecidableEq, Repr

/-- Values of `enum instruction_mask`. -/
def RECORD_EVENT : Nat := 0

def WAIT_EVENT : Nat := 1

/-- The fields of `struct instruction` read or written by the two passes. -/
structure instruction where
  op : operation
  result : shape
  output : List instruction_ref
  arguments : List instruction_ref
  lit : List Nat := []
  stream : Int := -1
  mask : Nat := 0
deriving DecidableEq, Repr

namespace instruction

def name (i : instruction) : String := i.op.name

def inputs (i : instruction) : List instruction_ref := i.arguments

def outputs (i : instruction) : List instruction_ref := i.output

def get_shape (i : instruction) : shape := i.result

def get_stream (i : instruction) : Int := i.stream

def set_stream (i : instruction) (s : Int) : instruction := { i with stream := s }

/-- Transcribes `if ((mask & (1 << m)) == 0) mask += (1 << m);`. -/
def add_mask (i : instruction) (m : Nat) : instruction :=
  if i.mask &&& (1 <<< m) = 0 then { i with mask := i.mask + (1 <<< m) } else i

/-- Transcribes `return ((mask & (1 << m)) != 0);`. -/
def has_mask (i : instruction) (m : Nat) : Bool :=
  i.mask &&& (1 <<< m) != 0

end instruction

/-- The program: `instructions` is the sequence held by the `std::list`,
`ins r` dereferences the reference `r`, and `next_ref` is the identity the
next inserted instruction receives. -/
structure program where
  instructions : List instruction_ref
  ins : instruction_ref → instruction
  next_ref : instruction_ref := 0

/-! ## Horizontal fusion: encoding keys -/

def opcode_bits : Nat := 16

def hash_id_bits : Nat := 16

def filter_bits : Nat := 8

def kernel_bits : Nat := 8

/-- Width of `key_type` (`unsigned long long`): `sizeof(key_type) * 8`. -/
def key_type_bits : Nat := 8 * 8

def opcode_shift_count : Nat := key_type_bits - opcode_bits

def hash_id_shift_count : Nat := opcode_shift_count - hash_id_bits

def filter_shift_count : Nat := hash_id_shift_count - filter_bits

def kernel_shift_count : Nat := filter_shift_count - kernel_bits

/-- Left shift of a `key_type` value. -/
def key_shl (x n : Nat) : Nat := (x <<< n) % 2 ^ key_type_bits

abbrev Ins2Val := instruction_ref → Option Nat

/-- `struct encode_info`; `inputs` holds hash-value ids. -/
structure encode_info where
  key : Nat
  valid : Bool
  inputs : List Nat := []
deriving DecidableEq, Repr

/-- `EncodeCommon`.  The result is `none` where the source has undefined
behaviour: `front()` of an empty input list, or a first input that is absent
from `instr2_value` (the `assert`). -/
def EncodeCommon (p : program) (ins : instruction_ref) (instr2_value : Ins2Val)
    (opcode : Nat) : Option encode_info :=
  if opcode ≥ 1 <<< opcode_bits then
    some { key := 0, valid := false }
  else
    let encode := key_shl opcode opcode_shift_count
    match (p.ins ins).inputs with
    | [] => none
    | op1 :: _ =>
      match instr2_value op1 with
      | none => none
      | some op1_val =>
        if op1_val ≥ 1 <<< hash_id_bits then
          some { key := 0, valid := false }
        else
          let encode := encode ||| key_shl op1_val hash_id_shift_count
          some { key := encode, valid := true, inputs := [op1_val] }

/-- `EncodeConvCommon`.  The result is `none` where the source throws or has
undefined behaviour: `inputs().at(1)` without a second input, or a second
input whose shape has fewer than two dimensions. -/
def EncodeConvCommon (p : program) (ins : instruction_ref) (instr2_value : Ins2Val)
    (opcode : Nat) : Option encode_info :=
  match EncodeCommon p ins instr2_value opcode with
  | none => none
  | some info =>
    if !info.valid then some info
    else
      let encode := info.key
      match (p.ins ins).inputs with
      | _ :: op2 :: _ =>
        let lens := (p.ins op2).get_shape.lens
        if lens.length < 2 then none
        else
          let filter := lens.getD (lens.length - 2) 0
          let kernel := lens.getD (lens.length - 1) 0
          if filter < 1 <<< filter_bits ∧ kernel < 1 <<< kernel_bits then
            let encode := encode ||| key_shl filter filter_shift_count
            let encode := encode ||| key_shl kernel kernel_shift_count
            some { info with key := encode }
          else
            some { key := 0, valid := false }
      | _ => none

/-! ## Horizontal fusion: the hash table and the hashing phase -/

/-- `struct hash_value`, with the root flag that `set_root` writes. -/
structure hash_value where
  id : Nat
  cur_point : Nat
  root : Bool := false
deriving DecidableEq, Repr

/-- The two functions that `register_all` stores as `Encoder`. -/
inductive Encoder where
  | Common
  | ConvCommon
deriving DecidableEq, Repr

/-- Call of a stored `Encoder`. -/
def Encoder.call (e : Encoder) (p : program) (ins : instruction_ref)
    (instr2_value : Ins2Val) (opcode : Nat) : Option encode_info :=
  match e with
  | Encoder.Common => EncodeCommon p ins instr2_value opcode
  | Encoder.ConvCommon => EncodeConvCommon p ins instr2_value opcode

/-- Insertion into a `std::set<unsigned>` (strictly ascending list). -/
def set_insert (x : Nat) : List Nat → List Nat
  | [] => [x]
  | y :: ys =>
    if x < y then x :: y :: ys
    else if x = y then y :: ys
    else y :: set_insert x ys

/-- State of `struct horizontal_fusion_impl`.  The last field, `hashed`, is an
observation record that the source does not have: it lists, oldest first, every
instruction that `hash` mapped through an encoder together with the key the
encoder returned.  No other field depends on it. -/
structure horizontal_fusion_impl where
  p_program : program
  instr2_hash : instruction_ref → Option Bool := fun _ => none
  instr2_value : Ins2Val := fun _ => none
  point2_instr : Nat → Option instruction_ref := fun _ => none
  encode2_value : Nat → Option Nat := fun _ => none
  op_registry : String → Option Encoder := fun _ => none
  op_flag : String → Option Int := fun _ => none
  opcode_table : String → Option Nat := fun _ => none
  values : List hash_value := []
  hash_inputs : Nat → Option (List Nat) := fun _ => none
  hash_outputs : Nat → Option (List Nat) := fun _ => none
  hash_instrs : Nat → Option (List Nat) := fun _ => none
  cur_point : Nat := 0
  opcode_id : Nat := 0
  hashed : List (instruction_ref × Nat) := []

namespace horizontal_fusion_impl

def register_op (st : horizontal_fusion_impl) (name : String) (func : Encoder) (flag : Int) :
    horizontal_fusion_impl :=
  { st with
    op_registry := Function.update st.op_registry name (some func)
    op_flag := Function.update st.op_flag name (some flag) }

def register_all (st : horizontal_fusion_impl) : horizontal_fusion_impl :=
  let st := st.register_op "gpu::convolution" Encoder.ConvCommon 1
  let st := st.register_op "gpu::conv_bias_relu" Encoder.ConvCommon 1
  let st := st.register_op "hip::add_relu" Encoder.Common 0
  let st := st.register_op "convolution" Encoder.ConvCommon 1
  let st := st.register_op "add" Encoder.Common 0
  st.register_op "relu" Encoder.Common 0

/-- The constructor: empty tables, then `register_all`. -/
def create (p : program) : horizontal_fusion_impl :=
  register_all { p_program := p }

def is_conv (st : horizontal_fusion_impl) (ins : instruction_ref) : Bool :=
  match st.op_flag (st.p_program.ins ins).name with
  | none => false
  | some flag => flag == 1

def is_concat (st : horizontal_fusion_impl) (ins : instruction_ref) : Bool :=
  (st.p_program.ins ins).name == "concat"

def add_instr (st : horizontal_fusion_impl) (id : Nat) : horizontal_fusion_impl :=
  match st.hash_instrs id with
  | none => { st with hash_instrs := Function.update st.hash_instrs id (some [st.cur_point]) }
  | some vals =>
    { st with hash_instrs := Function.update st.hash_instrs id (some (set_insert st.cur_point vals)) }

def add_input (st : horizontal_fusion_impl) (id ptr : Nat) : horizontal_fusion_impl :=
  match st.hash_inputs id with
  | none => { st with hash_inputs := Function.update st.hash_inputs id (some [ptr]) }
  | some vals =>
    if ptr ∈ vals then st
    else { st with hash_inputs := Function.update st.hash_inputs id (some (set_insert ptr vals)) }

def add_output (st : horizontal_fusion_impl) (id ptr : Nat) : horizontal_fusion_impl :=
  match st.hash_outputs id with
  | none => { st with hash_outputs := Function.update st.hash_outputs id (some [ptr]) }
  | some vals =>
    if ptr ∈ vals then st
    else { st with hash_outputs := Function.update st.hash_outputs id (some (set_insert ptr vals)) }

/-- `hash_opcode`: intern the printed operator. -/
def hash_opcode (st : horizontal_fusion_impl) (ins : instruction_ref) :
    horizontal_fusion_impl × Nat :=
  let str := (st.p_program.ins ins).op.text
  match st.opcode_table str with
  | none =>
    ({ st with opcode_table := Function.update st.opcode_table str (some st.opcode_id)
               opcode_id := st.opcode_id + 1 }, st.opcode_id)
  | some v => (st, v)

/-- `create_value`: append a node whose id is its index, record the current
point in its instr set and map the instruction to it. -/
def create_value (st : horizontal_fusion_impl) (ins : instruction_ref) :
    horizontal_fusion_impl × Nat :=
  let id := st.values.length
  let val : hash_value := { id := id, cur_point := st.cur_point }
  let st : horizontal_fusion_impl := { st with values := st.values ++ [val] }
  let st := st.add_instr id
  ({ st with instr2_value := Function.update st.instr2_value ins (some id) }, id)

/-- `hash`.  The outer `Option` is `none` where the encoder has undefined
behaviour; the inner one is the returned pointer (`none` for `nullptr`). -/
def hash (st : horizontal_fusion_impl) (ins : instruction_ref) :
    Option (horizontal_fusion_impl × Option Nat) :=
  match st.op_registry (st.p_program.ins ins).name with
  | none => some (st, none)
  | some encode_func =>
    let (st, opcode) := st.hash_opcode ins
    match encode_func.call st.p_program ins st.instr2_value opcode with
    | none => none
    | some encode_val =>
      if !encode_val.valid then some (st, none)
      else
        let key := encode_val.key
        let found : horizontal_fusion_impl × Nat :=
          match st.encode2_value key with
          | some hash_val =>
            let st := st.add_instr hash_val
            ({ st with instr2_value := Function.update st.instr2_value ins (some hash_val) },
              hash_val)
          | none =>
            let created := st.create_value ins
            ({ created.1 with
                encode2_value := Function.update created.1.encode2_value key (some created.2) },
              created.2)
        let st := found.1
        let hash_val := found.2
        let st := encode_val.inputs.foldl
          (fun st input => (st.add_input hash_val input).add_output input hash_val) st
        some ({ st with hashed := st.hashed ++ [(ins, key)] }, some hash_val)

/-- The counting loop of `process`, with its `break`: returns `op2_cnt` and
`hash_child`. -/
def count_outputs (p : program) :
    List instruction_ref → (String → Option Nat) → (String → Option Nat) × Bool
  | [], op2_cnt => (op2_cnt, false)
  | output :: rest, op2_cnt =>
    let str := (p.ins output).name
    match op2_cnt str with
    | none => count_outputs p rest (Function.update op2_cnt str (some 1))
    | some c => (Function.update op2_cnt str (some (c + 1)), true)

/-- Sets `instr2_hash[output] = true` for every listed output. -/
def flag_all (st : horizontal_fusion_impl) (outs : List instruction_ref) :
    horizontal_fusion_impl :=
  outs.foldl (fun st output =>
    { st with instr2_hash := Function.update st.instr2_hash output (some true) }) st

/-- The last loop of `process`: flag the outputs whose name was counted more
than once (`op2_cnt[name]` is `0` for a name that is not in the map). -/
def flag_children (st : horizontal_fusion_impl) (op2_cnt : String → Option Nat)
    (outs : List instruction_ref) : horizontal_fusion_impl :=
  outs.foldl (fun st output =>
    if (op2_cnt (st.p_program.ins output).name).getD 0 > 1 then
      { st with instr2_hash := Function.update st.instr2_hash output (some true) }
    else st) st

/-- Marks the node `id` as a root (`value.set_root()`). -/
def set_root (st : horizontal_fusion_impl) (id : Nat) : horizontal_fusion_impl :=
  { st with values := st.values.map (fun v => if v.id = id then { v with root := true } else v) }

/-- The part of `process` after the attempt to hash: root detection. -/
def process_root (st : horizontal_fusion_impl) (ins : instruction_ref) : horizontal_fusion_impl :=
  let outs := (st.p_program.ins ins).outputs
  let (op2_cnt, hash_child) := count_outputs st.p_program outs (fun _ => none)
  if hash_child then
    let (st, value) := st.create_value ins
    let st := st.set_root value
    st.flag_children op2_cnt outs
  else st

/-- `process`. -/
def process (st : horizontal_fusion_impl) (ins : instruction_ref) :
    Option horizontal_fusion_impl :=
  if (st.p_program.ins ins).name = "@literal" then some st
  else
    match st.instr2_hash ins with
    | some _ =>
      match st.hash ins with
      | none => none
      | some (st, some _) => some (st.flag_all (st.p_program.ins ins).outputs)
      | some (st, none) => some (st.process_root ins)
    | none => some (st.process_root ins)

/-- The loop of `run` over the program (the write of the debug field
`ins->id` is left out). -/
def hashing_phase : List instruction_ref → horizontal_fusion_impl → Option horizontal_fusion_impl
  | [], st => some st
  | ins :: rest, st =>
    match st.process ins with
    | none => none
    | some st =>
      hashing_phase rest
        { st with point2_instr := Function.update st.point2_instr st.cur_point (some ins)
                  cur_point := st.cur_point + 1 }

end horizontal_fusion_impl

/-! ## The edit primitives of the IR

`program.hpp`, `program.cpp` and `instruction.cpp` are not part of the sources
at hand; the primitives below follow the specification's data model. -/

namespace program

/-- Overwrite the instruction a reference denotes. -/
def set (p : program) (r : instruction_ref) (i : instruction) : program :=
  { p with ins := Function.update p.ins r i }

def has_instruction (p : program) (r : instruction_ref) : Bool :=
  decide (r ∈ p.instructions)

/-- Modelled from the spec: `instruction::replace_argument(user, old, new)`,
whose body is absent from the sources.  Every occurrence of `old` in the
user's ordered input list becomes `new_ins`; the def/use edges stay
bidirectional: the user leaves `old`'s output list and enters `new_ins`'s
(once). -/
def replace_argument (p : program) (user old new_ins : instruction_ref) : program :=
  let u := p.ins user
  let p := p.set user { u with arguments := u.arguments.map (fun a => if a = old then new_ins else a) }
  let o := p.ins old
  let p := p.set old { o with output := o.output.filter (fun x => x != user) }
  let n := p.ins new_ins
  if user ∈ n.output then p else p.set new_ins { n with output := n.output ++ [user] }

/-- Modelled from the spec: `program::remove_instruction`, whose body is absent
from the sources.  The instruction leaves the sequence and the output lists of
its inputs. -/
def remove_instruction (p : program) (r : instruction_ref) : program :=
  let p := (p.ins r).arguments.foldl
    (fun p arg =>
      let a := p.ins arg
      p.set arg { a with output := a.output.filter (fun x => x != r) }) p
  let i := p.ins r
  let p := p.set r { i with arguments := [] }
  { p with instructions := p.instructions.filter (fun x => x != r) }

/-- Insertion of `x` before the first occurrence of `pos` in a sequence; at the
end when `pos` is `none` (the `end()` iterator). -/
def insert_before (x : instruction_ref) (pos : Option instruction_ref) :
    List instruction_ref → List instruction_ref
  | [] => [x]
  | y :: ys => if pos = some y then x :: y :: ys else y :: insert_before x pos ys

/-- Modelled from the spec: `program::insert_instruction(pos, op, args)`, whose
body is absent from the sources.  A new instruction with operator `op`, inputs
`args` and the result shape `r` (computed by the operator's `compute_shape`) is
placed before `pos`, and enters the output list of each input.  Returns the
program and the new reference. -/
def insert_instruction (p : program) (pos : Option instruction_ref) (op : operation)
    (r : shape) (args : List instruction_ref) : program × instruction_ref :=
  let ref := p.next_ref
  let p := { p with next_ref := p.next_ref + 1 }
  let p := p.set ref { op := op, result := r, output := [], arguments := args }
  let p := args.foldl
    (fun p arg =>
      let a := p.ins arg
      if ref ∈ a.output then p else p.set arg { a with output := a.output ++ [ref] }) p
  ({ p with instructions := insert_before ref pos p.instructions }, ref)

/-- Modelled from the spec: `program::move_instruction(src, dst)`, whose body is
absent from the sources: `src` is taken out of the sequence and put back
immediately before `dst`; the result of the call is `src`. -/
def move_instruction (p : program) (src dst : instruction_ref) : program :=
  if src = dst then p
  else
    { p with instructions :=
        insert_before src (some dst) (p.instructions.filter (fun x => x != src)) }

/-- The element after `r` in the sequence (`std::next`); `none` is `end()`. -/
def next (p : program) (r : instruction_ref) : Option instruction_ref :=
  ((p.instructions.dropWhile (fun x => x != r)).drop 1).head?

end program

/-! ## Horizontal fusion: parts of the transform phase -/

namespace horizontal_fusion_impl

/-- Modelled from the spec: `get_instrs`, declared in a version of the header
that is not part of the sources.  The member instructions of a hash-value node,
in the order of its set of program points. -/
def get_instrs (st : horizontal_fusion_impl) (hash_id : Nat) : List instruction_ref :=
  ((st.hash_instrs hash_id).getD []).filterMap st.point2_instr

/-- The inner part of `remove_redundant_roots` for one `base`: copy its
outputs, rewire each of them to `root_ins`, remove `base`. -/
def remove_redundant_root (p : program) (root_ins base : instruction_ref) : program :=
  let outputs := (p.ins base).outputs
  let p := outputs.foldl (fun p output => p.replace_argument output base root_ins) p
  p.remove_instruction base

/-- `remove_redundant_roots`; `none` for an empty vector (`at(0)` throws). -/
def remove_redundant_roots (st : horizontal_fusion_impl) (base_instrs : List instruction_ref) :
    Option horizontal_fusion_impl :=
  match base_instrs with
  | [] => none
  | root_ins :: rest =>
    some { st with p_program := rest.foldl (fun p base => remove_redundant_root p root_ins base)
                                  st.p_program }

/-- `update_hash_tree`; `none` where `hash_instrs[hash_id]` is empty
(dereferencing `begin()` of an empty set). -/
def update_hash_tree (st : horizontal_fusion_impl) (hash_id : Nat) :
    Option horizontal_fusion_impl :=
  match (st.hash_instrs hash_id).getD [] with
  | [] => none
  | first :: _ => some { st with hash_instrs := Function.update st.hash_instrs hash_id (some [first]) }

/-- Locals of one iteration of the outer loop of `transform`.  The map
`visited` only ever stores `true`, so it is given by its key set. -/
structure cluster_locals where
  orig_dims : instruction_ref → Option (List (List Nat)) := fun _ => none
  enum_in_cluster : instruction_ref → Option Int := fun _ => none
  split_axis : instruction_ref → Option Int := fun _ => none
  last_hash_id : Nat := 0
  visited : instruction_ref → Bool := fun _ => false
  root : instruction_ref → Option instruction_ref := fun _ => none

/-- `dims.at(axis)` for an `int` axis: `none` when out of range. -/
def dim_at (dims : List Nat) (axis : Int) : Option Int :=
  if axis < 0 then none else (dims.get? axis.toNat).map Int.ofNat

/-- What the first statements of the tail part of `transform` leave behind for
the rest of it. -/
structure tail_locals where
  last_ins : instruction_ref
  axis : Int
  slice_dims : List Int
  outputs : List instruction_ref
  enum2_concat : Int → Option Bool
  enum_in_cluster : instruction_ref → Option Int
  insert_before : Option instruction_ref
  split_ins : instruction_ref

/-- The loop over `last_ins->outputs()` that fills `enum2_concat`
(`enum_in_cluster[output]` is `0` for an output that is not in the map). -/
def collect_enum2_concat (st : horizontal_fusion_impl) (loc : cluster_locals)
    (outs : List instruction_ref) : Int → Option Bool :=
  outs.foldl (fun m output =>
    if st.is_concat output then
      Function.update m ((loc.enum_in_cluster output).getD 0) (some true)
    else m) (fun _ => none)

/-- What the same loop leaves in `enum_in_cluster`: `enum_in_cluster[output]`
creates the entry `0` for a concat output that had none. -/
def collect_enum_in_cluster (st : horizontal_fusion_impl) (loc : cluster_locals)
    (outs : List instruction_ref) : instruction_ref → Option Int :=
  outs.foldl (fun m output =>
    if st.is_concat output && (m output).isNone then Function.update m output (some 0)
    else m) loc.enum_in_cluster

/-- The first statements of the tail part of `transform` (from the test
`last_hash_id != 0` to the insertion of the split).  `slice_dims` is a
`std::vector<int>`, so every dimension pushed into it is converted by `to_int`.
`split_shape` stands for `op::split::compute_shape`, which is not part of the
sources.  The inner `none` means that the test failed and nothing was done; the
outer `none` is a failed assertion or a throwing `at`. -/
def insert_tail_split (st : horizontal_fusion_impl) (loc : cluster_locals)
    (split_shape : operation → shape → shape) :
    Option (Option (horizontal_fusion_impl × tail_locals)) :=
  if loc.last_hash_id != 0 then
    match st.get_instrs loc.last_hash_id with
    | [last_ins] =>
      match loc.split_axis last_ins with
      | none => none
      | some axis =>
        match ((loc.orig_dims last_ins).getD []).mapM
            (fun dims => (dim_at dims axis).map to_int) with
        | none => none
        | some slice_dims =>
          let outputs := (st.p_program.ins last_ins).outputs
          let enum2_concat := collect_enum2_concat st loc outputs
          let insert_before := st.p_program.next last_ins
          let op : operation :=
            { name := "split", text := "split",
              params := op_params.split axis slice_dims (0, (slice_dims.length : Int) - 1) }
          let r := st.p_program.insert_instruction insert_before op
            (split_shape op (st.p_program.ins last_ins).get_shape) [last_ins]
          some (some ({ st with p_program := r.1 },
            { last_ins := last_ins, axis := axis, slice_dims := slice_dims, outputs := outputs,
              enum2_concat := enum2_concat,
              enum_in_cluster := collect_enum_in_cluster st loc outputs,
              insert_before := insert_before, split_ins := r.2 }))
    | _ => none
  else some none

end horizontal_fusion_impl

/-! ## Pre-scheduling

`pre_scheduling_impl.hpp` is not part of the sources.  What `pre_scheduling_impl.cpp`
uses from it is modelled from the specification's data model (each such
definition says so), or taken as a parameter where the specification does not
settle it. -/

/-- Modelled from the spec: `struct dag_node` (declared in the absent header):
static weight, subtree weight sum, position index, partition id, stream id
(`-1` if none), `earliest_cycle`, `sched_cycle`, `run_on_cpu`, `first_child`.
The back-link `ins` is the key under which the node is stored. -/
structure dag_node where
  weight : Int := 0
  run_on_cpu : Bool := false
  weight_sum : Int := 0
  ins_ndx : Int := -1
  first_child : Option instruction_ref := none
  stream : Int := -1
  partition : Int := -1
  sched_cycle : Int := 0
  earliest_cycle : Int := 0
deriving DecidableEq, Repr

/-- Modelled from the spec: `dag_node::can_use_stream` (declared in the absent
header); a node may be given a stream unless it runs on the CPU. -/
def dag_node.can_use_stream (n : dag_node) : Bool := !n.run_on_cpu

/-- Modelled from the spec: the partition table (declared in the absent
header), a dense mapping from partition id to accumulated weight. -/
structure dag_partition where
  num_of_partition : Int := 0
  weight_sum : Int → Int := fun _ => 0

/-- Modelled from the spec: partitions are created on demand; the new
partition has the next id and no weight. -/
def dag_partition.create_partition (pi : dag_partition) : dag_partition × Int :=
  ({ pi with num_of_partition := pi.num_of_partition + 1
             weight_sum := Function.update pi.weight_sum pi.num_of_partition 0 },
   pi.num_of_partition)

/-- Modelled from the spec: a node contributes its weight to its partition's
cumulative load. -/
def dag_partition.add_weight (pi : dag_partition) (node : dag_node) : dag_partition :=
  { pi with weight_sum :=
      Function.update pi.weight_sum node.partition (pi.weight_sum node.partition + node.weight) }

/-- Modelled from the spec: `struct stream_info` (declared in the absent
header): `next_cycles[stream]`, the first free cycle per stream, and
`max_cycle`; both start at `0`. -/
structure stream_info where
  next_cycles : Nat → Int := fun _ => 0
  max_cycle : Int := 0

/-- Order in which a `std::priority_queue` with comparator `comp` hands out the
elements pushed into it: an element is handed out before every element that
`comp` puts below it.  Elements that `comp` does not separate are handed out
here in the order in which they were pushed; the container promises no order
among them. -/
def pq_pop_all {α : Type} (comp : α → α → Bool) (pushed : List α) : List α :=
  pushed.insertionSort (fun a b => comp a b = false)

/-- Modelled from the spec: `compare_exit_nodes` (declared in the absent
header): exit nodes are sorted by descending `weight_sum`. -/
def compare_exit_nodes (d1 d2 : dag_node) : Bool := decide (d1.weight_sum > d2.weight_sum)

/-- Modelled from the spec: `post_schedule_ordering` (declared in the absent
header): primary key `sched_cycle` ascending, tiebreak by original position.
As a `std::priority_queue` comparator it is true when `d1` is handed out after
`d2`. -/
def post_schedule_ordering (d1 d2 : dag_node) : Bool :=
  if d1.sched_cycle = d2.sched_cycle then decide (d1.ins_ndx > d2.ins_ndx)
  else decide (d1.sched_cycle > d2.sched_cycle)

/-- Type of `std::sort` on a vector of node pointers: comparator and vector to
sorted vector. -/
abbrev std_sort_fn :=
  (instruction_ref → instruction_ref → Bool) → List instruction_ref → List instruction_ref

/-- What the C++ standard promises of `std::sort`: the result is a
rearrangement of the input, and, for a comparator that is a strict weak
ordering, no element stands before one that the comparator puts before it.
The relative order of elements that the comparator does not separate is not
specified. -/
def std_sort_contract (srt : std_sort_fn) : Prop :=
  ∀ (comp : instruction_ref → instruction_ref → Bool) (l : List instruction_ref),
    (srt comp l).Perm l ∧
    ((∀ a b, comp a b = true → comp b a = false) →
      (∀ a b c, comp b a = false → comp c b = false → comp c a = false) →
      (srt comp l).Pairwise (fun a b => comp b a = false))

/-- A `std::sort` that keeps the order of elements the comparator does not
separate. -/
def stable_sort : std_sort_fn :=
  fun comp l => l.insertionSort (fun a b => comp b a = false)

/-- State of `struct pre_scheduling_impl`.  `weighted_topology_ordering` (the
comparator of `child_queue`) and `min_partition_threshold` are declared in the
absent header and are parameters here; `std_sort` is the `std::sort` of the
C++ library in use.  The node table `nodes` is keyed by the
instruction a node is paired with; `instr2_node` records which instructions
have been paired so far. -/
structure pre_scheduling_impl where
  p_program : program
  weight_func : String → Int × Bool
  num_of_streams : Nat
  weighted_topology_ordering : dag_node → dag_node → Bool
  min_partition_threshold : Int
  std_sort : std_sort_fn
  nodes : instruction_ref → dag_node := fun _ => {}
  exit_nodes : List instruction_ref := []
  instr2_node : instruction_ref → Bool := fun _ => false
  partition_info : dag_partition := {}

namespace pre_scheduling_impl

/-- The loop over `ins->inputs()` in `compute_weights`; `none` is the failed
`assert(instr2_node.find(arg) != instr2_node.end())`.  The field `weight_sum`
is an `int`: what `+=` stores in it is converted by `to_int`. -/
def add_input_sums (st : pre_scheduling_impl) :
    List instruction_ref → List instruction_ref → dag_node → Option dag_node
  | [], _, node => some node
  | arg :: rest, visited, node =>
    if st.instr2_node arg then
      if arg ∈ visited then add_input_sums st rest visited node
      else
        add_input_sums st rest (arg :: visited)
          { node with weight_sum := to_int (node.weight_sum + (st.nodes arg).weight_sum) }
    else none

/-- The loop of `compute_weights` over the program; `weight_sum` is an `int`,
stored through `to_int`. -/
def compute_weights_loop :
    List instruction_ref → Int → pre_scheduling_impl → Option pre_scheduling_impl
  | [], _, st => some st
  | ins :: rest, ndx, st =>
    let node := st.nodes ins
    let name := (st.p_program.ins ins).name
    let weight := st.weight_func name
    let node := { node with weight := weight.1, run_on_cpu := weight.2 }
    let node := { node with weight_sum := to_int (node.weight_sum + node.weight) }
    match st.add_input_sums (st.p_program.ins ins).inputs [] node with
    | none => none
    | some node =>
      let exit_nodes :=
        if (st.p_program.ins ins).outputs.isEmpty then st.exit_nodes ++ [ins] else st.exit_nodes
      let node := { node with ins_ndx := ndx }
      compute_weights_loop rest (ndx + 1)
        { st with nodes := Function.update st.nodes ins node
                  exit_nodes := exit_nodes
                  instr2_node := Function.update st.instr2_node ins true }

/-- The `std::sort` call of `compute_weights`, with `compare_exit_nodes` on the
nodes the pointers denote. -/
def sort_exit_nodes (st : pre_scheduling_impl) (l : List instruction_ref) : List instruction_ref :=
  st.std_sort (fun a b => compare_exit_nodes (st.nodes a) (st.nodes b)) l

/-- `compute_weights`. -/
def compute_weights (st : pre_scheduling_impl) : Option pre_scheduling_impl :=
  match compute_weights_loop st.p_program.instructions 0 st with
  | none => none
  | some st =>
    if st.exit_nodes.length > 1 then
      some { st with exit_nodes := st.sort_exit_nodes st.exit_nodes }
    else some st

/-- Locals of `reorder`; the head of `stack` is its top.  The maps `visited`
and `dequeued` only ever store `true`, so they are given by their key sets. -/
structure reorder_locals where
  sorted_nodes : List instruction_ref := []
  stack : List instruction_ref := []
  visited : instruction_ref → Bool := fun _ => false
  dequeued : instruction_ref → Bool := fun _ => false

/-- The loop `while (!child_queue.empty())` of `reorder`, over the children in
the order the queue hands them out. -/
def pop_children (cur : instruction_ref) :
    List instruction_ref → pre_scheduling_impl → List instruction_ref →
      pre_scheduling_impl × List instruction_ref
  | [], st, stack => (st, stack)
  | child :: rest, st, stack =>
    let stack := child :: stack
    let c := st.nodes child
    let st : pre_scheduling_impl :=
      if c.weight_sum < st.min_partition_threshold then
        { st with nodes := Function.update st.nodes child
                    { c with partition := (st.nodes cur).partition } }
      else if !rest.isEmpty then
        let r := st.partition_info.create_partition
        { st with partition_info := r.1
                  nodes := Function.update st.nodes child { c with partition := r.2 } }
      else
        let st : pre_scheduling_impl :=
          { st with nodes := Function.update st.nodes cur
                      { st.nodes cur with first_child := some child } }
        { st with nodes := Function.update st.nodes child
                    { st.nodes child with partition := (st.nodes cur).partition } }
    let st := { st with partition_info := st.partition_info.add_weight (st.nodes child) }
    pop_children cur rest st stack

/-- One iteration of `while (!stack.empty())` in `reorder`, for the top `cur`
of a stack `cur :: rest`. -/
def reorder_step (st : pre_scheduling_impl) (loc : reorder_locals) (cur : instruction_ref)
    (rest : List instruction_ref) : pre_scheduling_impl × reorder_locals :=
  if loc.dequeued cur then
    (st, { loc with stack := rest })
  else if loc.visited cur || (st.p_program.ins cur).inputs.isEmpty then
    (st, { loc with stack := rest
                    sorted_nodes := loc.sorted_nodes ++ [cur]
                    dequeued := Function.update loc.dequeued cur true })
  else
    let pushed := (st.p_program.ins cur).inputs.filter (fun arg => !loc.dequeued arg)
    let popped := pq_pop_all
      (fun a b => st.weighted_topology_ordering (st.nodes a) (st.nodes b)) pushed
    let r := pop_children cur popped st (cur :: rest)
    (r.1, { loc with stack := r.2, visited := Function.update loc.visited cur true })

/-- The loop `while (!stack.empty())` of `reorder`, run for at most `fuel`
iterations; `none` when the stack is not empty after that many. -/
def reorder_while : Nat → pre_scheduling_impl → reorder_locals →
    Option (pre_scheduling_impl × reorder_locals)
  | 0, st, loc =>
    match loc.stack with
    | [] => some (st, loc)
    | _ :: _ => none
  | fuel + 1, st, loc =>
    match loc.stack with
    | [] => some (st, loc)
    | cur :: rest =>
      let r := reorder_step st loc cur rest
      reorder_while fuel r.1 r.2

/-- A number of iterations that `while (!stack.empty())` cannot exceed: an
iteration pops the stack or marks a node visited and pushes at most its
inputs. -/
def reorder_fuel (p : program) : Nat :=
  1 + (p.instructions.map (fun r => 2 + (p.ins r).inputs.length)).sum

/-- The loop of `reorder` over `exit_nodes`. -/
def reorder_exits : List instruction_ref → pre_scheduling_impl → reorder_locals →
    Option (pre_scheduling_impl × reorder_locals)
  | [], st, loc => some (st, loc)
  | node :: rest, st, loc =>
    let loc := { loc with stack := node :: loc.stack }
    let r := st.partition_info.create_partition
    let st : pre_scheduling_impl :=
      { st with partition_info := r.1
                nodes := Function.update st.nodes node { st.nodes node with partition := r.2 } }
    let st := { st with partition_info := st.partition_info.add_weight (st.nodes node) }
    match reorder_while (reorder_fuel st.p_program) st loc with
    | none => none
    | some r => reorder_exits rest r.1 r.2

/-- The loop of `get_stream` over the streams; the difference
`max_cycle - cycle` is an `int`. -/
def get_stream_loop (info : stream_info) (partition_load earliest_cycle max_cycle : Int) :
    List Nat → Int → Int → Int
  | [], _, min_cycle_stream => min_cycle_stream
  | stream :: rest, min_cycle, min_cycle_stream =>
    let cycle := max (info.next_cycles stream) earliest_cycle
    if cycle < max_cycle ∧ to_int (max_cycle - cycle) > partition_load then (stream : Int)
    else if min_cycle_stream = -1 ∨ cycle < min_cycle then
      get_stream_loop info partition_load earliest_cycle max_cycle rest cycle stream
    else
      get_stream_loop info partition_load earliest_cycle max_cycle rest min_cycle min_cycle_stream

/-- `get_stream`. -/
def get_stream (st : pre_scheduling_impl) (info : stream_info) (node : instruction_ref) : Int :=
  let max_cycle := info.max_cycle
  if max_cycle = 0 then 0
  else
    let partition_load := st.partition_info.weight_sum (st.nodes node).partition
    let earliest_cycle := (st.nodes node).earliest_cycle
    get_stream_loop info partition_load earliest_cycle max_cycle
      (List.range st.num_of_streams) (-1) (-1)

/-- The loop of `record` over `node->ins->outputs()`; `none` is the failed
`assert`. -/
def raise_earliest (next_cycle : Int) :
    List instruction_ref → pre_scheduling_impl → Option pre_scheduling_impl
  | [], st => some st
  | arg :: rest, st =>
    if st.instr2_node arg then
      let use_node := st.nodes arg
      raise_earliest next_cycle rest
        { st with nodes := Function.update st.nodes arg
                    { use_node with earliest_cycle := max use_node.earliest_cycle next_cycle } }
    else none

/-- The loop of `record` over `node->ins->inputs()`. -/
def mark_events (node : instruction_ref) (stream : Int) :
    List instruction_ref → program → program
  | [], p => p
  | arg :: rest, p =>
    let arg_s := (p.ins arg).get_stream
    if arg_s < 0 ∨ arg_s = stream then mark_events node stream rest p
    else
      let p := p.set arg ((p.ins arg).add_mask RECORD_EVENT)
      let p := p.set node ((p.ins node).add_mask WAIT_EVENT)
      mark_events node stream rest p

/-- `record`; `next_cycle` is an `int`, stored through `to_int`. -/
def record (st : pre_scheduling_impl) (info : stream_info) (node : instruction_ref) :
    Option (pre_scheduling_impl × stream_info) :=
  let stream := (st.nodes node).stream
  let next_cycle := info.next_cycles stream.toNat
  let sched_cycle := max (st.nodes node).earliest_cycle next_cycle
  let st : pre_scheduling_impl :=
    { st with nodes := Function.update st.nodes node
                { st.nodes node with sched_cycle := sched_cycle } }
  let next_cycle := to_int (sched_cycle + (st.nodes node).weight)
  let info : stream_info :=
    { info with next_cycles := Function.update info.next_cycles stream.toNat next_cycle
                max_cycle := max info.max_cycle next_cycle }
  match raise_earliest next_cycle (st.p_program.ins node).outputs st with
  | none => none
  | some st =>
    if (st.nodes node).can_use_stream then
      let p := st.p_program.set node ((st.p_program.ins node).set_stream stream)
      let p := mark_events node stream (p.ins node).inputs p
      some ({ st with p_program := p }, info)
    else some (st, info)

/-- The loop of `schedule` over `sorted_nodes`; `queue` lists the nodes pushed
so far; `none` is a failed `assert` (on the partition, on the stream, or in
`record`). -/
def schedule_loop : List instruction_ref → pre_scheduling_impl → stream_info →
    (Int → Option Int) → List instruction_ref →
      Option (pre_scheduling_impl × stream_info × (Int → Option Int) × List instruction_ref)
  | [], st, info, partition2_stream, queue => some (st, info, partition2_stream, queue)
  | node :: rest, st, info, partition2_stream, queue =>
    let cur_partition := (st.nodes node).partition
    if cur_partition < 0 then none
    else
      let stream :=
        match partition2_stream cur_partition with
        | some s => s
        | none => st.get_stream info node
      let st : pre_scheduling_impl :=
        { st with nodes := Function.update st.nodes node { st.nodes node with stream := stream } }
      if stream < 0 then none
      else
        match st.record info node with
        | none => none
        | some r =>
          schedule_loop rest r.1 r.2
            (Function.update partition2_stream cur_partition (some (r.1.nodes node).stream))
            (queue ++ [node])

/-- `schedule`: returns the state and the new content of `sorted_nodes`. -/
def schedule (st : pre_scheduling_impl) (sorted_nodes : List instruction_ref) :
    Option (pre_scheduling_impl × List instruction_ref) :=
  if st.num_of_streams = 0 then some (st, sorted_nodes)
  else
    match schedule_loop sorted_nodes st {} (fun _ => none) [] with
    | none => none
    | some r =>
      let st := r.1
      let queue := r.2.2.2
      if !sorted_nodes.isEmpty then
        some (st, pq_pop_all (fun a b => post_schedule_ordering (st.nodes a) (st.nodes b)) queue)
      else some (st, sorted_nodes)

/-- The body of the `do ... while` of `splice`, for the elements before the
last one, walked backwards. -/
def splice_loop : List instruction_ref → instruction_ref → program → program
  | [], _, p => p
  | x :: rest, insert_before, p => splice_loop rest x (p.move_instruction x insert_before)

/-- `splice`.  `none` where the source has undefined behaviour: `--end()` on an
empty list, and the first `iter--` of the `do ... while` when the list has one
element, which steps before `begin()`. -/
def splice (st : pre_scheduling_impl) (sorted_nodes : List instruction_ref) :
    Option pre_scheduling_impl :=
  match sorted_nodes.reverse with
  | [] => none
  | _ :: [] => none
  | last :: x :: rest => some { st with p_program := splice_loop (x :: rest) last st.p_program }

/-- `reorder` (the debug-only call of `verify` is left out). -/
def reorder (st : pre_scheduling_impl) : Option pre_scheduling_impl :=
  match reorder_exits st.exit_nodes st {} with
  | none => none
  | some r =>
    match r.1.schedule r.2.sorted_nodes with
    | none => none
    | some r => r.1.splice r.2

/-- `run` (`nodes.resize` gives every instruction a default node, which the
node table has from the start). -/
def run (st : pre_scheduling_impl) : Option pre_scheduling_impl :=
  if st.p_program.instructions.length = 0 then some st
  else
    match st.compute_weights with
    | none => none
    | some st => st.reorder

/-- The loop of `verify`: every input of every instruction occurs earlier. -/
def verify : List instruction_ref → program → (instruction_ref → Bool) → Bool
  | [], _, _ => true
  | ins :: rest, p, visited =>
    (p.ins ins).inputs.all visited && verify rest p (Function.update visited ins true)

end pre_scheduling_impl

/-! ## Well-formed programs -/

namespace program

/-- Position of an instruction in the program order. -/
def pos (p : program) (r : instruction_ref) : Nat := p.instructions.indexOf r

/-- The program invariants the passes rely on: the sequence has no repeated
reference; the instructions are listed def-before-use (every input of an
instruction stands earlier in the sequence, so the graph is acyclic); and the
def/use edges are bidirectional (an instruction is in the output list of each
of its inputs, and every output is an instruction of the program that has it
as an input). -/
def well_formed (p : program) : Prop :=
  p.instructions.Nodup ∧
  (∀ v ∈ p.instructions, ∀ u ∈ (p.ins v).inputs, p.pos u < p.pos v) ∧
  (∀ v ∈ p.instructions, ∀ u ∈ (p.ins v).inputs, v ∈ (p.ins u).outputs) ∧
  (∀ u ∈ p.instructions, ∀ v ∈ (p.ins u).outputs, v ∈ p.instructions ∧ u ∈ (p.ins v).inputs)

instance (p : program) : Decidable p.well_formed := by
  unfold well_formed; infer_instance

end program

/-- A `pre_scheduling_impl` as its constructor leaves it. -/
def pre_scheduling_impl.create (p : program) (weight_func : String → Int × Bool)
    (num_of_streams : Nat) (weighted_topology_ordering : dag_node → dag_node → Bool)
    (min_partition_threshold : Int) (std_sort : std_sort_fn) : pre_scheduling_impl :=
  { p_program := p, weight_func := weight_func, num_of_streams := num_of_streams,
    weighted_topology_ordering := weighted_topology_ordering,
    min_partition_threshold := min_partition_threshold, std_sort := std_sort }

/-! ## Concrete programs -/

/-- An instruction with the given operator name (also its printed form),
dimensions, inputs and outputs. -/
def mk_ins (name : String) (lens : List Nat) (args outs : List instruction_ref) : instruction :=
  { op := { name := name, text := name }, result := { type := 0, lens := lens },
    output := outs, arguments := args }

/-- `x`, a literal filter `w` of dimensions `[4, 3, 3, 5]`, and
`convolution(x, w)`. -/
def conv_example : program :=
  { instructions := [0, 1, 2]
    ins := fun r =>
      match r with
      | 0 => mk_ins "x" [1, 3, 8, 8] [] [2]
      | 1 => mk_ins "@literal" [4, 3, 3, 5] [] [2]
      | _ => mk_ins "convolution" [1, 4, 8, 8] [0, 1] []
    next_ref := 3 }

/-- The hash map in which only instruction `0` is hashed, with id `5`. -/
def conv_example_values : Ins2Val := fun r => if r = 0 then some 5 else none

/-- `x` and `add(x, x)`: one producer used in two argument positions. -/
def twice_example : program :=
  { instructions := [0, 1]
    ins := fun r =>
      match r with
      | 0 => mk_ins "x" [2] [] [1]
      | _ => mk_ins "add" [2] [0, 0] []
    next_ref := 2 }

/-! ## Predicates used by the proofs about pre-scheduling -/

namespace pre_scheduling_impl

/-- Two states that differ at most in the node table, the exit list, the
pairing map, the partition table and the program. -/
structure same_params (st0 st : pre_scheduling_impl) : Prop where
  weight_func : st.weight_func = st0.weight_func
  num_of_streams : st.num_of_streams = st0.num_of_streams
  weighted_topology_ordering : st.weighted_topology_ordering = st0.weighted_topology_ordering
  min_partition_threshold : st.min_partition_threshold = st0.min_partition_threshold
  std_sort : st.std_sort = st0.std_sort

/-- What `compute_weights` has established once the instructions `done` have
been walked, starting from a fresh state over the program `p`. -/
structure weights_computed (p : program) (weight_func : String → Int × Bool)
    (done : List instruction_ref) (st : pre_scheduling_impl) : Prop where
  program : st.p_program = p
  paired : ∀ x, st.instr2_node x = decide (x ∈ done)
  untouched : ∀ x, x ∉ done → st.nodes x = {}
  node : ∀ x ∈ done, st.nodes x =
    { weight := (weight_func (p.ins x).name).1
      run_on_cpu := (weight_func (p.ins x).name).2
      weight_sum := to_int ((weight_func (p.ins x).name).1
        + ∑ D ∈ (p.ins x).inputs.toFinset, (st.nodes D).weight_sum)
      ins_ndx := (done.indexOf x : Nat) }
  partition_info_num : st.partition_info.num_of_partition = 0

/-- The node fields that the weighted topological sort leaves alone (it writes
`partition` and `first_child` only). -/
def same_node_weights (n n' : dag_node) : Prop :=
  n'.weight = n.weight ∧ n'.run_on_cpu = n.run_on_cpu ∧ n'.weight_sum = n.weight_sum ∧
  n'.ins_ndx = n.ins_ndx ∧ n'.stream = n.stream ∧ n'.sched_cycle = n.sched_cycle ∧
  n'.earliest_cycle = n.earliest_cycle

/-- How a state is related to an earlier one by iterations of the weighted
topological sort. -/
structure dfs_rel (st st' : pre_scheduling_impl) : Prop where
  program : st'.p_program = st.p_program
  params : same_params st st'
  instr2_node : st'.instr2_node = st.instr2_node
  exit_nodes : st'.exit_nodes = st.exit_nodes
  nodes : ∀ x, same_node_weights (st.nodes x) (st'.nodes x)

/-- The list emitted so far is duplicate-free, holds exactly the dequeued
nodes, all of them instructions of the program, and lists every node after
all of its inputs. -/
structure topo_inv (p : program) (loc : reorder_locals) : Prop where
  nodup : loc.sorted_nodes.Nodup
  dequeued : ∀ x, loc.dequeued x = true ↔ x ∈ loc.sorted_nodes
  mem : ∀ x ∈ loc.sorted_nodes, x ∈ p.instructions
  inputs_first : ∀ x ∈ loc.sorted_nodes, ∀ u ∈ (p.ins x).inputs,
    loc.sorted_nodes.indexOf u < loc.sorted_nodes.indexOf x

/-- Partition ids handed out so far are non-negative. -/
def part_ok (st : pre_scheduling_impl) (loc : reorder_locals) : Prop :=
  0 ≤ st.partition_info.num_of_partition ∧
  ∀ x, (x ∈ loc.stack ∨ loc.dequeued x = true) → 0 ≤ (st.nodes x).partition

/-- Iterations still to come: two for every node that is not yet dequeued, and
one for each of its inputs. -/
def dfs_potential (p : program) (loc : reorder_locals) : Nat :=
  ((p.instructions.filter (fun y => !loc.dequeued y)).map
    (fun y => 2 + (p.ins y).inputs.length)).sum

/-- `k` iterations of `while (!stack.empty())` lead from `(st, loc)` to
`(st', loc')` and dequeue only nodes at positions below `n`. -/
structure dfs_run (p : program) (n : Nat) (st : pre_scheduling_impl) (loc : reorder_locals)
    (st' : pre_scheduling_impl) (loc' : reorder_locals) (k : Nat) : Prop where
  steps : ∀ fuel, reorder_while (fuel + k) st loc = reorder_while fuel st' loc'
  rel : dfs_rel st st'
  topo : topo_inv p loc'
  part : part_ok st' loc'
  mono : ∀ y, loc.dequeued y = true → loc'.dequeued y = true
  vmono : ∀ y, loc.visited y = true → loc'.visited y = true
  bound : ∀ y, loc'.dequeued y = true → loc.dequeued y = false → p.pos y < n

/-- No node is visited but not dequeued in `loc'` that was not so in `loc`. -/
def no_new_open (loc loc' : reorder_locals) : Prop :=
  ∀ z, loc'.visited z = true → loc'.dequeued z = false →
    loc.visited z = true ∧ loc.dequeued z = false

/-- The statement proved for every node by induction on its position: from a
stack with `x` on top, the loop reaches the stack below `x` with `x` dequeued. -/
def dfs_node_ok (p : program) (x : instruction_ref) : Prop :=
  ∀ (st : pre_scheduling_impl) (loc : reorder_locals) (rest : List instruction_ref),
    st.p_program = p → loc.stack = x :: rest → topo_inv p loc → part_ok st loc →
    (∀ z, loc.visited z = true → loc.dequeued z = false → p.pos x < p.pos z) →
    ∃ (k : Nat) (st' : pre_scheduling_impl) (loc' : reorder_locals),
      dfs_run p (p.pos x + 1) st loc st' loc' k ∧ loc'.stack = rest ∧
      loc'.dequeued x = true ∧ no_new_open loc loc' ∧
      k + dfs_potential p loc' ≤ 1 + dfs_potential p loc

end pre_scheduling_impl

/-- The diamond `A → {B, C} → D`, listed in the order `A, B, C, D`, without
annotations. -/
def diamond_example : program :=
  { instructions := [0, 1, 2, 3]
    ins := fun r =>
      match r with
      | 0 => mk_ins "A" [2] [] [1, 2]
      | 1 => mk_ins "B" [2] [0] [3]
      | 2 => mk_ins "C" [2] [0] [3]
      | _ => mk_ins "D" [2] [1, 2] []
    next_ref := 4 }

/-- The static weights `A = 1`, `B = 4`, `C = 2`, `D = 1` (and `1` for any
other operator), all on the device. -/
def diamond_weights (name : String) : Int × Bool :=
  if name = "B" then (4, false) else if name = "C" then (2, false) else (1, false)

namespace pre_scheduling_impl

/-- Two programs with the same sequence and the same instructions up to the
stream annotations and event masks. -/
def same_graph (p p' : program) : Prop :=
  p'.instructions = p.instructions ∧ p'.next_ref = p.next_ref ∧
  ∀ r, (p'.ins r).op = (p.ins r).op ∧ (p'.ins r).result = (p.ins r).result ∧
    (p'.ins r).output = (p.ins r).output ∧ (p'.ins r).arguments = (p.ins r).arguments ∧
    (p'.ins r).lit = (p.ins r).lit

/-- The node fields that stream assignment leaves alone. -/
def same_node_static (n n' : dag_node) : Prop :=
  n'.weight = n.weight ∧ n'.run_on_cpu = n.run_on_cpu ∧ n'.weight_sum = n.weight_sum ∧
  n'.ins_ndx = n.ins_ndx ∧ n'.first_child = n.first_child ∧ n'.partition = n.partition

/-- What the loop of `schedule` has established once the nodes `done` have been
recorded, starting from the state `st0` over the program `p`. -/
structure sched_inv (p : program) (st0 : pre_scheduling_impl) (done : List instruction_ref)
    (st : pre_scheduling_impl) (partition2_stream : Int → Option Int)
    (queue : List instruction_ref) : Prop where
  graph : same_graph p st.p_program
  params : same_params st0 st
  paired : st.instr2_node = st0.instr2_node
  static : ∀ x, same_node_static (st0.nodes x) (st.nodes x)
  queue : queue = done
  streams : ∀ s v, partition2_stream s = some v → 0 ≤ v

/-- What the loop of `schedule` has established about the annotations of the
program `P` once the nodes `done` have been recorded, for a program `p` that
started without annotations: instructions not yet recorded have no stream, the
masks hold no other bits than the two events, and every def/use edge into a
recorded instruction whose ends are on different streams carries its events. -/
structure events_inv (p : program) (done : List instruction_ref) (P : program) : Prop where
  pending : ∀ x, x ∉ done → (P.ins x).stream = -1
  masks : ∀ x, (P.ins x).mask < 4
  events : ∀ v ∈ done, ∀ u ∈ (p.ins v).inputs,
    0 ≤ (P.ins u).stream → 0 ≤ (P.ins v).stream → (P.ins u).stream ≠ (P.ins v).stream →
    (P.ins u).has_mask RECORD_EVENT = true ∧ (P.ins v).has_mask WAIT_EVENT = true

end pre_scheduling_impl

/-- `x` with four consumers listed in the order `convolution(x, w1)`,
`add(x, l1)`, `convolution(x, w2)`, `add(x, l2)`; the filters and the addends
are literals. -/
def fanout_example : program :=
  { instructions := [0, 1, 2, 3, 4, 5, 6, 7, 8]
    ins := fun r =>
      match r with
      | 0 => mk_ins "x" [1, 3, 8, 8] [] [5, 6, 7, 8]
      | 1 => mk_ins "@literal" [4, 3, 3, 3] [] [5]
      | 2 => mk_ins "@literal" [1, 3, 8, 8] [] [6]
      | 3 => mk_ins "@literal" [8, 3, 3, 3] [] [7]
      | 4 => mk_ins "@literal" [1, 3, 8, 8] [] [8]
      | 5 => mk_ins "convolution" [1, 4, 8, 8] [0, 1] []
      | 6 => mk_ins "add" [1, 3, 8, 8] [0, 2] []
      | 7 => mk_ins "convolution" [1, 8, 8, 8] [0, 3] []
      | _ => mk_ins "add" [1, 3, 8, 8] [0, 4] []
    next_ref := 9 }

/-- What `process` leaves for the instructions of `fanout_example`: the node of
`x`, the root flags, and the "to be hashed" flags of the four consumers. -/
def fanout_flags (st : horizontal_fusion_impl) :
    Option Nat × List Bool × Option Bool × Option Bool × Option Bool × Option Bool :=
  (st.instr2_value 0, st.values.map (fun v => v.root),
    st.instr2_hash 5, st.instr2_hash 6, st.instr2_hash 7, st.instr2_hash 8)

/-- The state in which the hashing phase of `run` leaves `fanout_example`. -/
def fanout_hashed : horizontal_fusion_impl :=
  ((horizontal_fusion_impl.create fanout_example).hashing_phase
    fanout_example.instructions).getD (horizontal_fusion_impl.create fanout_example)

namespace horizontal_fusion_impl

/-- Two states with the same program, program point and tables of the hashing
phase other than the flags, the opcode table and the hash-DAG edges. -/
structure same_tables (st st' : horizontal_fusion_impl) : Prop where
  program : st'.p_program = st.p_program
  registry : st'.op_registry = st.op_registry
  value : st'.instr2_value = st.instr2_value
  point : st'.point2_instr = st.point2_instr
  encode : st'.encode2_value = st.encode2_value
  values : st'.values.length = st.values.length
  instrs : st'.hash_instrs = st.hash_instrs
  cur_point : st'.cur_point = st.cur_point
  hashed : st'.hashed = st.hashed

/-- The instruction `ins` has been mapped to the node `v` at the current
program point. -/
structure mapped_to (st st' : horizontal_fusion_impl) (ins : instruction_ref) (v : Nat) :
    Prop where
  program : st'.p_program = st.p_program
  registry : st'.op_registry = st.op_registry
  value : st'.instr2_value = Function.update st.instr2_value ins (some v)
  point : st'.point2_instr = st.point2_instr
  instrs : ∀ w, (st'.hash_instrs w).getD [] =
    if w = v then set_insert st.cur_point ((st.hash_instrs w).getD [])
    else (st.hash_instrs w).getD []
  cur_point : st'.cur_point = st.cur_point

/-- What one call of `process` does to the tables: nothing; or it maps the
instruction to a fresh root node; or it maps it, through an encoder that
returned `key`, to the node of `key` (a fresh node if `key` was new). -/
inductive process_effect (st st' : horizontal_fusion_impl) (ins : instruction_ref) : Prop where
  | skip (h : same_tables st st')
  | root (h : mapped_to st st' ins st.values.length)
      (encode : st'.encode2_value = st.encode2_value)
      (values : st'.values.length = st.values.length + 1)
      (hashed : st'.hashed = st.hashed)
  | fresh (key : Nat) (h : mapped_to st st' ins st.values.length)
      (absent : st.encode2_value key = none)
      (encode : st'.encode2_value = Function.update st.encode2_value key (some st.values.length))
      (values : st'.values.length = st.values.length + 1)
      (hashed : st'.hashed = st.hashed ++ [(ins, key)])
  | known (key v : Nat) (h : mapped_to st st' ins v)
      (present : st.encode2_value key = some v)
      (encode : st'.encode2_value = st.encode2_value)
      (values : st'.values.length = st.values.length)
      (hashed : st'.hashed = st.hashed ++ [(ins, key)])

/-- The invariant of the hashing phase once the instructions `done` have been
processed. -/
structure hash_inv (done : List instruction_ref) (st : horizontal_fusion_impl) : Prop where
  cur_point : st.cur_point = done.length
  points : ∀ pt ins, st.point2_instr pt = some ins → pt < done.length ∧ ins ∈ done
  mapped : ∀ ins v, st.instr2_value ins = some v → ins ∈ done
  logged : ∀ a k, (a, k) ∈ st.hashed →
    ∃ v, st.instr2_value a = some v ∧ st.encode2_value k = some v
  injective : ∀ k1 k2 v, st.encode2_value k1 = some v → st.encode2_value k2 = some v → k1 = k2
  bounded : ∀ k v, st.encode2_value k = some v → v < st.values.length
  instrs : ∀ v pt, pt ∈ (st.hash_instrs v).getD [] ↔
    ∃ ins, st.point2_instr pt = some ins ∧ st.instr2_value ins = some v

end horizontal_fusion_impl

namespace program

/-- Every use is recorded at its definition: an instruction of the program is
in the output list of each of its inputs. -/
def uses_recorded (p : program) : Prop :=
  ∀ c ∈ p.instructions, ∀ u ∈ (p.ins c).inputs, c ∈ (p.ins u).outputs

instance (p : program) : Decidable p.uses_recorded := by
  unfold uses_recorded; infer_instance

end program

/-- The renaming that `replace_argument(user, old, new_ins)` applies to the
inputs of the user. -/
def rename_arg (old new_ins : instruction_ref) (a : instruction_ref) : instruction_ref :=
  if a = old then new_ins else a

/-- `x`, two instructions `relu(x)`, and their consumers `tanh(r1)` and
`add(r2, r1)`. -/
def relu_example : program :=
  { instructions := [0, 1, 2, 3, 4]
    ins := fun r =>
      match r with
      | 0 => mk_ins "x" [2] [] [1, 2]
      | 1 => mk_ins "relu" [2] [0] [3, 4]
      | 2 => mk_ins "relu" [2] [0] [4]
      | 3 => mk_ins "tanh" [2] [1] []
      | _ => mk_ins "add" [2] [2, 1] []
    next_ref := 5 }

/-- A state over `relu_example` in which the node `1` of the hash tree holds the
program points of the two `relu` instructions. -/
def relu_state : horizontal_fusion_impl :=
  { p_program := relu_example
    point2_instr := fun pt => relu_example.instructions.get? pt
    hash_instrs := fun v => if v = 1 then some [1, 2] else none }

/-- The program after two sibling convolutions of `x` with 4 and 8 output
channels were fused into one with 12: `x`, the concatenated filter, the
convolution, and the two consumers of the original convolutions. -/
def fused_conv_example : program :=
  { instructions := [0, 1, 2, 3, 4]
    ins := fun r =>
      match r with
      | 0 => mk_ins "x" [1, 3, 8, 8] [] [2]
      | 1 => mk_ins "@literal" [12, 3, 3, 3] [] [2]
      | 2 => mk_ins "convolution" [1, 12, 8, 8] [0, 1] [3, 4]
      | 3 => mk_ins "relu" [1, 4, 8, 8] [2] []
      | _ => mk_ins "tanh" [1, 8, 8, 8] [2] []
    next_ref := 5 }

/-- A state over `fused_conv_example` in which the node `2` of the hash tree
holds the program point of the fused convolution. -/
def fused_conv_state : horizontal_fusion_impl :=
  { p_program := fused_conv_example
    point2_instr := fun pt => fused_conv_example.instructions.get? pt
    hash_instrs := fun v => if v = 2 then some [2] else none }

/-- What the loop over the cluster recorded for the fused convolution: the
dimensions of the two original convolutions, the concat axis `1`, and the
sibling number of each consumer. -/
def fused_conv_locals : horizontal_fusion_impl.cluster_locals :=
  { orig_dims := fun r => if r = 2 then some [[1, 4, 8, 8], [1, 8, 8, 8]] else none
    enum_in_cluster := fun r => if r = 3 then some 0 else if r = 4 then some 1 else none
    split_axis := fun r => if r = 2 then some 1 else none
    last_hash_id := 2 }

/-! ## The `std::sort` of the GNU C++ library

`compute_weights` calls `std::sort`, which the C++ library provides.  The
definitions of this section follow, function by function, the implementation
in the GNU C++ library (`bits/stl_algo.h` and `bits/stl_heap.h` of libstdc++):
an introsort loop that partitions around the median of three while more than
sixteen elements are left and falls back to a heap sort at the depth limit,
followed by an insertion sort.  Iterators are positions in the vector. -/

namespace libstdcxx

end libstdcxx

/-- A comparator for `child_queue` keyed by `weight_sum` under which a heavier
node is below a lighter one, so that the queue hands out the lightest child
first and the heaviest last (the code's comment on the loop over the queue:
"Last item in queue is on critical path"). -/
def by_weight_sum (d1 d2 : dag_node) : Bool := decide (d1.weight_sum > d2.weight_sum)

namespace horizontal_fusion_impl

/-- `break_split`.  `split_shape` stands for `op::split::compute_shape`, which
is not part of the sources.  `none` is a failed `assert`, a failed `any_cast`
(the operator is not a split) or a throwing `at(0)`. -/
def break_split (st : horizontal_fusion_impl) (split_shape : operation → shape → shape)
    (enum_ndx : Int) (split_ins : instruction_ref) :
    Option (horizontal_fusion_impl × instruction_ref) :=
  match (st.p_program.ins split_ins).op.params with
  | op_params.split axis slice_dims (first, second) =>
    if ¬ (first ≥ 0 ∧ second ≥ first) then none
    else if ¬ (enum_ndx = first ∨ enum_ndx = second) then none
    else if first = second then some (st, split_ins)
    else
      match (st.p_program.ins split_ins).inputs with
      | [] => none
      | input :: _ =>
        let op_new : operation :=
          { name := "split", text := "split",
            params := op_params.split axis slice_dims (enum_ndx, enum_ndx) }
        let r := st.p_program.insert_instruction (some split_ins) op_new
          (split_shape op_new (st.p_program.ins input).get_shape) [input]
        let p := r.1
        let s := p.ins split_ins
        let selector : Int × Int :=
          if first = enum_ndx then (enum_ndx + 1, second) else (first, enum_ndx - 1)
        let op_edit : operation := { s.op with params := op_params.split axis slice_dims selector }
        let new_shape := split_shape op_edit (p.ins input).get_shape
        let p := p.set split_ins { s with op := op_edit, result := new_shape }
        some ({ st with p_program := p }, r.2)
  | _ => none

end horizontal_fusion_impl

/-- The state of `fused_conv_state` after the tail part of `transform` has
inserted the split `split{1, [4, 8], (0, 1)}` (instruction `5`) after the fused
convolution. -/
def split_conv_state : horizontal_fusion_impl :=
  match fused_conv_state.insert_tail_split fused_conv_locals (fun _ s => s) with
  | some (some r) => r.1
  | _ => fused_conv_state

/-- Modelled from the spec: `shape::bytes()` of a shape built from a type and
dimensions (declared in `shape.hpp`, which is not part of the sources): the
number of elements times the element size.  `type_size` gives the element size
of a type tag. -/
def shape.bytes (type_size : Nat → Nat) (s : shape) : Nat := s.lens.prod * type_size s.type

namespace horizontal_fusion_impl

/-- The loop of the tail part that fills `offsets`; `offset` is an `unsigned`
(32 bits), to which the `std::size_t` byte size is added. -/
def tail_offsets (type_size : Nat → Nat) (type : Nat) : List (List Nat) → Nat → List Nat
  | [], _ => []
  | dim :: rest, offset =>
    offset :: tail_offsets type_size type rest
      ((offset + shape.bytes type_size { type := type, lens := dim }) % 2 ^ 32)

/-- The operator `op::load{s, offset}`. -/
def load_op (s : shape) (offset : Nat) : operation :=
  { name := "load", text := "load", params := op_params.load s offset }

/-- The operator `op::reshape{dims}`. -/
def reshape_op (dims : List Int) : operation :=
  { name := "reshape", text := "reshape", params := op_params.reshape dims }

/-- The values the loop over `outputs` in the tail part of `transform` reads
and does not change.  `op_shape` stands for `compute_shape` of the inserted
operators, which is not part of the sources. -/
structure tail_env where
  op_shape : operation → shape → shape
  enum_in_cluster : instruction_ref → Option Int
  enum2_concat : Int → Option Bool
  dims : List (List Nat)
  offsets : List Nat
  s : shape
  last_ins : instruction_ref
  split_ins : instruction_ref
  insert_before : Option instruction_ref

/-- One round of the loop over `outputs` in the tail part of `transform`, on
the state and the map `enum2_instr`.  `none` is a failed `assert`, an index out
of range, or a failure of `break_split`. -/
def tail_step (env : tail_env)
    (acc : horizontal_fusion_impl × (Int → Option instruction_ref)) (output : instruction_ref) :
    Option (horizontal_fusion_impl × (Int → Option instruction_ref)) :=
  let st := acc.1
  let enum2_instr := acc.2
  match env.enum_in_cluster output with
  | none => none
  | some enum_ndx =>
    if enum_ndx < 0 then none
    else
      match env.dims.get? enum_ndx.toNat with
      | none => none
      | some d =>
        let orig_s : shape := { type := env.s.type, lens := d }
        match enum2_instr enum_ndx with
        | some new_ins =>
          some ({ st with p_program := st.p_program.replace_argument output env.last_ins new_ins },
            enum2_instr)
        | none =>
          let broken : Option (horizontal_fusion_impl × Option instruction_ref) :=
            if (env.enum2_concat enum_ndx).isSome then
              match st.break_split env.op_shape enum_ndx env.split_ins with
              | none => none
              | some r => some (r.1, if r.2 != env.split_ins then some r.2 else none)
            else some (st, none)
          match broken with
          | none => none
          | some (st, none) =>
            match env.offsets.get? enum_ndx.toNat with
            | none => none
            | some offset =>
              let op := load_op orig_s offset
              let r := st.p_program.insert_instruction env.insert_before op
                (env.op_shape op (st.p_program.ins env.split_ins).get_shape) [env.split_ins]
              some ({ st with
                        p_program := r.1.replace_argument output env.last_ins r.2 },
                Function.update enum2_instr enum_ndx (some r.2))
          | some (st, some new_split) =>
            let op := reshape_op (d.map Int.ofNat)
            let r := st.p_program.insert_instruction env.insert_before op
              (env.op_shape op (st.p_program.ins new_split).get_shape) [new_split]
            some ({ st with
                      p_program := r.1.replace_argument output env.last_ins r.2 },
              Function.update enum2_instr enum_ndx (some r.2))

/-- The loop over `outputs`. -/
def tail_loop (env : tail_env) :
    List instruction_ref → horizontal_fusion_impl × (Int → Option instruction_ref) →
      Option (horizontal_fusion_impl × (Int → Option instruction_ref))
  | [], acc => some acc
  | output :: rest, acc =>
    match tail_step env acc output with
    | none => none
    | some acc => tail_loop env rest acc

/-- The values fixed before the loop over `outputs`: the shape of `last_ins`,
the recorded dimensions, the offsets, and the locals left by the first
statements of the tail part. -/
def make_tail_env (st : horizontal_fusion_impl) (loc : cluster_locals) (tl : tail_locals)
    (type_size : Nat → Nat) (op_shape : operation → shape → shape) : tail_env :=
  let s := (st.p_program.ins tl.last_ins).get_shape
  let dims := (loc.orig_dims tl.last_ins).getD []
  { op_shape := op_shape, enum_in_cluster := tl.enum_in_cluster,
    enum2_concat := tl.enum2_concat, dims := dims,
    offsets := tail_offsets type_size s.type dims 0, s := s, last_ins := tl.last_ins,
    split_ins := tl.split_ins, insert_before := tl.insert_before }

/-- The rest of the tail part of `transform`, after the insertion of the split:
the offsets, then the loop over the consumers of `last_ins`. -/
def tail_loads (st : horizontal_fusion_impl) (loc : cluster_locals) (tl : tail_locals)
    (type_size : Nat → Nat) (op_shape : operation → shape → shape) :
    Option (horizontal_fusion_impl × (Int → Option instruction_ref)) :=
  tail_loop (make_tail_env st loc tl type_size op_shape) tl.outputs (st, fun _ => none)

/-- The tail part of `transform` as a whole. -/
def transform_tail (st : horizontal_fusion_impl) (loc : cluster_locals)
    (type_size : Nat → Nat) (op_shape : operation → shape → shape) :
    Option horizontal_fusion_impl :=
  match st.insert_tail_split loc op_shape with
  | none => none
  | some none => some st
  | some (some r) => (tail_loads r.1 loc r.2 type_size op_shape).map (fun a => a.1)

end horizontal_fusion_impl

/-- Two sibling convolutions whose results have the dimensions
`[64, 1024, 128, 128]` (`2 ^ 30` elements each), fused into one: `x`, the
concatenated filter, the convolution, and the two consumers of the original
convolutions. -/
def huge_conv_example : program :=
  { instructions := [0, 1, 2, 3, 4]
    ins := fun r =>
      match r with
      | 0 => mk_ins "x" [64, 3, 128, 128] [] [2]
      | 1 => mk_ins "@literal" [2048, 3, 1, 1] [] [2]
      | 2 => mk_ins "convolution" [64, 2048, 128, 128] [0, 1] [3, 4]
      | 3 => mk_ins "relu" [64, 1024, 128, 128] [2] []
      | _ => mk_ins "tanh" [64, 1024, 128, 128] [2] []
    next_ref := 5 }

/-- A state over `huge_conv_example` in which the node `2` of the hash tree
holds the program point of the fused convolution. -/
def huge_conv_state : horizontal_fusion_impl :=
  { p_program := huge_conv_example
    point2_instr := fun pt => huge_conv_example.instructions.get? pt
    hash_instrs := fun v => if v = 2 then some [2] else none }

/-- What the loop over the cluster recorded for the fused convolution of
`huge_conv_example`. -/
def huge_conv_locals : horizontal_fusion_impl.cluster_locals :=
  { orig_dims := fun r =>
      if r = 2 then some [[64, 1024, 128, 128], [64, 1024, 128, 128]] else none
    enum_in_cluster := fun r => if r = 3 then some 0 else if r = 4 then some 1 else none
    split_axis := fun r => if r = 2 then some 1 else none
    last_hash_id := 2 }

namespace horizontal_fusion_impl

/-- What the fusion pass uses and the sources do not define: the element size
of a type tag (`shape::type_size`), `compute_shape` of the operators, the two
axis constants, and the overload `match_dim(instruction_ref, lens)`. -/
structure fusion_env where
  type_size : Nat → Nat
  op_shape : operation → shape → shape
  channel_axis : Int
  conv_output_axis : Int
  match_dim_lens : instruction → List Nat → Bool

/-- The loop of `find_axis(ins, dim)`: the first axis of length `dim`, else
`-1`. -/
def find_axis_dim_loop : List Nat → Int → Int → Int
  | [], _, _ => -1
  | size :: rest, dim, ndx =>
    if (size : Int) = dim then ndx else find_axis_dim_loop rest dim (ndx + 1)

/-- `find_axis(instruction_ref ins, int dim)`. -/
def find_axis_dim (st : horizontal_fusion_impl) (ins : instruction_ref) (dim : Int) : Int :=
  find_axis_dim_loop (st.p_program.ins ins).get_shape.lens dim 0

/-- `find_axis(instruction_ref ins, instruction_ref base, int base_axis)`;
`none` is a throwing `at`. -/
def find_axis_base (st : horizontal_fusion_impl) (env : fusion_env) (ins base : instruction_ref)
    (base_axis : Int) : Option Int :=
  if st.is_conv base then some env.conv_output_axis
  else
    match (st.p_program.ins ins).outputs with
    | [] => none
    | out0 :: _ =>
      if (st.p_program.ins out0).name == "broadcast" then
        match dim_at (st.p_program.ins base).get_shape.lens base_axis with
        | none => none
        | some dim => some (find_axis_dim st ins dim)
      else some base_axis

/-- The loop of `match_dim` over `lens1`, for vectors of the same length. -/
def match_dim_loop : List Nat → List Nat → Int → Int → Bool
  | size :: rest, size2 :: rest2, axis, ndx =>
    if size ≠ size2 ∧ ndx ≠ axis then false else match_dim_loop rest rest2 axis (ndx + 1)
  | _, _, _, _ => true

/-- `match_dim(ins1, ins2, axis)`: the two shapes agree in every dimension
other than `axis`. -/
def match_dim (st : horizontal_fusion_impl) (ins1 ins2 : instruction_ref) (axis : Int) : Bool :=
  let lens1 := (st.p_program.ins ins1).get_shape.lens
  let lens2 := (st.p_program.ins ins2).get_shape.lens
  if lens1.length ≠ lens2.length then false else match_dim_loop lens1 lens2 axis 0

/-- The loop of `compare_inputs`, over two vectors of the same length. -/
def compare_inputs_loop (st : horizontal_fusion_impl) (env : fusion_env)
    (base_ins : instruction_ref) (base_axis : Int) :
    List instruction_ref → List instruction_ref → Option Bool
  | ins1 :: rest1, ins2 :: rest2 =>
    if (st.p_program.ins ins1).name ≠ (st.p_program.ins ins2).name then some false
    else
      match find_axis_base st env ins2 base_ins base_axis with
      | none => none
      | some axis =>
        if axis = -1 then some false
        else if !match_dim st ins1 ins2 axis then some false
        else compare_inputs_loop st env base_ins base_axis rest1 rest2
  | _, _ => some true

/-- `compare_inputs`. -/
def compare_inputs (st : horizontal_fusion_impl) (env : fusion_env)
    (input1 input2 : List instruction_ref) (base_ins : instruction_ref) (base_axis : Int) :
    Option Bool :=
  if input1.length ≠ input2.length then some false
  else compare_inputs_loop st env base_ins base_axis input1 input2

/-- The loop of `find_unique_axis` over `lens1`, for vectors of the same
length: number of differing positions and the last of them. -/
def find_unique_axis_loop : List Nat → List Nat → Int → Int → Int → Int × Int
  | size :: rest, size2 :: rest2, ndx, count, ret =>
    if size ≠ size2 then find_unique_axis_loop rest rest2 (ndx + 1) (count + 1) ndx
    else find_unique_axis_loop rest rest2 (ndx + 1) count ret
  | _, _, _, count, ret => (count, ret)

/-- `find_unique_axis`.  For shapes of different rank the source has
`return false`, which is the `int` `0`. -/
def find_unique_axis (st : horizontal_fusion_impl) (ins input : instruction_ref) : Int :=
  let lens1 := (st.p_program.ins ins).get_shape.lens
  let lens2 := (st.p_program.ins input).get_shape.lens
  if lens1.length ≠ lens2.length then 0
  else
    let r := find_unique_axis_loop lens1 lens2 0 0 (-1)
    if r.1 = 1 then r.2 else -1

/-- The loop of `find_axis(ins, is_common)` over the inputs; `none` is the
early `return -1`. -/
def find_axis_common_loop (st : horizontal_fusion_impl) (is_common : instruction_ref → Bool)
    (ins : instruction_ref) : List instruction_ref → Int → Option Int
  | [], axis => some axis
  | input :: rest, axis =>
    if is_common input then
      let cur_axis := find_unique_axis st ins input
      if cur_axis = -1 ∨ (axis ≠ -1 ∧ cur_axis ≠ axis) then none
      else find_axis_common_loop st is_common ins rest cur_axis
    else find_axis_common_loop st is_common ins rest axis

/-- `find_axis(instruction_ref ins, is_common)`: the concat axis of `ins`, or
`-1`. -/
def find_axis_common (st : horizontal_fusion_impl) (env : fusion_env)
    (ins : instruction_ref) (is_common : instruction_ref → Bool) : Int :=
  match find_axis_common_loop st is_common ins (st.p_program.ins ins).inputs (-1) with
  | none => -1
  | some axis => if st.is_conv ins && axis != env.channel_axis then -1 else axis

/-- The loop `while (!stk.empty())` of `walk`, run for at most `fuel`
iterations; the head of `stk` is its top.  `none` when the stack is not empty
after that many iterations or when `at(0)` throws. -/
def walk_loop (p : program) : Nat → List instruction_ref → (instruction_ref → Bool) →
    List instruction_ref → Option (List instruction_ref × (instruction_ref → Bool))
  | _, [], visited, ret => some (ret, visited)
  | 0, _ :: _, _, _ => none
  | fuel + 1, top :: stk, visited, ret =>
    if (p.ins top).inputs.length > 1 ∨ (p.ins top).outputs.length > 1
        ∨ ((p.ins top).inputs.isEmpty ∧ (p.ins top).name ≠ "@literal") then
      some ([], visited)
    else if (p.ins top).inputs.isEmpty ∨ visited top then
      walk_loop p fuel stk visited (ret ++ [top])
    else
      match (p.ins top).inputs with
      | [] => none
      | input :: _ => walk_loop p fuel (input :: top :: stk) (Function.update visited top true) ret

/-- `walk`: the result vector and the map `visited` as the call leaves it.  The
inputs that are not visited are pushed in order, so the last of them is on
top. -/
def walk (st : horizontal_fusion_impl) (ins : instruction_ref)
    (visited : instruction_ref → Bool) :
    Option (List instruction_ref × (instruction_ref → Bool)) :=
  let stk := ((st.p_program.ins ins).inputs.filter (fun input => !visited input)).reverse
  walk_loop st.p_program
    ((st.p_program.ins ins).inputs.length + 2 * st.p_program.instructions.length + 1)
    stk visited []

/-- One pass of the inner loop of the copy loop of `concat`, for the slice
`slice_ndx`: the bytes copied from each literal in turn.  An entry is the data
of a literal and its `bytes_per_slice`; `none` when a source range reaches
beyond the data of its literal. -/
def copy_slices (slice_ndx : Nat) : List (List Nat × Nat) → Option (List Nat)
  | [] => some []
  | (data, bytes) :: rest =>
    if slice_ndx * bytes + bytes ≤ data.length then
      (copy_slices slice_ndx rest).map (fun t => (data.drop (slice_ndx * bytes)).take bytes ++ t)
    else none

/-- The loop `while (copy_bytes < total_bytes)` of `concat`, run for at most
`fuel` iterations, on the bytes `dst` written so far.  `copy_bytes` is an
`unsigned` (32 bits), `total_bytes` an `unsigned long long`.  `none` when the
loop has not ended after `fuel` iterations, when a source range reaches beyond
its literal, or when the writes reach beyond the `total_bytes` bytes of the
destination array. -/
def copy_loop (lits : List (List Nat × Nat)) (total_bytes : Nat) :
    Nat → Nat → Nat → List Nat → Option (List Nat)
  | 0, copy_bytes, _, dst => if copy_bytes < total_bytes then none else some dst
  | fuel + 1, copy_bytes, slice_ndx, dst =>
    if copy_bytes < total_bytes then
      match copy_slices slice_ndx lits with
      | none => none
      | some chunk =>
        if dst.length + chunk.length ≤ total_bytes then
          copy_loop lits total_bytes fuel ((copy_bytes + chunk.length) % 2 ^ 32)
            (slice_ndx + 1) (dst ++ chunk)
        else none
    else some dst

/-- `new_lens[axis] = sum`. -/
def set_len (lens : List Nat) (axis : Nat) (sum : Nat) : List Nat := lens.set axis sum

/-- The literal branch of `concat`, from `shape s = ins0->get_shape()` to the
construction of `literal(new_shape, input.get())`: the shape and the bytes of
the new literal.  `lits` holds the shape and the data of each instruction of
`instrs`, `sum` the sum of their lengths along `axis`.  The sizes are
`unsigned long long` (64 bits), `type_size` is an `unsigned` (32 bits); `none`
is a throwing `at(axis)` or a failure of the copy loop. -/
def concat_literal (type_size : Nat → Nat) (lits : List (shape × List Nat)) (axis : Nat)
    (sum : Nat) : Option (shape × List Nat) :=
  match lits with
  | [] => none
  | (s, _) :: _ =>
    let new_lens := set_len s.lens axis sum
    let unit_slice := (s.lens.drop (axis + 1)).prod % 2 ^ 64
    let new_elements := ((s.lens.take axis).prod * (s.lens.drop (axis + 1)).prod * sum) % 2 ^ 64
    let tsize := type_size s.type % 2 ^ 32
    let total_bytes := (new_elements * tsize) % 2 ^ 64
    match lits.mapM (fun l => (l.1.lens.get? axis).map
        (fun len => (l.2, (len * unit_slice * tsize) % 2 ^ 64))) with
    | none => none
    | some bytes_per_slice =>
      match copy_loop bytes_per_slice total_bytes (total_bytes + 1) 0 0 [] with
      | none => none
      | some data => some ({ type := s.type, lens := new_lens }, data)

end horizontal_fusion_impl

namespace program

/-- Modelled from the spec: `instruction::set_shape`, which the sources call
but do not define.  The result shape of the instruction is overwritten. -/
def set_shape (p : program) (r : instruction_ref) (s : shape) : program :=
  p.set r { p.ins r with result := s }

/-- Modelled from the spec: `instruction::set_operator`, which the sources call
but do not define.  The operator of the instruction is overwritten. -/
def set_operator (p : program) (r : instruction_ref) (op : operation) : program :=
  p.set r { p.ins r with op := op }

/-- Modelled from the spec: `program::add_literal`, whose body is absent from
the sources.  A new `@literal` instruction with the given shape and data is
placed at the front of the sequence.  Returns the program and the new
reference. -/
def add_literal (p : program) (s : shape) (data : List Nat) : program × instruction_ref :=
  let ref := p.next_ref
  let p := { p with next_ref := p.next_ref + 1 }
  let p := p.set ref
    { op := { name := "@literal", text := "@literal" }, result := s, output := [],
      arguments := [], lit := data }
  ({ p with instructions := ref :: p.instructions }, ref)

end program

/-- Conversion of an `int` to `std::size_t` (64 bits). -/
def to_size_t (x : Int) : Nat := (x % 2 ^ 64).toNat

namespace horizontal_fusion_impl

/-- The loop of `concat` that adds up `sum` and `base_sum`, both `int`; `none`
is a throwing `at` or a member without an entry in `root`. -/
def concat_sums (st : horizontal_fusion_impl) (root : instruction_ref → Option instruction_ref)
    (axis root_axis : Int) : List instruction_ref → Int → Int → Option (Int × Int)
  | [], sum, base_sum => some (sum, base_sum)
  | ins :: rest, sum, base_sum =>
    match dim_at (st.p_program.ins ins).get_shape.lens axis, root ins with
    | some len, some b =>
      match dim_at (st.p_program.ins b).get_shape.lens root_axis with
      | some blen =>
        concat_sums st root axis root_axis rest (to_int (sum + len)) (to_int (base_sum + blen))
      | none => none
    | _, _ => none

/-- The workaround at the end of the literal branch of `concat`: a broadcast
user gets a new operator carrying its new shape, and the shape the operator
computes from its first input.  The printed text of the operator is left as it
was. -/
def refresh_broadcast (env : fusion_env) (p : program) (output : instruction_ref) :
    Option program :=
  if (p.ins output).name == "broadcast" then
    match (p.ins output).op.params, (p.ins output).inputs with
    | op_params.broadcast ax _, in0 :: _ =>
      let op : operation :=
        { (p.ins output).op with params := op_params.broadcast ax (p.ins output).get_shape }
      some ((p.set_operator output op).set_shape output (env.op_shape op (p.ins in0).get_shape))
    | _, _ => none
  else some p

/-- The two branches of `concat` after its assertions, for the only user
`output` of `ins0`. -/
def concat_apply (st : horizontal_fusion_impl) (env : fusion_env)
    (instrs : List instruction_ref) (ins0 output : instruction_ref) (axis sum : Int)
    (base_lens : List Nat) : Option horizontal_fusion_impl :=
  let out_shape : shape :=
    { type := (st.p_program.ins output).get_shape.type, lens := base_lens }
  if (st.p_program.ins ins0).name == "@literal" then
    match concat_literal env.type_size
        (instrs.map (fun i => ((st.p_program.ins i).get_shape, (st.p_program.ins i).lit)))
        axis.toNat (to_size_t sum) with
    | none => none
    | some new_lit =>
      let r := st.p_program.add_literal new_lit.1 new_lit.2
      let p := (r.1.set_shape output out_shape).replace_argument output ins0 r.2
      (refresh_broadcast env p output).map (fun p => { st with p_program := p })
  else if env.match_dim_lens (st.p_program.ins output) base_lens then
    some { st with p_program := st.p_program.set_shape output out_shape }
  else none

/-- `concat`; `none` is a failed assertion, a throwing `at`, or a failure of
the copy loop. -/
def concat (st : horizontal_fusion_impl) (env : fusion_env) (instrs : List instruction_ref)
    (root : instruction_ref → Option instruction_ref) (root_axis : Int) :
    Option horizontal_fusion_impl :=
  match instrs with
  | [] => none
  | ins0 :: _ =>
    match root ins0 with
    | none => none
    | some base =>
      match find_axis_base st env ins0 base root_axis with
      | none => none
      | some axis =>
        match concat_sums st root axis root_axis instrs 0 0 with
        | none => none
        | some sums =>
          let base_lens := set_len (st.p_program.ins base).get_shape.lens root_axis.toNat
            (to_size_t sums.2)
          match (st.p_program.ins ins0).outputs with
          | [output] =>
            if base == output || match_dim st base output (-1) then
              concat_apply st env instrs ins0 output axis sums.1 base_lens
            else none
          | _ => none

/-- The loop of `transform` over `hash_inputs[hash_id]` that flags the common
inputs: `doit` and the map `visited` as the loop leaves it. -/
def flag_common_inputs (st : horizontal_fusion_impl) :
    List Nat → (instruction_ref → Bool) → Bool × (instruction_ref → Bool)
  | [], visited => (true, visited)
  | input :: rest, visited =>
    match st.get_instrs input with
    | [ins] => flag_common_inputs st rest (Function.update visited ins true)
    | _ => (false, visited)

/-- The loop of `transform` over `base_instrs` that writes `enum_in_cluster`. -/
def record_enum (st : horizontal_fusion_impl) :
    List instruction_ref → Int → (instruction_ref → Option Int) → instruction_ref → Option Int
  | [], _, m => m
  | ins :: rest, enum_ndx, m =>
    record_enum st rest (enum_ndx + 1)
      ((st.p_program.ins ins).outputs.foldl (fun m output => Function.update m output
        (some enum_ndx)) m)

/-- The locals of `transform` after the flagging loop and the loop that saves
the original dimensions, for the members `ins0 :: rest` of the element. -/
def element_locals (st : horizontal_fusion_impl) (loc : cluster_locals) (inputs : List Nat)
    (ins0 : instruction_ref) (rest : List instruction_ref) : cluster_locals :=
  { loc with
    visited := (flag_common_inputs st inputs loc.visited).2
    enum_in_cluster := record_enum st (ins0 :: rest) 0 loc.enum_in_cluster
    orig_dims := Function.update loc.orig_dims ins0
      (some ((ins0 :: rest).map (fun ins => (st.p_program.ins ins).get_shape.lens))) }

/-- What the loop of `transform` that collects and compares the inputs leaves
behind. -/
structure collect_result where
  doit : Bool
  loc : cluster_locals
  axis : Int
  all_inputs : List (List instruction_ref)

/-- The loop of `transform` over `base_instrs` that collects and compares the
inputs to be concatenated; `none` is a failure of `walk` or `compare_inputs`. -/
def collect_loop (st : horizontal_fusion_impl) (env : fusion_env) :
    List instruction_ref → cluster_locals → Int → List (List instruction_ref) →
      Option collect_result
  | [], loc, axis, all_inputs =>
    some { doit := true, loc := loc, axis := axis, all_inputs := all_inputs }
  | ins :: rest, loc, axis, all_inputs =>
    let axis := if axis = -1 then find_axis_common st env ins loc.visited else axis
    if axis = -1 then some { doit := false, loc := loc, axis := axis, all_inputs := all_inputs }
    else
      let loc := { loc with split_axis := Function.update loc.split_axis ins (some axis) }
      match walk st ins loc.visited with
      | none => none
      | some w =>
        let loc := { loc with visited := w.2 }
        if w.1.isEmpty then
          some { doit := false, loc := loc, axis := axis, all_inputs := all_inputs }
        else
          let congruent : Option Bool :=
            match all_inputs with
            | [] => some true
            | first :: _ => compare_inputs st env first w.1 ins axis
          match congruent with
          | none => none
          | some false =>
            some { doit := false, loc := loc, axis := axis, all_inputs := all_inputs }
          | some true =>
            let root := w.1.foldl (fun m input => Function.update m input (some ins)) loc.root
            collect_loop st env rest { loc with root := root } axis (all_inputs ++ [w.1])

/-- The loop of `transform` that calls `concat` for each position of the first
member's inputs. -/
def concat_positions (env : fusion_env) (root : instruction_ref → Option instruction_ref)
    (axis : Int) (all_inputs : List (List instruction_ref)) :
    List Nat → horizontal_fusion_impl → Option horizontal_fusion_impl
  | [], st => some st
  | ndx :: rest, st =>
    match all_inputs.mapM (fun input => input.get? ndx) with
    | none => none
    | some instrs =>
      match st.concat env instrs root axis with
      | none => none
      | some st1 => concat_positions env root axis all_inputs rest st1

/-- The loop of `transform` that removes the redundant inputs, from the member
number `ndx` on. -/
def remove_inputs : List (List instruction_ref) → Nat → program → program
  | [], _, p => p
  | input :: rest, ndx, p =>
    remove_inputs rest (ndx + 1)
      (input.foldl (fun p ins =>
        if ndx = 0 ∧ (p.ins ins).name ≠ "@literal" then p else p.remove_instruction ins) p)

/-- The part of one iteration of the loop of `transform` over the cluster that
follows the collecting loop, when that loop has not cleared `doit`. -/
def fuse_element (st : horizontal_fusion_impl) (env : fusion_env) (c : collect_result)
    (hash_id : Nat) (base_instrs : List instruction_ref) :
    Option (horizontal_fusion_impl × cluster_locals) :=
  match c.all_inputs with
  | [] => none
  | input0 :: _ =>
    match concat_positions env c.loc.root c.axis c.all_inputs (List.range input0.length) st with
    | none => none
    | some st1 =>
      match st1.remove_redundant_roots base_instrs with
      | none => none
      | some st2 =>
        let st3 := { st2 with p_program := remove_inputs c.all_inputs 0 st2.p_program }
        match st3.update_hash_tree hash_id with
        | none => none
        | some st4 => some (st4, { c.loc with last_hash_id := hash_id })

/-- The branch of `transform` for members with a single input. -/
def fuse_single_input (st : horizontal_fusion_impl) (loc : cluster_locals) (hash_id : Nat)
    (base_instrs : List instruction_ref) (ins0 input : instruction_ref) :
    Option (horizontal_fusion_impl × cluster_locals) :=
  match loc.split_axis input with
  | none => some (st, loc)
  | some axis =>
    let st1 := { st with
      p_program := st.p_program.set_shape ins0 (st.p_program.ins input).get_shape }
    match st1.remove_redundant_roots base_instrs with
    | none => none
    | some st2 =>
      match st2.update_hash_tree hash_id with
      | none => none
      | some st3 =>
        let loc1 := { loc with split_axis := Function.update loc.split_axis ins0 (some axis) }
        some (st3, { loc1 with last_hash_id := hash_id })

/-- One iteration of the loop `for (auto && hash_id : cluster)` of `transform`:
the state and the locals after it.  `none` is a failed assertion or a throwing
`at`; a `continue` returns the state it has reached. -/
def transform_element (st : horizontal_fusion_impl) (env : fusion_env) (loc : cluster_locals)
    (hash_id : Nat) : Option (horizontal_fusion_impl × cluster_locals) :=
  match st.hash_inputs hash_id with
  | none => none
  | some inputs =>
    if !(flag_common_inputs st inputs loc.visited).1 then
      some (st, { loc with visited := (flag_common_inputs st inputs loc.visited).2 })
    else
      match st.get_instrs hash_id with
      | [] => none
      | ins0 :: rest =>
        let loc := element_locals st loc inputs ins0 rest
        match (st.p_program.ins ins0).inputs with
        | [input] => fuse_single_input st loc hash_id (ins0 :: rest) ins0 input
        | _ =>
          match collect_loop st env (ins0 :: rest) loc (-1) [] with
          | none => none
          | some c =>
            if !c.doit then some (st, c.loc) else fuse_element st env c hash_id (ins0 :: rest)

/-- The loop `for (auto && hash_id : cluster)` of `transform`. -/
def transform_cluster (env : fusion_env) :
    List Nat → horizontal_fusion_impl → cluster_locals →
      Option (horizontal_fusion_impl × cluster_locals)
  | [], st, loc => some (st, loc)
  | hash_id :: rest, st, loc =>
    match st.transform_element env loc hash_id with
    | none => none
    | some r => transform_cluster env rest r.1 r.2

end horizontal_fusion_impl

/-- Two sibling convolutions of `x` whose filters are literals passed through
one intermediate instruction each; the intermediate instruction of the second
one (instruction `4`) has a second user (instruction `7`). -/
def branch_example : program :=
  { instructions := [0, 1, 2, 3, 4, 5, 6, 7, 8, 9]
    ins := fun r =>
      match r with
      | 0 => mk_ins "x" [1, 3, 8, 8] [] [5, 6]
      | 1 => mk_ins "@literal" [4, 3, 3, 3] [] [3]
      | 2 => mk_ins "@literal" [4, 3, 3, 3] [] [4]
      | 3 => mk_ins "contiguous" [4, 3, 3, 3] [1] [5]
      | 4 => mk_ins "contiguous" [4, 3, 3, 3] [2] [6, 7]
      | 5 => mk_ins "convolution" [1, 4, 8, 8] [0, 3] [8]
      | 6 => mk_ins "convolution" [1, 4, 8, 8] [0, 4] [9]
      | 7 => mk_ins "identity" [4, 3, 3, 3] [4] []
      | 8 => mk_ins "relu" [1, 4, 8, 8] [5] []
      | _ => mk_ins "tanh" [1, 4, 8, 8] [6] []
    next_ref := 10 }

/-- A state over `branch_example` whose hash tree has the node `1` for `x` and
the node `2`, with the input `1`, for the two convolutions. -/
def branch_state : horizontal_fusion_impl :=
  { p_program := branch_example
    point2_instr := fun pt => branch_example.instructions.get? pt
    op_flag := fun n => if n = "convolution" then some 1 else none
    hash_inputs := fun v => if v = 2 then some [1] else none
    hash_instrs := fun v => if v = 1 then some [0] else if v = 2 then some [5, 6] else none }

/-- An environment with elements of one byte, channel axis `1` and filter
output axis `0`. -/
def branch_env : horizontal_fusion_impl.fusion_env :=
  { type_size := fun _ => 1, op_shape := fun _ s => s, channel_axis := 1, conv_output_axis := 0,
    match_dim_lens := fun _ _ => true }

/-- A convolution with a bias: `x`, the filter, the bias of dimensions `[4]`,
and the instruction that takes the three of them. -/
def bias_example : program :=
  { instructions := [0, 1, 2, 3]
    ins := fun r =>
      match r with
      | 0 => mk_ins "x" [1, 3, 8, 8] [] [3]
      | 1 => mk_ins "@literal" [4, 3, 3, 3] [] [3]
      | 2 => mk_ins "@literal" [4] [] [3]
      | _ => mk_ins "gpu::conv_bias_relu" [1, 4, 8, 8] [0, 1, 2] []
    next_ref := 4 }

/-- `x` with two consumers `add(l1, x)` and `add(l2, x)` whose first inputs are
literals. -/
def lhs_example : program :=
  { instructions := [0, 1, 2, 3, 4]
    ins := fun r =>
      match r with
      | 0 => mk_ins "x" [2, 3] [] [3, 4]
      | 1 => mk_ins "@literal" [2, 3] [] [3]
      | 2 => mk_ins "@literal" [2, 3] [] [4]
      | 3 => mk_ins "add" [2, 3] [1, 0] []
      | _ => mk_ins "add" [2, 3] [2, 0] []
    next_ref := 5 }

/-- The state in which the hashing phase of `run` has processed the first three
instructions of `lhs_example`. -/
def lhs_hashed : horizontal_fusion_impl :=
  ((horizontal_fusion_impl.create lhs_example).hashing_phase [0, 1, 2]).getD
    (horizontal_fusion_impl.create lhs_example)

/-- A residual connection: `x`, `relu(x)` and `add(x, relu(x))`. -/
def residual_example : program :=
  { instructions := [0, 1, 2]
    ins := fun r =>
      match r with
      | 0 => mk_ins "x" [2] [] [1, 2]
      | 1 => mk_ins "relu" [2] [0] [2]
      | _ => mk_ins "add" [2] [0, 1] []
    next_ref := 3 }

/-- `program.ancestor p a x`: `a` is `x` or reaches `x` along def/use edges,
that is, `a` belongs to the subtree of `x`. -/
def program.ancestor (p : program) (a x : instruction_ref) : Prop :=
  Relation.ReflTransGen (fun u v => u ∈ (p.ins v).inputs) a x

/-- Two independent sinks: `X -> E` and `Y`, listed in the order `X`, `E`,
`Y`. -/
def two_sinks_example : program :=
  { instructions := [0, 1, 2]
    ins := fun r =>
      match r with
      | 0 => mk_ins "X" [2] [] [1]
      | 1 => mk_ins "E" [2] [0] []
      | _ => mk_ins "Y" [2] [] []
    next_ref := 3 }

/-- The static weights `X = 5`, `E = 5`, `Y = 3`, all on the device, so that
the weight sums of the two sinks are `10` and `3`. -/
def two_sinks_weights (name : String) : Int × Bool :=
  if name = "Y" then (3, false) else (5, false)

namespace horizontal_fusion_impl

/-- The loop of `transform` that extends a cluster along single hash outputs
with the same number of member instructions, run for at most `fuel`
iterations; `none` when it has not ended by then. -/
def find_cluster_loop (st : horizontal_fusion_impl) (size : Nat) :
    Nat → Nat → List Nat → Option (List Nat)
  | 0, _, _ => none
  | fuel + 1, cur, cluster =>
    match st.hash_outputs cur with
    | some [output] =>
      match st.hash_instrs output with
      | some points =>
        if points.length = size then find_cluster_loop st size fuel output (cluster ++ [output])
        else some cluster
      | none => some cluster
    | _ => some cluster

/-- One iteration of the loop `for (auto && val : values)` of `transform`, for
the hash value `id`: the cluster is collected, its elements are processed in
order, and the tail part follows. -/
def transform_value (st : horizontal_fusion_impl) (env : fusion_env) (id : Nat) :
    Option horizontal_fusion_impl :=
  match st.hash_instrs id with
  | none => some st
  | some points =>
    if points.length ≤ 1 then some st
    else
      match find_cluster_loop st points.length (st.values.length + 1) id [id] with
      | none => none
      | some cluster =>
        match transform_cluster env cluster st {} with
        | none => none
        | some r => r.1.transform_tail r.2 env.type_size env.op_shape

/-- The loop `for (auto && val : values)` of `transform`. -/
def transform_loop (env : fusion_env) :
    List hash_value → horizontal_fusion_impl → Option horizontal_fusion_impl
  | [], st => some st
  | val :: rest, st =>
    match st.transform_value env val.id with
    | none => none
    | some st => transform_loop env rest st

/-- `transform`. -/
def transform (st : horizontal_fusion_impl) (env : fusion_env) : Option horizontal_fusion_impl :=
  transform_loop env st.values st

/-- `run`: the hashing phase over the program, then `transform`. -/
def run (st : horizontal_fusion_impl) (env : fusion_env) : Option horizontal_fusion_impl :=
  match st.hashing_phase st.p_program.instructions with
  | none => none
  | some st => st.transform env

end horizontal_fusion_impl

/-- `x` with four consumers listed in the order `convolution(x, w1)`,
`gpu::convolution(x, w2)`, `convolution(x, w3)`, `gpu::convolution(x, w4)`;
the filters are literals with one byte per element. -/
def mixed_example : program :=
  { instructions := [0, 1, 2, 3, 4, 5, 6, 7, 8]
    ins := fun r =>
      match r with
      | 0 => mk_ins "x" [1, 3, 8, 8] [] [5, 6, 7, 8]
      | 1 => { mk_ins "@literal" [2, 3, 1, 1] [] [5] with lit := [1, 2, 3, 4, 5, 6] }
      | 2 => { mk_ins "@literal" [2, 3, 1, 1] [] [6] with lit := [11, 12, 13, 14, 15, 16] }
      | 3 => { mk_ins "@literal" [1, 3, 1, 1] [] [7] with lit := [7, 8, 9] }
      | 4 => { mk_ins "@literal" [1, 3, 1, 1] [] [8] with lit := [17, 18, 19] }
      | 5 => mk_ins "convolution" [1, 2, 8, 8] [0, 1] []
      | 6 => mk_ins "gpu::convolution" [1, 2, 8, 8] [0, 2] []
      | 7 => mk_ins "convolution" [1, 1, 8, 8] [0, 3] []
      | _ => mk_ins "gpu::convolution" [1, 1, 8, 8] [0, 4] []
    next_ref := 9 }

/-- The state `st` as a run over the same graph in another program order sees
it: the program order is `L`, the nodes carry the positions `idx`, and the
instructions carry the stream annotations and event masks `ann`. -/
def pre_scheduling_impl.recast (L : List instruction_ref) (idx : instruction_ref → Int)
    (ann : instruction_ref → Int × Nat) (st : pre_scheduling_impl) : pre_scheduling_impl :=
  { st with
    p_program :=
      { st.p_program with
        instructions := L
        ins := fun r => { st.p_program.ins r with stream := (ann r).1, mask := (ann r).2 } }
    nodes := fun x => { st.nodes x with ins_ndx := idx x } }

/-- Two sinks of the same weight sum: `X -> E` and `Z`, listed in the order
`X`, `E`, `Z`. -/
def tie_example : program :=
  { instructions := [0, 1, 2]
    ins := fun r =>
      match r with
      | 0 => mk_ins "X" [2] [] [1]
      | 1 => mk_ins "E" [2] [0] []
      | _ => mk_ins "Z" [2] [] []
    next_ref := 3 }

/-- The static weights `X = 5`, `E = 5`, `Z = 10`, all on the device, so that
both sinks have the weight sum `10`. -/
def tie_weights (name : String) : Int × Bool :=
  if name = "Z" then (10, false) else (5, false)

/-- A program that consists of the single instruction `x`. -/
def single_example : program :=
  { instructions := [0]
    ins := fun _ => mk_ins "x" [2] [] []
    next_ref := 1 }

/-- Three instructions whose input edges contain a cycle: `a` and `b` are the
input of each other, and `c` has the input `a`. -/
def cycle_example : program :=
  { instructions := [0, 1, 2]
    ins := fun r =>
      match r with
      | 0 => mk_ins "a" [2] [1] [1]
      | 1 => mk_ins "b" [2] [0] [0]
      | _ => mk_ins "c" [2] [0] []
    next_ref := 3 }

/-- Three sibling convolutions of `x` with literal filters; the consumers of
the first and the third are `tanh` instructions, the consumer of the second is
a `concat` of it with the parameter `z`. -/
def three_conv_example : program :=
  { instructions := [0, 1, 2, 3, 4, 5, 6, 7, 8, 9, 10]
    ins := fun r =>
      match r with
      | 0 => mk_ins "x" [1, 3, 8, 8] [] [5, 6, 7]
      | 1 => { mk_ins "@literal" [1, 3, 1, 1] [] [5] with lit := [1, 2, 3] }
      | 2 => { mk_ins "@literal" [1, 3, 1, 1] [] [6] with lit := [4, 5, 6] }
      | 3 => { mk_ins "@literal" [1, 3, 1, 1] [] [7] with lit := [7, 8, 9] }
      | 4 => mk_ins "z" [1, 1, 8, 8] [] [9]
      | 5 => mk_ins "convolution" [1, 1, 8, 8] [0, 1] [8]
      | 6 => mk_ins "convolution" [1, 1, 8, 8] [0, 2] [9]
      | 7 => mk_ins "convolution" [1, 1, 8, 8] [0, 3] [10]
      | 8 => mk_ins "tanh" [1, 1, 8, 8] [5] []
      | 9 => mk_ins "concat" [1, 2, 8, 8] [6, 4] []
      | _ => mk_ins "tanh" [1, 1, 8, 8] [7] []
    next_ref := 11 }

namespace pre_scheduling_impl

/-- What the loop of `schedule` has established about the cycles once the
nodes `queue` have been recorded, with `S` streams, when no cycle has left the
range of `int`: `max_cycle` is the largest entry of `next_cycles`, every stream
handed out is one of the `S` streams, every recorded node ends no later than
the next free cycle of its stream, a node recorded after another one on the
same stream starts no earlier than the other one ends, and `max_cycle` is at
most the sum of the weights of the recorded nodes. -/
structure stream_inv (S : Nat) (st : pre_scheduling_impl) (info : stream_info)
    (partition2_stream : Int → Option Int) (queue : List instruction_ref) : Prop where
  max_ge : ∀ s, info.next_cycles s ≤ info.max_cycle
  max_attained : ∃ s, s < S ∧ info.next_cycles s = info.max_cycle
  streams : ∀ k v, partition2_stream k = some v → 0 ≤ v ∧ v.toNat < S
  recorded : ∀ a ∈ queue, 0 ≤ (st.nodes a).stream ∧
    (st.nodes a).sched_cycle + (st.nodes a).weight ≤ info.next_cycles (st.nodes a).stream.toNat
  no_overlap : queue.Pairwise (fun a b => (st.nodes a).stream = (st.nodes b).stream →
    (st.nodes a).sched_cycle + (st.nodes a).weight ≤ (st.nodes b).sched_cycle)
  bound : info.max_cycle ≤ (queue.map (fun a => (st.nodes a).weight)).sum

/-- What holds of the cycles in every state of the loop of `schedule`, whatever
the weights are: the earliest cycle of a node is not negative and not above
`max_cycle`, no entry of `next_cycles` is above `max_cycle`, and `max_cycle` is
an `int`. -/
structure cycle_range (st : pre_scheduling_impl) (info : stream_info) : Prop where
  earliest : ∀ x, 0 ≤ (st.nodes x).earliest_cycle ∧ (st.nodes x).earliest_cycle ≤ info.max_cycle
  next_le : ∀ s, info.next_cycles s ≤ info.max_cycle
  max_lt : info.max_cycle < 2 ^ 31

/-- What the loop of `schedule` has established along the def/use edges of the
program `p` once the nodes `done` have been recorded, when no cycle has left the
range of `int`: a recorded node starts no earlier than each of its inputs
ends, and no user of a recorded node may start before the node ends. -/
structure edges_inv (p : program) (done : List instruction_ref) (st : pre_scheduling_impl) :
    Prop where
  sched_ge : ∀ v ∈ done, ∀ u ∈ (p.ins v).inputs,
    (st.nodes u).sched_cycle + (st.nodes u).weight ≤ (st.nodes v).sched_cycle
  earliest_ge : ∀ u ∈ done, ∀ v ∈ (p.ins u).outputs,
    (st.nodes u).sched_cycle + (st.nodes u).weight ≤ (st.nodes v).earliest_cycle

/-- What the loop of `schedule` has established about the annotations of the
program `P` once the nodes `done` have been recorded with `S` streams, for a
program `p` that started without annotations: instructions not yet recorded
have no stream, every stream set is one of the `S` streams, the masks hold no
other bits than the two events, an instruction that waits has a stream and an
input on another stream, and an instruction that records has a stream and a
recorded user on another stream. -/
structure events_sound (p : program) (S : Nat) (done : List instruction_ref) (P : program) :
    Prop where
  pending : ∀ x, x ∉ done → (P.ins x).stream = -1
  masks : ∀ x, (P.ins x).mask < 4
  range : ∀ x, (P.ins x).stream = -1 ∨ (0 ≤ (P.ins x).stream ∧ (P.ins x).stream.toNat < S)
  wait : ∀ v, (P.ins v).has_mask WAIT_EVENT = true →
    v ∈ done ∧ 0 ≤ (P.ins v).stream ∧
    ∃ u ∈ (p.ins v).inputs, 0 ≤ (P.ins u).stream ∧ (P.ins u).stream ≠ (P.ins v).stream
  record : ∀ u, (P.ins u).has_mask RECORD_EVENT = true →
    0 ≤ (P.ins u).stream ∧
    ∃ v ∈ done, u ∈ (p.ins v).inputs ∧ 0 ≤ (P.ins v).stream ∧
      (P.ins v).stream ≠ (P.ins u).stream

end pre_scheduling_impl

namespace horizontal_fusion_impl

/-- What one call of `process` does to the vector `values`: nothing; or it
appends a root node; or it appends a node that is not a root, under a key that
was not in `encode2_value`, for an instruction one of whose inputs has a
node. -/
inductive values_effect (st st' : horizontal_fusion_impl) : Prop where
  | same (values : st'.values = st.values)
  | root
      (values : st'.values = st.values ++
        [{ id := st.values.length, cur_point := st.cur_point, root := true }])
      (encode : st'.encode2_value = st.encode2_value)
  | fresh (key : Nat)
      (values : st'.values = st.values ++
        [{ id := st.values.length, cur_point := st.cur_point, root := false }])
      (absent : st.encode2_value key = none)
      (encode : st'.encode2_value key = some st.values.length)
      (valued : ∃ op1 id, st.instr2_value op1 = some id)

/-- The invariant of the hashing phase on the root nodes: the id of a node is
its index in `values`; a root node has exactly one member; no key of
`encode2_value` leads to a root node; the tables refer to nodes that exist; and
the first node is a root. -/
structure root_inv (st : horizontal_fusion_impl) : Prop where
  ids : ∀ (i : Nat) (v : hash_value), st.values.get? i = some v → v.id = i
  roots : ∀ v ∈ st.values, v.root = true → ((st.hash_instrs v.id).getD []).length = 1
  encoded : ∀ k w, st.encode2_value k = some w →
    w < st.values.length ∧ ∀ v ∈ st.values, v.id = w → v.root = false
  valued : ∀ ins w, st.instr2_value ins = some w → w < st.values.length
  fresh : ∀ w, st.values.length ≤ w → (st.hash_instrs w).getD [] = []
  first : ∀ v, st.values.head? = some v → v.root = true

end horizontal_fusion_impl

/-- The chain `x → relu → tanh`. -/
def heavy_chain_example : program :=
  { instructions := [0, 1, 2]
    ins := fun r =>
      match r with
      | 0 => mk_ins "x" [2] [] [1]
      | 1 => mk_ins "relu" [2] [0] [2]
      | _ => mk_ins "tanh" [2] [1] []
    next_ref := 3 }

/-- The static weight `2 ^ 30` for every operator, all on the device. -/
def heavy_weights (_ : String) : Int × Bool := (1073741824, false)

/-! ## Encoder contracts -/

theorem key_shl_small (x n b : Nat) (hx : x < 2 ^ b) (hb : b + n ≤ 64) :
    key_shl x n = x * 2 ^ n := by
  unfold key_shl key_type_bits
  rw [Nat.shiftLeft_eq]
  apply Nat.mod_eq_of_lt
  calc x * 2 ^ n < 2 ^ b * 2 ^ n := by
        apply Nat.mul_lt_mul_of_pos_right hx (by positivity)
    _ = 2 ^ (b + n) := by rw [pow_add]
    _ ≤ 2 ^ (8 * 8) := Nat.pow_le_pow_right (by norm_num) hb

/-- The generic key of in-range fields, as a sum of disjoint bit fields. -/
theorem generic_key_eq (opcode id : Nat) (ho : opcode < 2 ^ 16) (hi : id < 2 ^ 16) :
    key_shl opcode opcode_shift_count ||| key_shl id hash_id_shift_count
      = opcode * 2 ^ 48 + id * 2 ^ 32 := by
  have h1 : key_shl opcode opcode_shift_count = opcode * 2 ^ 48 :=
    key_shl_small opcode 48 16 ho (by norm_num)
  have h2 : key_shl id hash_id_shift_count = id * 2 ^ 32 :=
    key_shl_small id 32 16 hi (by norm_num)
  rw [h1, h2]
  have hlt : id * 2 ^ 32 < 2 ^ 48 := by omega
  have := Nat.mul_add_lt_is_or hlt opcode
  rw [Nat.mul_comm (2 ^ 48) opcode] at this
  exact this.symm

/-- A valid generic encoding comes from in-range fields, and is the sum of the
two shifted fields. -/
theorem EncodeCommon_valid_inv (p : program) (ins : instruction_ref) (instr2_value : Ins2Val)
    (opcode : Nat) (info : encode_info)
    (h : EncodeCommon p ins instr2_value opcode = some info) (hv : info.valid = true) :
    ∃ op1 rest id, (p.ins ins).inputs = op1 :: rest ∧ instr2_value op1 = some id ∧
      opcode < 2 ^ 16 ∧ id < 2 ^ 16 ∧ info.key = opcode * 2 ^ 48 + id * 2 ^ 32 ∧
      info.inputs = [id] := by
  unfold EncodeCommon at h
  split at h
  · cases h; simp at hv
  · rename_i hop
    split at h
    · cases h
    · rename_i op1 rest hin
      split at h
      · cases h
      · rename_i id hid
        split at h
        · cases h; simp at hv
        · rename_i hidlt
          have ho : opcode < 2 ^ 16 := by
            simpa [opcode_bits, Nat.shiftLeft_eq] using hop
          have hi : id < 2 ^ 16 := by
            simpa [hash_id_bits, Nat.shiftLeft_eq] using hidlt
          refine ⟨op1, rest, id, hin, hid, ho, hi, ?_, ?_⟩
          · cases h
            exact generic_key_eq opcode id ho hi
          · cases h; rfl

theorem EncodeCommon_of_fields (p : program) (ins : instruction_ref) (instr2_value : Ins2Val)
    (opcode op1 id : Nat) (rest : List instruction_ref)
    (hin : (p.ins ins).inputs = op1 :: rest) (hval : instr2_value op1 = some id) :
    EncodeCommon p ins instr2_value opcode =
      if opcode ≥ 2 ^ 16 ∨ id ≥ 2 ^ 16 then some { key := 0, valid := false }
      else some { key := key_shl opcode opcode_shift_count ||| key_shl id hash_id_shift_count,
                  valid := true, inputs := [id] } := by
  unfold EncodeCommon
  simp only [hin, hval, opcode_bits, hash_id_bits, Nat.shiftLeft_eq, one_mul]
  by_cases h1 : opcode ≥ 2 ^ 16
  · rw [if_pos h1, if_pos (Or.inl h1)]
  · by_cases h2 : id ≥ 2 ^ 16
    · rw [if_neg h1, if_pos h2, if_pos (Or.inr h2)]
    · rw [if_neg h1, if_neg h2, if_neg (by tauto)]

/-- C3: for an instruction whose first input has hash id `id < 2^16`, and an
opcode `< 2^16`, `EncodeCommon` returns a valid encoding whose key is
`(opcode << 48) | (id << 32)` (a 64-bit value) and whose input list is exactly
the first input's hash node. -/
theorem C3_EncodeCommon_valid (p : program) (ins : instruction_ref) (instr2_value : Ins2Val)
    (opcode op1 id : Nat) (rest : List instruction_ref)
    (hin : (p.ins ins).inputs = op1 :: rest) (hval : instr2_value op1 = some id)
    (hid : id < 2 ^ 16) (hop : opcode < 2 ^ 16) :
    EncodeCommon p ins instr2_value opcode
        = some { key := (opcode <<< 48) ||| (id <<< 32), valid := true, inputs := [id] }
      ∧ (opcode <<< 48) ||| (id <<< 32) < 2 ^ 64 := by
  have hk := generic_key_eq opcode id hop hid
  have h1 : key_shl opcode opcode_shift_count = opcode <<< 48 := by
    rw [Nat.shiftLeft_eq]; exact key_shl_small opcode 48 16 hop (by norm_num)
  have h2 : key_shl id hash_id_shift_count = id <<< 32 := by
    rw [Nat.shiftLeft_eq]; exact key_shl_small id 32 16 hid (by norm_num)
  rw [h1, h2] at hk
  constructor
  · rw [EncodeCommon_of_fields p ins instr2_value opcode op1 id rest hin hval, h1, h2]
    have : ¬ (opcode ≥ 2 ^ 16 ∨ id ≥ 2 ^ 16) := by omega
    rw [if_neg this]
  · rw [hk]; omega

theorem C3_EncodeCommon_valid_witness :
    EncodeCommon conv_example 2 conv_example_values 3
        = some { key := (3 <<< 48) ||| (5 <<< 32), valid := true, inputs := [5] }
      ∧ (3 <<< 48) ||| (5 <<< 32) < 2 ^ 64 :=
  C3_EncodeCommon_valid conv_example 2 conv_example_values 3 0 5 [1] (by rfl) (by rfl)
    (by norm_num) (by norm_num)

theorem lens_filter_kernel (pre : List Nat) (f k : Nat) :
    (pre ++ [f, k]).length - 2 = pre.length ∧ (pre ++ [f, k]).length - 1 = pre.length + 1 ∧
    ¬ (pre ++ [f, k]).length < 2 ∧
    (pre ++ [f, k]).getD pre.length 0 = f ∧ (pre ++ [f, k]).getD (pre.length + 1) 0 = k := by
  refine ⟨by simp, by simp, by simp, ?_, ?_⟩
  · induction pre with
    | nil => rfl
    | cons a pre ih => simpa using ih
  · induction pre with
    | nil => rfl
    | cons a pre ih => simpa using ih

/-- `EncodeConvCommon` on an instruction with a second input of rank at least
two, in terms of the generic encoding. -/
theorem EncodeConvCommon_of_fields (p : program) (ins : instruction_ref) (instr2_value : Ins2Val)
    (opcode : Nat) (info : encode_info) (op1 op2 : instruction_ref) (rest : List instruction_ref)
    (pre : List Nat) (f k : Nat)
    (hgen : EncodeCommon p ins instr2_value opcode = some info)
    (hin : (p.ins ins).inputs = op1 :: op2 :: rest)
    (hlens : (p.ins op2).get_shape.lens = pre ++ [f, k]) :
    EncodeConvCommon p ins instr2_value opcode =
      if info.valid = false then some info
      else if f < 2 ^ 8 ∧ k < 2 ^ 8 then
        some { info with key := info.key ||| key_shl f filter_shift_count
                                      ||| key_shl k kernel_shift_count }
      else some { key := 0, valid := false } := by
  obtain ⟨h1, h2, h3, h4, h5⟩ := lens_filter_kernel pre f k
  unfold EncodeConvCommon
  simp only [hgen, hin, hlens, h1, h2, h3, h4, h5, filter_bits, kernel_bits, Nat.shiftLeft_eq,
    one_mul, if_false]
  cases hv : info.valid <;> simp

/-- A key made of an in-range generic part, filter and kernel, as a sum of
disjoint bit fields. -/
theorem conv_key_eq (g f k : Nat) (hf : f < 2 ^ 8) (hk : k < 2 ^ 8) :
    g * 2 ^ 32 ||| key_shl f filter_shift_count ||| key_shl k kernel_shift_count
      = g * 2 ^ 32 + f * 2 ^ 24 + k * 2 ^ 16 := by
  have h1 : key_shl f filter_shift_count = f * 2 ^ 24 := key_shl_small f 24 8 hf (by norm_num)
  have h2 : key_shl k kernel_shift_count = k * 2 ^ 16 := key_shl_small k 16 8 hk (by norm_num)
  rw [h1, h2]
  have e1 : g * 2 ^ 32 ||| f * 2 ^ 24 = g * 2 ^ 32 + f * 2 ^ 24 := by
    have hlt : f * 2 ^ 24 < 2 ^ 32 := by omega
    have := Nat.mul_add_lt_is_or hlt g
    rw [Nat.mul_comm (2 ^ 32) g] at this
    exact this.symm
  rw [e1]
  have e2 : g * 2 ^ 32 + f * 2 ^ 24 = 2 ^ 24 * (g * 2 ^ 8 + f) := by ring
  rw [e2]
  have hlt : k * 2 ^ 16 < 2 ^ 24 := by omega
  exact (Nat.mul_add_lt_is_or hlt (g * 2 ^ 8 + f)).symm

/-- C4: when the generic encoding of an instruction is valid and its second
input has a shape of rank at least two whose last two dimensions `f` and `k`
are below `2^8`, `EncodeConvCommon` returns a valid key that is the generic key
with `f` in bits 31..24 and `k` in bits 23..16; bits 63..32 are those of the
generic key and bits 15..0 are zero. -/
theorem C4_EncodeConvCommon_valid (p : program) (ins : instruction_ref) (instr2_value : Ins2Val)
    (opcode : Nat) (info : encode_info) (op1 op2 : instruction_ref) (rest : List instruction_ref)
    (pre : List Nat) (f k : Nat)
    (hgen : EncodeCommon p ins instr2_value opcode = some info) (hvalid : info.valid = true)
    (hin : (p.ins ins).inputs = op1 :: op2 :: rest)
    (hlens : (p.ins op2).get_shape.lens = pre ++ [f, k])
    (hf : f < 2 ^ 8) (hk : k < 2 ^ 8) :
    ∃ key, EncodeConvCommon p ins instr2_value opcode
        = some { key := key, valid := true, inputs := info.inputs } ∧
      key = info.key ||| (f <<< 24) ||| (k <<< 16) ∧
      key < 2 ^ 64 ∧
      key / 2 ^ 32 = info.key / 2 ^ 32 ∧ info.key % 2 ^ 32 = 0 ∧
      key / 2 ^ 24 % 2 ^ 8 = f ∧ key / 2 ^ 16 % 2 ^ 8 = k ∧ key % 2 ^ 16 = 0 := by
  obtain ⟨a, r, id, _, _, ho, hi, hkey, _⟩ :=
    EncodeCommon_valid_inv p ins instr2_value opcode info hgen hvalid
  have hg : info.key = (opcode * 2 ^ 16 + id) * 2 ^ 32 := by rw [hkey]; ring
  have hsum := conv_key_eq (opcode * 2 ^ 16 + id) f k hf hk
  have h1 : key_shl f filter_shift_count = f <<< 24 := by
    rw [Nat.shiftLeft_eq]; exact key_shl_small f 24 8 hf (by norm_num)
  have h2 : key_shl k kernel_shift_count = k <<< 16 := by
    rw [Nat.shiftLeft_eq]; exact key_shl_small k 16 8 hk (by norm_num)
  refine ⟨info.key ||| key_shl f filter_shift_count ||| key_shl k kernel_shift_count, ?_, ?_, ?_⟩
  · rw [EncodeConvCommon_of_fields p ins instr2_value opcode info op1 op2 rest pre f k hgen hin
      hlens]
    rw [if_neg (by simp [hvalid]), if_pos ⟨hf, hk⟩]
    cases info
    simp_all
  · rw [h1, h2]
  · rw [hg, hsum]
    refine ⟨by omega, by omega, by omega, by omega, by omega, by omega⟩

theorem C4_EncodeConvCommon_valid_witness :
    ∃ key, EncodeConvCommon conv_example 2 conv_example_values 7
        = some { key := key, valid := true, inputs := [5] } ∧
      key = (7 * 2 ^ 48 + 5 * 2 ^ 32) ||| (3 <<< 24) ||| (5 <<< 16) ∧
      key < 2 ^ 64 ∧
      key / 2 ^ 32 = (7 * 2 ^ 48 + 5 * 2 ^ 32) / 2 ^ 32 ∧ (7 * 2 ^ 48 + 5 * 2 ^ 32) % 2 ^ 32 = 0 ∧
      key / 2 ^ 24 % 2 ^ 8 = 3 ∧ key / 2 ^ 16 % 2 ^ 8 = 5 ∧ key % 2 ^ 16 = 0 :=
  C4_EncodeConvCommon_valid conv_example 2 conv_example_values 7
    { key := 7 * 2 ^ 48 + 5 * 2 ^ 32, valid := true, inputs := [5] } 0 1 [] [4, 3] 3 5
    (by decide) (by rfl) (by rfl) (by rfl) (by norm_num) (by norm_num)

/-- C5: given that the first input is hashed with id `i`, `EncodeCommon`
returns the invalid marker exactly when `opcode >= 2^16` or `i >= 2^16`; and,
for a second input whose shape ends in the dimensions `f` (filter) and `k`
(kernel), `EncodeConvCommon` returns the invalid marker exactly when the
generic encoding is invalid or `f >= 2^8` or `k >= 2^8`. -/
theorem C5_invalid_marker_iff (p : program) (ins : instruction_ref) (instr2_value : Ins2Val)
    (opcode op1 i : Nat) (rest : List instruction_ref)
    (hin : (p.ins ins).inputs = op1 :: rest) (hval : instr2_value op1 = some i) :
    (EncodeCommon p ins instr2_value opcode = some { key := 0, valid := false }
        ↔ opcode ≥ 2 ^ 16 ∨ i ≥ 2 ^ 16) ∧
    ∀ (op2 : instruction_ref) (rest2 : List instruction_ref) (pre : List Nat) (f k : Nat),
      rest = op2 :: rest2 → (p.ins op2).get_shape.lens = pre ++ [f, k] →
      (EncodeConvCommon p ins instr2_value opcode = some { key := 0, valid := false }
        ↔ EncodeCommon p ins instr2_value opcode = some { key := 0, valid := false }
            ∨ f ≥ 2 ^ 8 ∨ k ≥ 2 ^ 8) := by
  have hE := EncodeCommon_of_fields p ins instr2_value opcode op1 i rest hin hval
  have hiff : EncodeCommon p ins instr2_value opcode = some { key := 0, valid := false }
      ↔ opcode ≥ 2 ^ 16 ∨ i ≥ 2 ^ 16 := by
    rw [hE]
    by_cases h : opcode ≥ 2 ^ 16 ∨ i ≥ 2 ^ 16
    · rw [if_pos h]
      exact ⟨fun _ => h, fun _ => rfl⟩
    · simp only [if_neg h, h, iff_false]
      intro hc
      injection hc with hc
      injection hc with _ hc2
      cases hc2
  refine ⟨hiff, ?_⟩
  intro op2 rest2 pre f k hrest hlens
  subst hrest
  by_cases h : opcode ≥ 2 ^ 16 ∨ i ≥ 2 ^ 16
  · have hg := hE
    rw [if_pos h] at hg
    rw [EncodeConvCommon_of_fields p ins instr2_value opcode _ op1 op2 rest2 pre f k hg hin hlens]
    simp [hg]
  · have hg := hE
    rw [if_neg h] at hg
    rw [EncodeConvCommon_of_fields p ins instr2_value opcode _ op1 op2 rest2 pre f k hg hin hlens]
    rw [hiff]
    by_cases hfk : f < 2 ^ 8 ∧ k < 2 ^ 8
    · simp only [if_pos hfk]
      have : ¬ (f ≥ 2 ^ 8 ∨ k ≥ 2 ^ 8) := by omega
      constructor
      · intro hc
        injection hc with hc
        injection hc with _ hc2
        cases hc2
      · intro hc
        rcases hc with hc | hc
        · exact absurd hc h
        · exact absurd hc this
    · simp only [if_neg hfk]
      have : f ≥ 2 ^ 8 ∨ k ≥ 2 ^ 8 := by omega
      exact ⟨fun _ => Or.inr this, fun _ => rfl⟩

theorem C5_invalid_marker_iff_witness :
    (EncodeCommon conv_example 2 conv_example_values 7 = some { key := 0, valid := false }
        ↔ 7 ≥ 2 ^ 16 ∨ 5 ≥ 2 ^ 16) ∧
    ∀ (op2 : instruction_ref) (rest2 : List instruction_ref) (pre : List Nat) (f k : Nat),
      [1] = op2 :: rest2 → (conv_example.ins op2).get_shape.lens = pre ++ [f, k] →
      (EncodeConvCommon conv_example 2 conv_example_values 7 = some { key := 0, valid := false }
        ↔ EncodeCommon conv_example 2 conv_example_values 7 = some { key := 0, valid := false }
            ∨ f ≥ 2 ^ 8 ∨ k ≥ 2 ^ 8) :=
  C5_invalid_marker_iff conv_example 2 conv_example_values 7 0 5 [1] (by rfl) (by rfl)

/-- A value in the range of `int` is stored as it is. -/
theorem to_int_of_range (x : Int) (h1 : -2 ^ 31 ≤ x) (h2 : x < 2 ^ 31) : to_int x = x := by
  unfold to_int
  omega

/-- A stored `int` is in the range of `int`. -/
theorem to_int_range (x : Int) : -2 ^ 31 ≤ to_int x ∧ to_int x < 2 ^ 31 := by
  unfold to_int
  omega

theorem to_int_idem (x : Int) : to_int (to_int x) = to_int x :=
  to_int_of_range _ (to_int_range x).1 (to_int_range x).2

/-- Adding to a stored `int` and storing the result gives the stored sum. -/
theorem to_int_add_left (a b : Int) : to_int (to_int a + b) = to_int (a + b) := by
  unfold to_int
  omega

theorem to_int_add_right (a b : Int) : to_int (a + to_int b) = to_int (a + b) := by
  unfold to_int
  omega

namespace pre_scheduling_impl

theorem add_input_sums_spec (st : pre_scheduling_impl) :
    ∀ (args visited : List instruction_ref) (node : dag_node),
      (∀ a ∈ args, st.instr2_node a = true) → to_int node.weight_sum = node.weight_sum →
      st.add_input_sums args visited node =
        some { node with weight_sum := to_int (node.weight_sum
                 + ∑ D ∈ args.toFinset \ visited.toFinset, (st.nodes D).weight_sum) } := by
  intro args
  induction args with
  | nil => intro visited node _ hr; simp [add_input_sums, hr]
  | cons a rest ih =>
    intro visited node h hr
    have ha : st.instr2_node a = true := h a (List.mem_cons_self _ _)
    have hrest : ∀ b ∈ rest, st.instr2_node b = true := fun b hb => h b (List.mem_cons_of_mem _ hb)
    unfold add_input_sums
    rw [if_pos ha]
    by_cases hv : a ∈ visited
    · rw [if_pos hv, ih visited node hrest hr]
      have : (a :: rest).toFinset \ visited.toFinset = rest.toFinset \ visited.toFinset := by
        ext x
        simp only [List.toFinset_cons, Finset.mem_sdiff, Finset.mem_insert, List.mem_toFinset]
        constructor
        · rintro ⟨h1 | h1, h2⟩
          · subst h1; exact absurd hv h2
          · exact ⟨h1, h2⟩
        · rintro ⟨h1, h2⟩; exact ⟨Or.inr h1, h2⟩
      rw [this]
    · rw [if_neg hv, ih (a :: visited) _ hrest (to_int_idem _)]
      have hset : (a :: rest).toFinset \ visited.toFinset
          = insert a (rest.toFinset \ (a :: visited).toFinset) := by
        ext x
        simp only [List.toFinset_cons, Finset.mem_sdiff, Finset.mem_insert, List.mem_toFinset]
        constructor
        · rintro ⟨h1 | h1, h2⟩
          · exact Or.inl h1
          · by_cases hx : x = a
            · exact Or.inl hx
            · exact Or.inr ⟨h1, by tauto⟩
        · rintro (h1 | ⟨h1, h2⟩)
          · subst h1; exact ⟨Or.inl rfl, hv⟩
          · exact ⟨Or.inr h1, by tauto⟩
      have hnot : a ∉ rest.toFinset \ (a :: visited).toFinset := by simp
      rw [hset, Finset.sum_insert hnot]
      simp only [to_int_add_left, add_assoc]

theorem add_input_sums_none (st : pre_scheduling_impl) :
    ∀ (args visited : List instruction_ref) (node : dag_node),
      (∃ a ∈ args, st.instr2_node a = false) → st.add_input_sums args visited node = none := by
  intro args
  induction args with
  | nil => intro visited node h; obtain ⟨a, ha, _⟩ := h; cases ha
  | cons a rest ih =>
    intro visited node h
    unfold add_input_sums
    by_cases ha : st.instr2_node a = true
    · rw [if_pos ha]
      have hrest : ∃ b ∈ rest, st.instr2_node b = false := by
        obtain ⟨b, hb, hbf⟩ := h
        rcases List.mem_cons.mp hb with rfl | hb
        · rw [ha] at hbf; cases hbf
        · exact ⟨b, hb, hbf⟩
      by_cases hv : a ∈ visited
      · rw [if_pos hv]; exact ih _ _ hrest
      · rw [if_neg hv]; exact ih _ _ hrest
    · rw [if_neg ha]

theorem mem_of_pos_lt_length (done rest : List instruction_ref) (u : instruction_ref)
    (h : (done ++ rest).indexOf u < done.length) : u ∈ done := by
  by_contra hu
  rw [List.indexOf_append_of_not_mem hu] at h
  omega

theorem pos_head_of_nodup (done rest : List instruction_ref) (ins : instruction_ref)
    (hnd : (done ++ ins :: rest).Nodup) : (done ++ ins :: rest).indexOf ins = done.length := by
  have hni : ins ∉ done := by
    intro h
    have := List.nodup_append.mp hnd
    exact this.2.2 h (List.mem_cons_self _ _)
  rw [List.indexOf_append_of_not_mem hni, List.indexOf_cons_self]
  rfl

theorem compute_weights_loop_spec (p : program) (weight_func : String → Int × Bool)
    (hnd : p.instructions.Nodup)
    (hdbu : ∀ v ∈ p.instructions, ∀ u ∈ (p.ins v).inputs, p.pos u < p.pos v) :
    ∀ (rest done : List instruction_ref) (st : pre_scheduling_impl),
      p.instructions = done ++ rest → weights_computed p weight_func done st →
      st.weight_func = weight_func →
      ∃ st', compute_weights_loop rest (done.length : Int) st = some st' ∧
        weights_computed p weight_func p.instructions st' ∧ same_params st st' ∧
        st'.exit_nodes = st.exit_nodes
          ++ rest.filter (fun x => (p.ins x).outputs.isEmpty) ∧
        st'.partition_info = st.partition_info := by
  intro rest
  induction rest with
  | nil =>
    intro done st hsplit hinv _
    refine ⟨st, rfl, ?_, ⟨rfl, rfl, rfl, rfl, rfl⟩, by simp, rfl⟩
    rw [hsplit, List.append_nil]; exact hinv
  | cons ins rest ih =>
    intro done st hsplit hinv hwf
    have hnd' : (done ++ ins :: rest).Nodup := hsplit ▸ hnd
    have hni : ins ∉ done := fun h =>
      (List.nodup_append.mp hnd').2.2 h (List.mem_cons_self _ _)
    have hmem : ins ∈ p.instructions := by rw [hsplit]; simp
    have hpos : p.pos ins = done.length := by
      unfold program.pos; rw [hsplit]; exact pos_head_of_nodup done rest ins hnd'
    have hin_done : ∀ u ∈ (p.ins ins).inputs, u ∈ done := by
      intro u hu
      have := hdbu ins hmem u hu
      rw [hpos] at this
      unfold program.pos at this
      rw [hsplit] at this
      exact mem_of_pos_lt_length done (ins :: rest) u this
    have hpaired : ∀ a ∈ (st.p_program.ins ins).inputs, st.instr2_node a = true := by
      intro a ha
      rw [hinv.program] at ha
      rw [hinv.paired a]
      exact decide_eq_true (hin_done a ha)
    have hsplit' : p.instructions = (done ++ [ins]) ++ rest := by
      rw [hsplit]; simp
    have hdef : st.nodes ins = {} := hinv.untouched ins hni
    let node1 : dag_node :=
      { weight := (weight_func (p.ins ins).name).1
        run_on_cpu := (weight_func (p.ins ins).name).2
        weight_sum := to_int ((weight_func (p.ins ins).name).1
          + ∑ D ∈ (p.ins ins).inputs.toFinset, (st.nodes D).weight_sum)
        ins_ndx := (done.length : Int) }
    let st1 : pre_scheduling_impl :=
      { st with nodes := Function.update st.nodes ins node1
                exit_nodes := if (p.ins ins).outputs.isEmpty then st.exit_nodes ++ [ins]
                              else st.exit_nodes
                instr2_node := Function.update st.instr2_node ins true }
    have hstep : compute_weights_loop (ins :: rest) (done.length : Int) st
        = compute_weights_loop rest ((done ++ [ins]).length : Int) st1 := by
      simp only [compute_weights_loop, add_input_sums_spec st _ [] _ hpaired, to_int_idem]
      simp only [hdef, hinv.program, hwf, List.toFinset_nil, Finset.sdiff_empty, zero_add,
        List.length_append, List.length_singleton, Nat.cast_add, Nat.cast_one, st1, node1,
        to_int_add_left]
    have hold : ∀ y ∈ done, st1.nodes y = st.nodes y := by
      intro y hy
      have : y ≠ ins := fun h => hni (h ▸ hy)
      simp [st1, Function.update_noteq this]
    have hinv1 : weights_computed p weight_func (done ++ [ins]) st1 := by
      constructor
      · exact hinv.program
      · intro x
        by_cases hx : x = ins
        · subst hx; simp [st1]
        · simp only [st1, Function.update_noteq hx, hinv.paired x, List.mem_append,
            List.mem_singleton, hx, or_false]
      · intro x hx
        have hx1 : x ∉ done := fun h => hx (List.mem_append_left _ h)
        have hx2 : x ≠ ins := fun h => hx (by simp [h])
        simp only [st1, Function.update_noteq hx2]
        exact hinv.untouched x hx1
      · intro x hx
        rcases List.mem_append.mp hx with hx | hx
        · have hxmem : x ∈ p.instructions := by rw [hsplit]; exact List.mem_append_left _ hx
          have hxin : ∀ u ∈ (p.ins x).inputs, u ∈ done := by
            intro u hu
            have h1 := hdbu x hxmem u hu
            have h2 : p.pos x < done.length := by
              unfold program.pos; rw [hsplit, List.indexOf_append_of_mem hx]
              exact List.indexOf_lt_length.mpr hx
            unfold program.pos at h1 h2
            rw [hsplit] at h1 h2
            exact mem_of_pos_lt_length done (ins :: rest) u (by omega)
          rw [hold x hx, hinv.node x hx, List.indexOf_append_of_mem hx]
          congr 1
          congr 1
          congr 1
          apply Finset.sum_congr rfl
          intro D hD
          rw [hold D (hxin D (List.mem_toFinset.mp hD))]
        · have hxe : x = ins := List.mem_singleton.mp hx
          subst hxe
          have : st1.nodes x = node1 := by simp [st1]
          rw [this, List.indexOf_append_of_not_mem hni, List.indexOf_cons_self]
          simp only [node1, add_zero]
          congr 1
          congr 1
          congr 1
          apply Finset.sum_congr rfl
          intro D hD
          exact congrArg dag_node.weight_sum (hold D (hin_done D (List.mem_toFinset.mp hD))).symm
      · exact hinv.partition_info_num
    obtain ⟨st', h1, h2, h3, h4, h5⟩ := ih (done ++ [ins]) st1 hsplit' hinv1 hwf
    refine ⟨st', by rw [hstep]; exact h1, h2, ⟨h3.weight_func, h3.num_of_streams,
      h3.weighted_topology_ordering, h3.min_partition_threshold, h3.std_sort⟩, ?_, h5⟩
    rw [h4]
    by_cases hout : (p.ins ins).outputs.isEmpty = true
    · simp [st1, hout, List.filter_cons]
    · simp [st1, hout, List.filter_cons]

theorem sort_exit_nodes_perm (st : pre_scheduling_impl) (hsrt : std_sort_contract st.std_sort)
    (l : List instruction_ref) : (st.sort_exit_nodes l).Perm l := (hsrt _ l).1

end pre_scheduling_impl

/-- Insertion sort is a `std::sort`. -/
theorem stable_sort_contract : std_sort_contract stable_sort := by
  intro comp l
  refine ⟨List.perm_insertionSort _ l, ?_⟩
  intro hasym htrans
  haveI : IsTotal instruction_ref (fun a b => comp b a = false) :=
    ⟨fun a b => by
      cases h : comp b a
      · exact Or.inl rfl
      · exact Or.inr (hasym b a h)⟩
  haveI : IsTrans instruction_ref (fun a b => comp b a = false) :=
    ⟨fun a b c hab hbc => htrans a b c hab hbc⟩
  exact List.sorted_insertionSort (fun a b => comp b a = false) l

namespace pre_scheduling_impl

theorem create_weights_computed (p : program) (weight_func : String → Int × Bool)
    (num_of_streams : Nat) (wto : dag_node → dag_node → Bool) (thr : Int) (srt : std_sort_fn) :
    weights_computed p weight_func [] (create p weight_func num_of_streams wto thr srt) := by
  constructor
  · rfl
  · intro x; simp [create]
  · intro x _; rfl
  · intro x hx; cases hx
  · rfl

/-- What `compute_weights` leaves behind on a program listed def-before-use. -/
theorem compute_weights_spec (p : program) (weight_func : String → Int × Bool)
    (num_of_streams : Nat) (wto : dag_node → dag_node → Bool) (thr : Int)
    (srt : std_sort_fn) (hsrt : std_sort_contract srt)
    (hnd : p.instructions.Nodup)
    (hdbu : ∀ v ∈ p.instructions, ∀ u ∈ (p.ins v).inputs, p.pos u < p.pos v) :
    ∃ st, compute_weights (create p weight_func num_of_streams wto thr srt) = some st ∧
      weights_computed p weight_func p.instructions st ∧
      same_params (create p weight_func num_of_streams wto thr srt) st ∧
      st.exit_nodes.Perm (p.instructions.filter (fun x => (p.ins x).outputs.isEmpty)) := by
  obtain ⟨st, h1, h2, h3, h4, h5⟩ :=
    compute_weights_loop_spec p weight_func hnd hdbu p.instructions []
      (create p weight_func num_of_streams wto thr srt) (by simp)
      (create_weights_computed p weight_func num_of_streams wto thr srt) rfl
  have h1' : compute_weights_loop (create p weight_func num_of_streams wto thr srt).p_program.instructions
      0 (create p weight_func num_of_streams wto thr srt) = some st := by
    simpa [create] using h1
  have h4' : st.exit_nodes = p.instructions.filter (fun x => (p.ins x).outputs.isEmpty) := by
    rw [h4]; simp [create]
  unfold compute_weights
  rw [h1']
  simp only []
  by_cases hlen : st.exit_nodes.length > 1
  · rw [if_pos hlen]
    refine ⟨_, rfl, ?_, ⟨h3.weight_func, h3.num_of_streams, h3.weighted_topology_ordering,
      h3.min_partition_threshold, h3.std_sort⟩, ?_⟩
    · exact ⟨h2.program, h2.paired, h2.untouched, h2.node, h2.partition_info_num⟩
    · show (st.sort_exit_nodes st.exit_nodes).Perm _
      rw [← h4']
      exact sort_exit_nodes_perm st (by rw [h3.std_sort]; exact hsrt) st.exit_nodes
  · rw [if_neg hlen]
    exact ⟨st, rfl, h2, h3, by rw [h4']⟩

end pre_scheduling_impl

/-- C6 (the claim as stated fails): on the chain `x → relu → tanh` with the
weight `2 ^ 30` for every operator, `compute_weights` stores for `relu` the
weight sum `-2 ^ 31`, whereas `weight(relu) + weight_sum(x)` is `2 ^ 31`: the
sum does not fit in the `int` it is stored in. -/
theorem C6_overflow_counterexample :
    ((pre_scheduling_impl.create heavy_chain_example heavy_weights 1 by_weight_sum 2
        stable_sort).compute_weights).map
      (fun st => ((st.nodes 0).weight_sum, (st.nodes 1).weight, (st.nodes 1).weight_sum,
        (st.nodes 1).weight + ∑ D ∈ (heavy_chain_example.ins 1).inputs.toFinset,
          (st.nodes D).weight_sum))
      = some (1073741824, 1073741824, -2147483648, 2147483648) := by
  rfl

/-- C6 (as amended): after `compute_weights` (on a program without repeated
references, listed def-before-use, for any `std::sort`), every instruction `I`
has the oracle's weight, and `weight_sum(I)` is the `int` in which
`weight(I) + Σ weight_sum(D)` is stored, the sum ranging over the set of
distinct instructions `D` among the inputs of `I`; it equals that sum whenever
the sum lies in the range of `int`. -/
theorem C6_weight_sum (p : program) (weight_func : String → Int × Bool)
    (num_of_streams : Nat) (wto : dag_node → dag_node → Bool) (thr : Int)
    (srt : std_sort_fn) (hsrt : std_sort_contract srt)
    (hnd : p.instructions.Nodup)
    (hdbu : ∀ v ∈ p.instructions, ∀ u ∈ (p.ins v).inputs, p.pos u < p.pos v) :
    ∃ st,
      (pre_scheduling_impl.create p weight_func num_of_streams wto thr srt).compute_weights = some st ∧
      ∀ I ∈ p.instructions,
        (st.nodes I).weight = (weight_func (p.ins I).name).1 ∧
        (st.nodes I).weight_sum
          = to_int ((st.nodes I).weight
              + ∑ D ∈ (p.ins I).inputs.toFinset, (st.nodes D).weight_sum) ∧
        (-2 ^ 31 ≤ (st.nodes I).weight + ∑ D ∈ (p.ins I).inputs.toFinset, (st.nodes D).weight_sum →
          (st.nodes I).weight + ∑ D ∈ (p.ins I).inputs.toFinset, (st.nodes D).weight_sum < 2 ^ 31 →
          (st.nodes I).weight_sum
            = (st.nodes I).weight
              + ∑ D ∈ (p.ins I).inputs.toFinset, (st.nodes D).weight_sum) := by
  obtain ⟨st, h1, h2, _, _⟩ :=
    pre_scheduling_impl.compute_weights_spec p weight_func num_of_streams wto thr srt hsrt hnd hdbu
  refine ⟨st, h1, ?_⟩
  intro I hI
  have h := h2.node I hI
  have hw : (st.nodes I).weight = (weight_func (p.ins I).name).1 := by rw [h]
  have hs : (st.nodes I).weight_sum
      = to_int ((st.nodes I).weight
          + ∑ D ∈ (p.ins I).inputs.toFinset, (st.nodes D).weight_sum) := by
    rw [hw]
    conv_lhs => rw [h]
  refine ⟨hw, hs, ?_⟩
  intro l1 l2
  rw [hs]
  exact to_int_of_range _ l1 l2

theorem C6_weight_sum_witness :
    ∃ st,
      (pre_scheduling_impl.create twice_example (fun _ => (3, false)) 1
        (fun _ _ => false) 2 stable_sort).compute_weights = some st ∧
      ∀ I ∈ twice_example.instructions,
        (st.nodes I).weight = ((fun _ => ((3 : Int), false)) (twice_example.ins I).name).1 ∧
        (st.nodes I).weight_sum
          = to_int ((st.nodes I).weight
              + ∑ D ∈ (twice_example.ins I).inputs.toFinset, (st.nodes D).weight_sum) ∧
        (-2 ^ 31 ≤ (st.nodes I).weight
            + ∑ D ∈ (twice_example.ins I).inputs.toFinset, (st.nodes D).weight_sum →
          (st.nodes I).weight
            + ∑ D ∈ (twice_example.ins I).inputs.toFinset, (st.nodes D).weight_sum < 2 ^ 31 →
          (st.nodes I).weight_sum
            = (st.nodes I).weight
              + ∑ D ∈ (twice_example.ins I).inputs.toFinset, (st.nodes D).weight_sum) :=
  C6_weight_sum twice_example (fun _ => (3, false)) 1 (fun _ _ => false) 2
    stable_sort stable_sort_contract (by decide) (by decide)

namespace pre_scheduling_impl

theorem same_node_weights_refl (n : dag_node) : same_node_weights n n :=
  ⟨rfl, rfl, rfl, rfl, rfl, rfl, rfl⟩

theorem same_node_weights_trans {a b c : dag_node} (h1 : same_node_weights a b)
    (h2 : same_node_weights b c) : same_node_weights a c := by
  obtain ⟨a1, a2, a3, a4, a5, a6, a7⟩ := h1
  obtain ⟨b1, b2, b3, b4, b5, b6, b7⟩ := h2
  exact ⟨b1.trans a1, b2.trans a2, b3.trans a3, b4.trans a4, b5.trans a5, b6.trans a6,
    b7.trans a7⟩

theorem same_params_refl (st : pre_scheduling_impl) : same_params st st :=
  ⟨rfl, rfl, rfl, rfl, rfl⟩

theorem same_params_trans {a b c : pre_scheduling_impl} (h1 : same_params a b)
    (h2 : same_params b c) : same_params a c :=
  ⟨h2.weight_func.trans h1.weight_func, h2.num_of_streams.trans h1.num_of_streams,
    h2.weighted_topology_ordering.trans h1.weighted_topology_ordering,
    h2.min_partition_threshold.trans h1.min_partition_threshold,
    h2.std_sort.trans h1.std_sort⟩

theorem dfs_rel_refl (st : pre_scheduling_impl) : dfs_rel st st :=
  ⟨rfl, same_params_refl st, rfl, rfl, fun _ => same_node_weights_refl _⟩

theorem dfs_rel_trans {a b c : pre_scheduling_impl} (h1 : dfs_rel a b) (h2 : dfs_rel b c) :
    dfs_rel a c :=
  ⟨h2.program.trans h1.program, same_params_trans h1.params h2.params,
    h2.instr2_node.trans h1.instr2_node, h2.exit_nodes.trans h1.exit_nodes,
    fun x => same_node_weights_trans (h1.nodes x) (h2.nodes x)⟩

theorem reorder_while_done (fuel : Nat) (st : pre_scheduling_impl) (loc : reorder_locals)
    (h : loc.stack = []) : reorder_while fuel st loc = some (st, loc) := by
  cases fuel <;> simp [reorder_while, h]

theorem reorder_while_step (fuel : Nat) (st : pre_scheduling_impl) (loc : reorder_locals)
    (cur : instruction_ref) (rest : List instruction_ref) (h : loc.stack = cur :: rest) :
    reorder_while (fuel + 1) st loc
      = reorder_while fuel (reorder_step st loc cur rest).1 (reorder_step st loc cur rest).2 := by
  simp [reorder_while, h]

/-- The children loop pushes the children in the order the queue hands them
out and writes partitions only. -/
theorem pop_children_spec (cur : instruction_ref) :
    ∀ (popped : List instruction_ref) (st : pre_scheduling_impl) (stack : List instruction_ref),
      (pop_children cur popped st stack).2 = popped.reverse ++ stack ∧
      dfs_rel st (pop_children cur popped st stack).1 ∧
      (0 ≤ st.partition_info.num_of_partition → 0 ≤ (st.nodes cur).partition →
        0 ≤ (pop_children cur popped st stack).1.partition_info.num_of_partition ∧
        (∀ y, 0 ≤ (st.nodes y).partition →
          0 ≤ ((pop_children cur popped st stack).1.nodes y).partition) ∧
        (∀ c ∈ popped, 0 ≤ ((pop_children cur popped st stack).1.nodes c).partition)) := by
  intro popped
  induction popped with
  | nil =>
    intro st stack
    refine ⟨by simp [pop_children], dfs_rel_refl st, ?_⟩
    intro h1 _
    exact ⟨h1, fun y hy => hy, fun c hc => by cases hc⟩
  | cons child rest ih =>
    intro st stack
    -- the state after the body of the loop for `child`
    obtain ⟨st1, hst1, hrel1, hpart1⟩ :
        ∃ st1 : pre_scheduling_impl,
          pop_children cur (child :: rest) st stack = pop_children cur rest st1 (child :: stack) ∧
          dfs_rel st st1 ∧
          (0 ≤ st.partition_info.num_of_partition → 0 ≤ (st.nodes cur).partition →
            0 ≤ st1.partition_info.num_of_partition ∧
            (∀ y, 0 ≤ (st.nodes y).partition → 0 ≤ (st1.nodes y).partition) ∧
            0 ≤ (st1.nodes child).partition) := by
      by_cases h1 : (st.nodes child).weight_sum < st.min_partition_threshold
      · refine ⟨_, by simp only [pop_children, if_pos h1]; rfl, ?_, ?_⟩
        · refine ⟨rfl, ⟨rfl, rfl, rfl, rfl, rfl⟩, rfl, rfl, ?_⟩
          intro y
          by_cases hx : y = child
          · subst hx; simp [same_node_weights]
          · simp [Function.update_noteq hx, same_node_weights]
        · intro hn hc
          refine ⟨hn, ?_, ?_⟩
          · intro y hy
            by_cases hx : y = child
            · subst hx; simpa using hc
            · simpa [Function.update_noteq hx] using hy
          · simpa using hc
      · by_cases h2 : (!rest.isEmpty) = true
        · refine ⟨_, by simp only [pop_children, if_neg h1, if_pos h2]; rfl, ?_, ?_⟩
          · refine ⟨rfl, ⟨rfl, rfl, rfl, rfl, rfl⟩, rfl, rfl, ?_⟩
            intro x
            by_cases hx : x = child
            · subst hx; simp [same_node_weights, dag_partition.create_partition]
            · simp [Function.update_noteq hx, same_node_weights]
          · intro hn hc
            refine ⟨?_, ?_, ?_⟩
            · simp [dag_partition.create_partition, dag_partition.add_weight]; omega
            · intro y hy
              by_cases hx : y = child
              · subst hx; simpa [dag_partition.create_partition] using hn
              · simpa [Function.update_noteq hx] using hy
            · simpa [dag_partition.create_partition] using hn
        · refine ⟨_, by simp only [pop_children, if_neg h1, if_neg h2]; rfl, ?_, ?_⟩
          · refine ⟨rfl, ⟨rfl, rfl, rfl, rfl, rfl⟩, rfl, rfl, ?_⟩
            intro x
            by_cases hx : x = child
            · subst hx; simp [same_node_weights]
              by_cases hc : x = cur
              · subst hc; simp
              · simp [Function.update_noteq hc]
            · by_cases hc : x = cur
              · subst hc; simp [Function.update_noteq hx, same_node_weights]
              · simp [Function.update_noteq hx, Function.update_noteq hc, same_node_weights]
          · intro hn hc
            have hcur : 0 ≤ ((Function.update st.nodes cur
                { st.nodes cur with first_child := some child }) cur).partition := by
              simpa using hc
            refine ⟨hn, ?_, ?_⟩
            · intro y hy
              by_cases hx : y = child
              · subst hx; simpa using hcur
              · by_cases hyc : y = cur
                · subst hyc; simpa [Function.update_noteq hx] using hy
                · simpa [Function.update_noteq hx, Function.update_noteq hyc] using hy
            · simpa using hcur
    rw [hst1]
    obtain ⟨i1, i2, i3⟩ := ih st1 (child :: stack)
    refine ⟨by rw [i1]; simp, dfs_rel_trans hrel1 i2, ?_⟩
    intro hn hc
    obtain ⟨p1, p2, p3⟩ := hpart1 hn hc
    obtain ⟨q1, q2, q3⟩ := i3 p1 (p2 cur hc)
    refine ⟨q1, fun y hy => q2 y (p2 y hy), ?_⟩
    intro c hcm
    rcases List.mem_cons.mp hcm with rfl | hcm
    · exact q2 _ p3
    · exact q3 c hcm

theorem sum_filter_update (f : Nat → Nat) (d : Nat → Bool) (x : Nat) :
    ∀ l : List Nat, l.Nodup → x ∈ l → d x = false →
      ((l.filter (fun y => !(Function.update d x true) y)).map f).sum + f x
        = ((l.filter (fun y => !d y)).map f).sum := by
  intro l
  induction l with
  | nil => intro _ h; cases h
  | cons a l ih =>
    intro hnd hx hd
    have hnd' := (List.nodup_cons.mp hnd)
    by_cases hax : a = x
    · subst hax
      have hnot : ∀ y ∈ l, (!(Function.update d a true) y) = !d y := by
        intro y hy
        have : y ≠ a := fun h => hnd'.1 (h ▸ hy)
        simp [Function.update_noteq this]
      have hf : l.filter (fun y => !(Function.update d a true) y) = l.filter (fun y => !d y) :=
        List.filter_congr hnot
      simp [List.filter_cons, hd, hf]
      omega
    · have hxl : x ∈ l := by
        rcases List.mem_cons.mp hx with h | h
        · exact absurd h.symm hax
        · exact h
      have := ih hnd'.2 hxl hd
      by_cases hda : d a = true
      · simp [List.filter_cons, Function.update_noteq hax, hda]
        simpa using this
      · simp [List.filter_cons, Function.update_noteq hax, hda]
        simp at this
        omega

theorem dfs_potential_congr (p : program) (loc loc' : reorder_locals)
    (h : loc'.dequeued = loc.dequeued) : dfs_potential p loc' = dfs_potential p loc := by
  unfold dfs_potential; rw [h]

theorem dfs_potential_dequeue (p : program) (loc loc' : reorder_locals) (x : instruction_ref)
    (hnd : p.instructions.Nodup) (hx : x ∈ p.instructions) (hd : loc.dequeued x = false)
    (h : loc'.dequeued = Function.update loc.dequeued x true) :
    dfs_potential p loc' + (2 + (p.ins x).inputs.length) = dfs_potential p loc := by
  unfold dfs_potential
  rw [h]
  exact sum_filter_update (fun y => 2 + (p.ins y).inputs.length) loc.dequeued x p.instructions
    hnd hx hd

theorem dfs_potential_le (p : program) (loc : reorder_locals) :
    1 + dfs_potential p loc ≤ reorder_fuel p := by
  unfold dfs_potential reorder_fuel
  have : ∀ l : List Nat, ((l.filter (fun y => !loc.dequeued y)).map
      (fun y => 2 + (p.ins y).inputs.length)).sum
        ≤ (l.map (fun r => 2 + (p.ins r).inputs.length)).sum := by
    intro l
    induction l with
    | nil => simp
    | cons a l ih =>
      by_cases h : loc.dequeued a = true
      · simp only [List.filter_cons, h, Bool.not_true, List.map_cons, List.sum_cons]
        simp only [Bool.false_eq_true, if_false]
        omega
      · have h' : loc.dequeued a = false := by simpa using h
        simp only [List.filter_cons, h', Bool.not_false, if_true, List.map_cons, List.sum_cons]
        omega
  have := this p.instructions
  omega

theorem dfs_run_weaken {p : program} {n n' : Nat} {st st' : pre_scheduling_impl}
    {loc loc' : reorder_locals} {k : Nat} (h : dfs_run p n st loc st' loc' k) (hn : n ≤ n') :
    dfs_run p n' st loc st' loc' k :=
  ⟨h.steps, h.rel, h.topo, h.part, h.mono, h.vmono,
    fun y h1 h2 => lt_of_lt_of_le (h.bound y h1 h2) hn⟩

theorem dfs_run_trans {p : program} {n : Nat} {st st1 st2 : pre_scheduling_impl}
    {loc loc1 loc2 : reorder_locals} {k1 k2 : Nat}
    (h1 : dfs_run p n st loc st1 loc1 k1) (h2 : dfs_run p n st1 loc1 st2 loc2 k2) :
    dfs_run p n st loc st2 loc2 (k2 + k1) := by
  refine ⟨?_, dfs_rel_trans h1.rel h2.rel, h2.topo, h2.part,
    fun y hy => h2.mono y (h1.mono y hy), fun y hy => h2.vmono y (h1.vmono y hy), ?_⟩
  · intro fuel
    rw [← Nat.add_assoc, h1.steps, h2.steps]
  · intro y hy2 hy
    by_cases hy1 : loc1.dequeued y = true
    · exact h1.bound y hy1 hy
    · exact h2.bound y hy2 (by simpa using hy1)

theorem no_new_open_trans {loc loc1 loc2 : reorder_locals} (h1 : no_new_open loc loc1)
    (h2 : no_new_open loc1 loc2) : no_new_open loc loc2 := by
  intro z hv hd
  obtain ⟨a, b⟩ := h2 z hv hd
  exact h1 z a b

/-- Popping a node that is already dequeued. -/
theorem dfs_run_pop (p : program) (n : Nat) (st : pre_scheduling_impl) (loc : reorder_locals)
    (x : instruction_ref) (rest : List instruction_ref) (hstack : loc.stack = x :: rest)
    (htopo : topo_inv p loc) (hpart : part_ok st loc) (hd : loc.dequeued x = true) :
    dfs_run p n st loc st { loc with stack := rest } 1 := by
  refine ⟨?_, dfs_rel_refl st, ⟨htopo.nodup, htopo.dequeued, htopo.mem, htopo.inputs_first⟩,
    ?_, fun y hy => hy, fun y hy => hy, ?_⟩
  · intro fuel
    rw [reorder_while_step fuel st loc x rest hstack]
    simp [reorder_step, hd]
  · refine ⟨hpart.1, ?_⟩
    intro y hy
    apply hpart.2
    rcases hy with hy | hy
    · left; rw [hstack]; exact List.mem_cons_of_mem _ hy
    · right; exact hy
  · intro y h1 h2
    simp only at h1
    rw [h1] at h2; cases h2

/-- Emitting the node on top of the stack once all its inputs are dequeued. -/
theorem dfs_run_emit (p : program) (n : Nat) (st : pre_scheduling_impl) (loc : reorder_locals)
    (x : instruction_ref) (rest : List instruction_ref) (hp : st.p_program = p)
    (hstack : loc.stack = x :: rest)
    (htopo : topo_inv p loc) (hpart : part_ok st loc) (hx : x ∈ p.instructions)
    (hpos : p.pos x < n) (hd : loc.dequeued x = false)
    (hv : loc.visited x = true ∨ (p.ins x).inputs = [])
    (hin : ∀ u ∈ (p.ins x).inputs, loc.dequeued u = true) :
    dfs_run p n st loc st
      { loc with stack := rest, sorted_nodes := loc.sorted_nodes ++ [x],
                 dequeued := Function.update loc.dequeued x true } 1 := by
  have hxs : x ∉ loc.sorted_nodes := by
    intro h
    have := (htopo.dequeued x).mpr h
    rw [hd] at this; cases this
  refine ⟨?_, dfs_rel_refl st, ⟨?_, ?_, ?_, ?_⟩, ?_, ?_, fun y hy => hy, ?_⟩
  · intro fuel
    rw [reorder_while_step fuel st loc x rest hstack]
    have hcond : (loc.visited x || (st.p_program.ins x).inputs.isEmpty) = true := by
      rcases hv with hv | hv
      · simp [hv]
      · simp [hp, hv]
    simp [reorder_step, hd, hcond]
  · exact List.nodup_append.mpr ⟨htopo.nodup, List.nodup_singleton x, by
      intro a ha hb
      rw [List.mem_singleton] at hb
      exact hxs (hb ▸ ha)⟩
  · intro y
    by_cases hy : y = x
    · subst hy; simp
    · simp only [Function.update_noteq hy, List.mem_append, List.mem_singleton, hy, or_false]
      exact htopo.dequeued y
  · intro y hy
    rcases List.mem_append.mp hy with hy | hy
    · exact htopo.mem y hy
    · rw [List.mem_singleton.mp hy]; exact hx
  · intro y hy u hu
    rcases List.mem_append.mp hy with hy | hy
    · have hlt := htopo.inputs_first y hy u hu
      have hum : u ∈ loc.sorted_nodes :=
        List.indexOf_lt_length.mp (lt_trans hlt (List.indexOf_lt_length.mpr hy))
      rw [List.indexOf_append_of_mem hum, List.indexOf_append_of_mem hy]
      exact hlt
    · have hyx : y = x := List.mem_singleton.mp hy
      subst hyx
      have hum : u ∈ loc.sorted_nodes := (htopo.dequeued u).mp (hin u hu)
      rw [List.indexOf_append_of_mem hum, List.indexOf_append_of_not_mem hxs,
        List.indexOf_cons_self]
      have := List.indexOf_lt_length.mpr hum
      omega
  · refine ⟨hpart.1, ?_⟩
    intro y hy
    apply hpart.2
    by_cases hyx : y = x
    · left; rw [hstack, hyx]; exact List.mem_cons_self _ _
    · rcases hy with hy | hy
      · left; rw [hstack]; exact List.mem_cons_of_mem _ hy
      · right; simpa [Function.update_noteq hyx] using hy
  · intro y hy
    by_cases hyx : y = x
    · subst hyx; simp
    · simpa [Function.update_noteq hyx] using hy
  · intro y h1 h2
    by_cases hyx : y = x
    · rw [hyx]; exact hpos
    · simp only [Function.update_noteq hyx] at h1
      rw [h1] at h2; cases h2

theorem pq_pop_all_perm {α : Type} (comp : α → α → Bool) (l : List α) :
    (pq_pop_all comp l).Perm l := List.perm_insertionSort _ l

/-- Visiting the node on top of the stack: its inputs that are not yet dequeued
are pushed above it. -/
theorem dfs_run_visit (p : program) (n : Nat) (st : pre_scheduling_impl) (loc : reorder_locals)
    (x : instruction_ref) (rest : List instruction_ref) (hp : st.p_program = p)
    (hstack : loc.stack = x :: rest)
    (htopo : topo_inv p loc) (hpart : part_ok st loc)
    (hd : loc.dequeued x = false) (hv : loc.visited x = false)
    (hin : (p.ins x).inputs ≠ []) :
    ∃ (st1 : pre_scheduling_impl) (loc1 : reorder_locals) (ys : List instruction_ref),
      dfs_run p n st loc st1 loc1 1 ∧ loc1.stack = ys ++ x :: rest ∧
      loc1.visited = Function.update loc.visited x true ∧
      loc1.dequeued = loc.dequeued ∧
      (∀ y, y ∈ ys ↔ (y ∈ (p.ins x).inputs ∧ loc.dequeued y = false)) ∧
      ys.length ≤ (p.ins x).inputs.length := by
  let pushed := (p.ins x).inputs.filter (fun arg => !loc.dequeued arg)
  let popped := pq_pop_all
      (fun a b => st.weighted_topology_ordering (st.nodes a) (st.nodes b)) pushed
  have hperm : popped.Perm pushed := pq_pop_all_perm _ _
  obtain ⟨h1, h2, h3⟩ := pop_children_spec x popped st (x :: rest)
  have hstep : reorder_step st loc x rest =
      ((pop_children x popped st (x :: rest)).1,
        { loc with stack := (pop_children x popped st (x :: rest)).2,
                   visited := Function.update loc.visited x true }) := by
    have hne : (p.ins x).inputs.isEmpty = false := by
      cases hi : (p.ins x).inputs with
      | nil => exact absurd hi hin
      | cons a l => rfl
    simp only [reorder_step, hd, hv, hp, hne, Bool.false_eq_true, if_false, Bool.or_self]
  have hxpart : 0 ≤ (st.nodes x).partition :=
    hpart.2 x (Or.inl (by rw [hstack]; exact List.mem_cons_self _ _))
  obtain ⟨q1, q2, q3⟩ := h3 hpart.1 hxpart
  refine ⟨(pop_children x popped st (x :: rest)).1,
    { loc with stack := (pop_children x popped st (x :: rest)).2,
               visited := Function.update loc.visited x true },
    popped.reverse, ⟨?_, h2, ⟨htopo.nodup, htopo.dequeued, htopo.mem, htopo.inputs_first⟩,
      ⟨q1, ?_⟩, fun y hy => hy, ?_, ?_⟩, h1, rfl, rfl, ?_, ?_⟩
  · intro fuel
    rw [reorder_while_step fuel st loc x rest hstack, hstep]
  · intro y hy
    simp only [h1] at hy
    rcases hy with hy | hy
    · rcases List.mem_append.mp hy with hy | hy
      · exact q3 y (List.mem_reverse.mp hy)
      · exact q2 y (hpart.2 y (Or.inl (hstack ▸ hy)))
    · exact q2 y (hpart.2 y (Or.inr hy))
  · intro y hy
    by_cases hyx : y = x
    · subst hyx; simp
    · simpa [Function.update_noteq hyx] using hy
  · intro y h1 h2
    simp only at h1
    rw [h1] at h2; cases h2
  · intro y
    rw [List.mem_reverse, hperm.mem_iff]
    simp [pushed, List.mem_filter]
  · rw [List.length_reverse, hperm.length_eq]
    exact List.length_filter_le _ _

theorem dfs_list (p : program) (m : Nat)
    (ih : ∀ y, y ∈ p.instructions → p.pos y < m → dfs_node_ok p y) :
    ∀ (ys : List instruction_ref) (st : pre_scheduling_impl) (loc : reorder_locals)
      (rest : List instruction_ref),
      (∀ y ∈ ys, y ∈ p.instructions ∧ p.pos y < m) →
      st.p_program = p → loc.stack = ys ++ rest → topo_inv p loc → part_ok st loc →
      (∀ z, loc.visited z = true → loc.dequeued z = false → m ≤ p.pos z) →
      ∃ (k : Nat) (st' : pre_scheduling_impl) (loc' : reorder_locals),
        dfs_run p m st loc st' loc' k ∧ loc'.stack = rest ∧
        (∀ y ∈ ys, loc'.dequeued y = true) ∧ no_new_open loc loc' ∧
        k + dfs_potential p loc' ≤ ys.length + dfs_potential p loc := by
  intro ys
  induction ys with
  | nil =>
    intro st loc rest _ _ hstack htopo hpart _
    refine ⟨0, st, loc, ⟨fun fuel => rfl, dfs_rel_refl st, htopo, hpart, fun y hy => hy,
      fun y hy => hy, ?_⟩, by simpa using hstack, (fun y hy => by cases hy),
      (fun z h1 h2 => ⟨h1, h2⟩), by simp⟩
    intro y h1 h2
    rw [h1] at h2; cases h2
  | cons y ys ihl =>
    intro st loc rest hys hp hstack htopo hpart hopen
    obtain ⟨hym, hypos⟩ := hys y (List.mem_cons_self _ _)
    obtain ⟨k1, st1, loc1, r1, s1, d1, o1, pot1⟩ :=
      ih y hym hypos st loc (ys ++ rest) hp (by simpa using hstack) htopo hpart
        (fun z hv hd => lt_of_lt_of_le hypos (hopen z hv hd))
    have r1' := dfs_run_weaken r1 (Nat.succ_le_of_lt hypos)
    obtain ⟨k2, st2, loc2, r2, s2, d2, o2, pot2⟩ :=
      ihl st1 loc1 rest (fun z hz => hys z (List.mem_cons_of_mem _ hz))
        (r1.rel.program.trans hp) s1 r1.topo r1.part
        (fun z hv hd => by
          obtain ⟨a, b⟩ := o1 z hv hd
          exact hopen z a b)
    refine ⟨k2 + k1, st2, loc2, dfs_run_trans r1' r2, s2, ?_, no_new_open_trans o1 o2, ?_⟩
    · intro z hz
      rcases List.mem_cons.mp hz with rfl | hz
      · exact r2.mono _ d1
      · exact d2 z hz
    · simp only [List.length_cons]
      omega

theorem dfs_node (p : program) (hnd : p.instructions.Nodup)
    (hdbu : ∀ v ∈ p.instructions, ∀ u ∈ (p.ins v).inputs, p.pos u < p.pos v) :
    ∀ (m : Nat) (x : instruction_ref), p.pos x = m → x ∈ p.instructions → dfs_node_ok p x := by
  intro m
  induction m using Nat.strong_induction_on with
  | _ m ih =>
    intro x hxm hx st loc rest hp hstack htopo hpart hopen
    by_cases hd : loc.dequeued x = true
    · -- already dequeued: pop
      refine ⟨1, st, { loc with stack := rest },
        dfs_run_pop p _ st loc x rest hstack htopo hpart hd, rfl, hd,
        fun z h1 h2 => ⟨h1, h2⟩, ?_⟩
      rw [dfs_potential_congr p { loc with stack := rest } loc rfl]
    · have hd' : loc.dequeued x = false := by simpa using hd
      have hv : loc.visited x = false := by
        by_contra hv
        have := hopen x (by simpa using hv) hd'
        omega
      by_cases hin : (p.ins x).inputs = []
      · -- a node without inputs: emit
        refine ⟨1, st, _, dfs_run_emit p _ st loc x rest hp hstack htopo hpart hx
          (Nat.lt_succ_self _) hd' (Or.inr hin) (by rw [hin]; intro u hu; cases hu), rfl,
          by simp, ?_, ?_⟩
        · intro z h1 h2
          refine ⟨h1, ?_⟩
          by_cases hzx : z = x
          · subst hzx; exact hd'
          · simpa [Function.update_noteq hzx] using h2
        · have := dfs_potential_dequeue p loc
            { loc with stack := rest, sorted_nodes := loc.sorted_nodes ++ [x],
                       dequeued := Function.update loc.dequeued x true } x hnd hx hd' rfl
          omega
      · -- visit, process the pushed inputs, emit
        obtain ⟨st1, loc1, ys, r1, s1, v1, q1, hys, hlen⟩ :=
          dfs_run_visit p (p.pos x + 1) st loc x rest hp hstack htopo hpart hd' hv hin
        have hys' : ∀ y ∈ ys, y ∈ p.instructions ∧ p.pos y < m := by
          intro y hy
          have hyin := ((hys y).mp hy).1
          have hlt := hdbu x hx y hyin
          refine ⟨?_, hxm ▸ hlt⟩
          exact List.indexOf_lt_length.mp
            (lt_trans hlt (List.indexOf_lt_length.mpr hx))
        have hopen1 : ∀ z, loc1.visited z = true → loc1.dequeued z = false → m ≤ p.pos z := by
          intro z hvz hdz
          rw [q1] at hdz
          by_cases hzx : z = x
          · rw [hzx, hxm]
          · rw [v1, Function.update_noteq hzx] at hvz
            have := hopen z hvz hdz
            omega
        obtain ⟨k2, st2, loc2, r2, s2, d2, o2, pot2⟩ :=
          dfs_list p m (fun y hy hlt => ih (p.pos y) hlt y rfl hy) ys st1 loc1 (x :: rest) hys'
            (r1.rel.program.trans hp) s1 r1.topo r1.part hopen1
        have hp2 : st2.p_program = p := r2.rel.program.trans (r1.rel.program.trans hp)
        have hd2 : loc2.dequeued x = false := by
          by_contra h
          have h' : loc2.dequeued x = true := by simpa using h
          have := r2.bound x h' (by rw [q1]; exact hd')
          omega
        have hv2 : loc2.visited x = true := r2.vmono x (by rw [v1]; simp)
        have hin2 : ∀ u ∈ (p.ins x).inputs, loc2.dequeued u = true := by
          intro u hu
          by_cases hdu : loc.dequeued u = true
          · exact r2.mono u (by rw [q1]; exact hdu)
          · exact d2 u ((hys u).mpr ⟨hu, by simpa using hdu⟩)
        have r3 := dfs_run_emit p (p.pos x + 1) st2 loc2 x rest hp2 s2 r2.topo r2.part hx
          (Nat.lt_succ_self _) hd2 (Or.inl hv2) hin2
        have r2' := dfs_run_weaken r2 (show m ≤ p.pos x + 1 by omega)
        refine ⟨1 + (k2 + 1), st2, _, dfs_run_trans (dfs_run_trans r1 r2') r3, rfl, by simp,
          ?_, ?_⟩
        · intro z h1 h2
          have hzx : z ≠ x := by
            intro h; subst h; simp at h2
          have h2' : loc2.dequeued z = false := by
            simpa [Function.update_noteq hzx] using h2
          obtain ⟨a, b⟩ := o2 z h1 h2'
          rw [v1, Function.update_noteq hzx] at a
          rw [q1] at b
          exact ⟨a, b⟩
        · have e1 := dfs_potential_dequeue p loc2
            { loc2 with stack := rest, sorted_nodes := loc2.sorted_nodes ++ [x],
                        dequeued := Function.update loc2.dequeued x true } x hnd hx hd2 rfl
          have e2 := dfs_potential_congr p loc loc1 q1
          omega

theorem reorder_exits_spec (p : program) (hnd : p.instructions.Nodup)
    (hdbu : ∀ v ∈ p.instructions, ∀ u ∈ (p.ins v).inputs, p.pos u < p.pos v) :
    ∀ (exits : List instruction_ref) (st : pre_scheduling_impl) (loc : reorder_locals),
      (∀ e ∈ exits, e ∈ p.instructions) → st.p_program = p → loc.stack = [] →
      topo_inv p loc → part_ok st loc →
      (∀ z, loc.visited z = true → loc.dequeued z = true) →
      ∃ (st' : pre_scheduling_impl) (loc' : reorder_locals),
        reorder_exits exits st loc = some (st', loc') ∧ dfs_rel st st' ∧ topo_inv p loc' ∧
        part_ok st' loc' ∧ (∀ e ∈ exits, loc'.dequeued e = true) ∧
        (∀ y, loc.dequeued y = true → loc'.dequeued y = true) := by
  intro exits
  induction exits with
  | nil =>
    intro st loc _ _ _ htopo hpart _
    exact ⟨st, loc, rfl, dfs_rel_refl st, htopo, hpart, (fun e he => by cases he), (fun y hy => hy)⟩
  | cons node exits ih =>
    intro st loc hex hp hstack htopo hpart hclosed
    have hnode : node ∈ p.instructions := hex node (List.mem_cons_self _ _)
    let loc0 : reorder_locals := { loc with stack := node :: loc.stack }
    let st0 : pre_scheduling_impl :=
      { st with
        partition_info :=
          (st.partition_info.create_partition.1).add_weight
            (Function.update st.nodes node
              { st.nodes node with partition := st.partition_info.create_partition.2 } node)
        nodes := Function.update st.nodes node
              { st.nodes node with partition := st.partition_info.create_partition.2 } }
    have hunf : reorder_exits (node :: exits) st loc =
        match reorder_while (reorder_fuel st0.p_program) st0 loc0 with
        | none => none
        | some r => reorder_exits exits r.1 r.2 := rfl
    have hrel0 : dfs_rel st st0 := by
      refine ⟨rfl, ⟨rfl, rfl, rfl, rfl, rfl⟩, rfl, rfl, ?_⟩
      intro x
      by_cases hx : x = node
      · subst hx; simp [st0, same_node_weights]
      · simp [st0, Function.update_noteq hx, same_node_weights]
    have hpart0 : part_ok st0 loc0 := by
      refine ⟨?_, ?_⟩
      · have := hpart.1
        simp [st0, dag_partition.create_partition, dag_partition.add_weight]; omega
      · intro y hy
        by_cases hyn : y = node
        · subst hyn
          simpa [st0, dag_partition.create_partition] using hpart.1
        · have : 0 ≤ (st.nodes y).partition := by
            apply hpart.2
            rcases hy with hy | hy
            · simp only [loc0, hstack, List.mem_singleton] at hy
              exact absurd hy hyn
            · exact Or.inr hy
          simpa [st0, Function.update_noteq hyn] using this
    have htopo0 : topo_inv p loc0 :=
      ⟨htopo.nodup, htopo.dequeued, htopo.mem, htopo.inputs_first⟩
    obtain ⟨k, st1, loc1, r1, s1, d1, o1, pot1⟩ :=
      dfs_node p hnd hdbu (p.pos node) node rfl hnode st0 loc0 [] hp
        (by simp [loc0, hstack]) htopo0 hpart0
        (fun z hv hd => by
          have := hclosed z hv
          rw [this] at hd; cases hd)
    have hfuel : k ≤ reorder_fuel st0.p_program := by
      have := dfs_potential_le p loc0
      have hp0 : st0.p_program = p := hp
      rw [hp0]; omega
    have hrun : reorder_while (reorder_fuel st0.p_program) st0 loc0 = some (st1, loc1) := by
      have := r1.steps (reorder_fuel st0.p_program - k)
      rw [Nat.sub_add_cancel hfuel] at this
      rw [this, reorder_while_done _ _ _ s1]
    have hclosed1 : ∀ z, loc1.visited z = true → loc1.dequeued z = true := by
      intro z hv
      by_contra hd
      obtain ⟨a, b⟩ := o1 z hv (by simpa using hd)
      have := hclosed z a
      rw [this] at b; cases b
    obtain ⟨st2, loc2, e2, rel2, topo2, part2, d2, m2⟩ :=
      ih st1 loc1 (fun e he => hex e (List.mem_cons_of_mem _ he))
        (r1.rel.program.trans hp) s1 r1.topo r1.part hclosed1
    refine ⟨st2, loc2, ?_, dfs_rel_trans (dfs_rel_trans hrel0 r1.rel) rel2, topo2, part2, ?_, ?_⟩
    · rw [hunf, hrun]; exact e2
    · intro e he
      rcases List.mem_cons.mp he with rfl | he
      · exact m2 _ d1
      · exact d2 e he
    · intro y hy
      exact m2 y (r1.mono y hy)

/-- In a well-formed program every instruction is reached from an instruction
without outputs, so closing the exits under inputs covers the program. -/
theorem covers_of_exits (p : program) (hwf : p.well_formed) (loc : reorder_locals)
    (htopo : topo_inv p loc)
    (hex : ∀ e ∈ p.instructions, (p.ins e).outputs.isEmpty = true → loc.dequeued e = true) :
    ∀ x ∈ p.instructions, loc.dequeued x = true := by
  obtain ⟨hnd, hdbu, _, hout⟩ := hwf
  have key : ∀ (d : Nat) (x : instruction_ref), x ∈ p.instructions →
      p.instructions.length - p.pos x = d → loc.dequeued x = true := by
    intro d
    induction d using Nat.strong_induction_on with
    | _ d ih =>
      intro x hx hd
      cases ho : (p.ins x).outputs with
      | nil => exact hex x hx (by simp [ho])
      | cons v vs =>
        have hv : v ∈ (p.ins x).outputs := by rw [ho]; exact List.mem_cons_self _ _
        obtain ⟨hvm, hxv⟩ := hout x hx v hv
        have hlt := hdbu v hvm x hxv
        have hvl : p.pos v < p.instructions.length := List.indexOf_lt_length.mpr hvm
        have hvd := ih (p.instructions.length - p.pos v) (by omega) v hvm rfl
        have hvs := (htopo.dequeued v).mp hvd
        have := htopo.inputs_first v hvs x hxv
        exact (htopo.dequeued x).mpr
          (List.indexOf_lt_length.mp (lt_trans this (List.indexOf_lt_length.mpr hvs)))
  intro x hx
  exact key _ x hx rfl

/-- The weighted topological sort of `reorder`, run on the state that
`compute_weights` leaves, terminates and emits every instruction of a
well-formed program exactly once, after all of its inputs. -/
theorem weighted_topological_sort_spec (p : program) (hwf : p.well_formed)
    (st : pre_scheduling_impl) (hp : st.p_program = p)
    (hnum : 0 ≤ st.partition_info.num_of_partition)
    (hexits : st.exit_nodes.Perm (p.instructions.filter (fun x => (p.ins x).outputs.isEmpty))) :
    ∃ (st' : pre_scheduling_impl) (loc' : reorder_locals),
      reorder_exits st.exit_nodes st {} = some (st', loc') ∧ dfs_rel st st' ∧
      loc'.sorted_nodes.Perm p.instructions ∧ loc'.sorted_nodes.Nodup ∧
      (∀ x ∈ loc'.sorted_nodes, ∀ u ∈ (p.ins x).inputs,
        loc'.sorted_nodes.indexOf u < loc'.sorted_nodes.indexOf x) ∧
      (∀ x ∈ p.instructions, 0 ≤ (st'.nodes x).partition) := by
  have hnd := hwf.1
  have hdbu := hwf.2.1
  have hexm : ∀ e ∈ st.exit_nodes, e ∈ p.instructions := by
    intro e he
    exact (List.mem_filter.mp (hexits.mem_iff.mp he)).1
  have htopo0 : topo_inv p ({} : reorder_locals) :=
    ⟨List.nodup_nil, (fun x => by simp), (fun x hx => by cases hx), (fun x hx => by cases hx)⟩
  have hpart0 : part_ok st ({} : reorder_locals) :=
    ⟨hnum, (fun x hx => by rcases hx with hx | hx <;> simp at hx)⟩
  obtain ⟨st', loc', e, rel, topo, part, dex, _⟩ :=
    reorder_exits_spec p hnd hdbu st.exit_nodes st {} hexm hp rfl htopo0 hpart0
      (fun z hz => by simp at hz)
  have hall : ∀ x ∈ p.instructions, loc'.dequeued x = true := by
    apply covers_of_exits p hwf loc' topo
    intro x hx ho
    exact dex x (hexits.mem_iff.mpr (List.mem_filter.mpr ⟨hx, ho⟩))
  refine ⟨st', loc', e, rel, ?_, topo.nodup, topo.inputs_first, ?_⟩
  · rw [List.perm_ext_iff_of_nodup topo.nodup hnd]
    intro a
    exact ⟨fun h => topo.mem a h, fun h => (topo.dequeued a).mp (hall a h)⟩
  · intro x hx
    exact part.2 x (Or.inr (hall x hx))

theorem same_graph_refl (p : program) : same_graph p p :=
  ⟨rfl, rfl, fun _ => ⟨rfl, rfl, rfl, rfl, rfl⟩⟩

theorem same_graph_trans {a b c : program} (h1 : same_graph a b) (h2 : same_graph b c) :
    same_graph a c := by
  obtain ⟨a1, a2, a3⟩ := h1
  obtain ⟨b1, b2, b3⟩ := h2
  refine ⟨b1.trans a1, b2.trans a2, fun r => ?_⟩
  obtain ⟨c1, c2, c3, c4, c5⟩ := a3 r
  obtain ⟨d1, d2, d3, d4, d5⟩ := b3 r
  exact ⟨d1.trans c1, d2.trans c2, d3.trans c3, d4.trans c4, d5.trans c5⟩

/-- Overwriting an instruction with one that differs in stream or mask only
keeps the graph. -/
theorem same_graph_set (p : program) (r : instruction_ref) (i : instruction)
    (h : i.op = (p.ins r).op ∧ i.result = (p.ins r).result ∧ i.output = (p.ins r).output ∧
      i.arguments = (p.ins r).arguments ∧ i.lit = (p.ins r).lit) :
    same_graph p (p.set r i) := by
  refine ⟨rfl, rfl, fun x => ?_⟩
  by_cases hx : x = r
  · subst hx; simpa [program.set] using h
  · simp [program.set, Function.update_noteq hx]

theorem add_mask_fields (i : instruction) (m : Nat) :
    (i.add_mask m).op = i.op ∧ (i.add_mask m).result = i.result ∧
    (i.add_mask m).output = i.output ∧ (i.add_mask m).arguments = i.arguments ∧
    (i.add_mask m).lit = i.lit ∧ (i.add_mask m).stream = i.stream := by
  unfold instruction.add_mask
  split <;> simp

theorem mark_events_graph (node : instruction_ref) (stream : Int) :
    ∀ (args : List instruction_ref) (p : program),
      same_graph p (mark_events node stream args p) := by
  intro args
  induction args with
  | nil => intro p; exact same_graph_refl p
  | cons a rest ih =>
    intro p
    unfold mark_events
    simp only []
    split
    · exact ih p
    · refine same_graph_trans
        (same_graph_trans (b := p.set a ((p.ins a).add_mask RECORD_EVENT)) ?_ ?_) (ih _)
      · apply same_graph_set
        obtain ⟨h1, h2, h3, h4, h5, _⟩ := add_mask_fields (p.ins a) RECORD_EVENT
        exact ⟨h1, h2, h3, h4, h5⟩
      · apply same_graph_set
        obtain ⟨h1, h2, h3, h4, h5, _⟩ :=
          add_mask_fields ((p.set a ((p.ins a).add_mask RECORD_EVENT)).ins node) WAIT_EVENT
        exact ⟨h1, h2, h3, h4, h5⟩

/-- The loop of `record` over the outputs raises their `earliest_cycle` and
nothing else. -/
theorem raise_earliest_spec (next_cycle : Int) :
    ∀ (args : List instruction_ref) (st : pre_scheduling_impl),
      (∀ a ∈ args, st.instr2_node a = true) →
      ∃ st', raise_earliest next_cycle args st = some st' ∧
        st'.p_program = st.p_program ∧ same_params st st' ∧
        st'.instr2_node = st.instr2_node ∧ st'.exit_nodes = st.exit_nodes ∧
        st'.partition_info = st.partition_info ∧
        (∀ y, same_node_static (st.nodes y) (st'.nodes y) ∧
          (st'.nodes y).sched_cycle = (st.nodes y).sched_cycle ∧
          (st'.nodes y).stream = (st.nodes y).stream ∧
          (st.nodes y).earliest_cycle ≤ (st'.nodes y).earliest_cycle) ∧
        (∀ a ∈ args, next_cycle ≤ (st'.nodes a).earliest_cycle) := by
  intro args
  induction args with
  | nil =>
    intro st _
    exact ⟨st, rfl, rfl, same_params_refl st, rfl, rfl, rfl,
      (fun y => ⟨⟨rfl, rfl, rfl, rfl, rfl, rfl⟩, rfl, rfl, le_refl _⟩),
      (fun a ha => by cases ha)⟩
  | cons a rest ih =>
    intro st h
    have ha := h a (List.mem_cons_self _ _)
    unfold raise_earliest
    rw [if_pos ha]
    simp only []
    let n1 : dag_node :=
      { st.nodes a with earliest_cycle := max (st.nodes a).earliest_cycle next_cycle }
    obtain ⟨st', e, q1, q2, q3, q4, q5, q6, q7⟩ :=
      ih { st with nodes := Function.update st.nodes a n1 }
        (fun b hb => h b (List.mem_cons_of_mem _ hb))
    have hstep : ∀ y, same_node_static (st.nodes y) ((Function.update st.nodes a n1) y) ∧
        ((Function.update st.nodes a n1) y).sched_cycle = (st.nodes y).sched_cycle ∧
        ((Function.update st.nodes a n1) y).stream = (st.nodes y).stream ∧
        (st.nodes y).earliest_cycle ≤ ((Function.update st.nodes a n1) y).earliest_cycle := by
      intro y
      by_cases hy : y = a
      · subst hy
        simp [same_node_static, n1]
      · simp [Function.update_noteq hy, same_node_static]
    refine ⟨st', e, q1, ⟨q2.weight_func, q2.num_of_streams, q2.weighted_topology_ordering,
      q2.min_partition_threshold, q2.std_sort⟩, q3, q4, q5, ?_, ?_⟩
    · intro y
      obtain ⟨⟨a1, a2, a3, a4, a5, a6⟩, b, c, d⟩ := q6 y
      obtain ⟨⟨a1', a2', a3', a4', a5', a6'⟩, b', c', d'⟩ := hstep y
      exact ⟨⟨a1.trans a1', a2.trans a2', a3.trans a3', a4.trans a4', a5.trans a5',
        a6.trans a6'⟩, b.trans b', c.trans c', le_trans d' d⟩
    · intro b hb
      rcases List.mem_cons.mp hb with rfl | hb
      · refine le_trans ?_ (q6 b).2.2.2
        simp [n1]
      · exact q7 b hb

theorem record_spec (st : pre_scheduling_impl) (info : stream_info) (node : instruction_ref)
    (hpaired : ∀ v ∈ (st.p_program.ins node).outputs, st.instr2_node v = true) :
    ∃ (st' : pre_scheduling_impl) (info' : stream_info),
      st.record info node = some (st', info') ∧
      same_graph st.p_program st'.p_program ∧ same_params st st' ∧
      st'.instr2_node = st.instr2_node ∧
      (∀ y, same_node_static (st.nodes y) (st'.nodes y) ∧
        (st'.nodes y).stream = (st.nodes y).stream ∧
        (st.nodes y).earliest_cycle ≤ (st'.nodes y).earliest_cycle) ∧
      (∀ y, y ≠ node → (st'.nodes y).sched_cycle = (st.nodes y).sched_cycle) ∧
      (st.nodes node).earliest_cycle ≤ (st'.nodes node).sched_cycle ∧
      (∀ v ∈ (st.p_program.ins node).outputs,
        to_int ((st'.nodes node).sched_cycle + (st'.nodes node).weight)
          ≤ (st'.nodes v).earliest_cycle) := by
  let sched : Int := max (st.nodes node).earliest_cycle
    (info.next_cycles (st.nodes node).stream.toNat)
  let n1 : dag_node := { st.nodes node with sched_cycle := sched }
  let st1 : pre_scheduling_impl := { st with nodes := Function.update st.nodes node n1 }
  have hw : (st1.nodes node).weight = (st.nodes node).weight := by simp [st1, n1]
  obtain ⟨st2, e2, q1, q2, q3, q4, q5, q6, q7⟩ :=
    raise_earliest_spec (to_int (sched + (st1.nodes node).weight))
      (st1.p_program.ins node).outputs st1 hpaired
  have hnodes1 : ∀ y, same_node_static (st.nodes y) (st1.nodes y) ∧
      (st1.nodes y).stream = (st.nodes y).stream ∧
      (st1.nodes y).earliest_cycle = (st.nodes y).earliest_cycle := by
    intro y
    by_cases hy : y = node
    · subst hy; simp [st1, n1, same_node_static]
    · simp [st1, Function.update_noteq hy, same_node_static]
  have hnodes : (∀ y, same_node_static (st.nodes y) (st2.nodes y) ∧
        (st2.nodes y).stream = (st.nodes y).stream ∧
        (st.nodes y).earliest_cycle ≤ (st2.nodes y).earliest_cycle) := by
    intro y
    obtain ⟨⟨a1, a2, a3, a4, a5, a6⟩, b, c, d⟩ := q6 y
    obtain ⟨⟨a1', a2', a3', a4', a5', a6'⟩, c', d'⟩ := hnodes1 y
    exact ⟨⟨a1.trans a1', a2.trans a2', a3.trans a3', a4.trans a4', a5.trans a5',
      a6.trans a6'⟩, c.trans c', d' ▸ d⟩
  have hsched : ∀ y, y ≠ node → (st2.nodes y).sched_cycle = (st.nodes y).sched_cycle := by
    intro y hy
    rw [(q6 y).2.1]
    simp [st1, Function.update_noteq hy]
  have hsn : (st2.nodes node).sched_cycle = sched := by
    rw [(q6 node).2.1]; simp [st1, n1]
  have hge : (st.nodes node).earliest_cycle ≤ (st2.nodes node).sched_cycle := by
    rw [hsn]; exact le_max_left _ _
  have hout : ∀ v ∈ (st.p_program.ins node).outputs,
      to_int ((st2.nodes node).sched_cycle + (st2.nodes node).weight)
        ≤ (st2.nodes v).earliest_cycle := by
    intro v hv
    have := q7 v hv
    rw [hsn, (q6 node).1.1]
    exact this
  have hp2 : same_params st st2 :=
    ⟨q2.weight_func, q2.num_of_streams, q2.weighted_topology_ordering,
      q2.min_partition_threshold, q2.std_sort⟩
  let info1 : stream_info :=
    { info with
      next_cycles := Function.update info.next_cycles (st.nodes node).stream.toNat
        (to_int (sched + (st1.nodes node).weight))
      max_cycle := max info.max_cycle (to_int (sched + (st1.nodes node).weight)) }
  let p3 : program :=
    st2.p_program.set node ((st2.p_program.ins node).set_stream (st.nodes node).stream)
  let p4 : program := mark_events node (st.nodes node).stream (p3.ins node).inputs p3
  have hunf : st.record info node =
      (if (st2.nodes node).can_use_stream then some ({ st2 with p_program := p4 }, info1)
       else some (st2, info1)) := by
    unfold record
    simp only []
    have e2' := e2
    simp only [st1, n1, sched] at e2'
    simp only [st1, n1, sched, info1, p3, p4]
    rw [e2']
  rw [hunf]
  by_cases hc : (st2.nodes node).can_use_stream = true
  · rw [if_pos hc]
    refine ⟨_, _, rfl, ?_, ⟨hp2.weight_func, hp2.num_of_streams,
      hp2.weighted_topology_ordering, hp2.min_partition_threshold, hp2.std_sort⟩, q3, hnodes, hsched, hge,
      hout⟩
    have hg1 : same_graph st.p_program p3 := by
      have : st2.p_program = st.p_program := q1
      simp only [p3]
      rw [this]
      apply same_graph_set
      simp [instruction.set_stream]
    exact same_graph_trans hg1 (mark_events_graph _ _ _ _)
  · rw [if_neg hc]
    refine ⟨_, _, rfl, ?_, hp2, q3, hnodes, hsched, hge, hout⟩
    have : st2.p_program = st.p_program := q1
    rw [this]
    exact same_graph_refl _

theorem get_stream_loop_nonneg (info : stream_info) (pl ec mc : Int) :
    ∀ (l : List Nat) (min_cycle min_cycle_stream : Int),
      (min_cycle_stream = -1 ∨ 0 ≤ min_cycle_stream) →
      (l ≠ [] ∨ 0 ≤ min_cycle_stream) →
      0 ≤ get_stream_loop info pl ec mc l min_cycle min_cycle_stream := by
  intro l
  induction l with
  | nil =>
    intro a b _ h
    rcases h with h | h
    · exact absurd rfl h
    · simpa [get_stream_loop] using h
  | cons s rest ih =>
    intro a b hb _
    unfold get_stream_loop
    simp only []
    split
    · exact Int.natCast_nonneg s
    · split
      · exact ih _ _ (Or.inr (Int.natCast_nonneg s)) (Or.inr (Int.natCast_nonneg s))
      · rename_i h1 h2
        have hb0 : 0 ≤ b := by
          rcases hb with hb | hb
          · exact absurd (Or.inl hb) h2
          · exact hb
        exact ih _ _ (Or.inr hb0) (Or.inr hb0)

theorem get_stream_nonneg (st : pre_scheduling_impl) (info : stream_info)
    (node : instruction_ref) (hS : st.num_of_streams ≠ 0) : 0 ≤ st.get_stream info node := by
  unfold get_stream
  simp only []
  split
  · exact le_refl _
  · apply get_stream_loop_nonneg
    · exact Or.inl rfl
    · left
      intro h
      have := congrArg List.length h
      simp at this
      exact hS this

/-- In a list that lists every node after its inputs, the inputs of the nodes
of a prefix, and of the node that follows it, are in the prefix. -/
theorem inputs_in_prefix (p : program) (done rest : List instruction_ref) (x : instruction_ref)
    (hnd : (done ++ x :: rest).Nodup)
    (htopo : ∀ v ∈ done ++ x :: rest, ∀ u ∈ (p.ins v).inputs,
      (done ++ x :: rest).indexOf u < (done ++ x :: rest).indexOf v) :
    ∀ v ∈ done ++ [x], ∀ u ∈ (p.ins v).inputs, u ∈ done := by
  intro v hv u hu
  have hvL : v ∈ done ++ x :: rest := by
    rcases List.mem_append.mp hv with h | h
    · exact List.mem_append_left _ h
    · rw [List.mem_singleton.mp h]; simp
  have hlt := htopo v hvL u hu
  have hvpos : (done ++ x :: rest).indexOf v ≤ done.length := by
    rcases List.mem_append.mp hv with h | h
    · rw [List.indexOf_append_of_mem h]
      exact le_of_lt (List.indexOf_lt_length.mpr h)
    · rw [List.mem_singleton.mp h, pos_head_of_nodup done rest x hnd]
  exact mem_of_pos_lt_length done (x :: rest) u (lt_of_lt_of_le hlt hvpos)

theorem schedule_loop_spec (p : program) (hwf : p.well_formed) (st0 : pre_scheduling_impl)
    (L : List instruction_ref) (hLnd : L.Nodup) (hLmem : ∀ x ∈ L, x ∈ p.instructions)
    (hLtopo : ∀ v ∈ L, ∀ u ∈ (p.ins v).inputs, L.indexOf u < L.indexOf v)
    (hpaired : ∀ x ∈ p.instructions, st0.instr2_node x = true)
    (hpart : ∀ x ∈ p.instructions, 0 ≤ (st0.nodes x).partition)
    (hS : st0.num_of_streams ≠ 0) :
    ∀ (rest done : List instruction_ref) (st : pre_scheduling_impl) (info : stream_info)
      (p2s : Int → Option Int) (queue : List instruction_ref),
      L = done ++ rest → sched_inv p st0 done st p2s queue →
      ∃ (st' : pre_scheduling_impl) (info' : stream_info) (p2s' : Int → Option Int)
        (queue' : List instruction_ref),
        schedule_loop rest st info p2s queue = some (st', info', p2s', queue') ∧
        sched_inv p st0 L st' p2s' queue' := by
  obtain ⟨_, _, hio, hoi⟩ := hwf
  intro rest
  induction rest with
  | nil =>
    intro done st info p2s queue hL hinv
    refine ⟨st, info, p2s, queue, rfl, ?_⟩
    rw [hL, List.append_nil]; exact hinv
  | cons x rest ih =>
    intro done st info p2s queue hL hinv
    have hnd' : (done ++ x :: rest).Nodup := hL ▸ hLnd
    have hxL : x ∈ L := by rw [hL]; simp
    have hxm : x ∈ p.instructions := hLmem x hxL
    have hxnd : x ∉ done := fun h =>
      (List.nodup_append.mp hnd').2.2 h (List.mem_cons_self _ _)
    have hpre := inputs_in_prefix p done rest x hnd' (hL ▸ hLtopo)
    -- the partition assertion
    have hcp : ¬ (st.nodes x).partition < 0 := by
      rw [(hinv.static x).2.2.2.2.2]
      exact not_lt.mpr (hpart x hxm)
    -- the stream and its assertion
    let stream : Int :=
      match p2s (st.nodes x).partition with
      | some s => s
      | none => st.get_stream info x
    have hstream : ¬ stream < 0 := by
      apply not_lt.mpr
      simp only [stream]
      split
      · rename_i s hs; exact hinv.streams _ s hs
      · exact get_stream_nonneg st info x (by rw [hinv.params.num_of_streams]; exact hS)
    let sta : pre_scheduling_impl :=
      { st with nodes := Function.update st.nodes x { st.nodes x with stream := stream } }
    have hsta : ∀ y, same_node_static (st.nodes y) (sta.nodes y) ∧
        (sta.nodes y).sched_cycle = (st.nodes y).sched_cycle ∧
        (sta.nodes y).earliest_cycle = (st.nodes y).earliest_cycle := by
      intro y
      by_cases hy : y = x
      · subst hy; simp [sta, same_node_static]
      · simp [sta, Function.update_noteq hy, same_node_static]
    have hgr := hinv.graph
    have houts : (sta.p_program.ins x).outputs = (p.ins x).outputs := (hgr.2.2 x).2.2.1
    obtain ⟨stb, infob, erec, g1, g2, g3, g4, g5, g6, g7⟩ :=
      record_spec sta info x (by
        intro v hv
        rw [houts] at hv
        have : sta.instr2_node v = st0.instr2_node v := by
          show st.instr2_node v = _
          rw [hinv.paired]
        rw [this]
        exact hpaired v (hoi x hxm v hv).1)
    have hstep : schedule_loop (x :: rest) st info p2s queue =
        schedule_loop rest stb infob
          (Function.update p2s (st.nodes x).partition (some (stb.nodes x).stream))
          (queue ++ [x]) := by
      have e : schedule_loop (x :: rest) st info p2s queue =
          if (st.nodes x).partition < 0 then none
          else if stream < 0 then none
          else
            match sta.record info x with
            | none => none
            | some r =>
              schedule_loop rest r.1 r.2
                (Function.update p2s (st.nodes x).partition (some (r.1.nodes x).stream))
                (queue ++ [x]) := rfl
      rw [e, if_neg hcp, if_neg hstream, erec]
    have hsb : (stb.nodes x).stream = stream := by
      rw [(g4 x).2.1]; simp [sta]
    have hinv' : sched_inv p st0 (done ++ [x]) stb
        (Function.update p2s (st.nodes x).partition (some (stb.nodes x).stream))
        (queue ++ [x]) := by
      have hstat : ∀ y, same_node_static (st.nodes y) (stb.nodes y) := by
        intro y
        obtain ⟨a1, a2, a3, a4, a5, a6⟩ := (hsta y).1
        obtain ⟨b1, b2, b3, b4, b5, b6⟩ := (g4 y).1
        exact ⟨b1.trans a1, b2.trans a2, b3.trans a3, b4.trans a4, b5.trans a5, b6.trans a6⟩
      have hsched_old : ∀ y ∈ done, (stb.nodes y).sched_cycle = (st.nodes y).sched_cycle := by
        intro y hy
        have hyx : y ≠ x := fun h => hxnd (h ▸ hy)
        rw [g5 y hyx, (hsta y).2.1]
      have hearl : ∀ y, (st.nodes y).earliest_cycle ≤ (stb.nodes y).earliest_cycle := by
        intro y
        rw [← (hsta y).2.2]
        exact (g4 y).2.2
      constructor
      · exact same_graph_trans hgr g1
      · exact same_params_trans hinv.params
          ⟨g2.weight_func, g2.num_of_streams, g2.weighted_topology_ordering,
            g2.min_partition_threshold, g2.std_sort⟩
      · rw [g3]; exact hinv.paired
      · intro y
        obtain ⟨a1, a2, a3, a4, a5, a6⟩ := hinv.static y
        obtain ⟨b1, b2, b3, b4, b5, b6⟩ := hstat y
        exact ⟨b1.trans a1, b2.trans a2, b3.trans a3, b4.trans a4, b5.trans a5, b6.trans a6⟩
      · rw [hinv.queue]
      · intro s v hsv
        by_cases hs : s = (st.nodes x).partition
        · subst hs
          simp only [Function.update_same, Option.some.injEq] at hsv
          rw [← hsv, hsb]
          exact not_lt.mp hstream
        · rw [Function.update_noteq hs] at hsv
          exact hinv.streams s v hsv
    obtain ⟨st', info', p2s', queue', e', inv'⟩ :=
      ih (done ++ [x]) stb infob _ _ (by rw [hL]; simp) hinv'
    exact ⟨st', info', p2s', queue', by rw [hstep]; exact e', inv'⟩

theorem insert_before_perm (x : instruction_ref) (pos : Option instruction_ref) :
    ∀ l : List instruction_ref, (program.insert_before x pos l).Perm (x :: l) := by
  intro l
  induction l with
  | nil => simp [program.insert_before]
  | cons y ys ih =>
    unfold program.insert_before
    split
    · exact List.Perm.refl _
    · exact (List.Perm.cons y ih).trans (List.Perm.swap x y ys)

theorem insert_before_at (x ib : instruction_ref) :
    ∀ (A T : List instruction_ref), ib ∉ A →
      program.insert_before x (some ib) (A ++ ib :: T) = A ++ x :: ib :: T := by
  intro A
  induction A with
  | nil => intro T _; simp [program.insert_before]
  | cons a A ih =>
    intro T h
    have ha : ib ≠ a := fun e => h (e ▸ List.mem_cons_self _ _)
    have hA : ib ∉ A := fun e => h (List.mem_cons_of_mem _ e)
    have e : program.insert_before x (some ib) (a :: A ++ ib :: T)
        = a :: program.insert_before x (some ib) (A ++ ib :: T) := by
      simp only [List.cons_append, program.insert_before]
      rw [if_neg (by simpa using ha)]
      rfl
    rw [e, ih T hA]
    rfl

theorem filter_ne_of_not_mem (x : instruction_ref) (l : List instruction_ref) (h : x ∉ l) :
    l.filter (fun y => y != x) = l := by
  apply List.filter_eq_self.mpr
  intro a ha
  have : a ≠ x := fun e => h (e ▸ ha)
  simpa using this

theorem filter_ne_perm (x : instruction_ref) (l : List instruction_ref) (hnd : l.Nodup)
    (hx : x ∈ l) : (x :: l.filter (fun y => y != x)).Perm l := by
  have h1 : l.filter (fun y => y != x) = l.erase x := by
    rw [hnd.erase_eq_filter]
  rw [h1]
  exact (List.perm_cons_erase hx).symm

/-- Moving `x` to the front of a block that starts with `ib`. -/
theorem move_to_block (p : program) (x ib : instruction_ref) (A T B : List instruction_ref)
    (hnd : p.instructions.Nodup) (ho : p.instructions = A ++ ib :: T ++ B)
    (hx : x ∈ p.instructions) (hxb : x ∉ ib :: T) :
    ∃ A' B', (p.move_instruction x ib).instructions = A' ++ x :: (ib :: T) ++ B' ∧
      (p.move_instruction x ib).instructions.Perm p.instructions ∧
      (p.move_instruction x ib).ins = p.ins ∧
      (p.move_instruction x ib).next_ref = p.next_ref := by
  have hne : x ≠ ib := fun e => hxb (e ▸ List.mem_cons_self _ _)
  have hibA : ib ∉ A := by
    intro h
    rw [ho] at hnd
    have h1 := (List.nodup_append.mp hnd).1
    exact (List.nodup_append.mp h1).2.2 h (List.mem_cons_self _ _)
  have hfilter : p.instructions.filter (fun y => y != x)
      = A.filter (fun y => y != x) ++ ib :: (T ++ B.filter (fun y => y != x)) := by
    rw [ho]
    simp only [List.filter_append, List.append_assoc]
    rw [filter_ne_of_not_mem x (ib :: T) hxb]
    simp
  have hibA' : ib ∉ A.filter (fun y => y != x) := fun h => hibA (List.mem_filter.mp h).1
  refine ⟨A.filter (fun y => y != x), B.filter (fun y => y != x), ?_, ?_, ?_, ?_⟩
  · unfold program.move_instruction
    rw [if_neg hne]
    simp only []
    rw [hfilter, insert_before_at x ib _ _ hibA']
    simp
  · unfold program.move_instruction
    rw [if_neg hne]
    simp only []
    exact (insert_before_perm x (some ib) _).trans (filter_ne_perm x _ hnd hx)
  · unfold program.move_instruction
    rw [if_neg hne]
  · unfold program.move_instruction
    rw [if_neg hne]

theorem splice_loop_spec :
    ∀ (xs : List instruction_ref) (ib : instruction_ref) (T : List instruction_ref)
      (p : program) (A B : List instruction_ref),
      p.instructions.Nodup → p.instructions = A ++ ib :: T ++ B →
      (∀ x ∈ xs, x ∈ p.instructions ∧ x ∉ ib :: T) → xs.Nodup →
      ∃ A' B', (splice_loop xs ib p).instructions = A' ++ (xs.reverse ++ ib :: T) ++ B' ∧
        (splice_loop xs ib p).instructions.Perm p.instructions ∧
        (splice_loop xs ib p).ins = p.ins ∧ (splice_loop xs ib p).next_ref = p.next_ref := by
  intro xs
  induction xs with
  | nil =>
    intro ib T p A B _ ho _ _
    exact ⟨A, B, by simpa [splice_loop] using ho, List.Perm.refl _, rfl, rfl⟩
  | cons x xs ih =>
    intro ib T p A B hnd ho hxs hxsnd
    obtain ⟨hxm, hxb⟩ := hxs x (List.mem_cons_self _ _)
    obtain ⟨A1, B1, e1, perm1, ins1, nr1⟩ := move_to_block p x ib A T B hnd ho hxm hxb
    have hnd1 : (p.move_instruction x ib).instructions.Nodup := perm1.nodup_iff.mpr hnd
    have hxs' : ∀ y ∈ xs, y ∈ (p.move_instruction x ib).instructions ∧ y ∉ x :: ib :: T := by
      intro y hy
      obtain ⟨h1, h2⟩ := hxs y (List.mem_cons_of_mem _ hy)
      refine ⟨perm1.mem_iff.mpr h1, ?_⟩
      intro h
      rcases List.mem_cons.mp h with h | h
      · exact (List.nodup_cons.mp hxsnd).1 (h ▸ hy)
      · exact h2 h
    obtain ⟨A2, B2, e2, perm2, ins2, nr2⟩ :=
      ih x (ib :: T) (p.move_instruction x ib) A1 B1 hnd1 e1 hxs' (List.nodup_cons.mp hxsnd).2
    refine ⟨A2, B2, ?_, perm2.trans perm1, ins2.trans ins1, nr2.trans nr1⟩
    simp only [splice_loop]
    rw [e2]
    simp

/-- `splice` on a list of at least two nodes that enumerates the program
without repetition: the program order becomes that list, and nothing else
changes. -/
theorem splice_spec (st : pre_scheduling_impl) (L : List instruction_ref) (hLnd : L.Nodup)
    (hperm : L.Perm st.p_program.instructions) (hlen : 2 ≤ L.length) :
    ∃ st', st.splice L = some st' ∧ st'.p_program.instructions = L ∧
      st'.p_program.ins = st.p_program.ins ∧ st'.p_program.next_ref = st.p_program.next_ref ∧
      st'.nodes = st.nodes := by
  have hnd : st.p_program.instructions.Nodup := hperm.nodup_iff.mp hLnd
  cases hrev : L.reverse with
  | nil =>
    have : L.length = 0 := by rw [← List.length_reverse, hrev]; rfl
    omega
  | cons last xs =>
    cases xs with
    | nil =>
      have : L.length = 1 := by rw [← List.length_reverse, hrev]; rfl
      omega
    | cons x rest =>
      have hL : L = (x :: rest).reverse ++ [last] := by
        have := congrArg List.reverse hrev
        simpa using this
      have hrevnd : (last :: x :: rest).Nodup := by
        rw [← hrev]; exact List.nodup_reverse.mpr hLnd
      have hlast : last ∈ st.p_program.instructions :=
        hperm.mem_iff.mp (by rw [hL]; simp)
      obtain ⟨A, B, hAB⟩ := List.append_of_mem hlast
      obtain ⟨A', B', e, perm, hins, hnr⟩ :=
        splice_loop_spec (x :: rest) last [] st.p_program A B hnd (by simpa using hAB)
          (by
            intro y hy
            have hyL : y ∈ L := by
              rw [hL]
              exact List.mem_append_left _ (List.mem_reverse.mpr hy)
            refine ⟨hperm.mem_iff.mp hyL, ?_⟩
            intro h
            have hyl : y = last := by simpa using h
            exact (List.nodup_cons.mp hrevnd).1 (hyl ▸ hy))
          (List.nodup_cons.mp hrevnd).2
      have hlenp : (splice_loop (x :: rest) last st.p_program).instructions.length = L.length :=
        (perm.trans hperm.symm).length_eq
      have hA : A' = [] ∧ B' = [] := by
        rw [e, ← hL] at hlenp
        simp only [List.length_append] at hlenp
        constructor
        · apply List.eq_nil_of_length_eq_zero; omega
        · apply List.eq_nil_of_length_eq_zero; omega
      refine ⟨{ st with p_program := splice_loop (x :: rest) last st.p_program }, ?_, ?_, hins,
        hnr, rfl⟩
      · unfold splice
        rw [hrev]
      · show (splice_loop (x :: rest) last st.p_program).instructions = L
        rw [e, hA.1, hA.2, ← hL]
        simp

theorem add_mask_small (i : instruction) (m : Nat) (hm : m < 2) (h : i.mask < 4) :
    (i.add_mask m).mask < 4 ∧ (i.add_mask m).has_mask m = true ∧
    (∀ m', m' < 2 → i.has_mask m' = true → (i.add_mask m).has_mask m' = true) ∧
    (i.add_mask m).stream = i.stream := by
  obtain ⟨op, result, output, arguments, lit, stream, mask⟩ := i
  simp only [instruction.add_mask, instruction.has_mask]
  simp only [] at h
  have key : ∀ k < 4, ∀ m < 2,
      (if k &&& 1 <<< m = 0 then k + 1 <<< m else k) < 4 ∧
      ((if k &&& 1 <<< m = 0 then k + 1 <<< m else k) &&& 1 <<< m != 0) = true ∧
      ∀ m' < 2, (k &&& 1 <<< m' != 0) = true →
        ((if k &&& 1 <<< m = 0 then k + 1 <<< m else k) &&& 1 <<< m' != 0) = true := by
    decide
  obtain ⟨k1, k2, k3⟩ := key mask h m hm
  by_cases hc : mask &&& 1 <<< m = 0
  · rw [if_pos hc] at k1 k2 k3
    rw [if_pos hc]
    exact ⟨k1, k2, k3, rfl⟩
  · rw [if_neg hc] at k1 k2 k3
    rw [if_neg hc]
    exact ⟨k1, k2, k3, rfl⟩

theorem mark_events_spec (node : instruction_ref) (s : Int) :
    ∀ (args : List instruction_ref) (p : program), (∀ y, (p.ins y).mask < 4) →
      (∀ y, ((mark_events node s args p).ins y).stream = (p.ins y).stream) ∧
      (∀ y, ((mark_events node s args p).ins y).mask < 4) ∧
      (∀ y m, m < 2 → (p.ins y).has_mask m = true →
        ((mark_events node s args p).ins y).has_mask m = true) ∧
      (∀ a ∈ args, ¬ ((p.ins a).stream < 0 ∨ (p.ins a).stream = s) →
        ((mark_events node s args p).ins a).has_mask RECORD_EVENT = true ∧
        ((mark_events node s args p).ins node).has_mask WAIT_EVENT = true) := by
  intro args
  induction args with
  | nil =>
    intro p hp
    exact ⟨fun y => rfl, hp, fun y m _ h => h, fun a ha => by cases ha⟩
  | cons a rest ih =>
    intro p hp
    by_cases hc : (p.ins a).get_stream < 0 ∨ (p.ins a).get_stream = s
    · have e : mark_events node s (a :: rest) p = mark_events node s rest p := by
        simp only [mark_events, if_pos hc]
      rw [e]
      obtain ⟨i1, i2, i3, i4⟩ := ih p hp
      refine ⟨i1, i2, i3, ?_⟩
      intro b hb hnb
      rcases List.mem_cons.mp hb with rfl | hb
      · exact absurd hc hnb
      · exact i4 b hb hnb
    · let p1 : program := p.set a ((p.ins a).add_mask RECORD_EVENT)
      let p2 : program := p1.set node ((p1.ins node).add_mask WAIT_EVENT)
      have e : mark_events node s (a :: rest) p = mark_events node s rest p2 := by
        simp only [mark_events, if_neg hc]
      rw [e]
      have ha := add_mask_small (p.ins a) RECORD_EVENT (by decide) (hp a)
      have hp1 : ∀ y, (p1.ins y).mask < 4 ∧ (p1.ins y).stream = (p.ins y).stream ∧
          ∀ m, m < 2 → (p.ins y).has_mask m = true → (p1.ins y).has_mask m = true := by
        intro y
        by_cases hy : y = a
        · subst hy
          have e1 : p1.ins y = (p.ins y).add_mask RECORD_EVENT := by
            simp only [p1, program.set, Function.update_same]
          rw [e1]
          exact ⟨ha.1, ha.2.2.2, ha.2.2.1⟩
        · have e1 : p1.ins y = p.ins y := by
            simp only [p1, program.set, Function.update_noteq hy]
          rw [e1]
          exact ⟨hp y, rfl, fun m _ h => h⟩
      have hn := add_mask_small (p1.ins node) WAIT_EVENT (by decide) (hp1 node).1
      have hp2 : ∀ y, (p2.ins y).mask < 4 ∧ (p2.ins y).stream = (p1.ins y).stream ∧
          ∀ m, m < 2 → (p1.ins y).has_mask m = true → (p2.ins y).has_mask m = true := by
        intro y
        by_cases hy : y = node
        · subst hy
          have e2 : p2.ins y = (p1.ins y).add_mask WAIT_EVENT := by
            simp only [p2, program.set, Function.update_same]
          rw [e2]
          exact ⟨hn.1, hn.2.2.2, hn.2.2.1⟩
        · have e2 : p2.ins y = p1.ins y := by
            simp only [p2, program.set, Function.update_noteq hy]
          rw [e2]
          exact ⟨(hp1 y).1, rfl, fun m _ h => h⟩
      obtain ⟨i1, i2, i3, i4⟩ := ih p2 (fun y => (hp2 y).1)
      refine ⟨?_, i2, ?_, ?_⟩
      · intro y
        rw [i1 y, (hp2 y).2.1, (hp1 y).2.1]
      · intro y m hm h
        exact i3 y m hm ((hp2 y).2.2 m hm ((hp1 y).2.2 m hm h))
      · intro b hb hnb
        rcases List.mem_cons.mp hb with rfl | hb
        · constructor
          · apply i3 b RECORD_EVENT (by decide)
            apply (hp2 b).2.2 RECORD_EVENT (by decide)
            have e1 : p1.ins b = (p.ins b).add_mask RECORD_EVENT := by
              simp only [p1, program.set, Function.update_same]
            rw [e1]
            exact ha.2.1
          · apply i3 node WAIT_EVENT (by decide)
            have e2 : p2.ins node = (p1.ins node).add_mask WAIT_EVENT := by
              simp only [p2, program.set, Function.update_same]
            rw [e2]
            exact hn.2.1
        · apply i4 b hb
          rw [(hp2 b).2.1, (hp1 b).2.1]
          exact hnb

theorem raise_earliest_program (next_cycle : Int) :
    ∀ (args : List instruction_ref) (st st' : pre_scheduling_impl),
      raise_earliest next_cycle args st = some st' → st'.p_program = st.p_program := by
  intro args
  induction args with
  | nil => intro st st' h; simp [raise_earliest] at h; rw [← h]
  | cons a rest ih =>
    intro st st' h
    unfold raise_earliest at h
    split at h
    · have := ih _ _ h
      exact this
    · cases h

/-- The program that `record` leaves: the old one, or the old one with the
node's stream set and the events of its inputs marked. -/
theorem record_program (st : pre_scheduling_impl) (info : stream_info) (node : instruction_ref)
    (st' : pre_scheduling_impl) (info' : stream_info)
    (h : st.record info node = some (st', info')) :
    st'.p_program = st.p_program ∨
    st'.p_program = mark_events node (st.nodes node).stream
      ((st.p_program.set node
          ((st.p_program.ins node).set_stream (st.nodes node).stream)).ins node).inputs
      (st.p_program.set node ((st.p_program.ins node).set_stream (st.nodes node).stream)) := by
  unfold record at h
  simp only [] at h
  split at h
  · cases h
  · rename_i st2 e2
    have hp := raise_earliest_program _ _ _ _ e2
    simp only [] at hp
    split at h
    · right
      simp only [Option.some.injEq, Prod.mk.injEq] at h
      rw [← h.1]
      simp only [hp]
    · left
      simp only [Option.some.injEq, Prod.mk.injEq] at h
      rw [← h.1]
      exact hp

theorem schedule_loop_events (p : program) (L : List instruction_ref) (hLnd : L.Nodup)
    (hLtopo : ∀ v ∈ L, ∀ u ∈ (p.ins v).inputs, L.indexOf u < L.indexOf v) :
    ∀ (rest done : List instruction_ref) (st : pre_scheduling_impl) (info : stream_info)
      (p2s : Int → Option Int) (queue : List instruction_ref)
      (r : pre_scheduling_impl × stream_info × (Int → Option Int) × List instruction_ref),
      L = done ++ rest → same_graph p st.p_program → events_inv p done st.p_program →
      schedule_loop rest st info p2s queue = some r → events_inv p L r.1.p_program := by
  intro rest
  induction rest with
  | nil =>
    intro done st info p2s queue r hL _ hinv h
    simp only [schedule_loop, Option.some.injEq] at h
    rw [← h, hL, List.append_nil]
    exact hinv
  | cons x rest ih =>
    intro done st info p2s queue r hL hgr hinv h
    have hnd' : (done ++ x :: rest).Nodup := hL ▸ hLnd
    have hxnd : x ∉ done := fun h =>
      (List.nodup_append.mp hnd').2.2 h (List.mem_cons_self _ _)
    have hpre := inputs_in_prefix p done rest x hnd' (hL ▸ hLtopo)
    unfold schedule_loop at h
    simp only [] at h
    split at h
    · cases h
    · split at h
      · cases h
      · split at h
        · cases h
        · rename_i rb erec
          -- the program before and after `record`
          generalize hs : (match p2s (st.nodes x).partition with
            | some s => s
            | none => st.get_stream info x) = s at erec h
          have hrp := record_program _ info x rb.1 rb.2 erec
          simp only [Function.update_same] at hrp
          let p3 : program := st.p_program.set x ((st.p_program.ins x).set_stream s)
          have hg3 : same_graph st.p_program p3 := by
            apply same_graph_set
            simp [instruction.set_stream]
          have hargs : (p3.ins x).inputs = (p.ins x).inputs :=
            ((hg3.2.2 x).2.2.2.1).trans ((hgr.2.2 x).2.2.2.1)
          have hnext : events_inv p (done ++ [x]) rb.1.p_program ∧
              same_graph p rb.1.p_program := by
            rcases hrp with hrp | hrp
            · rw [hrp]
              refine ⟨⟨?_, hinv.masks, ?_⟩, hgr⟩
              · intro y hy
                exact hinv.pending y (fun h => hy (List.mem_append_left _ h))
              · intro v hv u hu h1 h2 h3
                rcases List.mem_append.mp hv with hv | hv
                · exact hinv.events v hv u hu h1 h2 h3
                · rw [List.mem_singleton.mp hv, hinv.pending x hxnd] at h2
                  exact absurd h2 (by decide)
            · have hm3 : ∀ y, (p3.ins y).mask < 4 := by
                intro y
                by_cases hy : y = x
                · subst hy
                  simpa [p3, program.set, instruction.set_stream] using hinv.masks y
                · simpa [p3, program.set, Function.update_noteq hy] using hinv.masks y
              have hs3 : ∀ y, y ≠ x → (p3.ins y).stream = (st.p_program.ins y).stream := by
                intro y hy
                simp [p3, program.set, Function.update_noteq hy]
              have hh3 : ∀ y m, (st.p_program.ins y).has_mask m = true →
                  (p3.ins y).has_mask m = true := by
                intro y m hm
                by_cases hy : y = x
                · subst hy
                  simpa [p3, program.set, instruction.set_stream, instruction.has_mask] using hm
                · simpa [p3, program.set, Function.update_noteq hy] using hm
              have hsx : (p3.ins x).stream = s := by
                simp [p3, program.set, instruction.set_stream]
              obtain ⟨m1, m2, m3, m4⟩ := mark_events_spec x s (p3.ins x).inputs p3 hm3
              have hP : rb.1.p_program = mark_events x s (p3.ins x).inputs p3 := hrp
              rw [hP]
              refine ⟨⟨?_, m2, ?_⟩, ?_⟩
              · intro y hy
                have hy1 : y ∉ done := fun h => hy (List.mem_append_left _ h)
                have hy2 : y ≠ x := fun h => hy (by simp [h])
                rw [m1 y, hs3 y hy2]
                exact hinv.pending y hy1
              · intro v hv u hu h1 h2 h3
                have hud : u ∈ done := hpre v hv u hu
                have hux : u ≠ x := fun h => hxnd (h ▸ hud)
                rw [m1 u, hs3 u hux] at h1 h3
                rcases List.mem_append.mp hv with hv | hv
                · have hvx : v ≠ x := fun h => hxnd (h ▸ hv)
                  rw [m1 v, hs3 v hvx] at h2 h3
                  obtain ⟨e1, e2⟩ := hinv.events v hv u hu h1 h2 h3
                  exact ⟨m3 u _ (by decide) (hh3 u _ e1), m3 v _ (by decide) (hh3 v _ e2)⟩
                · have hvx : v = x := List.mem_singleton.mp hv
                  subst hvx
                  rw [m1 v, hsx] at h3
                  apply m4 u (by rw [hargs]; exact hu)
                  rw [hs3 u hux]
                  intro hc
                  rcases hc with hc | hc
                  · omega
                  · exact h3 hc
              · exact same_graph_trans hgr (same_graph_trans hg3 (mark_events_graph _ _ _ _))
          exact ih (done ++ [x]) rb.1 rb.2 _ _ r (by rw [hL]; simp) hnext.2 hnext.1 h

theorem post_schedule_ordering_false_iff (d1 d2 : dag_node) :
    post_schedule_ordering d1 d2 = false ↔
      d1.sched_cycle < d2.sched_cycle ∨
      (d1.sched_cycle = d2.sched_cycle ∧ d1.ins_ndx ≤ d2.ins_ndx) := by
  unfold post_schedule_ordering
  by_cases h : d1.sched_cycle = d2.sched_cycle
  · rw [if_pos h]
    simp only [decide_eq_false_iff_not, not_lt, h, lt_self_iff_false, true_and, false_or]
  · rw [if_neg h]
    simp only [decide_eq_false_iff_not, not_lt, h, false_and, or_false]
    omega

theorem indexOf_lt_of_pairwise {r : instruction_ref → instruction_ref → Prop} :
    ∀ (l : List instruction_ref), l.Pairwise r → ∀ a b, a ∈ l → b ∈ l → a ≠ b → ¬ r b a →
      l.indexOf a < l.indexOf b := by
  intro l
  induction l with
  | nil => intro _ a b ha; cases ha
  | cons c t ih =>
    intro hp a b ha hb hab hn
    obtain ⟨hc, ht⟩ := List.pairwise_cons.mp hp
    by_cases hac : a = c
    · subst hac
      rw [List.indexOf_cons_self, List.indexOf_cons_ne _ hab]
      omega
    · have hat : a ∈ t := by
        rcases List.mem_cons.mp ha with h | h
        · exact absurd h hac
        · exact h
      by_cases hbc : b = c
      · subst hbc
        exact absurd (hc a hat) hn
      · have hbt : b ∈ t := by
          rcases List.mem_cons.mp hb with h | h
          · exact absurd h hbc
          · exact h
        rw [List.indexOf_cons_ne _ (fun h => hac h.symm),
          List.indexOf_cons_ne _ (fun h => hbc h.symm)]
        exact Nat.succ_lt_succ (ih ht a b hat hbt hab hn)

/-- The list that the priority queue of `schedule` hands out is ordered by the
comparator. -/
theorem post_schedule_sorted (st : pre_scheduling_impl) (l : List instruction_ref) :
    (pq_pop_all (fun a b => post_schedule_ordering (st.nodes a) (st.nodes b)) l).Pairwise
      (fun a b => post_schedule_ordering (st.nodes a) (st.nodes b) = false) := by
  haveI : IsTotal instruction_ref
      (fun a b => post_schedule_ordering (st.nodes a) (st.nodes b) = false) :=
    ⟨fun a b => by
      simp only [post_schedule_ordering_false_iff]
      omega⟩
  haveI : IsTrans instruction_ref
      (fun a b => post_schedule_ordering (st.nodes a) (st.nodes b) = false) :=
    ⟨fun a b c h1 h2 => by
      simp only [post_schedule_ordering_false_iff] at h1 h2 ⊢
      omega⟩
  exact List.sorted_insertionSort _ l

/-- `schedule`, on the list that the weighted topological sort emits. -/
theorem schedule_spec (p : program) (hwf : p.well_formed) (st0 : pre_scheduling_impl)
    (L : List instruction_ref) (hLnd : L.Nodup) (hLperm : L.Perm p.instructions)
    (hLtopo : ∀ v ∈ L, ∀ u ∈ (p.ins v).inputs, L.indexOf u < L.indexOf v)
    (hp : st0.p_program = p)
    (hpaired : ∀ x ∈ p.instructions, st0.instr2_node x = true)
    (hpart : ∀ x ∈ p.instructions, 0 ≤ (st0.nodes x).partition)
    (hndx : ∀ x ∈ p.instructions, (st0.nodes x).ins_ndx = (p.pos x : Int)) :
    ∃ (st' : pre_scheduling_impl) (L' : List instruction_ref),
      st0.schedule L = some (st', L') ∧ L'.Nodup ∧ L'.Perm p.instructions ∧
      same_graph p st'.p_program ∧
      ((∀ x ∈ p.instructions, 0 ≤ (st0.nodes x).weight) →
        (st0.num_of_streams ≠ 0 → ∀ v ∈ p.instructions, ∀ u ∈ (p.ins v).inputs,
          (st'.nodes u).sched_cycle + (st'.nodes u).weight ≤ (st'.nodes v).sched_cycle) →
        ∀ v ∈ L', ∀ u ∈ (p.ins v).inputs, L'.indexOf u < L'.indexOf v) ∧
      ((∀ x, (p.ins x).stream = -1 ∧ (p.ins x).mask = 0) →
        events_inv p L st'.p_program) := by
  have hLmem : ∀ x ∈ L, x ∈ p.instructions := fun x hx => hLperm.mem_iff.mp hx
  by_cases hS : st0.num_of_streams = 0
  · refine ⟨st0, L, by simp [schedule, hS], hLnd, hLperm, hp ▸ same_graph_refl _,
      fun _ _ => hLtopo, ?_⟩
    intro h0
    rw [hp]
    refine ⟨fun x _ => (h0 x).1, fun x => by rw [(h0 x).2]; decide, ?_⟩
    intro v _ u _ h1
    rw [(h0 u).1] at h1
    exact absurd h1 (by decide)
  · have hinv0 : sched_inv p st0 [] st0 (fun _ => none) [] :=
      ⟨hp ▸ same_graph_refl _, same_params_refl _, rfl,
        (fun x => ⟨rfl, rfl, rfl, rfl, rfl, rfl⟩), rfl, (fun s v h => by cases h)⟩
    obtain ⟨st', info', p2s', queue', e, inv⟩ :=
      schedule_loop_spec p hwf st0 L hLnd hLmem hLtopo hpaired hpart hS L [] st0 {} _ []
        (by simp) hinv0
    let L' := pq_pop_all (fun a b => post_schedule_ordering (st'.nodes a) (st'.nodes b)) L
    have hL'perm : L'.Perm L := pq_pop_all_perm _ _
    have hsched : st0.schedule L = some (st', L') := by
      cases hL : L with
      | nil =>
        have e' := e
        rw [hL] at e'
        simp only [schedule, hS, if_false, e', List.isEmpty_nil, Bool.not_true]
        simp [L', hL, pq_pop_all]
      | cons a l =>
        have e' := e
        rw [hL] at e'
        have hq := inv.queue
        rw [hL] at hq
        simp only [schedule, hS, if_false, e', List.isEmpty_cons, Bool.not_false, if_true, hq,
          L', hL]
    have hL'nd : L'.Nodup := hL'perm.nodup_iff.mpr hLnd
    have hsorted := post_schedule_sorted st' L
    refine ⟨st', L', hsched, hL'nd, hL'perm.trans hLperm, inv.graph, ?_, ?_⟩
    · intro hweight hedges v hv u hu
      have hvL : v ∈ L := hL'perm.mem_iff.mp hv
      have hvm : v ∈ p.instructions := hLmem v hvL
      have hlt := hLtopo v hvL u hu
      have huL : u ∈ L := List.indexOf_lt_length.mp (lt_trans hlt (List.indexOf_lt_length.mpr hvL))
      have hum : u ∈ p.instructions := hLmem u huL
      have hpos : p.pos u < p.pos v := hwf.2.1 v hvm u hu
      have hne : u ≠ v := by
        intro h; rw [h] at hpos; exact lt_irrefl _ hpos
      have hge := hedges hS v hvm u hu
      have hw : 0 ≤ (st'.nodes u).weight := by
        rw [(inv.static u).1]; exact hweight u hum
      have hnu : (st'.nodes u).ins_ndx = (p.pos u : Int) := by
        rw [(inv.static u).2.2.2.1]; exact hndx u hum
      have hnv : (st'.nodes v).ins_ndx = (p.pos v : Int) := by
        rw [(inv.static v).2.2.2.1]; exact hndx v hvm
      apply indexOf_lt_of_pairwise L' hsorted u v (hL'perm.mem_iff.mpr huL) hv hne
      rw [post_schedule_ordering_false_iff, hnu, hnv]
      omega
    · intro h0
      have hev0 : events_inv p [] st0.p_program := by
        rw [hp]
        exact ⟨fun x _ => (h0 x).1, fun x => by rw [(h0 x).2]; decide, fun v hv => by cases hv⟩
      exact schedule_loop_events p L hLnd hLtopo L [] st0 {} _ [] _ (by simp)
        (hp ▸ same_graph_refl _) hev0 e

/-- `run` on a well-formed, non-empty program, up to the call of `splice`:
the list handed to `splice` enumerates the program, lists every instruction
after its inputs, and the annotations carry the events of every edge that
crosses streams. -/
theorem run_until_splice (p : program) (hwf : p.well_formed)
    (weight_func : String → Int × Bool) (hw : ∀ name, 0 ≤ (weight_func name).1)
    (num_of_streams : Nat) (wto : dag_node → dag_node → Bool) (thr : Int)
    (srt : std_sort_fn) (hsrt : std_sort_contract srt)
    (hn : p.instructions.length ≠ 0) :
    ∃ (st3 : pre_scheduling_impl) (L3 : List instruction_ref),
      (create p weight_func num_of_streams wto thr srt).run = st3.splice L3 ∧
      L3.Nodup ∧ L3.Perm p.instructions ∧ same_graph p st3.p_program ∧
      ((num_of_streams ≠ 0 → ∀ v ∈ p.instructions, ∀ u ∈ (p.ins v).inputs,
          (st3.nodes u).sched_cycle + (st3.nodes u).weight ≤ (st3.nodes v).sched_cycle) →
        ∀ v ∈ L3, ∀ u ∈ (p.ins v).inputs, L3.indexOf u < L3.indexOf v) ∧
      ((∀ x, (p.ins x).stream = -1 ∧ (p.ins x).mask = 0) →
        ∀ v ∈ p.instructions, ∀ u ∈ (p.ins v).inputs,
          0 ≤ (st3.p_program.ins u).stream → 0 ≤ (st3.p_program.ins v).stream →
          (st3.p_program.ins u).stream ≠ (st3.p_program.ins v).stream →
          (st3.p_program.ins u).has_mask RECORD_EVENT = true ∧
          (st3.p_program.ins v).has_mask WAIT_EVENT = true) := by
  obtain ⟨st1, e1, wc, par1, hexits⟩ :=
    compute_weights_spec p weight_func num_of_streams wto thr srt hsrt hwf.1 hwf.2.1
  obtain ⟨st2, loc2, e2, rel2, perm2, nd2, topo2, part2⟩ :=
    weighted_topological_sort_spec p hwf st1 wc.program
      (by rw [wc.partition_info_num]) hexits
  have hp2 : st2.p_program = p := rel2.program.trans wc.program
  obtain ⟨st3, L3, e3, nd3, perm3, gr3, topo3, ev3⟩ :=
    schedule_spec p hwf st2 loc2.sorted_nodes nd2 perm2 topo2 hp2
      (by
        intro x hx
        rw [rel2.instr2_node, wc.paired x]
        exact decide_eq_true hx)
      part2
      (by
        intro x hx
        rw [(rel2.nodes x).2.2.2.1, wc.node x hx]
        rfl)
  have hS2 : st2.num_of_streams = num_of_streams :=
    rel2.params.num_of_streams.trans par1.num_of_streams
  refine ⟨st3, L3, ?_, nd3, perm3, gr3, ?_, ?_⟩
  · have hlen : ¬ (create p weight_func num_of_streams wto thr srt).p_program.instructions.length = 0 :=
      hn
    simp only [run, if_neg hlen, e1, reorder, e2, e3]
  · intro hedges
    refine topo3 ?_ ?_
    · intro x hx
      rw [(rel2.nodes x).1, wc.node x hx]
      exact hw _
    · intro hS
      exact hedges (by rw [← hS2]; exact hS)
  · intro h0 v hv u hu
    exact (ev3 h0).events v (perm2.mem_iff.mpr hv) u hu

end pre_scheduling_impl

/-- `run` on a well-formed program: it completes unless the program consists of
exactly one instruction, and a completed run leaves the same instructions in an
order that lists every instruction after its inputs, with the events of every
edge that crosses streams if the program started without annotations. -/
theorem pre_scheduling_impl.run_spec (p : program) (hwf : p.well_formed)
    (weight_func : String → Int × Bool) (hw : ∀ name, 0 ≤ (weight_func name).1)
    (num_of_streams : Nat) (wto : dag_node → dag_node → Bool) (thr : Int)
    (srt : std_sort_fn) (hsrt : std_sort_contract srt) :
    (p.instructions.length ≠ 1 →
      ∃ st', (pre_scheduling_impl.create p weight_func num_of_streams wto thr srt).run = some st') ∧
    ∀ st', (pre_scheduling_impl.create p weight_func num_of_streams wto thr srt).run = some st' →
      st'.p_program.instructions.Perm p.instructions ∧
      ((num_of_streams ≠ 0 → ∀ v ∈ p.instructions, ∀ u ∈ (p.ins v).inputs,
          (st'.nodes u).sched_cycle + (st'.nodes u).weight ≤ (st'.nodes v).sched_cycle) →
        ∀ v ∈ st'.p_program.instructions, ∀ u ∈ (st'.p_program.ins v).inputs,
          st'.p_program.pos u < st'.p_program.pos v) ∧
      ((∀ x, (p.ins x).stream = -1 ∧ (p.ins x).mask = 0) →
        ∀ v ∈ st'.p_program.instructions, ∀ u ∈ (st'.p_program.ins v).inputs,
          0 ≤ (st'.p_program.ins u).get_stream → 0 ≤ (st'.p_program.ins v).get_stream →
          (st'.p_program.ins u).get_stream ≠ (st'.p_program.ins v).get_stream →
          (st'.p_program.ins u).has_mask RECORD_EVENT = true ∧
          (st'.p_program.ins v).has_mask WAIT_EVENT = true) := by
  by_cases hn : p.instructions.length = 0
  · have hrun : (pre_scheduling_impl.create p weight_func num_of_streams wto thr srt).run
        = some (pre_scheduling_impl.create p weight_func num_of_streams wto thr srt) := by
      have : (pre_scheduling_impl.create p weight_func num_of_streams wto
          thr srt).p_program.instructions.length = 0 := hn
      simp only [pre_scheduling_impl.run, this, if_true]
    refine ⟨fun _ => ⟨_, hrun⟩, ?_⟩
    intro st' h
    rw [hrun] at h
    cases h
    refine ⟨List.Perm.refl _, fun _ => hwf.2.1, ?_⟩
    intro _ v hv
    have : p.instructions = [] := List.eq_nil_of_length_eq_zero hn
    have hv' : v ∈ p.instructions := hv
    rw [this] at hv'
    cases hv'
  · obtain ⟨st3, L3, e, nd3, perm3, gr3, topo3, ev3⟩ :=
      pre_scheduling_impl.run_until_splice p hwf weight_func hw num_of_streams wto thr srt hsrt hn
    have hperm3 : L3.Perm st3.p_program.instructions := by
      rw [gr3.1]; exact perm3
    by_cases hlen : 2 ≤ L3.length
    · obtain ⟨st4, e4, hi4, hins4, _, _⟩ := pre_scheduling_impl.splice_spec st3 L3 nd3 hperm3 hlen
      have hin : ∀ v u, u ∈ (st4.p_program.ins v).inputs → u ∈ (p.ins v).inputs := by
        intro v u hu
        rw [hins4] at hu
        have := (gr3.2.2 v).2.2.2.1
        unfold instruction.inputs at hu ⊢
        rw [← this]; exact hu
      have hnodes4 : st4.nodes = st3.nodes := by
        have e4' := e4
        simp only [pre_scheduling_impl.splice] at e4'
        split at e4'
        · cases e4'
        · cases e4'
        · cases e4'; rfl
      have hfin : st4.p_program.instructions.Perm p.instructions ∧
          ((num_of_streams ≠ 0 → ∀ v ∈ p.instructions, ∀ u ∈ (p.ins v).inputs,
              (st4.nodes u).sched_cycle + (st4.nodes u).weight ≤ (st4.nodes v).sched_cycle) →
            ∀ v ∈ st4.p_program.instructions, ∀ u ∈ (st4.p_program.ins v).inputs,
              st4.p_program.pos u < st4.p_program.pos v) ∧
          ((∀ x, (p.ins x).stream = -1 ∧ (p.ins x).mask = 0) →
            ∀ v ∈ st4.p_program.instructions, ∀ u ∈ (st4.p_program.ins v).inputs,
              0 ≤ (st4.p_program.ins u).get_stream → 0 ≤ (st4.p_program.ins v).get_stream →
              (st4.p_program.ins u).get_stream ≠ (st4.p_program.ins v).get_stream →
              (st4.p_program.ins u).has_mask RECORD_EVENT = true ∧
              (st4.p_program.ins v).has_mask WAIT_EVENT = true) := by
        refine ⟨by rw [hi4]; exact perm3, ?_, ?_⟩
        · intro hedges v hv u hu
          have hu' := hin v u hu
          unfold program.pos
          rw [hi4] at hv ⊢
          rw [hnodes4] at hedges
          exact topo3 hedges v hv u hu'
        · intro h0 v hv u hu
          have hu' := hin v u hu
          rw [hi4] at hv
          rw [hins4]
          exact ev3 h0 v (perm3.mem_iff.mp hv) u hu'
      refine ⟨fun _ => ⟨st4, e.trans e4⟩, ?_⟩
      intro st' h
      rw [e, e4] at h
      cases h
      exact hfin
    · have hlen1 : L3.length = 1 := by
        have := perm3.length_eq
        omega
      have hnone : st3.splice L3 = none := by
        match L3, hlen1 with
        | [a], _ => rfl
      refine ⟨fun h1 => absurd (perm3.length_eq.symm.trans hlen1) h1, ?_⟩
      intro st' h
      rw [e, hnone] at h
      cases h

/-- C2: after pre-scheduling a well-formed program whose instructions all
start with stream annotation `-1` and an empty event mask, every def/use edge
`u → v` whose two stream annotations are both `>= 0` and different has
`RECORD_EVENT` in the mask of `u` and `WAIT_EVENT` in the mask of `v` (for any
`std::sort`).  The pass completes on every program that does not consist of
exactly one instruction. -/
theorem C2_cross_stream_events (p : program) (hwf : p.well_formed)
    (h0 : ∀ x, (p.ins x).stream = -1 ∧ (p.ins x).mask = 0)
    (weight_func : String → Int × Bool) (hw : ∀ name, 0 ≤ (weight_func name).1)
    (num_of_streams : Nat) (wto : dag_node → dag_node → Bool) (thr : Int)
    (srt : std_sort_fn) (hsrt : std_sort_contract srt) :
    (p.instructions.length ≠ 1 →
      ∃ st', (pre_scheduling_impl.create p weight_func num_of_streams wto thr srt).run = some st') ∧
    ∀ st', (pre_scheduling_impl.create p weight_func num_of_streams wto thr srt).run = some st' →
      ∀ v ∈ st'.p_program.instructions, ∀ u ∈ (st'.p_program.ins v).inputs,
        0 ≤ (st'.p_program.ins u).get_stream → 0 ≤ (st'.p_program.ins v).get_stream →
        (st'.p_program.ins u).get_stream ≠ (st'.p_program.ins v).get_stream →
        (st'.p_program.ins u).has_mask RECORD_EVENT = true ∧
        (st'.p_program.ins v).has_mask WAIT_EVENT = true := by
  obtain ⟨h1, h2⟩ :=
    pre_scheduling_impl.run_spec p hwf weight_func hw num_of_streams wto thr srt hsrt
  exact ⟨h1, fun st' h => (h2 st' h).2.2 h0⟩

theorem C2_cross_stream_events_witness :
    (diamond_example.instructions.length ≠ 1 →
      ∃ st', (pre_scheduling_impl.create diamond_example diamond_weights 2
        (fun _ _ => false) 2 stable_sort).run = some st') ∧
    ∀ st', (pre_scheduling_impl.create diamond_example diamond_weights 2
        (fun _ _ => false) 2 stable_sort).run = some st' →
      ∀ v ∈ st'.p_program.instructions, ∀ u ∈ (st'.p_program.ins v).inputs,
        0 ≤ (st'.p_program.ins u).get_stream → 0 ≤ (st'.p_program.ins v).get_stream →
        (st'.p_program.ins u).get_stream ≠ (st'.p_program.ins v).get_stream →
        (st'.p_program.ins u).has_mask RECORD_EVENT = true ∧
        (st'.p_program.ins v).has_mask WAIT_EVENT = true :=
  C2_cross_stream_events diamond_example (by decide)
    (by
      intro x
      unfold diamond_example mk_ins
      simp only []
      split <;> exact ⟨rfl, rfl⟩)
    diamond_weights
    (by intro name; unfold diamond_weights; split_ifs <;> decide) 2 (fun _ _ => false) 2
    stable_sort stable_sort_contract

/-- C8 (evaluation at the failing input): `x` has the consumers
`convolution, add, convolution, add`.  `process` makes `x` a root (node `0`)
and flags the two convolutions, but it flags neither `add`, although `add` is
the operator name of two consumers: the counting loop leaves at the first
repeated name, so `op2_cnt["add"]` stays `1`. -/
theorem C8_process_misses_second_duplicate :
    ((horizontal_fusion_impl.create fanout_example).process 0).map fanout_flags
      = some (some 0, [true], some true, none, some true, none) ∧
    (fanout_example.ins 6).name = (fanout_example.ins 8).name ∧
    6 ∈ (fanout_example.ins 0).outputs ∧ 8 ∈ (fanout_example.ins 0).outputs := by
  refine ⟨?_, ?_, ?_, ?_⟩
  · rfl
  · decide
  · decide
  · decide

namespace horizontal_fusion_impl

theorem same_tables_refl (st : horizontal_fusion_impl) : same_tables st st :=
  ⟨rfl, rfl, rfl, rfl, rfl, rfl, rfl, rfl, rfl⟩

theorem same_tables_trans {a b c : horizontal_fusion_impl} (h1 : same_tables a b)
    (h2 : same_tables b c) : same_tables a c :=
  ⟨h2.program.trans h1.program, h2.registry.trans h1.registry, h2.value.trans h1.value,
    h2.point.trans h1.point, h2.encode.trans h1.encode, h2.values.trans h1.values,
    h2.instrs.trans h1.instrs, h2.cur_point.trans h1.cur_point, h2.hashed.trans h1.hashed⟩

theorem mem_set_insert (x y : Nat) : ∀ l : List Nat, y ∈ set_insert x l ↔ y = x ∨ y ∈ l := by
  intro l
  induction l with
  | nil => simp [set_insert]
  | cons a l ih =>
    unfold set_insert
    split
    · simp
    · split
      · rename_i h1 h2
        subst h2
        simp
      · simp only [List.mem_cons, ih]
        tauto

theorem flag_all_tables (outs : List instruction_ref) :
    ∀ st : horizontal_fusion_impl, same_tables st (st.flag_all outs) := by
  induction outs with
  | nil => intro st; exact same_tables_refl st
  | cons o outs ih =>
    intro st
    have h1 : same_tables st
        { st with instr2_hash := Function.update st.instr2_hash o (some true) } :=
      ⟨rfl, rfl, rfl, rfl, rfl, rfl, rfl, rfl, rfl⟩
    exact same_tables_trans h1
      (ih { st with instr2_hash := Function.update st.instr2_hash o (some true) })

theorem flag_children_tables (op2_cnt : String → Option Nat) (outs : List instruction_ref) :
    ∀ st : horizontal_fusion_impl, same_tables st (st.flag_children op2_cnt outs) := by
  induction outs with
  | nil => intro st; exact same_tables_refl st
  | cons o outs ih =>
    intro st
    by_cases hc : (op2_cnt (st.p_program.ins o).name).getD 0 > 1
    · have h1 : same_tables st
          { st with instr2_hash := Function.update st.instr2_hash o (some true) } :=
        ⟨rfl, rfl, rfl, rfl, rfl, rfl, rfl, rfl, rfl⟩
      have e : st.flag_children op2_cnt (o :: outs) =
          flag_children { st with instr2_hash := Function.update st.instr2_hash o (some true) }
            op2_cnt outs := by
        simp only [flag_children, List.foldl_cons, if_pos hc]
      rw [e]
      exact same_tables_trans h1 (ih _)
    · have e : st.flag_children op2_cnt (o :: outs) = st.flag_children op2_cnt outs := by
        simp only [flag_children, List.foldl_cons, if_neg hc]
      rw [e]
      exact ih st

theorem set_root_tables (st : horizontal_fusion_impl) (id : Nat) :
    same_tables st (st.set_root id) :=
  ⟨rfl, rfl, rfl, rfl, rfl, by simp [set_root], rfl, rfl, rfl⟩

theorem hash_opcode_tables (st : horizontal_fusion_impl) (ins : instruction_ref) :
    same_tables st (st.hash_opcode ins).1 := by
  unfold hash_opcode
  simp only []
  split
  · exact ⟨rfl, rfl, rfl, rfl, rfl, rfl, rfl, rfl, rfl⟩
  · exact same_tables_refl st

theorem add_edges_tables (hash_val : Nat) (inputs : List Nat) :
    ∀ st : horizontal_fusion_impl,
      same_tables st (inputs.foldl
        (fun st input => (st.add_input hash_val input).add_output input hash_val) st) := by
  induction inputs with
  | nil => intro st; exact same_tables_refl st
  | cons i inputs ih =>
    intro st
    simp only [List.foldl_cons]
    refine same_tables_trans ?_ (ih ((st.add_input hash_val i).add_output i hash_val))
    have h1 : same_tables st (st.add_input hash_val i) := by
      unfold add_input
      split
      · exact ⟨rfl, rfl, rfl, rfl, rfl, rfl, rfl, rfl, rfl⟩
      · split
        · exact same_tables_refl st
        · exact ⟨rfl, rfl, rfl, rfl, rfl, rfl, rfl, rfl, rfl⟩
    have h2 : same_tables (st.add_input hash_val i)
        ((st.add_input hash_val i).add_output i hash_val) := by
      unfold add_output
      split
      · exact ⟨rfl, rfl, rfl, rfl, rfl, rfl, rfl, rfl, rfl⟩
      · split
        · exact same_tables_refl _
        · exact ⟨rfl, rfl, rfl, rfl, rfl, rfl, rfl, rfl, rfl⟩
    exact same_tables_trans h1 h2

theorem add_instr_instrs (st : horizontal_fusion_impl) (id : Nat) :
    ∀ w, ((st.add_instr id).hash_instrs w).getD [] =
      if w = id then set_insert st.cur_point ((st.hash_instrs w).getD [])
      else (st.hash_instrs w).getD [] := by
  intro w
  unfold add_instr
  split
  · rename_i h
    by_cases hw : w = id
    · subst hw; simp [h, set_insert]
    · simp [Function.update_noteq hw, hw]
  · rename_i vals h
    by_cases hw : w = id
    · subst hw; simp [h]
    · simp [Function.update_noteq hw, hw]

theorem add_instr_fields (st : horizontal_fusion_impl) (id : Nat) :
    (st.add_instr id).p_program = st.p_program ∧
    (st.add_instr id).op_registry = st.op_registry ∧
    (st.add_instr id).instr2_value = st.instr2_value ∧
    (st.add_instr id).point2_instr = st.point2_instr ∧
    (st.add_instr id).encode2_value = st.encode2_value ∧
    (st.add_instr id).values = st.values ∧
    (st.add_instr id).cur_point = st.cur_point ∧
    (st.add_instr id).hashed = st.hashed := by
  unfold add_instr
  split <;> exact ⟨rfl, rfl, rfl, rfl, rfl, rfl, rfl, rfl⟩

theorem create_value_effect (st : horizontal_fusion_impl) (ins : instruction_ref) :
    (st.create_value ins).2 = st.values.length ∧
    mapped_to st (st.create_value ins).1 ins st.values.length ∧
    (st.create_value ins).1.encode2_value = st.encode2_value ∧
    (st.create_value ins).1.values.length = st.values.length + 1 ∧
    (st.create_value ins).1.hashed = st.hashed := by
  let val : hash_value := { id := st.values.length, cur_point := st.cur_point }
  let st1 : horizontal_fusion_impl := { st with values := st.values ++ [val] }
  have e : st.create_value ins =
      ({ st1.add_instr st.values.length with
          instr2_value := Function.update (st1.add_instr st.values.length).instr2_value ins
            (some st.values.length) }, st.values.length) := rfl
  obtain ⟨f1, f2, f3, f4, f5, f6, f7, f8⟩ := add_instr_fields st1 st.values.length
  rw [e]
  refine ⟨rfl, ⟨f1, f2, ?_, f4, ?_, f7⟩, f5, ?_, f8⟩
  · show Function.update (st1.add_instr st.values.length).instr2_value ins _ = _
    rw [f3]
  · intro w
    exact add_instr_instrs st1 st.values.length w
  · show (st1.add_instr st.values.length).values.length = _
    rw [f6]
    simp [st1]

theorem mapped_to_frame {st st1 st2 st3 : horizontal_fusion_impl} {ins : instruction_ref}
    {v : Nat} (h1 : same_tables st st1) (h2 : mapped_to st1 st2 ins v)
    (h3 : same_tables st2 st3) : mapped_to st st3 ins v := by
  refine ⟨h3.program.trans (h2.program.trans h1.program),
    h3.registry.trans (h2.registry.trans h1.registry), ?_,
    h3.point.trans (h2.point.trans h1.point), ?_,
    h3.cur_point.trans (h2.cur_point.trans h1.cur_point)⟩
  · rw [h3.value, h2.value, h1.value]
  · intro w
    rw [h3.instrs, h2.instrs w, h1.instrs, h1.cur_point]

theorem process_effect_frame {st st1 st2 st3 : horizontal_fusion_impl} {ins : instruction_ref}
    (h1 : same_tables st st1) (h2 : process_effect st1 st2 ins) (h3 : same_tables st2 st3) :
    process_effect st st3 ins := by
  cases h2 with
  | skip h => exact process_effect.skip (same_tables_trans h1 (same_tables_trans h h3))
  | root h encode values hashed =>
    have hm := mapped_to_frame h1 h h3
    rw [h1.values] at hm
    exact process_effect.root hm (by rw [h3.encode, encode, h1.encode])
      (by rw [h3.values, values, h1.values]) (by rw [h3.hashed, hashed, h1.hashed])
  | fresh key h absent encode values hashed =>
    have hm := mapped_to_frame h1 h h3
    rw [h1.values] at hm
    exact process_effect.fresh key hm (by rw [← h1.encode]; exact absent)
      (by rw [h3.encode, encode, h1.encode, h1.values])
      (by rw [h3.values, values, h1.values]) (by rw [h3.hashed, hashed, h1.hashed])
  | known key v h present encode values hashed =>
    exact process_effect.known key v (mapped_to_frame h1 h h3)
      (by rw [← h1.encode]; exact present)
      (by rw [h3.encode, encode, h1.encode])
      (by rw [h3.values, values, h1.values]) (by rw [h3.hashed, hashed, h1.hashed])

/-- The last statements of `hash`: the hash-DAG edges and the observation
record. -/
theorem finish_hash (st2 : horizontal_fusion_impl) (ins : instruction_ref) (key hash_val : Nat)
    (inputs : List Nat) (st4 : horizontal_fusion_impl)
    (h : st4 =
      { inputs.foldl (fun st input => (st.add_input hash_val input).add_output input hash_val)
          st2 with
        hashed := (inputs.foldl
          (fun st input => (st.add_input hash_val input).add_output input hash_val)
          st2).hashed ++ [(ins, key)] }) :
    st4.p_program = st2.p_program ∧ st4.op_registry = st2.op_registry ∧
    st4.instr2_value = st2.instr2_value ∧ st4.point2_instr = st2.point2_instr ∧
    st4.encode2_value = st2.encode2_value ∧ st4.values.length = st2.values.length ∧
    st4.hash_instrs = st2.hash_instrs ∧ st4.cur_point = st2.cur_point ∧
    st4.hashed = st2.hashed ++ [(ins, key)] := by
  have e := add_edges_tables hash_val inputs st2
  subst h
  exact ⟨e.program, e.registry, e.value, e.point, e.encode, e.values, e.instrs, e.cur_point,
    by simp only [e.hashed]⟩

/-- The effect of `hash`: nothing when it returns `nullptr`; otherwise the
instruction is mapped to the node of the key that the encoder returned. -/
theorem hash_effect (st : horizontal_fusion_impl) (ins : instruction_ref)
    (st' : horizontal_fusion_impl) (r : Option Nat) (h : st.hash ins = some (st', r)) :
    (r = none ∧ same_tables st st') ∨ (r ≠ none ∧ process_effect st st' ins) := by
  unfold hash at h
  split at h
  · simp only [Option.some.injEq, Prod.mk.injEq] at h
    left
    exact ⟨h.2.symm, h.1 ▸ same_tables_refl st⟩
  · rename_i encode_func _
    simp only [] at h
    have hop := hash_opcode_tables st ins
    generalize (st.hash_opcode ins).1 = st1 at h hop
    generalize (st.hash_opcode ins).2 = opcode at h
    split at h
    · cases h
    · rename_i encode_val _
      split at h
      · simp only [Option.some.injEq, Prod.mk.injEq] at h
        left
        exact ⟨h.2.symm, h.1 ▸ hop⟩
      · simp only [Option.some.injEq, Prod.mk.injEq] at h
        obtain ⟨hst, hr⟩ := h
        right
        refine ⟨by rw [← hr]; simp, ?_⟩
        apply process_effect_frame hop ?_ (same_tables_refl _)
        cases hk : st1.encode2_value encode_val.key with
        | none =>
          rw [hk] at hst
          simp only [] at hst
          obtain ⟨c1, c2, c3, c4, c5⟩ := create_value_effect st1 ins
          obtain ⟨f1, f2, f3, f4, f5, f6, f7, f8, f9⟩ :=
            finish_hash _ ins encode_val.key _ encode_val.inputs st' hst.symm
          refine process_effect.fresh encode_val.key
            ⟨f1.trans c2.program, f2.trans c2.registry, f3.trans c2.value, f4.trans c2.point,
              ?_, f8.trans c2.cur_point⟩ hk ?_ (f6.trans c4) ?_
          · intro w
            rw [f7]
            exact c2.instrs w
          · rw [f5]
            show Function.update (st1.create_value ins).1.encode2_value _ _ = _
            rw [c3, c1]
          · rw [f9]
            show (st1.create_value ins).1.hashed ++ _ = _
            rw [c5]
        | some v =>
          rw [hk] at hst
          simp only [] at hst
          obtain ⟨a1, a2, a3, a4, a5, a6, a7, a8⟩ := add_instr_fields st1 v
          obtain ⟨f1, f2, f3, f4, f5, f6, f7, f8, f9⟩ :=
            finish_hash _ ins encode_val.key _ encode_val.inputs st' hst.symm
          refine process_effect.known encode_val.key v
            ⟨f1.trans a1, f2.trans a2, ?_, f4.trans a4, ?_, f8.trans a7⟩ hk (f5.trans a5) ?_ ?_
          · rw [f3]
            show Function.update (st1.add_instr v).instr2_value _ _ = _
            rw [a3]
          · intro w
            rw [f7]
            exact add_instr_instrs st1 v w
          · rw [f6]
            show (st1.add_instr v).values.length = _
            rw [a6]
          · rw [f9]
            show (st1.add_instr v).hashed ++ _ = _
            rw [a8]

/-- The effect of the root detection of `process`. -/
theorem process_root_effect (st : horizontal_fusion_impl) (ins : instruction_ref) :
    process_effect st (st.process_root ins) ins := by
  unfold process_root
  simp only []
  split
  · obtain ⟨c1, c2, c3, c4, c5⟩ := create_value_effect st ins
    have h1 := set_root_tables (st.create_value ins).1 (st.create_value ins).2
    have h2 := flag_children_tables
      (count_outputs st.p_program (st.p_program.ins ins).outputs fun _ => none).1
      (st.p_program.ins ins).outputs
      ((st.create_value ins).1.set_root (st.create_value ins).2)
    exact process_effect_frame (same_tables_refl st)
      (process_effect.root c2 c3 c4 c5) (same_tables_trans h1 h2)
  · exact process_effect.skip (same_tables_refl st)

/-- The effect of `process`. -/
theorem process_has_effect (st : horizontal_fusion_impl) (ins : instruction_ref)
    (st' : horizontal_fusion_impl) (h : st.process ins = some st') :
    process_effect st st' ins := by
  unfold process at h
  split at h
  · simp only [Option.some.injEq] at h
    exact h ▸ process_effect.skip (same_tables_refl st)
  · split at h
    · split at h
      · cases h
      · rename_i st1 v e
        simp only [Option.some.injEq] at h
        rcases hash_effect st ins st1 (some v) e with ⟨h1, _⟩ | ⟨_, h2⟩
        · cases h1
        · rw [← h]
          exact process_effect_frame (same_tables_refl st) h2 (flag_all_tables _ st1)
      · rename_i st1 e
        simp only [Option.some.injEq] at h
        rcases hash_effect st ins st1 none e with ⟨_, h2⟩ | ⟨h1, _⟩
        · rw [← h]
          exact process_effect_frame h2 (process_root_effect st1 ins) (same_tables_refl _)
        · exact absurd rfl h1
    · simp only [Option.some.injEq] at h
      rw [← h]
      exact process_root_effect st ins

/-- The state with which the loop of `run` continues after `process`. -/
theorem advance_fields (st1 : horizontal_fusion_impl) (ins : instruction_ref) :
    ∀ st2 : horizontal_fusion_impl,
      st2 = { st1 with
        point2_instr := Function.update st1.point2_instr st1.cur_point (some ins),
        cur_point := st1.cur_point + 1 } →
      st2.instr2_value = st1.instr2_value ∧ st2.encode2_value = st1.encode2_value ∧
      st2.values = st1.values ∧ st2.hash_instrs = st1.hash_instrs ∧ st2.hashed = st1.hashed ∧
      st2.point2_instr = Function.update st1.point2_instr st1.cur_point (some ins) ∧
      st2.cur_point = st1.cur_point + 1 ∧ st2.p_program = st1.p_program ∧
      st2.op_registry = st1.op_registry := by
  intro st2 h
  subst h
  exact ⟨rfl, rfl, rfl, rfl, rfl, rfl, rfl, rfl, rfl⟩

/-- The part of the invariant that speaks of program points and instr sets,
after an instruction has been mapped to a node. -/
theorem hash_inv_points_mapped (done : List instruction_ref) (st st2 : horizontal_fusion_impl)
    (ins : instruction_ref) (v0 : Nat) (hinv : hash_inv done st) (hni : ins ∉ done)
    (hval : st2.instr2_value = Function.update st.instr2_value ins (some v0))
    (hpt : st2.point2_instr = Function.update st.point2_instr st.cur_point (some ins))
    (hcp : st2.cur_point = st.cur_point + 1)
    (hsets : ∀ w, (st2.hash_instrs w).getD [] =
      if w = v0 then set_insert st.cur_point ((st.hash_instrs w).getD [])
      else (st.hash_instrs w).getD []) :
    st2.cur_point = (done ++ [ins]).length ∧
    (∀ pt i, st2.point2_instr pt = some i → pt < (done ++ [ins]).length ∧ i ∈ done ++ [ins]) ∧
    (∀ i v, st2.instr2_value i = some v → i ∈ done ++ [ins]) ∧
    (∀ v pt, pt ∈ (st2.hash_instrs v).getD [] ↔
      ∃ i, st2.point2_instr pt = some i ∧ st2.instr2_value i = some v) ∧
    (∀ a, a ∈ done → st2.instr2_value a = st.instr2_value a) := by
  have hc := hinv.cur_point
  have hold : ∀ a, a ∈ done → st2.instr2_value a = st.instr2_value a := by
    intro a ha
    have : a ≠ ins := fun h => hni (h ▸ ha)
    rw [hval, Function.update_noteq this]
  have hptold : ∀ pt, pt ≠ st.cur_point → st2.point2_instr pt = st.point2_instr pt := by
    intro pt h
    rw [hpt, Function.update_noteq h]
  refine ⟨by rw [hcp, hc]; simp, ?_, ?_, ?_, hold⟩
  · intro pt i h
    by_cases hp : pt = st.cur_point
    · subst hp
      rw [hpt, Function.update_same] at h
      cases h
      exact ⟨by rw [hc]; simp, by simp⟩
    · rw [hptold pt hp] at h
      obtain ⟨h1, h2⟩ := hinv.points pt i h
      exact ⟨by simp; omega, List.mem_append_left _ h2⟩
  · intro i v h
    by_cases hi : i = ins
    · rw [hi]; simp
    · rw [hval, Function.update_noteq hi] at h
      exact List.mem_append_left _ (hinv.mapped i v h)
  · intro v pt
    rw [hsets v]
    constructor
    · intro h
      have hcases : (v = v0 ∧ pt = st.cur_point) ∨ pt ∈ (st.hash_instrs v).getD [] := by
        by_cases hv : v = v0
        · rw [if_pos hv, mem_set_insert] at h
          rcases h with h | h
          · exact Or.inl ⟨hv, h⟩
          · exact Or.inr h
        · rw [if_neg hv] at h
          exact Or.inr h
      rcases hcases with ⟨hv, hp⟩ | hmem
      · refine ⟨ins, by rw [hp, hpt, Function.update_same], ?_⟩
        rw [hval, Function.update_same, hv]
      · obtain ⟨i, h1, h2⟩ := (hinv.instrs v pt).mp hmem
        obtain ⟨h3, h4⟩ := hinv.points pt i h1
        refine ⟨i, ?_, ?_⟩
        · rw [hptold pt (by omega)]; exact h1
        · rw [hold i h4]; exact h2
    · rintro ⟨i, h1, h2⟩
      by_cases hp : pt = st.cur_point
      · rw [hp, hpt, Function.update_same] at h1
        cases h1
        rw [hval, Function.update_same] at h2
        cases h2
        rw [if_pos rfl, mem_set_insert]
        exact Or.inl hp
      · rw [hptold pt hp] at h1
        obtain ⟨_, h4⟩ := hinv.points pt i h1
        rw [hold i h4] at h2
        have hmem := (hinv.instrs v pt).mpr ⟨i, h1, h2⟩
        by_cases hv : v = v0
        · rw [if_pos hv, mem_set_insert]; exact Or.inr hmem
        · rw [if_neg hv]; exact hmem

/-- The invariant of the hashing phase is kept by one iteration of the loop of
`run`. -/
theorem hash_inv_step (done : List instruction_ref) (st st1 st2 : horizontal_fusion_impl)
    (ins : instruction_ref) (hinv : hash_inv done st) (hni : ins ∉ done)
    (heff : process_effect st st1 ins)
    (h2 : st2 = { st1 with
      point2_instr := Function.update st1.point2_instr st1.cur_point (some ins),
      cur_point := st1.cur_point + 1 }) :
    hash_inv (done ++ [ins]) st2 := by
  obtain ⟨g1, g2, g3, g4, g5, g6, g7, _, _⟩ := advance_fields st1 ins st2 h2
  cases heff with
  | skip h =>
    have hc := hinv.cur_point
    have hptold : ∀ pt, pt ≠ st.cur_point → st2.point2_instr pt = st.point2_instr pt := by
      intro pt hp
      rw [g6, h.cur_point, h.point, Function.update_noteq hp]
    have hpt : st2.point2_instr st.cur_point = some ins := by
      rw [g6, h.cur_point, Function.update_same]
    have hval : st2.instr2_value = st.instr2_value := g1.trans h.value
    constructor
    · rw [g7, h.cur_point, hc]; simp
    · intro pt i hp
      by_cases hpc : pt = st.cur_point
      · rw [hpc, hpt] at hp
        cases hp
        exact ⟨by rw [hpc, hc]; simp, by simp⟩
      · rw [hptold pt hpc] at hp
        obtain ⟨h1, h2⟩ := hinv.points pt i hp
        exact ⟨by simp; omega, List.mem_append_left _ h2⟩
    · intro i v hv
      rw [hval] at hv
      exact List.mem_append_left _ (hinv.mapped i v hv)
    · intro a k hak
      rw [g5, h.hashed] at hak
      rw [hval, g2, h.encode]
      exact hinv.logged a k hak
    · intro k1 k2 v
      rw [g2, h.encode]
      exact hinv.injective k1 k2 v
    · intro k v
      rw [g2, h.encode, g3, h.values]
      exact hinv.bounded k v
    · intro v pt
      rw [g4, h.instrs, hval]
      constructor
      · intro hm
        obtain ⟨i, h1, h2⟩ := (hinv.instrs v pt).mp hm
        obtain ⟨h3, _⟩ := hinv.points pt i h1
        exact ⟨i, by rw [hptold pt (by omega)]; exact h1, h2⟩
      · rintro ⟨i, h1, h2⟩
        by_cases hpc : pt = st.cur_point
        · rw [hpc, hpt] at h1
          cases h1
          exact absurd (hinv.mapped _ v h2) hni
        · rw [hptold pt hpc] at h1
          exact (hinv.instrs v pt).mpr ⟨i, h1, h2⟩
  | root h encode values hashed =>
    obtain ⟨q1, q2, q3, q4, hold⟩ := hash_inv_points_mapped done st st2 ins _ hinv hni
      (g1.trans h.value) (by rw [g6, h.cur_point, h.point]) (by rw [g7, h.cur_point])
      (by intro w; rw [g4]; exact h.instrs w)
    refine ⟨q1, q2, q3, ?_, ?_, ?_, q4⟩
    · intro a k hak
      rw [g5, hashed] at hak
      obtain ⟨v, e1, e2⟩ := hinv.logged a k hak
      exact ⟨v, by rw [hold a (hinv.mapped a v e1)]; exact e1, by rw [g2, encode]; exact e2⟩
    · intro k1 k2 v
      rw [g2, encode]
      exact hinv.injective k1 k2 v
    · intro k v hk
      rw [g2, encode] at hk
      have := hinv.bounded k v hk
      rw [g3, values]; omega
  | fresh key h absent encode values hashed =>
    obtain ⟨q1, q2, q3, q4, hold⟩ := hash_inv_points_mapped done st st2 ins _ hinv hni
      (g1.trans h.value) (by rw [g6, h.cur_point, h.point]) (by rw [g7, h.cur_point])
      (by intro w; rw [g4]; exact h.instrs w)
    have henc : ∀ k, k ≠ key → st2.encode2_value k = st.encode2_value k := by
      intro k hk
      rw [g2, encode, Function.update_noteq hk]
    have hkey : st2.encode2_value key = some st.values.length := by
      rw [g2, encode, Function.update_same]
    refine ⟨q1, q2, q3, ?_, ?_, ?_, q4⟩
    · intro a k hak
      rw [g5, hashed] at hak
      rcases List.mem_append.mp hak with hak | hak
      · obtain ⟨v, e1, e2⟩ := hinv.logged a k hak
        have hk : k ≠ key := by
          intro hk; rw [hk, absent] at e2; cases e2
        exact ⟨v, by rw [hold a (hinv.mapped a v e1)]; exact e1, by rw [henc k hk]; exact e2⟩
      · simp only [List.mem_singleton, Prod.mk.injEq] at hak
        obtain ⟨ha, hk⟩ := hak
        subst ha; subst hk
        exact ⟨st.values.length, by rw [g1, h.value, Function.update_same], hkey⟩
    · intro k1 k2 v e1 e2
      by_cases h1 : k1 = key
      · by_cases h2 : k2 = key
        · rw [h1, h2]
        · rw [h1, hkey] at e1
          rw [henc k2 h2] at e2
          cases e1
          exact absurd (hinv.bounded k2 _ e2) (lt_irrefl _)
      · by_cases h2 : k2 = key
        · rw [h2, hkey] at e2
          rw [henc k1 h1] at e1
          cases e2
          exact absurd (hinv.bounded k1 _ e1) (lt_irrefl _)
        · rw [henc k1 h1] at e1
          rw [henc k2 h2] at e2
          exact hinv.injective k1 k2 v e1 e2
    · intro k v hk
      rw [g3, values]
      by_cases h1 : k = key
      · rw [h1, hkey] at hk
        cases hk
        omega
      · rw [henc k h1] at hk
        have := hinv.bounded k v hk
        omega
  | known key v0 h present encode values hashed =>
    obtain ⟨q1, q2, q3, q4, hold⟩ := hash_inv_points_mapped done st st2 ins v0 hinv hni
      (g1.trans h.value) (by rw [g6, h.cur_point, h.point]) (by rw [g7, h.cur_point])
      (by intro w; rw [g4]; exact h.instrs w)
    refine ⟨q1, q2, q3, ?_, ?_, ?_, q4⟩
    · intro a k hak
      rw [g5, hashed] at hak
      rcases List.mem_append.mp hak with hak | hak
      · obtain ⟨v, e1, e2⟩ := hinv.logged a k hak
        exact ⟨v, by rw [hold a (hinv.mapped a v e1)]; exact e1, by rw [g2, encode]; exact e2⟩
      · simp only [List.mem_singleton, Prod.mk.injEq] at hak
        obtain ⟨ha, hk⟩ := hak
        subst ha; subst hk
        exact ⟨v0, by rw [g1, h.value, Function.update_same], by rw [g2, encode]; exact present⟩
    · intro k1 k2 v
      rw [g2, encode]
      exact hinv.injective k1 k2 v
    · intro k v hk
      rw [g2, encode] at hk
      rw [g3, values]
      exact hinv.bounded k v hk

theorem hashing_phase_inv :
    ∀ (rest done : List instruction_ref) (st st' : horizontal_fusion_impl),
      (done ++ rest).Nodup → hash_inv done st → hashing_phase rest st = some st' →
      hash_inv (done ++ rest) st' := by
  intro rest
  induction rest with
  | nil =>
    intro done st st' _ hinv h
    simp only [hashing_phase, Option.some.injEq] at h
    rw [← h, List.append_nil]
    exact hinv
  | cons ins rest ih =>
    intro done st st' hnd hinv h
    have hni : ins ∉ done := fun hm =>
      (List.nodup_append.mp hnd).2.2 hm (List.mem_cons_self _ _)
    unfold hashing_phase at h
    split at h
    · cases h
    · rename_i st1 e
      have heff := process_has_effect st ins st1 e
      have hstep := hash_inv_step done st st1 _ ins hinv hni heff rfl
      have := ih (done ++ [ins]) _ st' (by simpa using hnd) hstep h
      simpa using this

theorem process_effect_point {st st1 : horizontal_fusion_impl} {ins : instruction_ref}
    (h : process_effect st st1 ins) :
    st1.point2_instr = st.point2_instr ∧ st1.cur_point = st.cur_point := by
  cases h with
  | skip h => exact ⟨h.point, h.cur_point⟩
  | root h _ _ _ => exact ⟨h.point, h.cur_point⟩
  | fresh _ h _ _ _ _ => exact ⟨h.point, h.cur_point⟩
  | known _ _ h _ _ _ _ => exact ⟨h.point, h.cur_point⟩

/-- The loop of `run` numbers the instructions in program order. -/
theorem hashing_phase_points :
    ∀ (rest done : List instruction_ref) (st st' : horizontal_fusion_impl),
      (∀ pt, st.point2_instr pt = done.get? pt) → st.cur_point = done.length →
      hashing_phase rest st = some st' →
      ∀ pt, st'.point2_instr pt = (done ++ rest).get? pt := by
  intro rest
  induction rest with
  | nil =>
    intro done st st' hpt _ h
    simp only [hashing_phase, Option.some.injEq] at h
    rw [← h, List.append_nil]
    exact hpt
  | cons ins rest ih =>
    intro done st st' hpt hc h
    unfold hashing_phase at h
    split at h
    · cases h
    · rename_i st1 e
      obtain ⟨e1, e2⟩ := process_effect_point (process_has_effect st ins st1 e)
      have := ih (done ++ [ins]) _ st' ?_ ?_ h
      · simpa using this
      · intro pt
        show Function.update st1.point2_instr st1.cur_point (some ins) pt = _
        rw [e1, e2, hc]
        by_cases hp : pt = done.length
        · subst hp
          simp
        · rw [Function.update_noteq hp, hpt pt]
          by_cases hlt : pt < done.length
          · simp [List.getElem?_append_left hlt]
          · have hgt : done.length < pt := by omega
            simp only [List.get?_eq_getElem?]
            rw [List.getElem?_eq_none (by omega), List.getElem?_eq_none (by simp; omega)]
      · show st1.cur_point + 1 = _
        rw [e2, hc]; simp

theorem create_hash_inv (p : program) : hash_inv [] (create p) := by
  refine ⟨rfl, ?_, ?_, ?_, ?_, ?_, ?_⟩
  · intro pt ins h; cases h
  · intro ins v h; cases h
  · intro a k h; cases h
  · intro k1 k2 v h; cases h
  · intro k v h; cases h
  · intro v pt
    constructor
    · intro h; cases h
    · rintro ⟨i, h, _⟩; cases h

end horizontal_fusion_impl

/-- C7: after the hashing phase of `run` (on a program without repeated
references, started from a freshly constructed `horizontal_fusion_impl`), two
instructions that were hashed through an encoder are both mapped to a node,
and to the same node if and only if their encoding keys are equal; the instr
set of every node is exactly the set of program points of the instructions
mapped to it, the program point of an instruction being its position in the
program. -/
theorem C7_hashing_phase (p : program) (hnd : p.instructions.Nodup)
    (st : horizontal_fusion_impl)
    (h : horizontal_fusion_impl.hashing_phase p.instructions
      (horizontal_fusion_impl.create p) = some st) :
    (∀ a ka b kb, (a, ka) ∈ st.hashed → (b, kb) ∈ st.hashed →
      st.instr2_value a ≠ none ∧ (st.instr2_value a = st.instr2_value b ↔ ka = kb)) ∧
    (∀ v pt, pt ∈ (st.hash_instrs v).getD [] ↔
      ∃ ins, st.point2_instr pt = some ins ∧ st.instr2_value ins = some v) ∧
    (∀ pt, st.point2_instr pt = p.instructions.get? pt) := by
  have hinv := horizontal_fusion_impl.hashing_phase_inv p.instructions [] _ st
    (by simpa using hnd) (horizontal_fusion_impl.create_hash_inv p) h
  simp only [List.nil_append] at hinv
  refine ⟨?_, hinv.instrs, ?_⟩
  · intro a ka b kb ha hb
    obtain ⟨va, a1, a2⟩ := hinv.logged a ka ha
    obtain ⟨vb, b1, b2⟩ := hinv.logged b kb hb
    refine ⟨by rw [a1]; simp, ?_⟩
    rw [a1, b1]
    constructor
    · intro e
      simp only [Option.some.injEq] at e
      subst e
      exact hinv.injective ka kb va a2 b2
    · intro e
      subst e
      rw [a2] at b2
      exact b2
  · have := horizontal_fusion_impl.hashing_phase_points p.instructions [] _ st
      (by intro pt; rfl) rfl h
    simpa using this

theorem C7_hashing_phase_witness :
    (∀ a ka b kb, (a, ka) ∈ fanout_hashed.hashed → (b, kb) ∈ fanout_hashed.hashed →
      fanout_hashed.instr2_value a ≠ none ∧
      (fanout_hashed.instr2_value a = fanout_hashed.instr2_value b ↔ ka = kb)) ∧
    (∀ v pt, pt ∈ (fanout_hashed.hash_instrs v).getD [] ↔
      ∃ ins, fanout_hashed.point2_instr pt = some ins ∧
        fanout_hashed.instr2_value ins = some v) ∧
    (∀ pt, fanout_hashed.point2_instr pt = fanout_example.instructions.get? pt) :=
  C7_hashing_phase fanout_example (by decide) fanout_hashed (by rfl)

namespace program

theorem replace_argument_spec (p : program) (user old new_ins : instruction_ref)
    (hne : old ≠ new_ins) :
    (p.replace_argument user old new_ins).instructions = p.instructions ∧
    (∀ c, ((p.replace_argument user old new_ins).ins c).arguments =
      if c = user then (p.ins c).arguments.map (rename_arg old new_ins)
      else (p.ins c).arguments) ∧
    (∀ u c, c ∈ ((p.replace_argument user old new_ins).ins u).output ↔
      (u = new_ins ∧ c = user) ∨ (c ∈ (p.ins u).output ∧ ¬ (u = old ∧ c = user))) := by
  let p1 : program := p.set user
    { p.ins user with arguments := (p.ins user).arguments.map (rename_arg old new_ins) }
  let p2 : program := p1.set old
    { p1.ins old with output := (p1.ins old).output.filter (fun x => x != user) }
  have hp1a : ∀ c, (p1.ins c).arguments =
      if c = user then (p.ins c).arguments.map (rename_arg old new_ins)
      else (p.ins c).arguments := by
    intro c
    by_cases hc : c = user
    · subst hc; simp [p1, program.set]
    · simp [p1, program.set, Function.update_noteq hc, hc]
  have hp1o : ∀ u, (p1.ins u).output = (p.ins u).output := by
    intro u
    by_cases hu : u = user
    · subst hu; simp [p1, program.set]
    · simp [p1, program.set, Function.update_noteq hu]
  have hp2a : ∀ c, (p2.ins c).arguments = (p1.ins c).arguments := by
    intro c
    by_cases hc : c = old
    · subst hc; simp [p2, program.set]
    · simp [p2, program.set, Function.update_noteq hc]
  have hp2o : ∀ u, (p2.ins u).output =
      if u = old then (p.ins u).output.filter (fun x => x != user) else (p.ins u).output := by
    intro u
    by_cases hu : u = old
    · subst hu; simp [p2, program.set, hp1o]
    · simp [p2, program.set, Function.update_noteq hu, hu, hp1o]
  have hunf : p.replace_argument user old new_ins =
      if user ∈ (p2.ins new_ins).output then p2
      else p2.set new_ins { p2.ins new_ins with output := (p2.ins new_ins).output ++ [user] } := by
    simp only [replace_argument, rename_arg, p2, p1]
    rfl
  have hnew : (p2.ins new_ins).output = (p.ins new_ins).output := by
    rw [hp2o, if_neg (Ne.symm hne)]
  by_cases hmem : user ∈ (p2.ins new_ins).output
  · rw [hunf, if_pos hmem]
    refine ⟨rfl, fun c => by rw [hp2a, hp1a], ?_⟩
    intro u c
    rw [hp2o]
    by_cases hu : u = old
    · subst hu
      simp only [if_true, List.mem_filter, bne_iff_ne, ne_eq, true_and]
      constructor
      · intro h; exact Or.inr ⟨h.1, h.2⟩
      · rintro (⟨h1, _⟩ | h)
        · exact absurd h1 hne
        · exact h
    · simp only [if_neg hu, hu, false_and, not_false_eq_true, and_true]
      constructor
      · intro h; exact Or.inr h
      · rintro (⟨h1, h2⟩ | h)
        · rw [h1, h2, ← hnew]; exact hmem
        · exact h
  · rw [hunf, if_neg hmem]
    refine ⟨rfl, ?_, ?_⟩
    · intro c
      by_cases hc : c = new_ins
      · subst hc
        simp only [program.set, Function.update_same]
        rw [hp2a, hp1a]
      · simp only [program.set, Function.update_noteq hc]
        rw [hp2a, hp1a]
    · intro u c
      by_cases hu : u = new_ins
      · subst hu
        simp only [program.set, Function.update_same, List.mem_append, List.mem_singleton, hnew]
        have : ¬ u = old := fun h => hne h.symm
        simp only [this, false_and, not_false_eq_true, and_true, true_and]
        tauto
      · simp only [program.set, Function.update_noteq hu]
        rw [hp2o]
        by_cases huo : u = old
        · subst huo
          simp only [if_true, List.mem_filter, bne_iff_ne, ne_eq, true_and, hu, false_and,
            false_or]
        · rw [if_neg huo]
          simp only [hu, huo, false_and, not_false_eq_true, and_true, false_or]

theorem rename_arg_idem (old new_ins : instruction_ref) (hne : old ≠ new_ins)
    (l : List instruction_ref) :
    (l.map (rename_arg old new_ins)).map (rename_arg old new_ins)
      = l.map (rename_arg old new_ins) := by
  rw [List.map_map]
  apply List.map_congr_left
  intro a _
  simp only [Function.comp, rename_arg]
  by_cases h : a = old
  · simp [h, hne.symm]
  · simp [h]

/-- The loop of `remove_redundant_roots` that rewires the outputs of `base`. -/
theorem rewire_outputs_spec (base root_ins : instruction_ref) (hne : base ≠ root_ins) :
    ∀ (outs : List instruction_ref) (p : program),
      (outs.foldl (fun p output => p.replace_argument output base root_ins) p).instructions
        = p.instructions ∧
      (∀ c, ((outs.foldl (fun p output => p.replace_argument output base root_ins) p).ins
          c).arguments =
        if c ∈ outs then (p.ins c).arguments.map (rename_arg base root_ins)
        else (p.ins c).arguments) ∧
      (∀ u c, c ∈ ((outs.foldl (fun p output => p.replace_argument output base root_ins) p).ins
          u).output ↔
        (u = root_ins ∧ c ∈ outs) ∨ (c ∈ (p.ins u).output ∧ ¬ (u = base ∧ c ∈ outs))) := by
  intro outs
  induction outs with
  | nil =>
    intro p
    refine ⟨rfl, fun c => by simp, fun u c => by simp⟩
  | cons o outs ih =>
    intro p
    obtain ⟨r1, r2, r3⟩ := replace_argument_spec p o base root_ins hne
    obtain ⟨i1, i2, i3⟩ := ih (p.replace_argument o base root_ins)
    simp only [List.foldl_cons]
    refine ⟨i1.trans r1, ?_, ?_⟩
    · intro c
      rw [i2 c, r2 c]
      by_cases hco : c = o
      · subst hco
        simp only [if_true, List.mem_cons, true_or]
        by_cases hc : c ∈ outs
        · rw [if_pos hc, rename_arg_idem base root_ins hne]
        · rw [if_neg hc]
      · rw [if_neg hco]
        simp only [List.mem_cons, hco, false_or]
    · intro u c
      rw [i3 u c, r3 u c]
      simp only [List.mem_cons]
      tauto

/-- The loop of `remove_instruction` that takes `r` out of the output lists of
its inputs. -/
theorem unlink_inputs_spec (r : instruction_ref) :
    ∀ (args : List instruction_ref) (p : program),
      (args.foldl (fun p arg => p.set arg
          { p.ins arg with output := (p.ins arg).output.filter (fun x => x != r) })
        p).instructions = p.instructions ∧
      (∀ c, ((args.foldl (fun p arg => p.set arg
          { p.ins arg with output := (p.ins arg).output.filter (fun x => x != r) })
        p).ins c).arguments = (p.ins c).arguments) ∧
      (∀ u c, c ≠ r → (c ∈ ((args.foldl (fun p arg => p.set arg
          { p.ins arg with output := (p.ins arg).output.filter (fun x => x != r) })
        p).ins u).output ↔ c ∈ (p.ins u).output)) := by
  intro args
  induction args with
  | nil => intro p; exact ⟨rfl, fun _ => rfl, fun _ _ _ => Iff.rfl⟩
  | cons a args ih =>
    intro p
    obtain ⟨i1, i2, i3⟩ := ih (p.set a
      { p.ins a with output := (p.ins a).output.filter (fun x => x != r) })
    simp only [List.foldl_cons]
    refine ⟨i1, ?_, ?_⟩
    · intro c
      rw [i2 c]
      by_cases hc : c = a
      · subst hc; simp [program.set]
      · simp [program.set, Function.update_noteq hc]
    · intro u c hcr
      rw [i3 u c hcr]
      by_cases hu : u = a
      · subst hu
        simp [program.set, hcr]
      · simp [program.set, Function.update_noteq hu]

theorem remove_instruction_spec (p : program) (r : instruction_ref) :
    (p.remove_instruction r).instructions = p.instructions.filter (fun x => x != r) ∧
    (∀ c, c ≠ r → ((p.remove_instruction r).ins c).arguments = (p.ins c).arguments) ∧
    (∀ u c, c ≠ r → (c ∈ ((p.remove_instruction r).ins u).output ↔ c ∈ (p.ins u).output)) := by
  obtain ⟨i1, i2, i3⟩ := unlink_inputs_spec r (p.ins r).arguments p
  generalize hq : (p.ins r).arguments.foldl (fun p arg => p.set arg
      { p.ins arg with output := (p.ins arg).output.filter (fun x => x != r) }) p = q
      at i1 i2 i3
  have hunf : p.remove_instruction r =
      { q.set r { q.ins r with arguments := [] } with
        instructions := q.instructions.filter (fun x => x != r) } := by
    rw [← hq]; rfl
  rw [hunf]
  refine ⟨?_, ?_, ?_⟩
  · show q.instructions.filter (fun x => x != r) = _
    rw [i1]
  · intro c hc
    show ((q.set r { q.ins r with arguments := [] }).ins c).arguments = _
    simp only [program.set, Function.update_noteq hc]
    exact i2 c
  · intro u c hc
    show c ∈ ((q.set r { q.ins r with arguments := [] }).ins u).output ↔ _
    by_cases hu : u = r
    · subst hu
      simp only [program.set, Function.update_same]
      exact i3 u c hc
    · simp only [program.set, Function.update_noteq hu]
      exact i3 u c hc

end program

namespace horizontal_fusion_impl

/-- One round of `remove_redundant_roots`: `base` leaves the sequence, its
consumers read `root_ins` instead, and uses stay recorded. -/
theorem remove_redundant_root_spec (p : program) (root_ins base : instruction_ref)
    (hne : base ≠ root_ins) (hrec : p.uses_recorded) :
    (remove_redundant_root p root_ins base).instructions
      = p.instructions.filter (fun x => x != base) ∧
    (∀ c ∈ p.instructions, c ≠ base →
      ((remove_redundant_root p root_ins base).ins c).arguments
        = (p.ins c).arguments.map (rename_arg base root_ins)) ∧
    (remove_redundant_root p root_ins base).uses_recorded := by
  obtain ⟨w1, w2, w3⟩ := program.rewire_outputs_spec base root_ins hne (p.ins base).outputs p
  obtain ⟨r1, r2, r3⟩ := program.remove_instruction_spec
    ((p.ins base).outputs.foldl (fun p output => p.replace_argument output base root_ins) p) base
  have hargs : ∀ c ∈ p.instructions, c ≠ base →
      ((remove_redundant_root p root_ins base).ins c).arguments
        = (p.ins c).arguments.map (rename_arg base root_ins) := by
    intro c hc hcb
    simp only [remove_redundant_root]
    rw [r2 c hcb, w2 c]
    by_cases hco : c ∈ (p.ins base).outputs
    · rw [if_pos hco]
    · rw [if_neg hco]
      symm
      conv_rhs => rw [← List.map_id (p.ins c).arguments]
      apply List.map_congr_left
      intro a ha
      simp only [rename_arg, id]
      by_cases hab : a = base
      · subst hab
        exact absurd (hrec c hc a ha) hco
      · rw [if_neg hab]
  refine ⟨?_, hargs, ?_⟩
  · simp only [remove_redundant_root]
    rw [r1, w1]
  · intro c hc u hu
    have hc' : c ∈ p.instructions ∧ c ≠ base := by
      simp only [remove_redundant_root] at hc
      rw [r1, w1] at hc
      simpa using hc
    simp only [instruction.inputs] at hu
    rw [hargs c hc'.1 hc'.2] at hu
    obtain ⟨a, ha, rfl⟩ := List.mem_map.1 hu
    have hca : c ∈ (p.ins a).output := hrec c hc'.1 a ha
    show c ∈ ((remove_redundant_root p root_ins base).ins (rename_arg base root_ins a)).output
    simp only [remove_redundant_root]
    rw [r3 _ c hc'.2, w3]
    simp only [rename_arg]
    by_cases hab : a = base
    · subst hab
      rw [if_pos rfl]
      exact Or.inl ⟨rfl, hca⟩
    · rw [if_neg hab]
      exact Or.inr ⟨hca, fun h => hab h.1⟩

/-- The loop of `remove_redundant_roots` over the members after the first. -/
theorem remove_redundant_loop_spec (root_ins : instruction_ref) :
    ∀ (bs : List instruction_ref) (p : program), root_ins ∉ bs → p.uses_recorded →
      (bs.foldl (fun p base => remove_redundant_root p root_ins base) p).instructions
        = p.instructions.filter (fun x => decide (x ∉ bs)) ∧
      (∀ c ∈ p.instructions, c ∉ bs →
        ((bs.foldl (fun p base => remove_redundant_root p root_ins base) p).ins c).arguments
          = (p.ins c).arguments.map (fun a => if a ∈ bs then root_ins else a)) ∧
      (bs.foldl (fun p base => remove_redundant_root p root_ins base) p).uses_recorded := by
  intro bs
  induction bs with
  | nil =>
    intro p _ hrec
    refine ⟨by simp, fun c _ _ => by simp, hrec⟩
  | cons b bs ih =>
    intro p hnot hrec
    have hb : b ≠ root_ins := fun h => hnot (by simp [h])
    have hbs : root_ins ∉ bs := fun h => hnot (List.mem_cons_of_mem _ h)
    obtain ⟨s1, s2, s3⟩ := remove_redundant_root_spec p root_ins b hb hrec
    obtain ⟨i1, i2, i3⟩ := ih (remove_redundant_root p root_ins b) hbs s3
    simp only [List.foldl_cons]
    refine ⟨?_, ?_, i3⟩
    · rw [i1, s1, List.filter_filter]
      apply List.filter_congr
      intro x _
      by_cases hx : x = b <;> simp [hx]
    · intro c hc hcn
      have hcb : c ≠ b := fun h => hcn (by simp [h])
      have hcbs : c ∉ bs := fun h => hcn (List.mem_cons_of_mem _ h)
      have hc1 : c ∈ (remove_redundant_root p root_ins b).instructions := by
        rw [s1]; simp [hc, hcb]
      rw [i2 c hc1 hcbs, s2 c hc hcb, List.map_map]
      apply List.map_congr_left
      intro a _
      simp only [Function.comp, rename_arg, List.mem_cons]
      by_cases hab : a = b
      · simp [hab, hbs]
      · simp [hab]

end horizontal_fusion_impl

/-- C9: let the hash node `hash_id` have the members `b0 :: bs` (the first
program point of its instr set denotes `b0`, and `b0` is not repeated among the
others), in a program in which every use is recorded at its definition and that
contains `b0`.  Then `remove_redundant_roots` on the members followed by
`update_hash_tree` completes; the program keeps exactly the instructions that
are not in `bs`, in their order, so `b0` is still in it and no member of `bs`
is; every remaining instruction has `b0` in each argument position where it
had a member of `bs`, and its other arguments are unchanged; the instr set of
the node is the singleton of the program point of `b0`, and `b0` is the only
member of the node. -/
theorem C9_remove_redundant_roots (st : horizontal_fusion_impl) (hash_id pt0 : Nat)
    (pts : List Nat) (b0 : instruction_ref) (bs : List instruction_ref)
    (hset : st.hash_instrs hash_id = some (pt0 :: pts))
    (hpt : st.point2_instr pt0 = some b0)
    (hmem : st.get_instrs hash_id = b0 :: bs)
    (hb0 : b0 ∈ st.p_program.instructions)
    (hnot : b0 ∉ bs)
    (hrec : st.p_program.uses_recorded) :
    ∃ st1 st2, st.remove_redundant_roots (st.get_instrs hash_id) = some st1 ∧
      st1.update_hash_tree hash_id = some st2 ∧
      st2.p_program.instructions = st.p_program.instructions.filter (fun x => decide (x ∉ bs)) ∧
      b0 ∈ st2.p_program.instructions ∧
      (∀ b ∈ bs, b ∉ st2.p_program.instructions) ∧
      (∀ c ∈ st2.p_program.instructions, ∀ (j : Nat) (b : instruction_ref), b ∈ bs →
        (st.p_program.ins c).inputs.get? j = some b →
        (st2.p_program.ins c).inputs.get? j = some b0) ∧
      (∀ c ∈ st2.p_program.instructions,
        (st2.p_program.ins c).inputs
          = (st.p_program.ins c).inputs.map (fun a => if a ∈ bs then b0 else a)) ∧
      st2.hash_instrs hash_id = some [pt0] ∧
      st2.get_instrs hash_id = [b0] := by
  obtain ⟨l1, l2, _⟩ :=
    horizontal_fusion_impl.remove_redundant_loop_spec b0 bs st.p_program hnot hrec
  have hsurv : ∀ c, c ∈ st.p_program.instructions.filter (fun x => decide (x ∉ bs)) ↔
      c ∈ st.p_program.instructions ∧ c ∉ bs := by
    intro c; simp
  let P : program :=
    bs.foldl (fun p base => horizontal_fusion_impl.remove_redundant_root p b0 base) st.p_program
  let H : Nat → Option (List Nat) := Function.update st.hash_instrs hash_id (some [pt0])
  refine ⟨{ st with p_program := P }, { st with p_program := P, hash_instrs := H },
    ?_, ?_, l1, ?_, ?_, ?_, ?_, ?_, ?_⟩
  · rw [hmem]; rfl
  · simp only [horizontal_fusion_impl.update_hash_tree, hset, Option.getD_some]
  · show b0 ∈ (bs.foldl _ st.p_program).instructions
    rw [l1]; exact (hsurv b0).2 ⟨hb0, hnot⟩
  · intro b hb hin
    have hin' : b ∈ (bs.foldl _ st.p_program).instructions := hin
    rw [l1] at hin'
    exact ((hsurv b).1 hin').2 hb
  · intro c hc j b hb hj
    have hc' : c ∈ (bs.foldl _ st.p_program).instructions := hc
    rw [l1] at hc'
    obtain ⟨h1, h2⟩ := (hsurv c).1 hc'
    show ((bs.foldl _ st.p_program).ins c).arguments.get? j = some b0
    have hj' : (st.p_program.ins c).arguments.get? j = some b := hj
    rw [l2 c h1 h2, List.get?_eq_getElem?, List.getElem?_map, ← List.get?_eq_getElem?, hj']
    simp [hb]
  · intro c hc
    have hc' : c ∈ (bs.foldl _ st.p_program).instructions := hc
    rw [l1] at hc'
    obtain ⟨h1, h2⟩ := (hsurv c).1 hc'
    exact l2 c h1 h2
  · show Function.update st.hash_instrs hash_id (some [pt0]) hash_id = some [pt0]
    simp
  · show (((Function.update st.hash_instrs hash_id (some [pt0])) hash_id).getD []).filterMap
      st.point2_instr = [b0]
    simp [hpt]

theorem C9_remove_redundant_roots_witness :
    ∃ st1 st2, relu_state.remove_redundant_roots (relu_state.get_instrs 1) = some st1 ∧
      st1.update_hash_tree 1 = some st2 ∧
      st2.p_program.instructions
        = relu_state.p_program.instructions.filter (fun x => decide (x ∉ [2])) ∧
      1 ∈ st2.p_program.instructions ∧
      (∀ b ∈ [2], b ∉ st2.p_program.instructions) ∧
      (∀ c ∈ st2.p_program.instructions, ∀ (j : Nat) (b : instruction_ref), b ∈ [2] →
        (relu_state.p_program.ins c).inputs.get? j = some b →
        (st2.p_program.ins c).inputs.get? j = some 1) ∧
      (∀ c ∈ st2.p_program.instructions,
        (st2.p_program.ins c).inputs
          = (relu_state.p_program.ins c).inputs.map (fun a => if a ∈ [2] then 1 else a)) ∧
      st2.hash_instrs 1 = some [1] ∧
      st2.get_instrs 1 = [1] :=
  C9_remove_redundant_roots relu_state 1 1 [2] 1 [2] (by rfl) (by rfl) (by rfl)
    (by decide) (by decide) (by decide)

namespace program

end program

namespace pre_scheduling_impl

/-- The loop of `get_stream` over the streams `a, a + 1, ..., a + n - 1`, entered
with the best candidate among the streams below `a` (none of which met the
test of the early `return`). -/
theorem get_stream_loop_spec (info : stream_info) (load e M : Int) :
    ∀ (n a : Nat) (min_cycle min_stream : Int),
      0 < a + n →
      (∀ s < a, ¬ (max (info.next_cycles s) e < M ∧ to_int (M - max (info.next_cycles s) e) > load)) →
      ((min_stream = -1 ∧ a = 0) ∨
        ∃ m : Nat, m < a ∧ min_stream = (m : Int) ∧ min_cycle = max (info.next_cycles m) e ∧
          (∀ s < a, max (info.next_cycles m) e ≤ max (info.next_cycles s) e) ∧
          ∀ s < m, max (info.next_cycles m) e < max (info.next_cycles s) e) →
      ∃ r : Nat,
        get_stream_loop info load e M (List.range' a n) min_cycle min_stream = (r : Int) ∧
        r < a + n ∧
        ((max (info.next_cycles r) e < M ∧ to_int (M - max (info.next_cycles r) e) > load ∧
            ∀ s < r, ¬ (max (info.next_cycles s) e < M ∧
              to_int (M - max (info.next_cycles s) e) > load)) ∨
          ((∀ s < a + n, ¬ (max (info.next_cycles s) e < M ∧
              to_int (M - max (info.next_cycles s) e) > load)) ∧
            (∀ s < a + n, max (info.next_cycles r) e ≤ max (info.next_cycles s) e) ∧
            ∀ s < r, max (info.next_cycles r) e < max (info.next_cycles s) e)) := by
  intro n
  induction n with
  | zero =>
    intro a min_cycle min_stream hpos hnq hbest
    rcases hbest with ⟨_, ha⟩ | ⟨m, hm, hms, _, hle, hlt⟩
    · omega
    · refine ⟨m, ?_, by omega, Or.inr ⟨by simpa using hnq, by simpa using hle, hlt⟩⟩
      simp only [List.range'_zero, get_stream_loop]
      exact hms
  | succ n ih =>
    intro a min_cycle min_stream _ hnq hbest
    simp only [List.range'_succ, get_stream_loop]
    by_cases hq : max (info.next_cycles a) e < M ∧ to_int (M - max (info.next_cycles a) e) > load
    · rw [if_pos hq]
      exact ⟨a, rfl, by omega, Or.inl ⟨hq.1, hq.2, hnq⟩⟩
    · rw [if_neg hq]
      have hnq' : ∀ s < a + 1,
          ¬ (max (info.next_cycles s) e < M ∧ to_int (M - max (info.next_cycles s) e) > load) := by
        intro s hs
        rcases Nat.lt_succ_iff_lt_or_eq.mp hs with h | h
        · exact hnq s h
        · rw [h]; exact hq
      by_cases hupd : min_stream = -1 ∨ max (info.next_cycles a) e < min_cycle
      · rw [if_pos hupd]
        have hbest' : ((a : Int) = -1 ∧ a + 1 = 0) ∨
            ∃ m : Nat, m < a + 1 ∧ (a : Int) = (m : Int) ∧
              max (info.next_cycles a) e = max (info.next_cycles m) e ∧
              (∀ s < a + 1, max (info.next_cycles m) e ≤ max (info.next_cycles s) e) ∧
              ∀ s < m, max (info.next_cycles m) e < max (info.next_cycles s) e := by
          refine Or.inr ⟨a, by omega, rfl, rfl, ?_, ?_⟩
          · intro s hs
            rcases Nat.lt_succ_iff_lt_or_eq.mp hs with h | h
            · rcases hbest with ⟨_, ha⟩ | ⟨m, _, hms, hmc, hle, _⟩
              · omega
              · rcases hupd with h1 | h1
                · omega
                · have := hle s h
                  rw [hmc] at h1
                  omega
            · rw [h]
          · intro s hs
            rcases hbest with ⟨_, ha⟩ | ⟨m, _, hms, hmc, hle, _⟩
            · omega
            · rcases hupd with h1 | h1
              · omega
              · have := hle s hs
                rw [hmc] at h1
                omega
        obtain ⟨r, h1, h2, h3⟩ := ih (a + 1) _ _ (by omega) hnq' hbest'
        exact ⟨r, h1, by omega, by rwa [Nat.add_assoc, Nat.add_comm 1 n] at h3⟩
      · rw [if_neg hupd]
        have hbest' : (min_stream = -1 ∧ a + 1 = 0) ∨
            ∃ m : Nat, m < a + 1 ∧ min_stream = (m : Int) ∧
              min_cycle = max (info.next_cycles m) e ∧
              (∀ s < a + 1, max (info.next_cycles m) e ≤ max (info.next_cycles s) e) ∧
              ∀ s < m, max (info.next_cycles m) e < max (info.next_cycles s) e := by
          rcases hbest with ⟨h1, _⟩ | ⟨m, hm, hms, hmc, hle, hlt⟩
          · exact absurd (Or.inl h1) hupd
          · refine Or.inr ⟨m, by omega, hms, hmc, ?_, hlt⟩
            intro s hs
            rcases Nat.lt_succ_iff_lt_or_eq.mp hs with h | h
            · exact hle s h
            · rw [h, ← hmc]
              have : ¬ max (info.next_cycles a) e < min_cycle := fun h' => hupd (Or.inr h')
              omega
        obtain ⟨r, h1, h2, h3⟩ := ih (a + 1) _ _ (by omega) hnq' hbest'
        exact ⟨r, h1, by omega, by rwa [Nat.add_assoc, Nat.add_comm 1 n] at h3⟩

end pre_scheduling_impl

namespace pre_scheduling_impl

/-- `schedule` with at least one stream on the nodes of a well-formed program,
listed topologically: it completes, hands back the nodes in the order of the
priority queue, and the loop invariant holds for all of them. -/
theorem schedule_nodes_spec (p : program) (hwf : p.well_formed) (st0 : pre_scheduling_impl)
    (L : List instruction_ref) (hLnd : L.Nodup) (hLperm : L.Perm p.instructions)
    (hLtopo : ∀ v ∈ L, ∀ u ∈ (p.ins v).inputs, L.indexOf u < L.indexOf v)
    (hp : st0.p_program = p)
    (hpaired : ∀ x ∈ p.instructions, st0.instr2_node x = true)
    (hpart : ∀ x ∈ p.instructions, 0 ≤ (st0.nodes x).partition)
    (hS : st0.num_of_streams ≠ 0) :
    ∃ (st' : pre_scheduling_impl) (p2s : Int → Option Int),
      st0.schedule L = some (st',
        pq_pop_all (fun a b => post_schedule_ordering (st'.nodes a) (st'.nodes b)) L) ∧
      sched_inv p st0 L st' p2s L := by
  have hLmem : ∀ x ∈ L, x ∈ p.instructions := fun x hx => hLperm.mem_iff.mp hx
  have hinv0 : sched_inv p st0 [] st0 (fun _ => none) [] :=
    ⟨hp ▸ same_graph_refl _, same_params_refl _, rfl,
      (fun x => ⟨rfl, rfl, rfl, rfl, rfl, rfl⟩), rfl, (fun s v h => by cases h)⟩
  obtain ⟨st', info', p2s', queue', e, inv⟩ :=
    schedule_loop_spec p hwf st0 L hLnd hLmem hLtopo hpaired hpart hS L [] st0 {} _ []
      (by simp) hinv0
  have hq : queue' = L := inv.queue
  rw [hq] at e
  have inv' : sched_inv p st0 L st' p2s' L := by
    have h := inv
    rw [hq] at h
    exact h
  refine ⟨st', p2s', ?_, inv'⟩
  cases hL : L with
  | nil =>
    have e' := e
    rw [hL] at e'
    simp only [schedule, hS, if_false, e', List.isEmpty_nil, Bool.not_true]
    simp [pq_pop_all]
  | cons a l =>
    have e' := e
    rw [hL] at e'
    simp only [schedule, hS, if_false, e', List.isEmpty_cons, Bool.not_false, if_true]

/-- The pipeline of `run` up to and including stream assignment, on a
well-formed program with at least one stream. -/
theorem run_until_scheduled (p : program) (hwf : p.well_formed)
    (weight_func : String → Int × Bool)
    (num_of_streams : Nat) (wto : dag_node → dag_node → Bool) (thr : Int)
    (srt : std_sort_fn) (hsrt : std_sort_contract srt) (hS : num_of_streams ≠ 0) :
    ∃ (st1 st2 : pre_scheduling_impl) (loc : reorder_locals) (st3 : pre_scheduling_impl),
      (create p weight_func num_of_streams wto thr srt).compute_weights = some st1 ∧
      reorder_exits st1.exit_nodes st1 {} = some (st2, loc) ∧
      st2.schedule loc.sorted_nodes = some (st3,
        pq_pop_all (fun a b => post_schedule_ordering (st3.nodes a) (st3.nodes b))
          loc.sorted_nodes) ∧
      loc.sorted_nodes.Nodup ∧ loc.sorted_nodes.Perm p.instructions ∧
      same_graph p st3.p_program ∧
      (∀ x ∈ p.instructions, (st3.nodes x).weight = (weight_func (p.ins x).name).1 ∧
        (st3.nodes x).ins_ndx = (p.pos x : Int)) := by
  obtain ⟨st1, e1, wc, par1, hexits⟩ :=
    compute_weights_spec p weight_func num_of_streams wto thr srt hsrt hwf.1 hwf.2.1
  obtain ⟨st2, loc2, e2, rel2, perm2, nd2, topo2, part2⟩ :=
    weighted_topological_sort_spec p hwf st1 wc.program
      (by rw [wc.partition_info_num]) hexits
  have hp2 : st2.p_program = p := rel2.program.trans wc.program
  have hS2 : st2.num_of_streams ≠ 0 := by
    rw [rel2.params.num_of_streams, par1.num_of_streams]; exact hS
  obtain ⟨st3, p2s, e3, inv⟩ :=
    schedule_nodes_spec p hwf st2 loc2.sorted_nodes nd2 perm2 topo2 hp2
      (by
        intro x hx
        rw [rel2.instr2_node, wc.paired x]
        exact decide_eq_true hx)
      part2 hS2
  refine ⟨st1, st2, loc2, st3, e1, e2, e3, nd2, perm2, inv.graph, ?_⟩
  · intro x hx
    refine ⟨?_, ?_⟩
    · rw [(inv.static x).1, (rel2.nodes x).1, wc.node x hx]
    · rw [(inv.static x).2.2.2.1, (rel2.nodes x).2.2.2.1, wc.node x hx]
      rfl

end pre_scheduling_impl

/-- C18: pre-scheduling a well-formed program of at least two instructions with
at least one stream completes, and the final program order lists the same
instructions sorted by ascending `sched_cycle`, instructions with equal
`sched_cycle` standing in their original program order. -/
theorem C18_final_order_is_scheduled_order (p : program) (hwf : p.well_formed)
    (weight_func : String → Int × Bool)
    (num_of_streams : Nat) (wto : dag_node → dag_node → Bool) (thr : Int)
    (srt : std_sort_fn) (hsrt : std_sort_contract srt) (hS : 1 ≤ num_of_streams)
    (hlen : 2 ≤ p.instructions.length) :
    ∃ st', (pre_scheduling_impl.create p weight_func num_of_streams wto thr srt).run = some st' ∧
      st'.p_program.instructions.Perm p.instructions ∧
      st'.p_program.instructions.Pairwise (fun a b =>
        (st'.nodes a).sched_cycle < (st'.nodes b).sched_cycle ∨
        ((st'.nodes a).sched_cycle = (st'.nodes b).sched_cycle ∧ p.pos a < p.pos b)) := by
  obtain ⟨st1, st2, loc, st3, e1, e2, e3, nd, perm, gr, hst⟩ :=
    pre_scheduling_impl.run_until_scheduled p hwf weight_func num_of_streams wto thr srt hsrt
      (by omega)
  have hL3perm := pre_scheduling_impl.pq_pop_all_perm
    (fun a b => post_schedule_ordering (st3.nodes a) (st3.nodes b)) loc.sorted_nodes
  have hL3nd := hL3perm.nodup_iff.mpr nd
  have hL3p : (pq_pop_all (fun a b => post_schedule_ordering (st3.nodes a) (st3.nodes b))
      loc.sorted_nodes).Perm p.instructions := hL3perm.trans perm
  obtain ⟨st4, e4, hi4, _, _, hn4⟩ := pre_scheduling_impl.splice_spec st3 _ hL3nd
    (by rw [gr.1]; exact hL3p) (by rw [hL3p.length_eq]; exact hlen)
  have hrun : (pre_scheduling_impl.create p weight_func num_of_streams wto thr srt).run
      = some st4 := by
    have hne : ¬ (pre_scheduling_impl.create p weight_func num_of_streams wto thr
        srt).p_program.instructions.length = 0 := by
      show ¬ p.instructions.length = 0
      omega
    simp only [pre_scheduling_impl.run, if_neg hne, e1, pre_scheduling_impl.reorder, e2, e3]
    exact e4
  refine ⟨st4, hrun, by rw [hi4]; exact hL3p, ?_⟩
  rw [hi4, hn4]
  have hsorted := pre_scheduling_impl.post_schedule_sorted st3 loc.sorted_nodes
  have hboth := hsorted.and hL3nd
  refine hboth.imp_of_mem ?_
  intro a b ha hb hab
  obtain ⟨h1, h2⟩ := hab
  have ham : a ∈ p.instructions := hL3p.mem_iff.mp ha
  have hbm : b ∈ p.instructions := hL3p.mem_iff.mp hb
  rw [pre_scheduling_impl.post_schedule_ordering_false_iff, (hst a ham).2, (hst b hbm).2] at h1
  rcases h1 with h1 | ⟨h1, h3⟩
  · exact Or.inl h1
  · refine Or.inr ⟨h1, ?_⟩
    have hne : p.pos a ≠ p.pos b := by
      intro h
      exact h2 ((List.indexOf_inj ham hbm).mp h)
    omega

theorem C18_final_order_is_scheduled_order_witness :
    ∃ st', (pre_scheduling_impl.create diamond_example diamond_weights 2 (fun _ _ => false) 2
        stable_sort).run = some st' ∧
      st'.p_program.instructions.Perm diamond_example.instructions ∧
      st'.p_program.instructions.Pairwise (fun a b =>
        (st'.nodes a).sched_cycle < (st'.nodes b).sched_cycle ∨
        ((st'.nodes a).sched_cycle = (st'.nodes b).sched_cycle ∧
          diamond_example.pos a < diamond_example.pos b)) :=
  C18_final_order_is_scheduled_order diamond_example (by decide) diamond_weights 2
    (fun _ _ => false) 2 stable_sort stable_sort_contract (by decide) (by decide)

namespace pre_scheduling_impl

theorem sort_exit_nodes_sorted (st : pre_scheduling_impl) (hsrt : std_sort_contract st.std_sort)
    (l : List instruction_ref) :
    (st.sort_exit_nodes l).Pairwise
      (fun a b => (st.nodes a).weight_sum ≥ (st.nodes b).weight_sum) := by
  have h := (hsrt (fun a b => compare_exit_nodes (st.nodes a) (st.nodes b)) l).2
    (by
      intro a b hab
      simp only [compare_exit_nodes, decide_eq_true_eq, decide_eq_false_iff_not] at hab ⊢
      omega)
    (by
      intro a b c hab hbc
      simp only [compare_exit_nodes, decide_eq_false_iff_not] at hab hbc ⊢
      omega)
  refine h.imp ?_
  intro a b hab
  simp only [compare_exit_nodes, decide_eq_false_iff_not] at hab
  omega

/-- The exit list `compute_weights` leaves behind. -/
theorem compute_weights_exits (p : program) (weight_func : String → Int × Bool)
    (num_of_streams : Nat) (wto : dag_node → dag_node → Bool) (thr : Int)
    (srt : std_sort_fn) (hsrt : std_sort_contract srt)
    (hnd : p.instructions.Nodup)
    (hdbu : ∀ v ∈ p.instructions, ∀ u ∈ (p.ins v).inputs, p.pos u < p.pos v) :
    ∃ st, compute_weights (create p weight_func num_of_streams wto thr srt) = some st ∧
      weights_computed p weight_func p.instructions st ∧
      st.exit_nodes.Perm (p.instructions.filter (fun x => (p.ins x).outputs.isEmpty)) ∧
      st.exit_nodes.Pairwise (fun a b => (st.nodes a).weight_sum ≥ (st.nodes b).weight_sum) := by
  obtain ⟨st, h1, h2, h3, h4, h5⟩ :=
    compute_weights_loop_spec p weight_func hnd hdbu p.instructions []
      (create p weight_func num_of_streams wto thr srt) (by simp)
      (create_weights_computed p weight_func num_of_streams wto thr srt) rfl
  have h1' : compute_weights_loop
      (create p weight_func num_of_streams wto thr srt).p_program.instructions
      0 (create p weight_func num_of_streams wto thr srt) = some st := by
    simpa [create] using h1
  have h4' : st.exit_nodes = p.instructions.filter (fun x => (p.ins x).outputs.isEmpty) := by
    rw [h4]; simp [create]
  have hs : std_sort_contract st.std_sort := by rw [h3.std_sort]; exact hsrt
  unfold compute_weights
  rw [h1']
  simp only []
  by_cases hlen : st.exit_nodes.length > 1
  · rw [if_pos hlen]
    refine ⟨_, rfl, ?_, ?_, ?_⟩
    · exact ⟨h2.program, h2.paired, h2.untouched, h2.node, h2.partition_info_num⟩
    · show (st.sort_exit_nodes st.exit_nodes).Perm _
      rw [← h4']
      exact sort_exit_nodes_perm st hs st.exit_nodes
    · exact sort_exit_nodes_sorted st hs st.exit_nodes
  · rw [if_neg hlen]
    refine ⟨st, rfl, h2, by rw [h4'], ?_⟩
    match hl : st.exit_nodes with
    | [] => exact List.Pairwise.nil
    | [a] => exact List.pairwise_singleton _ _
    | a :: b :: t =>
      rw [hl] at hlen
      simp at hlen

end pre_scheduling_impl

namespace pre_scheduling_impl

end pre_scheduling_impl

/-- C20: the diamond `A → {B, C} → D`, listed `A, B, C, D`, with weights
`A = 1, B = 4, C = 2, D = 1`, no annotations and two streams.  For a comparator
of `child_queue` keyed by `weight_sum` (lightest child handed out first) and a
threshold of `2` or `3`, pre-scheduling completes and leaves `A`, `B` and `D`
in one partition on stream `0`, `C` alone in another partition on stream `1`,
`RECORD_EVENT` in the mask of `C` and `WAIT_EVENT` in the mask of `D`.  (`D` is
the only exit node, so `std::sort` is not called.) -/
theorem C20_diamond_two_streams (wto : dag_node → dag_node → Bool)
    (hwto : ∀ d1 d2, wto d1 d2 = decide (d1.weight_sum > d2.weight_sum))
    (thr : Int) (hlo : 2 ≤ thr) (hhi : thr ≤ 3) :
    ∃ st', (pre_scheduling_impl.create diamond_example diamond_weights 2 wto thr stable_sort).run
        = some st' ∧
      (st'.nodes 0).partition = (st'.nodes 3).partition ∧
      (st'.nodes 1).partition = (st'.nodes 3).partition ∧
      (st'.nodes 2).partition ≠ (st'.nodes 3).partition ∧
      (st'.nodes 0).stream = 0 ∧ (st'.nodes 1).stream = 0 ∧ (st'.nodes 3).stream = 0 ∧
      (st'.nodes 2).stream = 1 ∧
      (st'.p_program.ins 0).get_stream = 0 ∧ (st'.p_program.ins 1).get_stream = 0 ∧
      (st'.p_program.ins 3).get_stream = 0 ∧ (st'.p_program.ins 2).get_stream = 1 ∧
      (st'.p_program.ins 2).has_mask RECORD_EVENT = true ∧
      (st'.p_program.ins 3).has_mask WAIT_EVENT = true ∧
      st'.exit_nodes = [3] := by
  have hfun : wto = by_weight_sum := by
    funext d1 d2
    exact hwto d1 d2
  subst hfun
  have key : ((pre_scheduling_impl.create diamond_example diamond_weights 2 by_weight_sum thr
      stable_sort).run).map (fun st =>
        ((st.nodes 0).partition, (st.nodes 1).partition, (st.nodes 2).partition,
          (st.nodes 3).partition, (st.nodes 0).stream, (st.nodes 1).stream, (st.nodes 2).stream,
          (st.nodes 3).stream, (st.p_program.ins 0).get_stream, (st.p_program.ins 1).get_stream,
          (st.p_program.ins 2).get_stream, (st.p_program.ins 3).get_stream,
          (st.p_program.ins 2).has_mask RECORD_EVENT, (st.p_program.ins 3).has_mask WAIT_EVENT,
          st.exit_nodes))
      = some (0, 0, 1, 0, 0, 0, 1, 0, 0, 0, 1, 0, true, true, [3]) := by
    have hthr : thr = 2 ∨ thr = 3 := by omega
    rcases hthr with rfl | rfl <;> rfl
  cases hr : (pre_scheduling_impl.create diamond_example diamond_weights 2 by_weight_sum thr
      stable_sort).run with
  | none => rw [hr] at key; cases key
  | some st' =>
    rw [hr] at key
    simp only [Option.map_some', Option.some.injEq, Prod.mk.injEq] at key
    obtain ⟨k0, k1, k2, k3, k4, k5, k6, k7, k8, k9, k10, k11, k12, k13, k14⟩ := key
    refine ⟨st', rfl, ?_, ?_, ?_, k4, k5, k7, k6, k8, k9, k11, k10, k12, k13, k14⟩
    · rw [k0, k3]
    · rw [k1, k3]
    · rw [k2, k3]; decide

theorem C20_diamond_two_streams_witness :
    ∃ st', (pre_scheduling_impl.create diamond_example diamond_weights 2 by_weight_sum 2
        stable_sort).run = some st' ∧
      (st'.nodes 0).partition = (st'.nodes 3).partition ∧
      (st'.nodes 1).partition = (st'.nodes 3).partition ∧
      (st'.nodes 2).partition ≠ (st'.nodes 3).partition ∧
      (st'.nodes 0).stream = 0 ∧ (st'.nodes 1).stream = 0 ∧ (st'.nodes 3).stream = 0 ∧
      (st'.nodes 2).stream = 1 ∧
      (st'.p_program.ins 0).get_stream = 0 ∧ (st'.p_program.ins 1).get_stream = 0 ∧
      (st'.p_program.ins 3).get_stream = 0 ∧ (st'.p_program.ins 2).get_stream = 1 ∧
      (st'.p_program.ins 2).has_mask RECORD_EVENT = true ∧
      (st'.p_program.ins 3).has_mask WAIT_EVENT = true ∧
      st'.exit_nodes = [3] :=
  C20_diamond_two_streams by_weight_sum (fun _ _ => rfl) 2 (by decide) (by decide)

namespace program

/-- `insert_instruction` with a single input `a`: the new instruction has the
next reference, stands before `pos`, and enters the output list of `a`; nothing
else changes. -/
theorem insert_instruction_single (p : program) (pos : Option instruction_ref)
    (op : operation) (r : shape) (a : instruction_ref) (ha : a ≠ p.next_ref) :
    (p.insert_instruction pos op r [a]).2 = p.next_ref ∧
    (p.insert_instruction pos op r [a]).1.instructions
      = insert_before p.next_ref pos p.instructions ∧
    (p.insert_instruction pos op r [a]).1.next_ref = p.next_ref + 1 ∧
    (p.insert_instruction pos op r [a]).1.ins p.next_ref
      = { op := op, result := r, output := [], arguments := [a] } ∧
    (∀ x, x ≠ p.next_ref → x ≠ a → (p.insert_instruction pos op r [a]).1.ins x = p.ins x) ∧
    ((p.insert_instruction pos op r [a]).1.ins a).op = (p.ins a).op ∧
    ((p.insert_instruction pos op r [a]).1.ins a).result = (p.ins a).result ∧
    ((p.insert_instruction pos op r [a]).1.ins a).arguments = (p.ins a).arguments ∧
    ((p.insert_instruction pos op r [a]).1.ins a).lit = (p.ins a).lit ∧
    (∀ c, c ∈ ((p.insert_instruction pos op r [a]).1.ins a).output ↔
      c = p.next_ref ∨ c ∈ (p.ins a).output) := by
  have hna : p.next_ref ≠ a := fun h => ha h.symm
  refine ⟨rfl, ?_, ?_, ?_, ?_, ?_, ?_, ?_, ?_, ?_⟩
  · simp only [insert_instruction, program.set, List.foldl_cons, List.foldl_nil]
    split <;> rfl
  · simp only [insert_instruction, program.set, List.foldl_cons, List.foldl_nil]
    split <;> rfl
  · simp only [insert_instruction, program.set, List.foldl_cons, List.foldl_nil]
    split <;> simp [Function.update_noteq hna]
  · intro x hx hxa
    simp only [insert_instruction, program.set, List.foldl_cons, List.foldl_nil]
    split <;> simp [Function.update_noteq hx, Function.update_noteq hxa]
  · simp only [insert_instruction, program.set, List.foldl_cons, List.foldl_nil]
    split <;> simp [Function.update_noteq ha]
  · simp only [insert_instruction, program.set, List.foldl_cons, List.foldl_nil]
    split <;> simp [Function.update_noteq ha]
  · simp only [insert_instruction, program.set, List.foldl_cons, List.foldl_nil]
    split <;> simp [Function.update_noteq ha]
  · simp only [insert_instruction, program.set, List.foldl_cons, List.foldl_nil]
    split <;> simp [Function.update_noteq ha]
  · intro c
    simp only [insert_instruction, program.set, List.foldl_cons, List.foldl_nil]
    split
    · rename_i h
      simp only [Function.update_noteq ha] at h ⊢
      constructor
      · intro hc; exact Or.inr hc
      · rintro (hc | hc)
        · rw [hc]; exact h
        · exact hc
    · simp [Function.update_noteq ha]
      tauto

end program

/-- C13: let `split_ins` be a split instruction of the program with first input
`input` (an instruction of the program), axis `axis`, `slice_dims` and slice
selector `(f, l)`, `0 <= f <= l`, and let `e` be `f` or `l`.  If `f = l`,
`break_split(e, split_ins)` returns `split_ins` and leaves the state as it is.
Otherwise it inserts, immediately before `split_ins`, a new split with the
only input `input`, the same axis and `slice_dims` and the selector `(e, e)`,
and returns it; the selector of `split_ins` becomes `(e + 1, l)` if `e = f`
and `(f, e - 1)` if `e = l`; the two selectors are disjoint ranges whose union
is `[f, l]`. -/
theorem C13_break_split (st : horizontal_fusion_impl) (split_shape : operation → shape → shape)
    (e : Int) (split_ins input : instruction_ref) (more : List instruction_ref)
    (axis : Int) (slice_dims : List Int) (f l : Int)
    (hop : (st.p_program.ins split_ins).op.params = op_params.split axis slice_dims (f, l))
    (hinp : (st.p_program.ins split_ins).inputs = input :: more)
    (hf : 0 ≤ f) (hfl : f ≤ l) (he : e = f ∨ e = l)
    (hin : split_ins ∈ st.p_program.instructions)
    (hinput : input ∈ st.p_program.instructions)
    (hnd : st.p_program.instructions.Nodup)
    (hfresh : st.p_program.next_ref ∉ st.p_program.instructions) :
    (f = l → st.break_split split_shape e split_ins = some (st, split_ins)) ∧
    (f < l →
      ∃ st' new_split, st.break_split split_shape e split_ins = some (st', new_split) ∧
        new_split ∉ st.p_program.instructions ∧
        (∃ pre post, st.p_program.instructions = pre ++ split_ins :: post ∧
          st'.p_program.instructions = pre ++ new_split :: split_ins :: post) ∧
        (st'.p_program.ins new_split).name = "split" ∧
        (st'.p_program.ins new_split).inputs = [input] ∧
        (st'.p_program.ins new_split).op.params = op_params.split axis slice_dims (e, e) ∧
        (st'.p_program.ins split_ins).inputs = input :: more ∧
        (e = f → (st'.p_program.ins split_ins).op.params
          = op_params.split axis slice_dims (e + 1, l)) ∧
        (e = l → (st'.p_program.ins split_ins).op.params
          = op_params.split axis slice_dims (f, e - 1)) ∧
        ∃ a b, (st'.p_program.ins split_ins).op.params = op_params.split axis slice_dims (a, b) ∧
          a ≤ b ∧
          (∀ i : Int, (f ≤ i ∧ i ≤ l) ↔ ((e ≤ i ∧ i ≤ e) ∨ (a ≤ i ∧ i ≤ b))) ∧
          ∀ i : Int, ¬ ((e ≤ i ∧ i ≤ e) ∧ (a ≤ i ∧ i ≤ b))) := by
  have hinp' : (st.p_program.ins split_ins).arguments = input :: more := hinp
  have hpre : ¬ ¬ (f ≥ 0 ∧ l ≥ f) := by
    intro h; exact h ⟨hf, hfl⟩
  have hsel : ¬ ¬ (e = f ∨ e = l) := fun h => h he
  constructor
  · intro hfl'
    simp only [horizontal_fusion_impl.break_split, hop, if_neg hpre, if_neg hsel, if_pos hfl']
  · intro hlt
    have hne : ¬ f = l := by omega
    have hns : split_ins ≠ st.p_program.next_ref := fun h => hfresh (h ▸ hin)
    have hni : input ≠ st.p_program.next_ref := fun h => hfresh (h ▸ hinput)
    obtain ⟨pre, post, ho⟩ := List.append_of_mem hin
    have hnotpre : split_ins ∉ pre := by
      intro h
      rw [ho] at hnd
      exact (List.nodup_append.mp hnd).2.2 h (List.mem_cons_self _ _)
    have hpos := pre_scheduling_impl.insert_before_at st.p_program.next_ref split_ins pre post
      hnotpre
    let op_new : operation :=
      { name := "split", text := "split",
        params := op_params.split axis slice_dims (e, e) }
    let r : program × instruction_ref :=
      st.p_program.insert_instruction (some split_ins) op_new
        (split_shape op_new (st.p_program.ins input).get_shape) [input]
    let selector : Int × Int := if f = e then (e + 1, l) else (f, e - 1)
    let op_edit : operation :=
      { (r.1.ins split_ins).op with params := op_params.split axis slice_dims selector }
    let p' : program := r.1.set split_ins
      { r.1.ins split_ins with
        op := op_edit, result := split_shape op_edit (r.1.ins input).get_shape }
    have hrun : st.break_split split_shape e split_ins
        = some (({ st with p_program := p' } : horizontal_fusion_impl), r.2) := by
      simp only [horizontal_fusion_impl.break_split, hop, if_neg hpre, if_neg hsel, if_neg hne,
        instruction.inputs, hinp']
    obtain ⟨q1, q2, _, q4, q5, _, _, q8, _, _⟩ := program.insert_instruction_single st.p_program
      (some split_ins) op_new (split_shape op_new (st.p_program.ins input).get_shape) input hni
    have hargs : (r.1.ins split_ins).arguments = input :: more := by
      by_cases hsi : split_ins = input
      · rw [hsi]
        rw [hsi] at hinp'
        exact q8.trans hinp'
      · rw [q5 split_ins hns hsi]; exact hinp'
    have hnew : p'.ins st.p_program.next_ref
        = { op := op_new, result := split_shape op_new (st.p_program.ins input).get_shape,
            output := [], arguments := [input] } := by
      show (r.1.set split_ins _).ins st.p_program.next_ref = _
      simp only [program.set, Function.update_noteq (Ne.symm hns)]
      exact q4
    have hold : (p'.ins split_ins).op.params = op_params.split axis slice_dims selector := by
      show ((r.1.set split_ins _).ins split_ins).op.params = _
      simp [program.set, op_edit]
    refine ⟨{ st with p_program := p' }, r.2, hrun, ?_, ⟨pre, post, ho, ?_⟩, ?_, ?_, ?_, ?_, ?_,
      ?_, ?_⟩
    · rw [q1]; exact hfresh
    · show (r.1.set split_ins _).instructions = _
      rw [q1]
      simp only [program.set]
      rw [q2, ho]
      exact hpos
    · show (p'.ins r.2).op.name = "split"
      rw [q1, hnew]
    · show (p'.ins r.2).arguments = [input]
      rw [q1, hnew]
    · show (p'.ins r.2).op.params = _
      rw [q1, hnew]
    · show ((r.1.set split_ins _).ins split_ins).arguments = _
      simp only [program.set, Function.update_same]
      exact hargs
    · intro hef
      show (p'.ins split_ins).op.params = _
      rw [hold]
      simp only [selector, if_pos hef.symm]
    · intro hel
      have hfe : ¬ f = e := by omega
      show (p'.ins split_ins).op.params = _
      rw [hold]
      simp only [selector, if_neg hfe]
    · by_cases hef : f = e
      · refine ⟨e + 1, l, ?_, by omega, fun i => by omega, fun i => by omega⟩
        show (p'.ins split_ins).op.params = _
        rw [hold]
        simp only [selector, if_pos hef]
      · refine ⟨f, e - 1, ?_, by omega, fun i => by omega, fun i => by omega⟩
        show (p'.ins split_ins).op.params = _
        rw [hold]
        simp only [selector, if_neg hef]

theorem C13_break_split_witness :
    ((0 : Int) = 1 → split_conv_state.break_split (fun _ s => s) 0 5
      = some (split_conv_state, 5)) ∧
    ((0 : Int) < 1 →
      ∃ st' new_split, split_conv_state.break_split (fun _ s => s) 0 5
          = some (st', new_split) ∧
        new_split ∉ split_conv_state.p_program.instructions ∧
        (∃ pre post, split_conv_state.p_program.instructions = pre ++ 5 :: post ∧
          st'.p_program.instructions = pre ++ new_split :: 5 :: post) ∧
        (st'.p_program.ins new_split).name = "split" ∧
        (st'.p_program.ins new_split).inputs = [2] ∧
        (st'.p_program.ins new_split).op.params = op_params.split 1 [4, 8] (0, 0) ∧
        (st'.p_program.ins 5).inputs = 2 :: [] ∧
        ((0 : Int) = 0 → (st'.p_program.ins 5).op.params
          = op_params.split 1 [4, 8] (0 + 1, 1)) ∧
        ((0 : Int) = 1 → (st'.p_program.ins 5).op.params
          = op_params.split 1 [4, 8] (0, 0 - 1)) ∧
        ∃ a b, (st'.p_program.ins 5).op.params = op_params.split 1 [4, 8] (a, b) ∧
          a ≤ b ∧
          (∀ i : Int, (0 ≤ i ∧ i ≤ 1) ↔ ((0 ≤ i ∧ i ≤ 0) ∨ (a ≤ i ∧ i ≤ b))) ∧
          ∀ i : Int, ¬ ((0 ≤ i ∧ i ≤ 0) ∧ (a ≤ i ∧ i ≤ b))) :=
  C13_break_split split_conv_state (fun _ s => s) 0 5 2 [] 1 [4, 8] 0 1 (by rfl) (by rfl)
    (by decide) (by decide) (Or.inl rfl) (by decide) (by decide) (by decide) (by decide)

namespace horizontal_fusion_impl

/-- The entries of `offsets`: entry `e` is the running sum of the byte sizes of
the shapes before `e`, reduced to 32 bits. -/
theorem tail_offsets_spec (type_size : Nat → Nat) (type : Nat) :
    ∀ (dims : List (List Nat)) (offset : Nat), offset < 2 ^ 32 →
      (tail_offsets type_size type dims offset).length = dims.length ∧
      ∀ e, e < dims.length →
        (tail_offsets type_size type dims offset).get? e
          = some ((offset + ((dims.take e).map
              (fun d => shape.bytes type_size { type := type, lens := d })).sum) % 2 ^ 32) := by
  intro dims
  induction dims with
  | nil => intro offset _; exact ⟨rfl, fun e he => by cases he⟩
  | cons d rest ih =>
    intro offset hoff
    obtain ⟨i1, i2⟩ := ih ((offset + shape.bytes type_size { type := type, lens := d }) % 2 ^ 32)
      (Nat.mod_lt _ (by decide))
    refine ⟨by simp only [tail_offsets, List.length_cons]; rw [i1], ?_⟩
    intro e he
    cases e with
    | zero =>
      simp only [tail_offsets, List.get?_cons_zero, List.take_zero, List.map_nil, List.sum_nil,
        Nat.add_zero]
      rw [Nat.mod_eq_of_lt hoff]
    | succ n =>
      have hn : n < rest.length := by simpa using he
      simp only [tail_offsets, List.get?_cons_succ, List.take_succ_cons, List.map_cons,
        List.sum_cons]
      rw [i2 n hn, Nat.mod_add_mod, Nat.add_assoc]

end horizontal_fusion_impl
namespace program

/-- `replace_argument` leaves operators and result shapes alone. -/
theorem replace_argument_op (p : program) (user old new_ins c : instruction_ref) :
    ((p.replace_argument user old new_ins).ins c).op = (p.ins c).op ∧
    ((p.replace_argument user old new_ins).ins c).result = (p.ins c).result := by
  simp only [replace_argument, program.set]
  split
  · by_cases h1 : c = old
    · subst h1
      by_cases h2 : c = user
      · subst h2; simp
      · simp [Function.update_noteq h2]
    · by_cases h2 : c = user
      · subst h2; simp [Function.update_noteq h1]
      · simp [Function.update_noteq h1, Function.update_noteq h2]
  · by_cases h0 : c = new_ins
    · subst h0
      by_cases h1 : c = old
      · subst h1
        by_cases h2 : c = user
        · subst h2; simp
        · simp [Function.update_noteq h2]
      · by_cases h2 : c = user
        · subst h2; simp [Function.update_noteq h1]
        · simp [Function.update_noteq h1, Function.update_noteq h2]
    · by_cases h1 : c = old
      · subst h1
        by_cases h2 : c = user
        · subst h2; simp [Function.update_noteq h0]
        · simp [Function.update_noteq h0, Function.update_noteq h2]
      · by_cases h2 : c = user
        · subst h2; simp [Function.update_noteq h0, Function.update_noteq h1]
        · simp [Function.update_noteq h0, Function.update_noteq h1, Function.update_noteq h2]

/-- `replace_argument` changes the inputs of the user only. -/
theorem replace_argument_args (p : program) (user old new_ins c : instruction_ref)
    (hc : c ≠ user) :
    ((p.replace_argument user old new_ins).ins c).arguments = (p.ins c).arguments := by
  simp only [replace_argument, program.set]
  split
  · by_cases h1 : c = old
    · subst h1; simp [Function.update_noteq hc]
    · simp [Function.update_noteq h1, Function.update_noteq hc]
  · by_cases h0 : c = new_ins
    · subst h0
      by_cases h1 : c = old
      · subst h1; simp [Function.update_noteq hc]
      · simp [Function.update_noteq h1, Function.update_noteq hc]
    · by_cases h1 : c = old
      · subst h1; simp [Function.update_noteq h0, Function.update_noteq hc]
      · simp [Function.update_noteq h0, Function.update_noteq h1, Function.update_noteq hc]

end program

namespace horizontal_fusion_impl

/-- The round of the loop over `outputs` that inserts a load: the consumer `c`
has the cluster index `e`, no instruction is recorded for `e` yet, and either
`e` has no concat consumer or `break_split` handed back the split itself. -/
theorem tail_step_load (env : tail_env) (st : horizontal_fusion_impl)
    (m : Int → Option instruction_ref) (c : instruction_ref) (e : Nat) (d : List Nat)
    (offset : Nat) (st1 : horizontal_fusion_impl)
    (henum : env.enum_in_cluster c = some (e : Int))
    (hd : env.dims.get? e = some d) (hoff : env.offsets.get? e = some offset)
    (hmemo : m (e : Int) = none)
    (hbranch : (env.enum2_concat (e : Int) = none ∧ st1 = st) ∨
      ((env.enum2_concat (e : Int)).isSome = true ∧
        st.break_split env.op_shape (e : Int) env.split_ins = some (st1, env.split_ins)))
    (hs : env.split_ins ≠ st1.p_program.next_ref) (hc : c ≠ st1.p_program.next_ref) :
    ∃ st' m', tail_step env (st, m) c = some (st', m') ∧
      m' (e : Int) = some st1.p_program.next_ref ∧
      (st'.p_program.ins st1.p_program.next_ref).name = "load" ∧
      (st'.p_program.ins st1.p_program.next_ref).inputs = [env.split_ins] ∧
      (st'.p_program.ins st1.p_program.next_ref).op.params
        = op_params.load { type := env.s.type, lens := d } offset ∧
      (st'.p_program.ins st1.p_program.next_ref).get_shape
        = env.op_shape (load_op { type := env.s.type, lens := d } offset)
          (st1.p_program.ins env.split_ins).get_shape := by
  have hneg : ¬ ((e : Int) < 0) := by omega
  let op : operation := load_op { type := env.s.type, lens := d } offset
  let r : program × instruction_ref := st1.p_program.insert_instruction env.insert_before op
    (env.op_shape op (st1.p_program.ins env.split_ins).get_shape) [env.split_ins]
  have hbroken : (if (env.enum2_concat (e : Int)).isSome then
        match st.break_split env.op_shape (e : Int) env.split_ins with
        | none => none
        | some r => some (r.1, if r.2 != env.split_ins then some r.2 else none)
      else some (st, none)) = some (st1, (none : Option instruction_ref)) := by
    rcases hbranch with ⟨h1, h2⟩ | ⟨h1, h2⟩
    · rw [h1, h2]; rfl
    · rw [h1, h2]; simp
  have hrun : tail_step env (st, m) c
      = some (({ st1 with p_program := r.1.replace_argument c env.last_ins r.2 } :
          horizontal_fusion_impl), Function.update m (e : Int) (some r.2)) := by
    simp only [tail_step, henum, if_neg hneg, Int.toNat_ofNat, hd, hmemo, hbroken, hoff]
  obtain ⟨q1, _, _, q4, _⟩ := program.insert_instruction_single st1.p_program env.insert_before op
    (env.op_shape op (st1.p_program.ins env.split_ins).get_shape) env.split_ins hs
  have hop := program.replace_argument_op r.1 c env.last_ins r.2 st1.p_program.next_ref
  have harg := program.replace_argument_args r.1 c env.last_ins r.2 st1.p_program.next_ref
    (Ne.symm hc)
  rw [q4] at hop harg
  refine ⟨_, _, hrun, ?_, ?_, ?_, ?_, ?_⟩
  · rw [q1]; simp
  · show ((r.1.replace_argument c env.last_ins r.2).ins st1.p_program.next_ref).op.name = "load"
    rw [hop.1]
    rfl
  · show ((r.1.replace_argument c env.last_ins r.2).ins st1.p_program.next_ref).arguments = _
    rw [harg]
  · show ((r.1.replace_argument c env.last_ins r.2).ins st1.p_program.next_ref).op.params = _
    rw [hop.1]
    rfl
  · show ((r.1.replace_argument c env.last_ins r.2).ins st1.p_program.next_ref).result = _
    rw [hop.2]

/-- The load of the tail part of `transform`: in the round of the loop over
`outputs` that inserts a load for the consumer `c` with cluster index `e`, the
new instruction is a load with the only input `split_ins`, the element type of
`last_ins`, the recorded dimensions of sibling `e`, and the byte offset
`(bytes of sibling 0 + ... + bytes of sibling e - 1) mod 2 ^ 32`, which is the
sum itself when that is below `2 ^ 32`. -/
theorem tail_load_spec (st0 : horizontal_fusion_impl) (loc : cluster_locals) (tl : tail_locals)
    (type_size : Nat → Nat) (op_shape : operation → shape → shape) (dims : List (List Nat))
    (hdims : loc.orig_dims tl.last_ins = some dims)
    (st : horizontal_fusion_impl) (m : Int → Option instruction_ref) (c : instruction_ref)
    (e : Nat) (d : List Nat) (st1 : horizontal_fusion_impl)
    (henum : tl.enum_in_cluster c = some (e : Int))
    (hd : dims.get? e = some d)
    (hmemo : m (e : Int) = none)
    (hbranch : (tl.enum2_concat (e : Int) = none ∧ st1 = st) ∨
      ((tl.enum2_concat (e : Int)).isSome = true ∧
        st.break_split op_shape (e : Int) tl.split_ins = some (st1, tl.split_ins)))
    (hs : tl.split_ins ≠ st1.p_program.next_ref) (hc : c ≠ st1.p_program.next_ref) :
    ∃ st' m' L, tail_step (make_tail_env st0 loc tl type_size op_shape) (st, m) c
        = some (st', m') ∧
      m' (e : Int) = some L ∧
      (st'.p_program.ins L).name = "load" ∧
      (st'.p_program.ins L).inputs = [tl.split_ins] ∧
      (st'.p_program.ins L).op.params
        = op_params.load { type := (st0.p_program.ins tl.last_ins).get_shape.type, lens := d }
            (((dims.take e).map (fun x => shape.bytes type_size
              { type := (st0.p_program.ins tl.last_ins).get_shape.type, lens := x })).sum
              % 2 ^ 32) ∧
      (((dims.take e).map (fun x => shape.bytes type_size
          { type := (st0.p_program.ins tl.last_ins).get_shape.type, lens := x })).sum < 2 ^ 32 →
        (st'.p_program.ins L).op.params
          = op_params.load { type := (st0.p_program.ins tl.last_ins).get_shape.type, lens := d }
              ((dims.take e).map (fun x => shape.bytes type_size
                { type := (st0.p_program.ins tl.last_ins).get_shape.type, lens := x })).sum) ∧
      ((∀ s off a, op_shape (load_op s off) a = s) →
        (st'.p_program.ins L).get_shape
          = { type := (st0.p_program.ins tl.last_ins).get_shape.type, lens := d }) := by
  have he : e < dims.length := by
    rcases Nat.lt_or_ge e dims.length with h | h
    · exact h
    · rw [List.get?_eq_none.mpr h] at hd; cases hd
  have hoffs := (tail_offsets_spec type_size (st0.p_program.ins tl.last_ins).get_shape.type dims 0
    (by decide)).2 e he
  rw [Nat.zero_add] at hoffs
  have henv_dims : (make_tail_env st0 loc tl type_size op_shape).dims = dims := by
    simp [make_tail_env, hdims]
  have henv_off : (make_tail_env st0 loc tl type_size op_shape).offsets
      = tail_offsets type_size (st0.p_program.ins tl.last_ins).get_shape.type dims 0 := by
    simp [make_tail_env, hdims]
  obtain ⟨st', m', h1, h2, h3, h4, h5, h6⟩ := tail_step_load
    (make_tail_env st0 loc tl type_size op_shape) st m c e d _ st1 henum
    (by rw [henv_dims]; exact hd) (by rw [henv_off]; exact hoffs) hmemo hbranch hs hc
  refine ⟨st', m', _, h1, h2, h3, h4, h5, ?_, ?_⟩
  · intro hlt
    rw [h5, Nat.mod_eq_of_lt hlt]
    rfl
  · intro hload
    rw [h6]
    exact hload _ _ _

end horizontal_fusion_impl

/-- C14 (evaluation at the failing input): two fused siblings of dimensions
`[64, 1024, 128, 128]` and a type of `4` bytes have `2 ^ 32` bytes each.  The
tail part of `transform` gives the consumer with cluster index `1`
(instruction `4`) a load from the split (instruction `5`) with the dimensions
of sibling `1` and the byte offset `0`, not `4294967296`: the offsets are
accumulated in an `unsigned`. -/
theorem C14_load_offset_wraps :
    (huge_conv_state.transform_tail huge_conv_locals (fun _ => 4) (fun _ s => s)).map
      (fun st => ((st.p_program.ins 4).inputs, (st.p_program.ins 7).name,
        (st.p_program.ins 7).inputs, (st.p_program.ins 5).name, (st.p_program.ins 7).op.params))
      = some ([7], "load", [5], "split",
          op_params.load { type := 0, lens := [64, 1024, 128, 128] } 0) ∧
    shape.bytes (fun _ => 4) { type := 0, lens := [64, 1024, 128, 128] } = 4294967296 ∧
    huge_conv_locals.enum_in_cluster 4 = some 1 ∧
    huge_conv_locals.orig_dims 2
      = some [[64, 1024, 128, 128], [64, 1024, 128, 128]] := by
  refine ⟨by rfl, by rfl, by rfl, by rfl⟩

namespace horizontal_fusion_impl

/-- One pass over the literals copies slice `n` of each of them, in order. -/
theorem copy_slices_spec (n : Nat) :
    ∀ (entries : List (List Nat × Nat)), (∀ x ∈ entries, n * x.2 + x.2 ≤ x.1.length) →
      copy_slices n entries
        = some (entries.flatMap (fun x => (x.1.drop (n * x.2)).take x.2)) ∧
      (entries.flatMap (fun x => (x.1.drop (n * x.2)).take x.2)).length
        = (entries.map (fun x => x.2)).sum := by
  intro entries
  induction entries with
  | nil => intro _; exact ⟨rfl, rfl⟩
  | cons x rest ih =>
    intro h
    obtain ⟨i1, i2⟩ := ih (fun y hy => h y (List.mem_cons_of_mem _ hy))
    have hx := h x (List.mem_cons_self _ _)
    refine ⟨?_, ?_⟩
    · obtain ⟨data, bytes⟩ := x
      simp only [copy_slices]
      rw [if_pos hx, i1]
      simp [List.flatMap_cons]
    · simp only [List.flatMap_cons, List.length_append, List.map_cons, List.sum_cons, i2,
        List.length_take, List.length_drop]
      omega

/-- The copy loop, entered after `n` passes with `k` passes to go. -/
theorem copy_loop_spec (entries : List (List Nat × Nat)) (P B : Nat)
    (hB : B = (entries.map (fun x => x.2)).sum) (hBpos : 0 < B) (hrange : P * B < 2 ^ 32)
    (hdata : ∀ x ∈ entries, x.1.length = P * x.2) :
    ∀ (k n fuel : Nat) (dst : List Nat), n + k = P → k ≤ fuel → dst.length = n * B →
      copy_loop entries (P * B) fuel (n * B) n dst
        = some (dst ++ (List.range' n k).flatMap
            (fun o => entries.flatMap (fun x => (x.1.drop (o * x.2)).take x.2))) := by
  intro k
  induction k with
  | zero =>
    intro n fuel dst hn _ _
    have hnP : n = P := by omega
    subst hnP
    cases fuel with
    | zero => simp [copy_loop]
    | succ f => simp [copy_loop]
  | succ k ih =>
    intro n fuel dst hn hfuel hlen
    cases fuel with
    | zero => omega
    | succ f =>
      have hnP : n < P := by omega
      have hlt : n * B < P * B := Nat.mul_lt_mul_of_pos_right hnP hBpos
      have hread : ∀ x ∈ entries, n * x.2 + x.2 ≤ x.1.length := by
        intro x hx
        rw [hdata x hx]
        have : (n + 1) * x.2 ≤ P * x.2 := Nat.mul_le_mul_right _ (by omega)
        calc n * x.2 + x.2 = (n + 1) * x.2 := by ring
          _ ≤ P * x.2 := this
      obtain ⟨c1, c2⟩ := copy_slices_spec n entries hread
      rw [← hB] at c2
      have hnext : (n + 1) * B ≤ P * B := Nat.mul_le_mul_right _ (by omega)
      have hsucc : n * B + B = (n + 1) * B := by ring
      have hmod : (n * B + B) % 2 ^ 32 = (n + 1) * B := by
        rw [hsucc]
        exact Nat.mod_eq_of_lt (lt_of_le_of_lt hnext hrange)
      simp only [copy_loop, if_pos hlt, c1, hlen, c2]
      rw [if_pos (by rw [hsucc]; exact hnext), hmod]
      rw [ih (n + 1) f _ (by omega) (by omega)
        (by rw [List.length_append, hlen, c2, hsucc])]
      simp [List.range'_succ, List.flatMap_cons, List.append_assoc]

theorem le_list_sum (l : List Nat) : ∀ x ∈ l, x ≤ l.sum := by
  induction l with
  | nil => intro x hx; cases hx
  | cons a t ih =>
    intro x hx
    rcases List.mem_cons.mp hx with h | h
    · rw [h]; simp
    · have := ih x h
      simp only [List.sum_cons]
      omega

/-- Length of the slice-by-slice concatenation. -/
theorem slices_length (entries : List (List Nat × Nat)) (P : Nat)
    (hdata : ∀ x ∈ entries, x.1.length = P * x.2) :
    ∀ m, m ≤ P →
      ((List.range m).flatMap
        (fun o => entries.flatMap (fun x => (x.1.drop (o * x.2)).take x.2))).length
        = m * (entries.map (fun x => x.2)).sum := by
  intro m
  induction m with
  | zero => intro _; simp
  | succ m ih =>
    intro hm
    have hread : ∀ x ∈ entries, m * x.2 + x.2 ≤ x.1.length := by
      intro x hx
      rw [hdata x hx]
      calc m * x.2 + x.2 = (m + 1) * x.2 := by ring
        _ ≤ P * x.2 := Nat.mul_le_mul_right _ hm
    rw [List.range_succ, List.flatMap_append, List.length_append, ih (by omega),
      List.flatMap_singleton, (copy_slices_spec m entries hread).2]
    ring

theorem set_len_at (pre post : List Nat) (len sum : Nat) :
    set_len (pre ++ len :: post) pre.length sum = pre ++ sum :: post := by
  simp [set_len]

/-- The `bytes_per_slice` of literals whose shapes are `pre ++ len :: post`. -/
theorem slice_sizes_spec (t : Nat) (pre post : List Nat) (u ts : Nat) :
    ∀ lits : List (Nat × List Nat),
      (lits.map (fun l => (({ type := t, lens := pre ++ l.1 :: post } : shape), l.2))).mapM
        (fun l => (l.1.lens.get? pre.length).map
          (fun len => (l.2, (len * u * ts) % 2 ^ 64)))
        = some (lits.map (fun l => (l.2, (l.1 * u * ts) % 2 ^ 64))) := by
  intro lits
  induction lits with
  | nil => rfl
  | cons l rest ih =>
    have hget : (pre ++ l.1 :: post).get? pre.length = some l.1 := by
      rw [List.get?_eq_getElem?, List.getElem?_append_right (le_refl _)]
      simp
    simp only [List.map_cons, List.mapM_cons, ih, hget]
    rfl

/-- The literal built by `concat` from literals of the type `t` with the
shapes `pre ++ len :: post` and packed data, when the new literal has fewer
than `2 ^ 32` bytes: its shape has the sum of the lengths at the axis, and its
bytes are, slice by slice, slice `o` of each literal in turn. -/
theorem concat_literal_spec (type_size : Nat → Nat) (t : Nat) (pre post : List Nat)
    (lits : List (Nat × List Nat)) (hk : lits ≠ [])
    (hdata : ∀ l ∈ lits, l.2.length = pre.prod * l.1 * post.prod * type_size t)
    (hts : type_size t < 2 ^ 32)
    (hrange : pre.prod * post.prod * (lits.map (fun l => l.1)).sum * type_size t < 2 ^ 32) :
    concat_literal type_size
        (lits.map (fun l => (({ type := t, lens := pre ++ l.1 :: post } : shape), l.2)))
        pre.length (lits.map (fun l => l.1)).sum
      = some ({ type := t, lens := pre ++ (lits.map (fun l => l.1)).sum :: post },
          (List.range pre.prod).flatMap (fun o => lits.flatMap (fun l =>
            (l.2.drop (o * (l.1 * post.prod * type_size t))).take
              (l.1 * post.prod * type_size t)))) ∧
    ((List.range pre.prod).flatMap (fun o => lits.flatMap (fun l =>
        (l.2.drop (o * (l.1 * post.prod * type_size t))).take
          (l.1 * post.prod * type_size t)))).length
      = pre.prod * (lits.map (fun l => l.1)).sum * post.prod * type_size t := by
  -- abbreviations
  generalize hP : pre.prod = P at *
  generalize hU : post.prod = U at *
  generalize hT : type_size t = ts at *
  generalize hS : (lits.map (fun l => l.1)).sum = S at *
  -- the entries of the copy loop, without truncation
  let entries : List (List Nat × Nat) := lits.map (fun l => (l.2, l.1 * U * ts))
  have hentries_data : ∀ x ∈ entries, x.1.length = P * x.2 := by
    intro x hx
    obtain ⟨l, hl, rfl⟩ := List.mem_map.mp hx
    show l.2.length = P * (l.1 * U * ts)
    rw [hdata l hl]; ring
  have hB : (entries.map (fun x => x.2)).sum = S * U * ts := by
    show ((lits.map (fun l => (l.2, l.1 * U * ts))).map (fun x => x.2)).sum = S * U * ts
    rw [List.map_map, ← hS]
    have : ((fun x : List Nat × Nat => x.2) ∘ fun l : Nat × List Nat => (l.2, l.1 * U * ts))
        = fun l => l.1 * (U * ts) := by
      funext l; simp [Function.comp, Nat.mul_assoc]
    rw [this, List.sum_map_mul_right, Nat.mul_assoc]
  have hflat : ∀ o, entries.flatMap (fun x => (x.1.drop (o * x.2)).take x.2)
      = lits.flatMap (fun l => (l.2.drop (o * (l.1 * U * ts))).take (l.1 * U * ts)) := by
    intro o
    show (lits.map _).flatMap _ = _
    rw [List.flatMap_map]
  have hlen := slices_length entries P hentries_data P (le_refl _)
  simp only [hflat, hB] at hlen
  have hlen' : ((List.range P).flatMap (fun o => lits.flatMap (fun l =>
      (l.2.drop (o * (l.1 * U * ts))).take (l.1 * U * ts)))).length = P * S * U * ts := by
    rw [hlen]; ring
  refine ⟨?_, hlen'⟩
  obtain ⟨l0, rest, hl⟩ := List.exists_cons_of_ne_nil hk
  have hshape : ∀ (x : Option (List Nat)),
      concat_literal type_size
        (lits.map (fun l => (({ type := t, lens := pre ++ l.1 :: post } : shape), l.2)))
        pre.length S
      = match copy_loop (lits.map (fun l => (l.2, (l.1 * (U % 2 ^ 64) * (ts % 2 ^ 32)) % 2 ^ 64)))
          (((P * U * S) % 2 ^ 64 * (ts % 2 ^ 32)) % 2 ^ 64)
          (((P * U * S) % 2 ^ 64 * (ts % 2 ^ 32)) % 2 ^ 64 + 1) 0 0 [] with
        | none => none
        | some data => some ({ type := t, lens := pre ++ S :: post }, data) := by
    intro _
    have hdrop : ((pre ++ l0.1 :: post).drop (pre.length + 1)).prod = U := by
      rw [← hU]; simp
    have htake : ((pre ++ l0.1 :: post).take pre.length).prod = P := by
      rw [← hP]; simp
    have hm := slice_sizes_spec t pre post (U % 2 ^ 64) (ts % 2 ^ 32) lits
    rw [hl] at hm ⊢
    simp only [List.map_cons] at hm ⊢
    simp only [concat_literal, hdrop, htake, hT, set_len_at, hm]
  rw [hshape none]
  have htsm : ts % 2 ^ 32 = ts := Nat.mod_eq_of_lt hts
  rw [htsm]
  by_cases hzero : P * U * S * ts = 0
  · -- nothing to copy
    have htot : ((P * U * S) % 2 ^ 64 * ts) % 2 ^ 64 = 0 := by
      rcases Nat.mul_eq_zero.mp hzero with h | h
      · rw [h]; simp
      · rw [h]; simp
    rw [htot]
    have hnil : (List.range P).flatMap (fun o => lits.flatMap (fun l =>
        (l.2.drop (o * (l.1 * U * ts))).take (l.1 * U * ts))) = [] := by
      apply List.eq_nil_of_length_eq_zero
      rw [hlen']
      have : P * S * U * ts = P * U * S * ts := by ring
      rw [this]; exact hzero
    rw [hnil]
    simp [copy_loop]
  · have hpos : 0 < P * U * S * ts := Nat.pos_of_ne_zero hzero
    have hts0 : 0 < ts := Nat.pos_of_mul_pos_right hpos |> fun h => by
      rcases Nat.eq_zero_or_pos ts with h0 | h0
      · rw [h0] at hpos; simp at hpos
      · exact h0
    have hPUS : 0 < P * U * S := by
      rcases Nat.eq_zero_or_pos (P * U * S) with h0 | h0
      · rw [h0] at hpos; simp at hpos
      · exact h0
    have hS0 : 0 < S := by
      rcases Nat.eq_zero_or_pos S with h0 | h0
      · rw [h0] at hPUS; simp at hPUS
      · exact h0
    have hPU : 0 < P * U := by
      rcases Nat.eq_zero_or_pos (P * U) with h0 | h0
      · rw [h0] at hPUS; simp at hPUS
      · exact h0
    have hU0 : 0 < U := by
      rcases Nat.eq_zero_or_pos U with h0 | h0
      · rw [h0] at hPU; simp at hPU
      · exact h0
    have hP0 : 0 < P := by
      rcases Nat.eq_zero_or_pos P with h0 | h0
      · rw [h0] at hPU; simp at hPU
      · exact h0
    have hBpos : 0 < S * U * ts := Nat.mul_pos (Nat.mul_pos hS0 hU0) hts0
    have htotal : P * (S * U * ts) = P * U * S * ts := by ring
    have hEle : P * U * S ≤ P * U * S * ts := Nat.le_mul_of_pos_right _ hts0
    have hUle : U ≤ P * U * S * ts := by
      calc U ≤ P * U := Nat.le_mul_of_pos_left _ hP0
        _ ≤ P * U * S := Nat.le_mul_of_pos_right _ hS0
        _ ≤ P * U * S * ts := hEle
    have h64 : (2 : Nat) ^ 32 < 2 ^ 64 := by decide
    have hUm : U % 2 ^ 64 = U := Nat.mod_eq_of_lt (by omega)
    have hEm : (P * U * S) % 2 ^ 64 = P * U * S := Nat.mod_eq_of_lt (by omega)
    have hTm : (P * U * S * ts) % 2 ^ 64 = P * U * S * ts := Nat.mod_eq_of_lt (by omega)
    have hentries : lits.map (fun l => (l.2, (l.1 * (U % 2 ^ 64) * ts) % 2 ^ 64)) = entries := by
      show _ = lits.map (fun l => (l.2, l.1 * U * ts))
      apply List.map_congr_left
      intro l hl'
      have hl1 : l.1 ≤ S := by
        rw [← hS]
        exact le_list_sum _ _ (List.mem_map_of_mem _ hl')
      have : l.1 * U * ts ≤ P * U * S * ts := by
        calc l.1 * U * ts ≤ S * U * ts :=
              Nat.mul_le_mul_right _ (Nat.mul_le_mul_right _ hl1)
          _ ≤ P * (S * U * ts) := Nat.le_mul_of_pos_left _ hP0
          _ = P * U * S * ts := htotal
      rw [hUm, Nat.mod_eq_of_lt (by omega)]
    rw [hUm] at hentries
    rw [hEm, hTm, hUm, hentries, ← htotal]
    have hPle : P ≤ P * (S * U * ts) + 1 := by
      have := Nat.le_mul_of_pos_right P hBpos
      omega
    have hloop := copy_loop_spec entries P (S * U * ts) hB.symm hBpos
      (by rw [htotal]; exact hrange) hentries_data P 0 (P * (S * U * ts) + 1) [] (by omega) hPle
      (by simp)
    simp only [Nat.zero_mul, List.nil_append] at hloop
    rw [hloop]
    simp only [hflat, List.range_eq_range']

/-- Two literals of one slice of `n` bytes each, where `n + n` is a multiple of
`2 ^ 32`: after the first pass of the copy loop `copy_bytes` is `0` again, and
the second pass reads beyond the data of the first literal. -/
theorem copy_loop_wraps (d0 d1 : List Nat) (n : Nat) (hn : 0 < n) (h0 : d0.length = n)
    (h1 : d1.length = n) (hw : (n + n) % 2 ^ 32 = 0) (fuel : Nat) :
    copy_loop [(d0, n), (d1, n)] (n + n) (fuel + 2) 0 0 [] = none := by
  have hpos : 0 < n + n := by omega
  have hs0 : copy_slices 0 [(d0, n), (d1, n)] = some (d0.take n ++ (d1.take n ++ [])) := by
    simp only [copy_slices, Nat.zero_mul, Nat.zero_add, h0, h1, le_refl, if_true,
      List.drop_zero, Option.map_some']
  have hs1 : copy_slices 1 [(d0, n), (d1, n)] = none := by
    have : ¬ (1 * n + n ≤ d0.length) := by rw [h0]; omega
    simp only [copy_slices, this, if_false]
  have hlen : (d0.take n ++ (d1.take n ++ [])).length = n + n := by
    simp [h0, h1]
  rw [copy_loop, if_pos hpos, hs0]
  simp only [List.length_nil, Nat.zero_add, hlen, le_refl, if_true, hw, List.nil_append]
  rw [copy_loop, if_pos hpos, hs1]

/-- Two literals of dimensions `[1024, 1024, 512]` and a type of `4` bytes, with
`2 ^ 31` bytes of data each, concatenated along axis `0`: the copy loop fails
in its second pass. -/
theorem concat_literal_wraps (d0 d1 : List Nat) (h0 : d0.length = 2147483648)
    (h1 : d1.length = 2147483648) :
    concat_literal (fun _ => 4)
      [({ type := 0, lens := [1024, 1024, 512] }, d0),
       ({ type := 0, lens := [1024, 1024, 512] }, d1)] 0 2048 = none := by
  have hloop := copy_loop_wraps d0 d1 2147483648 (by decide) h0 h1 (by decide) 4294967295
  have hm : ([(({ type := 0, lens := [1024, 1024, 512] } : shape), d0),
       (({ type := 0, lens := [1024, 1024, 512] } : shape), d1)].mapM
        (fun l => (l.1.lens.get? 0).map
          (fun len => (l.2, (len * (([1024, 1024, 512].drop (0 + 1)).prod % 2 ^ 64)
            * (4 % 2 ^ 32)) % 2 ^ 64))))
      = some [(d0, 2147483648), (d1, 2147483648)] := by
    simp only [List.mapM_cons, List.mapM_nil, List.get?_cons_zero, Option.map_some',
      Option.some_bind, Option.pure_def, Option.bind_eq_bind]
    rfl
  have ht : ((([1024, 1024, 512] : List Nat).take 0).prod
      * (([1024, 1024, 512] : List Nat).drop (0 + 1)).prod * 2048 % 2 ^ 64 * (4 % 2 ^ 32))
        % 2 ^ 64 = 2147483648 + 2147483648 := by decide
  simp only [concat_literal, hm, ht]
  rw [show (2147483648 + 2147483648 + 1 : Nat) = 4294967295 + 2 from by decide, hloop]

end horizontal_fusion_impl

/-- C11 (evaluation at the failing input): two literals of dimensions
`[1024, 1024, 512]` and a type of `4` bytes, `2 ^ 31` bytes each, concatenated
along axis `0`.  The new literal has `2 ^ 32` bytes; after the first pass of
the copy loop the `unsigned` counter `copy_bytes` is `0` again, so the loop
goes on and copies from beyond the end of the first literal: no literal is
built. -/
theorem C11_concat_literal_wraps :
    horizontal_fusion_impl.concat_literal (fun _ => 4)
      [({ type := 0, lens := [1024, 1024, 512] }, List.replicate 2147483648 0),
       ({ type := 0, lens := [1024, 1024, 512] }, List.replicate 2147483648 1)] 0 2048
      = none ∧
    shape.bytes (fun _ => 4) { type := 0, lens := [1024, 1024, 512] } = 2147483648 ∧
    shape.bytes (fun _ => 4) { type := 0, lens := [2048, 1024, 512] } = 4294967296 :=
  ⟨horizontal_fusion_impl.concat_literal_wraps _ _ (List.length_replicate _ _)
    (List.length_replicate _ _), rfl, rfl⟩

namespace horizontal_fusion_impl

/-- One round of the collecting loop, as a case distinction. -/
theorem collect_loop_cons (st : horizontal_fusion_impl) (env : fusion_env)
    (ins : instruction_ref) (rest : List instruction_ref) (loc : cluster_locals) (axis : Int)
    (all_inputs : List (List instruction_ref)) (c : collect_result)
    (h : collect_loop st env (ins :: rest) loc axis all_inputs = some c) :
    (c.doit = false ∧ c.loc.last_hash_id = loc.last_hash_id) ∨
    ∃ loc1 axis1 w, axis1 ≠ -1 ∧ loc1.last_hash_id = loc.last_hash_id ∧
      collect_loop st env rest loc1 axis1 (all_inputs ++ [w]) = some c ∧
      ∀ l, collect_loop st env (ins :: l) loc axis all_inputs
        = collect_loop st env l loc1 axis1 (all_inputs ++ [w]) := by
  rw [collect_loop] at h
  simp only at h
  generalize hax1 : (if axis = -1 then find_axis_common st env ins loc.visited else axis)
    = axis1 at h
  by_cases hax : axis1 = -1
  · rw [if_pos hax] at h
    cases h; exact Or.inl ⟨rfl, rfl⟩
  · rw [if_neg hax] at h
    cases hw : walk st ins loc.visited with
    | none => rw [hw] at h; cases h
    | some w =>
      rw [hw] at h
      simp only at h
      by_cases hne : w.1.isEmpty = true
      · rw [if_pos hne] at h
        cases h; exact Or.inl ⟨rfl, rfl⟩
      · rw [if_neg hne] at h
        generalize hcong : (match all_inputs with
            | [] => some true
            | first :: _ => compare_inputs st env first w.1 ins axis1) = congruent at h
        match congruent, hcong, h with
        | none, _, h => cases h
        | some false, _, h => cases h; exact Or.inl ⟨rfl, rfl⟩
        | some true, hcong, h =>
          simp only at h
          refine Or.inr ⟨_, axis1, w.1, hax, ?_, h, ?_⟩
          · rfl
          · intro l
            rw [collect_loop]
            simp only
            rw [hax1, if_neg hax, hw]
            simp only
            rw [if_neg hne, hcong]

/-- What the collecting loop keeps: `last_hash_id` is not written; when the
loop has not cleared `doit`, every member has added its walk to `all_inputs`
and the axis is determined unless there was no member. -/
theorem collect_loop_inv (st : horizontal_fusion_impl) (env : fusion_env) :
    ∀ (l : List instruction_ref) (loc : cluster_locals) (axis : Int)
      (all_inputs : List (List instruction_ref)) (c : collect_result),
      collect_loop st env l loc axis all_inputs = some c →
      c.loc.last_hash_id = loc.last_hash_id ∧
      (c.doit = true → c.all_inputs.length = all_inputs.length + l.length ∧
        (axis ≠ -1 ∨ l ≠ [] → c.axis ≠ -1)) := by
  intro l
  induction l with
  | nil =>
    intro loc axis all_inputs c h
    rw [collect_loop] at h
    cases h
    refine ⟨rfl, fun _ => ⟨rfl, ?_⟩⟩
    intro hor
    rcases hor with h1 | h1
    · exact h1
    · exact absurd rfl h1
  | cons ins rest ih =>
    intro loc axis all_inputs c h
    rcases collect_loop_cons st env ins rest loc axis all_inputs c h with ⟨hd, hl⟩ |
      ⟨loc1, axis1, w, hax, hl, hrest, _⟩
    · refine ⟨hl, fun hdoit => ?_⟩
      rw [hd] at hdoit
      cases hdoit
    · obtain ⟨i1, i2⟩ := ih loc1 axis1 (all_inputs ++ [w]) c hrest
      refine ⟨i1.trans hl, fun hdoit => ?_⟩
      obtain ⟨j1, j2⟩ := i2 hdoit
      refine ⟨?_, fun _ => j2 (Or.inl hax)⟩
      rw [j1]
      simp only [List.length_append, List.length_cons, List.length_nil]
      omega

/-- The collecting loop over `pre ++ l`, when its rounds for `pre` have not
cleared `doit`, goes on with `l` from what they left behind. -/
theorem collect_loop_append (st : horizontal_fusion_impl) (env : fusion_env)
    (l : List instruction_ref) :
    ∀ (pre : List instruction_ref) (loc : cluster_locals) (axis : Int)
      (all_inputs : List (List instruction_ref)) (c : collect_result),
      collect_loop st env pre loc axis all_inputs = some c → c.doit = true →
      collect_loop st env (pre ++ l) loc axis all_inputs
        = collect_loop st env l c.loc c.axis c.all_inputs := by
  intro pre
  induction pre with
  | nil =>
    intro loc axis all_inputs c h _
    rw [collect_loop] at h
    cases h
    rfl
  | cons ins rest ih =>
    intro loc axis all_inputs c h hdoit
    rcases collect_loop_cons st env ins rest loc axis all_inputs c h with ⟨hd, _⟩ |
      ⟨loc1, axis1, w, _, _, hrest, hstep⟩
    · rw [hd] at hdoit
      cases hdoit
    · rw [List.cons_append, hstep (rest ++ l)]
      exact ih loc1 axis1 (all_inputs ++ [w]) c hrest hdoit

/-- A round of the collecting loop in which the axis is not determined, the
walk returns nothing, or the walk is not congruent with the first one, clears
`doit` and ends the loop. -/
theorem collect_loop_abort (st : horizontal_fusion_impl) (env : fusion_env)
    (ins : instruction_ref) (post : List instruction_ref) (loc : cluster_locals) (axis : Int)
    (all_inputs : List (List instruction_ref))
    (habort :
      (axis = -1 ∧ find_axis_common st env ins loc.visited = -1) ∨
      (∃ v, walk st ins loc.visited = some ([], v)) ∨
      (∃ first others w, axis ≠ -1 ∧ all_inputs = first :: others ∧
        walk st ins loc.visited = some w ∧
        compare_inputs st env first w.1 ins axis = some false)) :
    ∃ c, collect_loop st env (ins :: post) loc axis all_inputs = some c ∧ c.doit = false ∧
      c.loc.last_hash_id = loc.last_hash_id := by
  rw [collect_loop]
  simp only
  generalize hax1 : (if axis = -1 then find_axis_common st env ins loc.visited else axis)
    = axis1
  by_cases hax : axis1 = -1
  · rw [if_pos hax]
    exact ⟨_, rfl, rfl, rfl⟩
  · rw [if_neg hax]
    rcases habort with ⟨h1, h2⟩ | ⟨v, hv⟩ | ⟨first, others, w, hax0, hall, hw, hcmp⟩
    · exfalso
      apply hax
      rw [← hax1, if_pos h1, h2]
    · rw [hv]
      simp only [List.isEmpty_nil, if_true]
      exact ⟨_, rfl, rfl, rfl⟩
    · rw [if_neg hax0] at hax1
      subst hax1
      rw [hw]
      simp only
      by_cases hne : w.1.isEmpty = true
      · rw [if_pos hne]
        exact ⟨_, rfl, rfl, rfl⟩
      · rw [if_neg hne, hall]
        simp only [hcmp]
        exact ⟨_, rfl, rfl, rfl⟩

end horizontal_fusion_impl

/-- C12: let the members of a cluster element be `pre ++ ins :: post`, the
first of them with a number of inputs other than one, and let the collecting
loop of `transform` have passed the members `pre` without clearing `doit`.  If
at `ins` the concat axis is not determined (`find_axis` returns `-1`), or the
walk of `ins` returns the empty list, or the walk of `ins` is not congruent
with the walk of the first member, then the iteration for this element ends
with the state of the pass, and so the program, as it was (only the locals of
`transform` change, `last_hash_id` not among them), and the loop over the
cluster goes on with the next element. -/
theorem C12_abort_keeps_program (st : horizontal_fusion_impl)
    (env : horizontal_fusion_impl.fusion_env) (loc : horizontal_fusion_impl.cluster_locals)
    (hash_id : Nat) (cluster_rest inputs : List Nat) (ins0 : instruction_ref)
    (rest pre : List instruction_ref) (ins : instruction_ref) (post : List instruction_ref)
    (c : horizontal_fusion_impl.collect_result)
    (hin : st.hash_inputs hash_id = some inputs)
    (hmem : st.get_instrs hash_id = ins0 :: rest)
    (hsplit : ins0 :: rest = pre ++ ins :: post)
    (hmulti : (st.p_program.ins ins0).inputs.length ≠ 1)
    (hpre : horizontal_fusion_impl.collect_loop st env pre
      (horizontal_fusion_impl.element_locals st loc inputs ins0 rest) (-1) [] = some c)
    (hdoit : c.doit = true)
    (habort :
      (c.axis = -1 ∧ st.find_axis_common env ins c.loc.visited = -1) ∨
      (∃ v, st.walk ins c.loc.visited = some ([], v)) ∨
      (∃ first others w, c.all_inputs = first :: others ∧
        st.walk ins c.loc.visited = some w ∧
        st.compare_inputs env first w.1 ins c.axis = some false)) :
    ∃ loc', st.transform_element env loc hash_id = some (st, loc') ∧
      loc'.last_hash_id = loc.last_hash_id ∧
      horizontal_fusion_impl.transform_cluster env (hash_id :: cluster_rest) st loc
        = horizontal_fusion_impl.transform_cluster env cluster_rest st loc' := by
  have hstep : ∃ loc', st.transform_element env loc hash_id = some (st, loc') ∧
      loc'.last_hash_id = loc.last_hash_id := by
    rw [horizontal_fusion_impl.transform_element, hin]
    simp only
    by_cases hflag : (horizontal_fusion_impl.flag_common_inputs st inputs loc.visited).1 = true
    · rw [hflag]
      simp only [Bool.not_true, Bool.false_eq_true, if_false, hmem]
      obtain ⟨i1, i2⟩ := horizontal_fusion_impl.collect_loop_inv st env pre _ _ _ c hpre
      obtain ⟨j1, j2⟩ := i2 hdoit
      have habort' : (c.axis = -1 ∧ st.find_axis_common env ins c.loc.visited = -1) ∨
          (∃ v, st.walk ins c.loc.visited = some ([], v)) ∨
          (∃ first others w, c.axis ≠ -1 ∧ c.all_inputs = first :: others ∧
            st.walk ins c.loc.visited = some w ∧
            st.compare_inputs env first w.1 ins c.axis = some false) := by
        rcases habort with h | h | ⟨first, others, w, hall, hw, hcmp⟩
        · exact Or.inl h
        · exact Or.inr (Or.inl h)
        · refine Or.inr (Or.inr ⟨first, others, w, ?_, hall, hw, hcmp⟩)
          apply j2
          right
          intro hnil
          rw [hnil, hall] at j1
          simp at j1
      obtain ⟨c', hc', hd', hl'⟩ := horizontal_fusion_impl.collect_loop_abort st env ins post
        c.loc c.axis c.all_inputs habort'
      have hfull : horizontal_fusion_impl.collect_loop st env (ins0 :: rest)
          (horizontal_fusion_impl.element_locals st loc inputs ins0 rest) (-1) [] = some c' := by
        rw [hsplit, horizontal_fusion_impl.collect_loop_append st env (ins :: post) pre _ _ _ c
          hpre hdoit, hc']
      have hres : (match horizontal_fusion_impl.collect_loop st env (ins0 :: rest)
          (horizontal_fusion_impl.element_locals st loc inputs ins0 rest) (-1) [] with
          | none => none
          | some c =>
            if (!c.doit) = true then some (st, c.loc)
            else horizontal_fusion_impl.fuse_element st env c hash_id (ins0 :: rest))
          = some (st, c'.loc) := by
        rw [hfull]
        simp only [hd', Bool.not_false, if_true]
      refine ⟨c'.loc, ?_, hl'.trans i1⟩
      rw [← hres]
      cases hargs : (st.p_program.ins ins0).inputs with
      | nil => rfl
      | cons a l =>
        cases l with
        | nil => rw [hargs] at hmulti; exact absurd rfl hmulti
        | cons b l => rfl
    · have hf : (horizontal_fusion_impl.flag_common_inputs st inputs loc.visited).1 = false := by
        cases h : (horizontal_fusion_impl.flag_common_inputs st inputs loc.visited).1
        · rfl
        · exact absurd h hflag
      rw [hf]
      simp only [Bool.not_false, if_true]
      exact ⟨_, rfl, rfl⟩
  obtain ⟨loc', h1, h2⟩ := hstep
  refine ⟨loc', h1, h2, ?_⟩
  rw [horizontal_fusion_impl.transform_cluster, h1]

/-- C12 at `branch_example`: the walk of the second convolution meets the
intermediate instruction `4`, which has two users; the element is left as it
is. -/
theorem C12_abort_keeps_program_witness :
    ∃ loc', branch_state.transform_element branch_env {} 2 = some (branch_state, loc') ∧
      loc'.last_hash_id = ({} : horizontal_fusion_impl.cluster_locals).last_hash_id ∧
      horizontal_fusion_impl.transform_cluster branch_env [2] branch_state {}
        = horizontal_fusion_impl.transform_cluster branch_env [] branch_state loc' :=
  C12_abort_keeps_program branch_state branch_env {} 2 [] [1] 5 [6] [5] 6 [] _
    rfl rfl rfl (by decide) rfl rfl (Or.inr (Or.inl ⟨_, rfl⟩))

namespace horizontal_fusion_impl

/-- The loop of `find_unique_axis` counts the positions at which the two
vectors differ. -/
theorem find_unique_axis_loop_count :
    ∀ (lens1 lens2 : List Nat) (ndx count ret : Int),
      (find_unique_axis_loop lens1 lens2 ndx count ret).1
        = count + ((lens1.zip lens2).countP (fun a => decide (a.1 ≠ a.2)) : Nat) := by
  intro lens1
  induction lens1 with
  | nil => intro lens2 ndx count ret; simp [find_unique_axis_loop]
  | cons a l ih =>
    intro lens2 ndx count ret
    cases lens2 with
    | nil => simp [find_unique_axis_loop]
    | cons b l2 =>
      by_cases hab : a = b
      · subst hab
        simp only [find_unique_axis_loop, ne_eq, not_true_eq_false, if_false, List.zip_cons_cons]
        rw [ih]
        simp
      · simp only [find_unique_axis_loop, ne_eq, hab, not_false_eq_true, if_true,
          List.zip_cons_cons]
        rw [ih, List.countP_cons_of_pos]
        · push_cast; ring
        · simp [hab]

/-- On equal vectors the loop of `find_unique_axis` changes neither the count
nor the axis found so far. -/
theorem find_unique_axis_loop_same :
    ∀ (lens : List Nat) (ndx count ret : Int),
      find_unique_axis_loop lens lens ndx count ret = (count, ret) := by
  intro lens
  induction lens with
  | nil => intro ndx count ret; rfl
  | cons a l ih =>
    intro ndx count ret
    simp only [find_unique_axis_loop, ne_eq, not_true_eq_false, if_false]
    exact ih _ _ _

/-- The loop of `find_unique_axis` on vectors that differ at the position
`pre.length` and nowhere else. -/
theorem find_unique_axis_loop_one (post : List Nat) (a b : Nat) (hab : a ≠ b) :
    ∀ (pre : List Nat) (ndx count ret : Int),
      find_unique_axis_loop (pre ++ a :: post) (pre ++ b :: post) ndx count ret
        = (count + 1, ndx + (pre.length : Nat)) := by
  intro pre
  induction pre with
  | nil =>
    intro ndx count ret
    simp only [List.nil_append, find_unique_axis_loop, ne_eq, hab, not_false_eq_true, if_true,
      find_unique_axis_loop_same, List.length_nil]
    simp
  | cons c l ih =>
    intro ndx count ret
    have h := ih (ndx + 1) count ret
    simp only [List.cons_append, find_unique_axis_loop, ne_eq, not_true_eq_false, if_false]
    show find_unique_axis_loop (l ++ a :: post) (l ++ b :: post) (ndx + 1) count ret = _
    rw [h]
    simp only [List.length_cons]
    push_cast
    ring_nf

/-- `find_unique_axis` on shapes of the same rank: the position `i` when the
shapes differ at `i` and nowhere else, `-1` when the number of positions at
which they differ is not one. -/
theorem find_unique_axis_same_rank (st : horizontal_fusion_impl) (ins input : instruction_ref) :
    (∀ (pre post : List Nat) (a b : Nat), a ≠ b →
      (st.p_program.ins ins).get_shape.lens = pre ++ a :: post →
      (st.p_program.ins input).get_shape.lens = pre ++ b :: post →
      st.find_unique_axis ins input = (pre.length : Nat)) ∧
    ((st.p_program.ins ins).get_shape.lens.length
        = (st.p_program.ins input).get_shape.lens.length →
      (((st.p_program.ins ins).get_shape.lens.zip (st.p_program.ins input).get_shape.lens).countP
        (fun a => decide (a.1 ≠ a.2)) ≠ 1) →
      st.find_unique_axis ins input = -1) := by
  constructor
  · intro pre post a b hab h1 h2
    simp only [find_unique_axis, h1, h2, List.length_append, List.length_cons, ne_eq,
      not_true_eq_false, if_false, find_unique_axis_loop_one post a b hab]
    simp
  · intro hlen hcount
    simp only [find_unique_axis, hlen, ne_eq, not_true_eq_false, if_false,
      find_unique_axis_loop_count]
    rw [if_neg]
    intro h
    apply hcount
    have : ((((st.p_program.ins ins).get_shape.lens.zip
        (st.p_program.ins input).get_shape.lens).countP (fun a => decide (a.1 ≠ a.2)) : Nat) : Int)
        = 1 := by
      simp only [zero_add] at h
      exact h
    exact_mod_cast this

end horizontal_fusion_impl

/-- C23 (evaluation at the failing input): for the instruction `3` of
`bias_example`, of dimensions `[1, 4, 8, 8]`, and its bias input `2`, of
dimensions `[4]`, `find_unique_axis` returns `0`, the value of its
`return false`, and not `-1`; for the input `0`, of the same rank, it returns
the only position at which the shapes differ. -/
theorem C23_find_unique_axis_rank_mismatch :
    (horizontal_fusion_impl.create bias_example).find_unique_axis 3 2 = 0 ∧
    ((horizontal_fusion_impl.create bias_example).p_program.ins 3).get_shape.lens.length = 4 ∧
    ((horizontal_fusion_impl.create bias_example).p_program.ins 2).get_shape.lens.length = 1 ∧
    (horizontal_fusion_impl.create bias_example).find_unique_axis 3 0 = 1 := by
  refine ⟨by rfl, by rfl, by rfl, by rfl⟩

/-- C24 (evaluation at the failing input): in `lhs_example` the hashing phase
completes on `x` and the two literals and flags the instruction
`3 = add(l1, x)` for hashing, although its first input, the literal `1`, has
no hash value.  The generic encoder does not return the invalid marker for
it: the `assert` that the first input has a hash value fails, so neither
`hash` nor the hashing phase has a result. -/
theorem C24_unhashed_first_input :
    (horizontal_fusion_impl.create lhs_example).hashing_phase [0, 1, 2] = some lhs_hashed ∧
    lhs_hashed.instr2_hash 3 = some true ∧
    (lhs_hashed.p_program.ins 3).inputs = [1, 0] ∧
    lhs_hashed.instr2_value 1 = none ∧
    EncodeCommon lhs_hashed.p_program 3 lhs_hashed.instr2_value (lhs_hashed.hash_opcode 3).2
      ≠ some { key := 0, valid := false } ∧
    lhs_hashed.hash 3 = none ∧
    (horizontal_fusion_impl.create lhs_example).hashing_phase lhs_example.instructions
      = none := by
  refine ⟨by rfl, by rfl, by rfl, by rfl, by decide, by rfl, by rfl⟩

/-- For an instruction that has no inputs, or whose first input
has no hash value, the generic encoder returns the invalid marker when the
opcode does not fit in 16 bits and has no result otherwise (`front()` of an
empty input list, or the failed assertion on the first input); accordingly
`hash`, for a registered operator, returns no node in the first case and has
no result in the second. -/
theorem hash_unhashed_first_input (st : horizontal_fusion_impl) (ins : instruction_ref)
    (opcode : Nat) (e : Encoder)
    (hst : (st.p_program.ins ins).inputs = [] ∨
      ∃ op1 rest, (st.p_program.ins ins).inputs = op1 :: rest ∧ st.instr2_value op1 = none)
    (hreg : st.op_registry (st.p_program.ins ins).name = some e) :
    (opcode ≥ 2 ^ 16 →
      EncodeCommon st.p_program ins st.instr2_value opcode
        = some { key := 0, valid := false }) ∧
    (opcode < 2 ^ 16 → EncodeCommon st.p_program ins st.instr2_value opcode = none) ∧
    ((st.hash_opcode ins).2 ≥ 2 ^ 16 → st.hash ins = some ((st.hash_opcode ins).1, none)) ∧
    ((st.hash_opcode ins).2 < 2 ^ 16 → st.hash ins = none) := by
  have henc : ∀ (iv : Ins2Val) (oc : Nat),
      ((st.p_program.ins ins).inputs = [] ∨
        ∃ op1 rest, (st.p_program.ins ins).inputs = op1 :: rest ∧ iv op1 = none) →
      (oc ≥ 2 ^ 16 →
        EncodeCommon st.p_program ins iv oc = some { key := 0, valid := false }) ∧
      (oc < 2 ^ 16 → EncodeCommon st.p_program ins iv oc = none) := by
    intro iv oc h
    constructor
    · intro hoc
      have : oc ≥ 1 <<< opcode_bits := by
        simp only [opcode_bits, Nat.shiftLeft_eq, one_mul]; exact hoc
      simp only [EncodeCommon, if_pos this]
    · intro hoc
      have : ¬ oc ≥ 1 <<< opcode_bits := by
        simp only [opcode_bits, Nat.shiftLeft_eq, one_mul]; omega
      rcases h with h | ⟨op1, rest, h, hv⟩
      · simp only [EncodeCommon, if_neg this, h]
      · simp only [EncodeCommon, if_neg this, h, hv]
  refine ⟨(henc st.instr2_value opcode hst).1, (henc st.instr2_value opcode hst).2, ?_, ?_⟩
  · intro hoc
    have hp : (st.hash_opcode ins).1.p_program = st.p_program := by
      simp only [horizontal_fusion_impl.hash_opcode]
      cases st.opcode_table (st.p_program.ins ins).op.text <;> rfl
    have hv : (st.hash_opcode ins).1.instr2_value = st.instr2_value := by
      simp only [horizontal_fusion_impl.hash_opcode]
      cases st.opcode_table (st.p_program.ins ins).op.text <;> rfl
    have h1 := (henc st.instr2_value (st.hash_opcode ins).2 hst).1 hoc
    have hcall : e.call (st.hash_opcode ins).1.p_program ins (st.hash_opcode ins).1.instr2_value
        (st.hash_opcode ins).2 = some { key := 0, valid := false } := by
      rw [hp, hv]
      cases e with
      | Common => exact h1
      | ConvCommon =>
        simp only [Encoder.call, EncodeConvCommon, h1]
        rfl
    simp only [horizontal_fusion_impl.hash, hreg, hcall]
    rfl
  · intro hoc
    have hp : (st.hash_opcode ins).1.p_program = st.p_program := by
      simp only [horizontal_fusion_impl.hash_opcode]
      cases st.opcode_table (st.p_program.ins ins).op.text <;> rfl
    have hv : (st.hash_opcode ins).1.instr2_value = st.instr2_value := by
      simp only [horizontal_fusion_impl.hash_opcode]
      cases st.opcode_table (st.p_program.ins ins).op.text <;> rfl
    have h1 := (henc st.instr2_value (st.hash_opcode ins).2 hst).2 hoc
    have hcall : e.call (st.hash_opcode ins).1.p_program ins (st.hash_opcode ins).1.instr2_value
        (st.hash_opcode ins).2 = none := by
      rw [hp, hv]
      cases e with
      | Common => exact h1
      | ConvCommon =>
        simp only [Encoder.call, EncodeConvCommon, h1]
    simp only [horizontal_fusion_impl.hash, hreg, hcall]

/-- C25 (counterexample): on the diamond `A → {B, C} → D` with the weights
`A = 1`, `B = 4`, `C = 2`, `D = 1`, `compute_weights` leaves
`weight_sum(D) = 9`, not `8`: `A` is counted in `weight_sum(B)` and in
`weight_sum(C)`. -/
theorem C25_diamond_sum_counterexample :
    ((pre_scheduling_impl.create diamond_example diamond_weights 2 by_weight_sum 2
        stable_sort).compute_weights).map
      (fun st => ((st.nodes 0).weight_sum, (st.nodes 1).weight_sum, (st.nodes 2).weight_sum,
        (st.nodes 3).weight_sum, (st.nodes 3).weight + (st.nodes 1).weight + (st.nodes 2).weight
          + (st.nodes 0).weight))
      = some (1, 5, 3, 9, 8) := by
  rfl

/-- C25 (as amended): in a diamond `A → {B, C} → D` of a program without
repeated references, listed def-before-use, where `A` has no inputs,
`compute_weights` leaves in `weight_sum(D)` the `int` in which
`weight(D) + weight_sum(B) + weight_sum(C)` is stored, which is the `int` in
which `weight(D) + weight(B) + weight(C) + 2 * weight(A)` is stored: the shared
ancestor `A` is counted once by each of `B` and `C`, hence twice by `D`.  The
weight sum equals that number whenever the number lies in the range of
`int`. -/
theorem C25_diamond_sum (p : program) (weight_func : String → Int × Bool)
    (num_of_streams : Nat) (wto : dag_node → dag_node → Bool) (thr : Int)
    (srt : std_sort_fn) (hsrt : std_sort_contract srt)
    (hnd : p.instructions.Nodup)
    (hdbu : ∀ v ∈ p.instructions, ∀ u ∈ (p.ins v).inputs, p.pos u < p.pos v)
    (A B C D : instruction_ref)
    (hA : A ∈ p.instructions) (hB : B ∈ p.instructions) (hC : C ∈ p.instructions)
    (hD : D ∈ p.instructions) (hBC : B ≠ C)
    (hAin : (p.ins A).inputs = []) (hBin : (p.ins B).inputs = [A])
    (hCin : (p.ins C).inputs = [A]) (hDin : (p.ins D).inputs = [B, C]) :
    ∃ st,
      (pre_scheduling_impl.create p weight_func num_of_streams wto thr srt).compute_weights
        = some st ∧
      (st.nodes D).weight_sum
        = to_int ((st.nodes D).weight + (st.nodes B).weight_sum + (st.nodes C).weight_sum) ∧
      (st.nodes D).weight_sum
        = to_int ((weight_func (p.ins D).name).1 + (weight_func (p.ins B).name).1
          + (weight_func (p.ins C).name).1 + 2 * (weight_func (p.ins A).name).1) ∧
      (-2 ^ 31 ≤ (weight_func (p.ins D).name).1 + (weight_func (p.ins B).name).1
          + (weight_func (p.ins C).name).1 + 2 * (weight_func (p.ins A).name).1 →
        (weight_func (p.ins D).name).1 + (weight_func (p.ins B).name).1
          + (weight_func (p.ins C).name).1 + 2 * (weight_func (p.ins A).name).1 < 2 ^ 31 →
        (st.nodes D).weight_sum
          = (weight_func (p.ins D).name).1 + (weight_func (p.ins B).name).1
            + (weight_func (p.ins C).name).1 + 2 * (weight_func (p.ins A).name).1) := by
  obtain ⟨st, h1, h2, _, _⟩ :=
    pre_scheduling_impl.compute_weights_spec p weight_func num_of_streams wto thr srt hsrt hnd hdbu
  refine ⟨st, h1, ?_⟩
  have nA := h2.node A hA
  have nB := h2.node B hB
  have nC := h2.node C hC
  have nD := h2.node D hD
  have sA : (st.nodes A).weight_sum = to_int (weight_func (p.ins A).name).1 := by
    rw [nA]
    simp [hAin]
  have sB : (st.nodes B).weight_sum
      = to_int ((weight_func (p.ins B).name).1 + (weight_func (p.ins A).name).1) := by
    conv_lhs => rw [nB]
    simp [hBin, sA, to_int_add_right]
  have sC : (st.nodes C).weight_sum
      = to_int ((weight_func (p.ins C).name).1 + (weight_func (p.ins A).name).1) := by
    conv_lhs => rw [nC]
    simp [hCin, sA, to_int_add_right]
  have wD : (st.nodes D).weight = (weight_func (p.ins D).name).1 := by rw [nD]
  have sD : (st.nodes D).weight_sum
      = to_int ((weight_func (p.ins D).name).1
          + ((st.nodes B).weight_sum + (st.nodes C).weight_sum)) := by
    conv_lhs => rw [nD]
    simp only [hDin, List.toFinset_cons, List.toFinset_nil, insert_emptyc_eq]
    rw [Finset.sum_insert (by simp [hBC]), Finset.sum_singleton]
  have sD2 : (st.nodes D).weight_sum
      = to_int ((weight_func (p.ins D).name).1 + (weight_func (p.ins B).name).1
          + (weight_func (p.ins C).name).1 + 2 * (weight_func (p.ins A).name).1) := by
    rw [sD, sB, sC]
    unfold to_int
    omega
  refine ⟨?_, sD2, ?_⟩
  · rw [sD, wD]
    congr 1
    ring
  · intro l1 l2
    rw [sD2]
    exact to_int_of_range _ l1 l2

theorem C25_diamond_sum_witness :
    ∃ st,
      (pre_scheduling_impl.create diamond_example diamond_weights 2 by_weight_sum 2
        stable_sort).compute_weights = some st ∧
      (st.nodes 3).weight_sum
        = to_int ((st.nodes 3).weight + (st.nodes 1).weight_sum + (st.nodes 2).weight_sum) ∧
      (st.nodes 3).weight_sum
        = to_int ((diamond_weights (diamond_example.ins 3).name).1
          + (diamond_weights (diamond_example.ins 1).name).1
          + (diamond_weights (diamond_example.ins 2).name).1
          + 2 * (diamond_weights (diamond_example.ins 0).name).1) ∧
      (-2 ^ 31 ≤ (diamond_weights (diamond_example.ins 3).name).1
          + (diamond_weights (diamond_example.ins 1).name).1
          + (diamond_weights (diamond_example.ins 2).name).1
          + 2 * (diamond_weights (diamond_example.ins 0).name).1 →
        (diamond_weights (diamond_example.ins 3).name).1
          + (diamond_weights (diamond_example.ins 1).name).1
          + (diamond_weights (diamond_example.ins 2).name).1
          + 2 * (diamond_weights (diamond_example.ins 0).name).1 < 2 ^ 31 →
        (st.nodes 3).weight_sum
          = (diamond_weights (diamond_example.ins 3).name).1
            + (diamond_weights (diamond_example.ins 1).name).1
            + (diamond_weights (diamond_example.ins 2).name).1
            + 2 * (diamond_weights (diamond_example.ins 0).name).1) :=
  C25_diamond_sum diamond_example diamond_weights 2 by_weight_sum 2 stable_sort
    stable_sort_contract (by decide) (by decide) 0 1 2 3 (by decide) (by decide) (by decide)
    (by decide) (by decide) (by rfl) (by rfl) (by rfl) (by rfl)

/-- C28: on a well-formed program (no repeated reference, listed
def-before-use and so acyclic, def/use edges bidirectional), for any weights,
comparator of the child queue, threshold and `std::sort`, `compute_weights`
and the weighted topological sort of `reorder` complete, and the list
`sorted_nodes` they hand to `schedule` holds every instruction of the program
exactly once, each after all of its inputs. -/
theorem C28_topological_order (p : program) (hwf : p.well_formed)
    (weight_func : String → Int × Bool) (num_of_streams : Nat)
    (wto : dag_node → dag_node → Bool) (thr : Int)
    (srt : std_sort_fn) (hsrt : std_sort_contract srt) :
    ∃ (st1 st2 : pre_scheduling_impl) (loc : pre_scheduling_impl.reorder_locals),
      (pre_scheduling_impl.create p weight_func num_of_streams wto thr srt).compute_weights
        = some st1 ∧
      pre_scheduling_impl.reorder_exits st1.exit_nodes st1 {} = some (st2, loc) ∧
      loc.sorted_nodes.Nodup ∧
      (∀ x, x ∈ loc.sorted_nodes ↔ x ∈ p.instructions) ∧
      (∀ x ∈ p.instructions, loc.sorted_nodes.count x = 1) ∧
      (∀ x ∈ loc.sorted_nodes, ∀ u ∈ (p.ins x).inputs,
        loc.sorted_nodes.indexOf u < loc.sorted_nodes.indexOf x) := by
  obtain ⟨st1, h1, h2, _, h4⟩ :=
    pre_scheduling_impl.compute_weights_spec p weight_func num_of_streams wto thr srt hsrt
      hwf.1 hwf.2.1
  obtain ⟨st2, loc, e, _, perm, nd, topo, _⟩ :=
    pre_scheduling_impl.weighted_topological_sort_spec p hwf st1 h2.program
      (by rw [h2.partition_info_num]) h4
  refine ⟨st1, st2, loc, h1, e, nd, fun x => perm.mem_iff, ?_, topo⟩
  intro x hx
  exact List.count_eq_one_of_mem nd (perm.mem_iff.mpr hx)

theorem C28_topological_order_witness :
    ∃ (st1 st2 : pre_scheduling_impl) (loc : pre_scheduling_impl.reorder_locals),
      (pre_scheduling_impl.create diamond_example diamond_weights 2 by_weight_sum 2
        stable_sort).compute_weights = some st1 ∧
      pre_scheduling_impl.reorder_exits st1.exit_nodes st1 {} = some (st2, loc) ∧
      loc.sorted_nodes.Nodup ∧
      (∀ x, x ∈ loc.sorted_nodes ↔ x ∈ diamond_example.instructions) ∧
      (∀ x ∈ diamond_example.instructions, loc.sorted_nodes.count x = 1) ∧
      (∀ x ∈ loc.sorted_nodes, ∀ u ∈ (diamond_example.ins x).inputs,
        loc.sorted_nodes.indexOf u < loc.sorted_nodes.indexOf x) :=
  C28_topological_order diamond_example (by decide) diamond_weights 2 by_weight_sum 2
    stable_sort stable_sort_contract

namespace pre_scheduling_impl

/-- The stages of `run` on a well-formed, non-empty program, for any weights
and any number of streams: `compute_weights`, the weighted topological sort and
`schedule` complete, `run` is the call of `splice` on what `schedule` returns,
and `schedule` returns an enumeration of the program and has changed nothing
but stream annotations and event masks.  Without streams `schedule` returns
what it was given. -/
theorem run_stages (p : program) (hwf : p.well_formed)
    (weight_func : String → Int × Bool)
    (num_of_streams : Nat) (wto : dag_node → dag_node → Bool) (thr : Int)
    (srt : std_sort_fn) (hsrt : std_sort_contract srt) (hn : p.instructions.length ≠ 0) :
    ∃ (st1 st2 : pre_scheduling_impl) (loc : reorder_locals) (st3 : pre_scheduling_impl)
      (L3 : List instruction_ref),
      (create p weight_func num_of_streams wto thr srt).compute_weights = some st1 ∧
      reorder_exits st1.exit_nodes st1 {} = some (st2, loc) ∧
      st2.schedule loc.sorted_nodes = some (st3, L3) ∧
      (create p weight_func num_of_streams wto thr srt).run = st3.splice L3 ∧
      loc.sorted_nodes.Nodup ∧ loc.sorted_nodes.Perm p.instructions ∧
      (∀ x ∈ loc.sorted_nodes, ∀ u ∈ (p.ins x).inputs,
        loc.sorted_nodes.indexOf u < loc.sorted_nodes.indexOf x) ∧
      L3.Nodup ∧ L3.Perm p.instructions ∧ same_graph p st3.p_program ∧
      (num_of_streams = 0 → st3 = st2 ∧ L3 = loc.sorted_nodes) := by
  obtain ⟨st1, e1, wc, par1, hexits⟩ :=
    compute_weights_spec p weight_func num_of_streams wto thr srt hsrt hwf.1 hwf.2.1
  obtain ⟨st2, loc2, e2, rel2, perm2, nd2, topo2, part2⟩ :=
    weighted_topological_sort_spec p hwf st1 wc.program
      (by rw [wc.partition_info_num]) hexits
  have hp2 : st2.p_program = p := rel2.program.trans wc.program
  have hS2 : st2.num_of_streams = num_of_streams := by
    rw [rel2.params.num_of_streams, par1.num_of_streams]; rfl
  have hlen : ¬ (create p weight_func num_of_streams wto thr srt).p_program.instructions.length
      = 0 := hn
  by_cases hS : num_of_streams = 0
  · have e3 : st2.schedule loc2.sorted_nodes = some (st2, loc2.sorted_nodes) := by
      simp only [schedule, hS2, hS, if_true]
    refine ⟨st1, st2, loc2, st2, loc2.sorted_nodes, e1, e2, e3, ?_, nd2, perm2, topo2, nd2,
      perm2, ?_, fun _ => ⟨rfl, rfl⟩⟩
    · simp only [run, if_neg hlen, e1, reorder, e2, e3]
    · rw [hp2]; exact same_graph_refl p
  · obtain ⟨st3, p2s, e3, inv⟩ :=
      schedule_nodes_spec p hwf st2 loc2.sorted_nodes nd2 perm2 topo2 hp2
        (by
          intro x hx
          rw [rel2.instr2_node, wc.paired x]
          exact decide_eq_true hx)
        part2 (by rw [hS2]; exact hS)
    have hperm3 : (pq_pop_all (fun a b => post_schedule_ordering (st3.nodes a) (st3.nodes b))
        loc2.sorted_nodes).Perm loc2.sorted_nodes := pq_pop_all_perm _ _
    refine ⟨st1, st2, loc2, st3, _, e1, e2, e3, ?_, nd2, perm2, topo2,
      hperm3.nodup_iff.mpr nd2, hperm3.trans perm2, inv.graph, fun h => absurd h hS⟩
    simp only [run, if_neg hlen, e1, reorder, e2, e3]

end pre_scheduling_impl

/-- C22: `run` on a well-formed program completes unless the program consists
of exactly one instruction, and a completed run has changed nothing but the
program order, the stream annotations and the event masks: the instructions
are the same, every instruction has the operator, shape, literal, inputs and
outputs it had, and so every instruction is still in the output list of each
of its inputs and in the input list of each of its outputs. -/
theorem C22_frame (p : program) (hwf : p.well_formed)
    (weight_func : String → Int × Bool)
    (num_of_streams : Nat) (wto : dag_node → dag_node → Bool) (thr : Int)
    (srt : std_sort_fn) (hsrt : std_sort_contract srt) :
    (p.instructions.length ≠ 1 →
      ∃ st', (pre_scheduling_impl.create p weight_func num_of_streams wto thr srt).run
        = some st') ∧
    ∀ st', (pre_scheduling_impl.create p weight_func num_of_streams wto thr srt).run = some st' →
      st'.p_program.instructions.Perm p.instructions ∧
      st'.p_program.instructions.Nodup ∧
      (∀ r, (st'.p_program.ins r).op = (p.ins r).op ∧
        (st'.p_program.ins r).get_shape = (p.ins r).get_shape ∧
        (st'.p_program.ins r).lit = (p.ins r).lit ∧
        (st'.p_program.ins r).inputs = (p.ins r).inputs ∧
        (st'.p_program.ins r).outputs = (p.ins r).outputs) ∧
      (∀ v ∈ st'.p_program.instructions, ∀ u ∈ (st'.p_program.ins v).inputs,
        v ∈ (st'.p_program.ins u).outputs) ∧
      (∀ u ∈ st'.p_program.instructions, ∀ v ∈ (st'.p_program.ins u).outputs,
        v ∈ st'.p_program.instructions ∧ u ∈ (st'.p_program.ins v).inputs) := by
  have hfields : ∀ (P : program), (∀ r, (P.ins r).op = (p.ins r).op ∧
        (P.ins r).get_shape = (p.ins r).get_shape ∧
        (P.ins r).lit = (p.ins r).lit ∧
        (P.ins r).inputs = (p.ins r).inputs ∧
        (P.ins r).outputs = (p.ins r).outputs) →
      P.instructions.Perm p.instructions →
      (∀ v ∈ P.instructions, ∀ u ∈ (P.ins v).inputs, v ∈ (P.ins u).outputs) ∧
      (∀ u ∈ P.instructions, ∀ v ∈ (P.ins u).outputs,
        v ∈ P.instructions ∧ u ∈ (P.ins v).inputs) := by
    intro P hf hperm
    constructor
    · intro v hv u hu
      rw [(hf u).2.2.2.2]
      rw [(hf v).2.2.2.1] at hu
      exact hwf.2.2.1 v (hperm.mem_iff.mp hv) u hu
    · intro u hu v hv
      rw [(hf u).2.2.2.2] at hv
      rw [(hf v).2.2.2.1]
      have := hwf.2.2.2 u (hperm.mem_iff.mp hu) v hv
      exact ⟨hperm.mem_iff.mpr this.1, this.2⟩
  by_cases hn : p.instructions.length = 0
  · have hrun : (pre_scheduling_impl.create p weight_func num_of_streams wto thr srt).run
        = some (pre_scheduling_impl.create p weight_func num_of_streams wto thr srt) := by
      have : (pre_scheduling_impl.create p weight_func num_of_streams wto
          thr srt).p_program.instructions.length = 0 := hn
      simp only [pre_scheduling_impl.run, this, if_true]
    refine ⟨fun _ => ⟨_, hrun⟩, ?_⟩
    intro st' h
    rw [hrun] at h
    cases h
    have hf : ∀ r, ((pre_scheduling_impl.create p weight_func num_of_streams wto thr
        srt).p_program.ins r).op = (p.ins r).op ∧
        ((pre_scheduling_impl.create p weight_func num_of_streams wto thr
          srt).p_program.ins r).get_shape = (p.ins r).get_shape ∧
        ((pre_scheduling_impl.create p weight_func num_of_streams wto thr
          srt).p_program.ins r).lit = (p.ins r).lit ∧
        ((pre_scheduling_impl.create p weight_func num_of_streams wto thr
          srt).p_program.ins r).inputs = (p.ins r).inputs ∧
        ((pre_scheduling_impl.create p weight_func num_of_streams wto thr
          srt).p_program.ins r).outputs = (p.ins r).outputs :=
      fun r => ⟨rfl, rfl, rfl, rfl, rfl⟩
    exact ⟨List.Perm.refl _, hwf.1, hf, hfields _ hf (List.Perm.refl _)⟩
  · obtain ⟨st1, st2, loc, st3, L3, _, _, _, erun, _, _, _, nd3, perm3, gr3, _⟩ :=
      pre_scheduling_impl.run_stages p hwf weight_func num_of_streams wto thr srt hsrt hn
    have hperm3 : L3.Perm st3.p_program.instructions := by rw [gr3.1]; exact perm3
    have hres : ∀ st', (pre_scheduling_impl.create p weight_func num_of_streams wto thr srt).run
        = some st' → st'.p_program.instructions = L3 ∧ st'.p_program.ins = st3.p_program.ins := by
      intro st' h
      rw [erun] at h
      have hlen : 2 ≤ L3.length := by
        rcases hL : L3.reverse with _ | ⟨a, _ | ⟨b, l⟩⟩
        · simp only [pre_scheduling_impl.splice, hL] at h; cases h
        · simp only [pre_scheduling_impl.splice, hL] at h; cases h
        · have := congrArg List.length hL
          simp only [List.length_reverse, List.length_cons] at this
          omega
      obtain ⟨stb, e, i1, i2, _, _⟩ := pre_scheduling_impl.splice_spec st3 L3 nd3 hperm3 hlen
      rw [e] at h
      cases h
      exact ⟨i1, i2⟩
    constructor
    · intro h1
      have hlen : 2 ≤ L3.length := by
        rw [perm3.length_eq]
        omega
      obtain ⟨st', e, _⟩ := pre_scheduling_impl.splice_spec st3 L3 nd3 hperm3 hlen
      exact ⟨st', by rw [erun, e]⟩
    · intro st' h
      obtain ⟨i1, i2⟩ := hres st' h
      have hf : ∀ r, (st'.p_program.ins r).op = (p.ins r).op ∧
          (st'.p_program.ins r).get_shape = (p.ins r).get_shape ∧
          (st'.p_program.ins r).lit = (p.ins r).lit ∧
          (st'.p_program.ins r).inputs = (p.ins r).inputs ∧
          (st'.p_program.ins r).outputs = (p.ins r).outputs := by
        intro r
        rw [i2]
        obtain ⟨a, b, c, d, e⟩ := gr3.2.2 r
        exact ⟨a, b, e, d, c⟩
      have hp : st'.p_program.instructions.Perm p.instructions := by rw [i1]; exact perm3
      exact ⟨hp, by rw [i1]; exact nd3, hf, hfields _ hf hp⟩

theorem C22_frame_witness :
    (diamond_example.instructions.length ≠ 1 →
      ∃ st', (pre_scheduling_impl.create diamond_example diamond_weights 2 by_weight_sum 2
        stable_sort).run = some st') ∧
    ∀ st', (pre_scheduling_impl.create diamond_example diamond_weights 2 by_weight_sum 2
        stable_sort).run = some st' →
      st'.p_program.instructions.Perm diamond_example.instructions ∧
      st'.p_program.instructions.Nodup ∧
      (∀ r, (st'.p_program.ins r).op = (diamond_example.ins r).op ∧
        (st'.p_program.ins r).get_shape = (diamond_example.ins r).get_shape ∧
        (st'.p_program.ins r).lit = (diamond_example.ins r).lit ∧
        (st'.p_program.ins r).inputs = (diamond_example.ins r).inputs ∧
        (st'.p_program.ins r).outputs = (diamond_example.ins r).outputs) ∧
      (∀ v ∈ st'.p_program.instructions, ∀ u ∈ (st'.p_program.ins v).inputs,
        v ∈ (st'.p_program.ins u).outputs) ∧
      (∀ u ∈ st'.p_program.instructions, ∀ v ∈ (st'.p_program.ins u).outputs,
        v ∈ st'.p_program.instructions ∧ u ∈ (st'.p_program.ins v).inputs) :=
  C22_frame diamond_example (by decide) diamond_weights 2 by_weight_sum 2
    stable_sort stable_sort_contract

namespace horizontal_fusion_impl

/-- An iteration of the loop of `walk` whose top has more than one input, more
than one output, or no input and an operator other than `@literal`, returns
the empty vector. -/
theorem walk_loop_branch (p : program) (fuel : Nat) (top : instruction_ref)
    (stk : List instruction_ref) (visited : instruction_ref → Bool)
    (ret : List instruction_ref)
    (hbad : (p.ins top).inputs.length > 1 ∨ (p.ins top).outputs.length > 1
      ∨ ((p.ins top).inputs.isEmpty ∧ (p.ins top).name ≠ "@literal")) :
    walk_loop p (fuel + 1) (top :: stk) visited ret = some ([], visited) := by
  rw [walk_loop, if_pos hbad]

/-- Every element that the loop of `walk` adds to its result has at most one
input and at most one output. -/
theorem walk_loop_members (p : program) :
    ∀ (fuel : Nat) (stk : List instruction_ref) (visited : instruction_ref → Bool)
      (ret r : List instruction_ref) (v : instruction_ref → Bool),
      (∀ x ∈ ret, (p.ins x).inputs.length ≤ 1 ∧ (p.ins x).outputs.length ≤ 1) →
      walk_loop p fuel stk visited ret = some (r, v) →
      ∀ x ∈ r, (p.ins x).inputs.length ≤ 1 ∧ (p.ins x).outputs.length ≤ 1 := by
  intro fuel
  induction fuel with
  | zero =>
    intro stk visited ret r v hret h
    cases stk with
    | nil =>
      rw [walk_loop] at h
      cases h
      exact hret
    | cons top stk =>
      rw [walk_loop] at h
      cases h
  | succ f ih =>
    intro stk visited ret r v hret h
    cases stk with
    | nil =>
      rw [walk_loop] at h
      cases h
      exact hret
    | cons top stk =>
      rw [walk_loop] at h
      by_cases hbad : (p.ins top).inputs.length > 1 ∨ (p.ins top).outputs.length > 1
          ∨ ((p.ins top).inputs.isEmpty ∧ (p.ins top).name ≠ "@literal")
      · rw [if_pos hbad] at h
        cases h
        intro x hx
        cases hx
      · rw [if_neg hbad] at h
        by_cases hpop : (p.ins top).inputs.isEmpty ∨ visited top
        · rw [if_pos hpop] at h
          refine ih stk visited (ret ++ [top]) r v ?_ h
          intro x hx
          rcases List.mem_append.mp hx with hx | hx
          · exact hret x hx
          · rw [List.mem_singleton] at hx
            subst hx
            constructor
            · by_contra hc
              exact hbad (Or.inl (by omega))
            · by_contra hc
              exact hbad (Or.inr (Or.inl (by omega)))
        · rw [if_neg hpop] at h
          cases hin : (p.ins top).inputs with
          | nil => rw [hin] at h; cases h
          | cons input rest =>
            rw [hin] at h
            exact ih _ _ ret r v hret h

/-- The loop of `walk` on a chain: `r` lists the chain from its last node down
to the literal leaf.  With the head of `r` on top of the stack, `2 * |r| - 1`
iterations later the stack is what was below it and the chain has been added
to the result, leaf first. -/
theorem walk_loop_chain (p : program) :
    ∀ (r : List instruction_ref) (hr : r ≠ []) (stk : List instruction_ref)
      (visited : instruction_ref → Bool) (ret : List instruction_ref),
      List.Chain' (fun a b => (p.ins a).inputs = [b]) r →
      (∀ x ∈ r.dropLast, (p.ins x).outputs.length ≤ 1 ∧ visited x = false) →
      (p.ins (r.getLast hr)).inputs = [] → (p.ins (r.getLast hr)).name = "@literal" →
      (p.ins (r.getLast hr)).outputs.length ≤ 1 →
      r.Nodup →
      ∃ v', (∀ y, visited y = true → v' y = true) ∧
        ∀ fuel, walk_loop p (fuel + (2 * r.length - 1)) (r.head hr :: stk) visited ret
          = walk_loop p fuel stk v' (ret ++ r.reverse) := by
  intro r
  induction r with
  | nil => intro hr; exact absurd rfl hr
  | cons x r ih =>
    intro hr stk visited ret hchain hmid hin hname hout hnd
    cases r with
    | nil =>
      refine ⟨visited, fun _ h => h, ?_⟩
      intro fuel
      simp only [List.getLast_singleton] at hin hname hout
      have hnb : ¬ ((p.ins x).inputs.length > 1 ∨ (p.ins x).outputs.length > 1
          ∨ ((p.ins x).inputs.isEmpty ∧ (p.ins x).name ≠ "@literal")) := by
        rw [hin, hname]
        simp only [List.length_nil, gt_iff_lt, not_lt_zero', List.isEmpty_nil, ne_eq,
          not_true_eq_false, and_false, or_false, false_or, not_lt]
        exact hout
      show walk_loop p (fuel + 1) (x :: stk) visited ret = _
      rw [walk_loop, if_neg hnb, if_pos (Or.inl (by rw [hin]; rfl))]
      rfl
    | cons y r' =>
      have hxin : (p.ins x).inputs = [y] := by
        have := List.chain'_cons.mp hchain
        exact this.1
      have hchain' : List.Chain' (fun a b => (p.ins a).inputs = [b]) (y :: r') :=
        (List.chain'_cons.mp hchain).2
      have hxmid := hmid x (by simp [List.dropLast])
      have hx_notin : x ∉ y :: r' := (List.nodup_cons.mp hnd).1
      have hnd' : (y :: r').Nodup := (List.nodup_cons.mp hnd).2
      have hlast : (x :: y :: r').getLast hr = (y :: r').getLast (List.cons_ne_nil _ _) :=
        List.getLast_cons (List.cons_ne_nil _ _)
      rw [hlast] at hin hname hout
      obtain ⟨v', hv1, hv2⟩ := ih (List.cons_ne_nil _ _) (x :: stk)
        (Function.update visited x true) ret hchain'
        (by
          intro z hz
          have hz' : z ∈ (x :: y :: r').dropLast := by
            rw [List.dropLast_cons_of_ne_nil (List.cons_ne_nil _ _)]
            exact List.mem_cons_of_mem _ hz
          have hzx : z ≠ x := by
            intro h
            apply hx_notin
            rw [← h]
            exact List.dropLast_subset _ hz
          refine ⟨(hmid z hz').1, ?_⟩
          rw [Function.update_noteq hzx]
          exact (hmid z hz').2)
        hin hname hout hnd'
      refine ⟨v', ?_, ?_⟩
      · intro z hz
        apply hv1
        by_cases hzx : z = x
        · rw [hzx, Function.update_same]
        · rw [Function.update_noteq hzx]; exact hz
      · intro fuel
        have hnb : ¬ ((p.ins x).inputs.length > 1 ∨ (p.ins x).outputs.length > 1
            ∨ ((p.ins x).inputs.isEmpty ∧ (p.ins x).name ≠ "@literal")) := by
          rw [hxin]
          simp only [List.length_singleton, gt_iff_lt, lt_self_iff_false, List.isEmpty_cons,
            Bool.false_eq_true, false_and, or_false, false_or, not_lt]
          exact hxmid.1
        have hnp : ¬ ((p.ins x).inputs.isEmpty ∨ visited x) := by
          rw [hxin, hxmid.2]
          simp
        have hfuel : fuel + (2 * (x :: y :: r').length - 1)
            = (fuel + 1 + (2 * (y :: r').length - 1)) + 1 := by
          simp only [List.length_cons]
          omega
        rw [hfuel]
        show walk_loop p (fuel + 1 + (2 * (y :: r').length - 1) + 1) (x :: stk) visited ret = _
        rw [walk_loop, if_neg hnb, if_neg hnp, hxin]
        simp only
        have h2 := hv2 (fuel + 1)
        simp only [List.head_cons] at h2
        rw [h2]
        have hvx : v' x = true := hv1 x (by rw [Function.update_same])
        rw [walk_loop, if_neg hnb, if_pos (Or.inr hvx)]
        simp only [List.reverse_cons, List.append_assoc]

end horizontal_fusion_impl

/-- C30: (1) an iteration of the loop of `walk` that examines an instruction
with more than one input, more than one output, or no input and an operator
other than `@literal` returns the empty vector, and so does `walk` when the
last unvisited input of `ins` is such an instruction; (2) when the only
unvisited input of `ins` heads a chain `L -> n1 -> ... -> nm -> ins` of
unvisited instructions of the program with one input and at most one output
each, ending in a literal `L` without inputs, `walk` returns
`[L, n1, ..., nm]`; (3) every element of a vector that `walk` returns has at
most one input and at most one output. -/
theorem C30_walk (st : horizontal_fusion_impl) :
    (∀ (fuel : Nat) (top : instruction_ref) (stk : List instruction_ref)
        (visited : instruction_ref → Bool) (ret : List instruction_ref),
      ((st.p_program.ins top).inputs.length > 1 ∨ (st.p_program.ins top).outputs.length > 1
        ∨ ((st.p_program.ins top).inputs.isEmpty ∧ (st.p_program.ins top).name ≠ "@literal")) →
      horizontal_fusion_impl.walk_loop st.p_program (fuel + 1) (top :: stk) visited ret
        = some ([], visited)) ∧
    (∀ (ins : instruction_ref) (visited : instruction_ref → Bool)
        (pre : List instruction_ref) (last : instruction_ref),
      (st.p_program.ins ins).inputs.filter (fun input => !visited input) = pre ++ [last] →
      ((st.p_program.ins last).inputs.length > 1 ∨ (st.p_program.ins last).outputs.length > 1
        ∨ ((st.p_program.ins last).inputs.isEmpty
            ∧ (st.p_program.ins last).name ≠ "@literal")) →
      st.walk ins visited = some ([], visited)) ∧
    (∀ (ins : instruction_ref) (visited : instruction_ref → Bool) (L : instruction_ref)
        (ns : List instruction_ref),
      List.Chain' (fun a b => (st.p_program.ins b).inputs = [a]) (L :: ns) →
      (st.p_program.ins ins).inputs.filter (fun input => !visited input)
        = [(L :: ns).getLast (List.cons_ne_nil L ns)] →
      (st.p_program.ins L).inputs = [] → (st.p_program.ins L).name = "@literal" →
      (st.p_program.ins L).outputs.length ≤ 1 →
      (∀ n ∈ ns, (st.p_program.ins n).outputs.length ≤ 1 ∧ visited n = false) →
      (L :: ns).Nodup → (∀ x ∈ L :: ns, x ∈ st.p_program.instructions) →
      ∃ v, st.walk ins visited = some (L :: ns, v)) ∧
    (∀ (ins : instruction_ref) (visited : instruction_ref → Bool)
        (ret : List instruction_ref) (v : instruction_ref → Bool),
      st.walk ins visited = some (ret, v) →
      ∀ x ∈ ret, (st.p_program.ins x).inputs.length ≤ 1
        ∧ (st.p_program.ins x).outputs.length ≤ 1) := by
  refine ⟨?_, ?_, ?_, ?_⟩
  · intro fuel top stk visited ret hbad
    exact horizontal_fusion_impl.walk_loop_branch st.p_program fuel top stk visited ret hbad
  · intro ins visited pre last hun hbad
    simp only [horizontal_fusion_impl.walk, hun, List.reverse_append, List.reverse_singleton,
      List.singleton_append]
    exact horizontal_fusion_impl.walk_loop_branch st.p_program _ last _ visited [] hbad
  · intro ins visited L ns hchain hun hin hname hout hns hnd hmem
    have hr : (L :: ns).reverse ≠ [] := by simp
    have hlastr : ((L :: ns).reverse).getLast hr = L := by
      simp [List.getLast_reverse]
    have hdrop : ((L :: ns).reverse).dropLast = ns.reverse := by
      simp [List.reverse_cons]
    have hheadr : ((L :: ns).reverse).head hr = (L :: ns).getLast (List.cons_ne_nil L ns) := by
      rw [List.head_reverse]
    obtain ⟨v', _, hrun⟩ := horizontal_fusion_impl.walk_loop_chain st.p_program
      (L :: ns).reverse hr [] visited []
      (by
        rw [List.chain'_reverse]
        exact hchain)
      (by
        intro x hx
        rw [hdrop] at hx
        exact hns x (List.mem_reverse.mp hx))
      (by rw [hlastr]; exact hin) (by rw [hlastr]; exact hname) (by rw [hlastr]; exact hout)
      (List.nodup_reverse.mpr hnd)
    have hlen : (L :: ns).length ≤ st.p_program.instructions.length :=
      (List.subperm_of_subset hnd hmem).length_le
    have hfuel : (st.p_program.ins ins).inputs.length + 2 * st.p_program.instructions.length + 1
        = ((st.p_program.ins ins).inputs.length + 2 * st.p_program.instructions.length + 1
            - (2 * (L :: ns).reverse.length - 1)) + (2 * (L :: ns).reverse.length - 1) := by
      rw [List.length_reverse]
      omega
    refine ⟨v', ?_⟩
    simp only [horizontal_fusion_impl.walk, hun, List.reverse_singleton]
    rw [hfuel, ← hheadr, hrun]
    simp only [List.nil_append, List.reverse_reverse]
    cases (st.p_program.ins ins).inputs.length + 2 * st.p_program.instructions.length + 1
            - (2 * (L :: ns).reverse.length - 1) <;> rfl
  · intro ins visited ret v h
    exact horizontal_fusion_impl.walk_loop_members st.p_program _ _ visited [] ret v
      (by intro x hx; cases hx) h

/-- C30 at `branch_example`, with only `x` visited: the walk of the second
convolution examines the instruction `4`, which has two outputs, and returns
the empty vector; the walk of the first convolution returns the literal `1`
and the intermediate instruction `3`. -/
theorem C30_walk_witness :
    branch_state.walk 6 (Function.update (fun _ => false) 0 true)
      = some ([], Function.update (fun _ => false) 0 true) ∧
    (∃ v, branch_state.walk 5 (Function.update (fun _ => false) 0 true) = some ([1, 3], v)) ∧
    (∀ (ret : List instruction_ref) (v : instruction_ref → Bool),
      branch_state.walk 5 (Function.update (fun _ => false) 0 true) = some (ret, v) →
      ∀ x ∈ ret, (branch_state.p_program.ins x).inputs.length ≤ 1
        ∧ (branch_state.p_program.ins x).outputs.length ≤ 1) :=
  ⟨(C30_walk branch_state).2.1 6 (Function.update (fun _ => false) 0 true) [] 4 (by rfl)
      (Or.inr (Or.inl (by decide))),
    (C30_walk branch_state).2.2.1 5 (Function.update (fun _ => false) 0 true) 1 [3]
      (by simp [List.chain'_cons]; rfl) (by rfl) (by rfl) (by rfl) (by decide)
      (by
        intro n hn
        rw [List.mem_singleton] at hn
        subst hn
        exact ⟨by decide, by rfl⟩)
      (by decide) (by decide),
    (C30_walk branch_state).2.2.2 5 (Function.update (fun _ => false) 0 true)⟩

/-- The order in which a priority queue hands out two pushes of the same
element. -/
theorem pq_pop_all_pair {α : Type} (comp : α → α → Bool) (a : α) :
    pq_pop_all comp [a, a] = [a, a] := by
  simp only [pq_pop_all, List.insertionSort, List.orderedInsert]
  split <;> rfl

/-- C29 (evaluation at the failing input): `twice_example` is `x` and
`add(x, x)`, with the weight `3` for both.  For every comparator of the child
queue, threshold, number of streams and `std::sort`, `compute_weights` and the
weighted topological sort leave both nodes in the partition `0`, whose nodes
therefore weigh `6`, while the accumulated loads are `9` for the partition `0`
when the threshold is above `3`, and otherwise `6` for the partition `0` and
`3` for the partition `1`, which has no node: `x` is pushed once for each of
the two argument positions and contributes its weight at each push.  On
`residual_example`, with unit weights, the comparator `by_weight_sum` and the
threshold `2`, all three nodes end in the partition `0` and weigh `3`, and the
load of the partition `0` is `4`: `x` is pushed as a child of the `add` and
again as a child of the `relu`. -/
theorem C29_load_counts_pushes (wto : dag_node → dag_node → Bool) (thr : Int) (S : Nat)
    (srt : std_sort_fn) :
    (((pre_scheduling_impl.create twice_example (fun _ => (3, false)) S wto thr
        srt).compute_weights).bind
      (fun st1 => pre_scheduling_impl.reorder_exits st1.exit_nodes st1 {})).map
      (fun r => (r.2.sorted_nodes, (r.1.nodes 0).partition, (r.1.nodes 1).partition,
        (r.1.nodes 0).weight, (r.1.nodes 1).weight, r.1.partition_info.weight_sum 0,
        r.1.partition_info.weight_sum 1))
      = some ([0, 1], 0, 0, 3, 3, if 3 < thr then 9 else 6, if 3 < thr then 0 else 3) ∧
    (((pre_scheduling_impl.create residual_example (fun _ => (1, false)) 2 by_weight_sum 2
        stable_sort).compute_weights).bind
      (fun st1 => pre_scheduling_impl.reorder_exits st1.exit_nodes st1 {})).map
      (fun r => (r.2.sorted_nodes, (r.1.nodes 0).partition, (r.1.nodes 1).partition,
        (r.1.nodes 2).partition, (r.1.nodes 0).weight, (r.1.nodes 1).weight,
        (r.1.nodes 2).weight, r.1.partition_info.weight_sum 0,
        r.1.partition_info.weight_sum 1))
      = some ([0, 1, 2], 0, 0, 0, 1, 1, 1, 4, 0) := by
  constructor
  · have e1 : (pre_scheduling_impl.create twice_example (fun _ => (3, false)) S wto thr
        srt).compute_weights = some
          { (pre_scheduling_impl.create twice_example (fun _ => (3, false)) S wto thr srt) with
            nodes := Function.update (Function.update (fun _ => {}) 0
                { weight := 3, weight_sum := 3, ins_ndx := 0 }) 1
                { weight := 3, weight_sum := 6, ins_ndx := 1 }
            exit_nodes := [1]
            instr2_node := Function.update (Function.update (fun _ => false) 0 true) 1 true } := by
      rfl
    rw [e1]
    simp only [Option.some_bind, pre_scheduling_impl.reorder_exits, pre_scheduling_impl.create,
      dag_partition.create_partition, dag_partition.add_weight, pre_scheduling_impl.reorder_fuel,
      twice_example, mk_ins, List.map, List.sum_cons, List.sum_nil, List.length_cons,
      List.length_nil, Function.update_same, instruction.inputs]
    by_cases h3 : 3 < thr
    · simp [pre_scheduling_impl.reorder_while, pre_scheduling_impl.reorder_step,
        pre_scheduling_impl.pop_children, pq_pop_all_pair, instruction.inputs,
        Function.update_apply, h3, dag_partition.add_weight, dag_partition.create_partition]
    · simp [pre_scheduling_impl.reorder_while, pre_scheduling_impl.reorder_step,
        pre_scheduling_impl.pop_children, pq_pop_all_pair, instruction.inputs,
        Function.update_apply, h3, dag_partition.add_weight, dag_partition.create_partition]
  · rfl

namespace pre_scheduling_impl

/-- The loop of `reorder` over a list of exits that is the concatenation of two
lists runs over the first and then over the second. -/
theorem reorder_exits_append :
    ∀ (l1 l2 : List instruction_ref) (st : pre_scheduling_impl) (loc : reorder_locals),
      reorder_exits (l1 ++ l2) st loc
        = (reorder_exits l1 st loc).bind (fun r => reorder_exits l2 r.1 r.2) := by
  intro l1
  induction l1 with
  | nil => intro l2 st loc; rfl
  | cons a l ih =>
    intro l2 st loc
    simp only [List.cons_append, reorder_exits]
    split
    · rfl
    · rename_i r _
      exact ih l2 r.1 r.2

/-- One iteration of the loop over the stack: the program is kept, the emitted
list grows at its end by at most the top of the stack, and what is pushed are
inputs of the top. -/
theorem reorder_step_within (p : program) (R : instruction_ref → Prop)
    (hR : ∀ v u, R v → u ∈ (p.ins v).inputs → R u)
    (st : pre_scheduling_impl) (loc : reorder_locals) (cur : instruction_ref)
    (rest : List instruction_ref) (hp : st.p_program = p) (hs : ∀ x ∈ cur :: rest, R x) :
    (reorder_step st loc cur rest).1.p_program = p ∧
    (∀ x ∈ (reorder_step st loc cur rest).2.stack, R x) ∧
    ∃ extra, (reorder_step st loc cur rest).2.sorted_nodes = loc.sorted_nodes ++ extra ∧
      ∀ x ∈ extra, R x := by
  have hcur : R cur := hs cur (List.mem_cons_self _ _)
  have hrest : ∀ x ∈ rest, R x := fun x hx => hs x (List.mem_cons_of_mem _ hx)
  unfold reorder_step
  by_cases hd : loc.dequeued cur = true
  · rw [if_pos hd]
    exact ⟨hp, hrest, [], by simp, fun x hx => by cases hx⟩
  · rw [if_neg hd]
    by_cases hv : (loc.visited cur || (st.p_program.ins cur).inputs.isEmpty) = true
    · rw [if_pos hv]
      refine ⟨hp, hrest, [cur], rfl, ?_⟩
      intro x hx
      rw [List.mem_singleton] at hx
      rw [hx]; exact hcur
    · rw [if_neg hv]
      simp only
      obtain ⟨h1, h2, _⟩ := pop_children_spec cur
        (pq_pop_all (fun a b => st.weighted_topology_ordering (st.nodes a) (st.nodes b))
          ((st.p_program.ins cur).inputs.filter (fun arg => !loc.dequeued arg))) st (cur :: rest)
      refine ⟨h2.program.trans hp, ?_, [], by simp, fun x hx => by cases hx⟩
      intro x hx
      rw [h1] at hx
      rcases List.mem_append.mp hx with hx | hx
      · have hx' := (pq_pop_all_perm _ _).mem_iff.mp (List.mem_reverse.mp hx)
        have hxp := (List.mem_filter.mp hx').1
        rw [hp] at hxp
        exact hR cur x hcur hxp
      · exact hs x hx

/-- The loop over the stack: the program is kept, the stack ends empty, and the
emitted list grows at its end by nodes reached from the stack. -/
theorem reorder_while_within (p : program) (R : instruction_ref → Prop)
    (hR : ∀ v u, R v → u ∈ (p.ins v).inputs → R u) :
    ∀ (fuel : Nat) (st : pre_scheduling_impl) (loc : reorder_locals)
      (st' : pre_scheduling_impl) (loc' : reorder_locals),
      reorder_while fuel st loc = some (st', loc') → st.p_program = p →
      (∀ x ∈ loc.stack, R x) →
      st'.p_program = p ∧ loc'.stack = [] ∧
      ∃ extra, loc'.sorted_nodes = loc.sorted_nodes ++ extra ∧ ∀ x ∈ extra, R x := by
  intro fuel
  induction fuel with
  | zero =>
    intro st loc st' loc' h hp hs
    cases hstack : loc.stack with
    | nil =>
      rw [reorder_while_done 0 st loc hstack] at h
      cases h
      exact ⟨hp, hstack, [], by simp, fun x hx => by cases hx⟩
    | cons cur rest =>
      simp only [reorder_while, hstack] at h
      cases h
  | succ f ih =>
    intro st loc st' loc' h hp hs
    cases hstack : loc.stack with
    | nil =>
      rw [reorder_while_done _ st loc hstack] at h
      cases h
      exact ⟨hp, hstack, [], by simp, fun x hx => by cases hx⟩
    | cons cur rest =>
      rw [reorder_while_step f st loc cur rest hstack] at h
      obtain ⟨s1, s2, extra1, s3, s4⟩ :=
        reorder_step_within p R hR st loc cur rest hp (by rw [← hstack]; exact hs)
      obtain ⟨i1, i2, extra2, i3, i4⟩ := ih _ _ st' loc' h s1 s2
      refine ⟨i1, i2, extra1 ++ extra2, ?_, ?_⟩
      · rw [i3, s3, List.append_assoc]
      · intro x hx
        rcases List.mem_append.mp hx with hx | hx
        · exact s4 x hx
        · exact i4 x hx

/-- The loop of `reorder` over exits that lie in a set closed under inputs
emits nodes of that set only, at the end of the list emitted before. -/
theorem reorder_exits_within (p : program) (R : instruction_ref → Prop)
    (hR : ∀ v u, R v → u ∈ (p.ins v).inputs → R u) :
    ∀ (exits : List instruction_ref) (st : pre_scheduling_impl) (loc : reorder_locals)
      (st' : pre_scheduling_impl) (loc' : reorder_locals),
      reorder_exits exits st loc = some (st', loc') → st.p_program = p → loc.stack = [] →
      (∀ e ∈ exits, R e) →
      st'.p_program = p ∧ loc'.stack = [] ∧
      ∃ extra, loc'.sorted_nodes = loc.sorted_nodes ++ extra ∧ ∀ x ∈ extra, R x := by
  intro exits
  induction exits with
  | nil =>
    intro st loc st' loc' h hp hstack _
    simp only [reorder_exits] at h
    cases h
    exact ⟨hp, hstack, [], by simp, fun x hx => by cases hx⟩
  | cons node exits ih =>
    intro st loc st' loc' h hp hstack hex
    simp only [reorder_exits] at h
    split at h
    · cases h
    · rename_i r hr
      obtain ⟨i1, i2, extra1, i3, i4⟩ := reorder_while_within p R hR _ _ _ r.1 r.2 hr hp
        (by
          intro x hx
          simp only [hstack, List.mem_singleton] at hx
          rw [hx]
          exact hex node (List.mem_cons_self _ _))
      obtain ⟨k1, k2, extra2, j1, j2⟩ := ih r.1 r.2 st' loc' h i1 i2
        (fun e he => hex e (List.mem_cons_of_mem _ he))
      refine ⟨k1, k2, extra1 ++ extra2, ?_, ?_⟩
      · rw [j1, i3, List.append_assoc]
      · intro x hx
        rcases List.mem_append.mp hx with hx | hx
        · exact i4 x hx
        · exact j2 x hx

end pre_scheduling_impl

/-- The subtree of an instruction lies in every set that holds the instruction
and is closed under inputs. -/
theorem program.ancestor_closed (p : program) (R : instruction_ref → Prop)
    (hR : ∀ v u, R v → u ∈ (p.ins v).inputs → R u) (e : instruction_ref) (he : R e) :
    ∀ a, p.ancestor a e → R a := by
  intro a h
  induction h using Relation.ReflTransGen.head_induction_on with
  | refl => exact he
  | head h1 _ ih => exact hR _ _ ih h1

/-- A list of two different elements in which the first outweighs the second
is the only arrangement of the two that is sorted by descending weight. -/
theorem sorted_pair (f : instruction_ref → Int) (l : List instruction_ref)
    (e1 e2 : instruction_ref) (hnd : l.Nodup) (hmem : ∀ x, x ∈ l ↔ (x = e1 ∨ x = e2))
    (hne : e1 ≠ e2) (hpw : l.Pairwise (fun a b => f a ≥ f b)) (hgt : f e1 > f e2) :
    l = [e1, e2] := by
  have hperm : l.Perm [e1, e2] := by
    rw [List.perm_ext_iff_of_nodup hnd (by simp [hne])]
    intro a
    rw [hmem a]
    simp
  have hlen := hperm.length_eq
  match l, hlen, hperm, hpw with
  | [a, b], _, hperm, hpw =>
    have ha : a = e1 ∨ a = e2 := by
      have := hperm.mem_iff.mp (List.mem_cons_self a [b])
      simpa using this
    have hb : b = e1 ∨ b = e2 := by
      have := hperm.mem_iff.mp (List.mem_cons_of_mem a (List.mem_cons_self b []))
      simpa using this
    have hab : a ≠ b := by
      have := hperm.nodup_iff.mpr (by simp [hne])
      simpa using this
    have hfab : f a ≥ f b := by
      simpa using hpw
    rcases ha with rfl | rfl <;> rcases hb with rfl | rfl
    · exact absurd rfl hab
    · rfl
    · omega
    · exact absurd rfl hab

/-- C21 (counterexample): `two_sinks_example` has the two exits `E` (with the
subtree `X`, `E` and the weight sum `10`) and `Y` (weight sum `3`), whose
subtrees are disjoint.  With two streams `Y` is put on the second stream at
cycle `0`, and the final program order is `X`, `Y`, `E`: an instruction of the
subtree of the lighter exit precedes an instruction of the subtree of the
heavier one. -/
theorem C21_interleaved_counterexample :
    ((pre_scheduling_impl.create two_sinks_example two_sinks_weights 2 by_weight_sum 2
        stable_sort).run).map
      (fun st => (st.p_program.instructions, (st.nodes 1).weight_sum, (st.nodes 2).weight_sum,
        st.p_program.pos 2, st.p_program.pos 1, (st.p_program.ins 0).stream,
        (st.p_program.ins 1).stream, (st.p_program.ins 2).stream))
      = some ([0, 2, 1], 10, 3, 1, 2, 0, 0, 1) ∧
    (∀ x ∈ two_sinks_example.instructions,
      (two_sinks_example.ins x).outputs = [] ↔ (x = 1 ∨ x = 2)) ∧
    two_sinks_example.ancestor 1 1 ∧ two_sinks_example.ancestor 2 2 ∧
    (∀ x, two_sinks_example.ancestor x 1 → two_sinks_example.ancestor x 2 → False) := by
  refine ⟨by rfl, by decide, Relation.ReflTransGen.refl, Relation.ReflTransGen.refl, ?_⟩
  intro x h1 h2
  have a1 : x = 0 ∨ x = 1 := by
    refine program.ancestor_closed two_sinks_example (fun y => y = 0 ∨ y = 1) ?_ 1
      (Or.inr rfl) x h1
    intro v u hv hu
    rcases hv with rfl | rfl
    · cases hu
    · left
      simpa [two_sinks_example, mk_ins, instruction.inputs] using hu
  have a2 : x = 2 := by
    refine program.ancestor_closed two_sinks_example (fun y => y = 2) ?_ 2 rfl x h2
    intro v u hv hu
    subst hv
    cases hu
  subst a2
  rcases a1 with h | h <;> exact absurd h (by decide)

/-- C21 (amended): let a well-formed program have exactly the two exits `e1`
and `e2`, with disjoint subtrees.  For any weights, number of streams,
comparator of the child queue, threshold and `std::sort`, `compute_weights` and
the weighted topological sort complete, and if `weight_sum(e1) > weight_sum(e2)`
then every instruction of the subtree of `e1` precedes every instruction of the
subtree of `e2` in the list the sort emits; without streams `run` completes and
this is the final program order. -/
theorem C21_exit_subtrees (p : program) (hwf : p.well_formed)
    (weight_func : String → Int × Bool)
    (num_of_streams : Nat) (wto : dag_node → dag_node → Bool) (thr : Int)
    (srt : std_sort_fn) (hsrt : std_sort_contract srt)
    (e1 e2 : instruction_ref) (hne : e1 ≠ e2)
    (he1 : e1 ∈ p.instructions) (he2 : e2 ∈ p.instructions)
    (hexits : ∀ x ∈ p.instructions, (p.ins x).outputs = [] ↔ (x = e1 ∨ x = e2))
    (hdisj : ∀ x, p.ancestor x e1 → p.ancestor x e2 → False) :
    ∃ (st1 st2 : pre_scheduling_impl) (loc : pre_scheduling_impl.reorder_locals),
      (pre_scheduling_impl.create p weight_func num_of_streams wto thr srt).compute_weights
        = some st1 ∧
      pre_scheduling_impl.reorder_exits st1.exit_nodes st1 {} = some (st2, loc) ∧
      ((st1.nodes e1).weight_sum > (st1.nodes e2).weight_sum →
        (∀ a b, p.ancestor a e1 → p.ancestor b e2 →
          loc.sorted_nodes.indexOf a < loc.sorted_nodes.indexOf b) ∧
        (num_of_streams = 0 →
          ∃ st', (pre_scheduling_impl.create p weight_func num_of_streams wto thr srt).run
              = some st' ∧
            ∀ a b, p.ancestor a e1 → p.ancestor b e2 →
              st'.p_program.pos a < st'.p_program.pos b)) := by
  have hn : p.instructions.length ≠ 0 := by
    intro h
    rw [List.length_eq_zero] at h
    rw [h] at he1
    cases he1
  obtain ⟨st1, st2, loc, st3, L3, c1, c2, c3, crun, nd, perm, topo, nd3, perm3, gr3, hS0⟩ :=
    pre_scheduling_impl.run_stages p hwf weight_func num_of_streams wto thr srt hsrt hn
  refine ⟨st1, st2, loc, c1, c2, ?_⟩
  intro hgt
  obtain ⟨st1', c1', wc, hexperm, hpw⟩ :=
    pre_scheduling_impl.compute_weights_exits p weight_func num_of_streams wto thr srt hsrt
      hwf.1 hwf.2.1
  rw [c1] at c1'
  cases c1'
  -- the exit list is `[e1, e2]`
  have hex : st1.exit_nodes = [e1, e2] := by
    refine sorted_pair (fun x => (st1.nodes x).weight_sum) st1.exit_nodes e1 e2
      (hexperm.nodup_iff.mpr (hwf.1.filter _)) ?_ hne hpw hgt
    intro x
    rw [hexperm.mem_iff, List.mem_filter]
    constructor
    · rintro ⟨hx, ho⟩
      exact (hexits x hx).mp (List.isEmpty_iff.mp ho)
    · intro hx
      have hxm : x ∈ p.instructions := by
        rcases hx with rfl | rfl
        · exact he1
        · exact he2
      exact ⟨hxm, List.isEmpty_iff.mpr ((hexits x hxm).mpr hx)⟩
  -- the run over the first exit
  have htopo0 : pre_scheduling_impl.topo_inv p ({} : pre_scheduling_impl.reorder_locals) :=
    ⟨List.nodup_nil, (fun x => by simp), (fun x hx => by cases hx), (fun x hx => by cases hx)⟩
  have hpart0 : pre_scheduling_impl.part_ok st1 ({} : pre_scheduling_impl.reorder_locals) :=
    ⟨by rw [wc.partition_info_num], (fun x hx => by rcases hx with hx | hx <;> simp at hx)⟩
  obtain ⟨stA, locA, eA, _, topoA, _, dexA, _⟩ :=
    pre_scheduling_impl.reorder_exits_spec p hwf.1 hwf.2.1 [e1] st1 {}
      (by
        intro e he
        rw [List.mem_singleton] at he
        rw [he]; exact he1)
      wc.program rfl htopo0 hpart0 (fun z hz => by simp at hz)
  have hclosedA : ∀ v u, v ∈ locA.sorted_nodes → u ∈ (p.ins v).inputs →
      u ∈ locA.sorted_nodes := by
    intro v u hv hu
    have h1 := topoA.inputs_first v hv u hu
    have h2 : locA.sorted_nodes.indexOf v < locA.sorted_nodes.length :=
      List.indexOf_lt_length.mpr hv
    exact List.indexOf_lt_length.mp (lt_trans h1 h2)
  have hancA : ∀ a, p.ancestor a e1 → a ∈ locA.sorted_nodes :=
    program.ancestor_closed p (fun y => y ∈ locA.sorted_nodes) hclosedA e1
      ((topoA.dequeued e1).mp (dexA e1 (List.mem_singleton_self e1)))
  obtain ⟨pA, sA, extraA, xA1, xA2⟩ :=
    pre_scheduling_impl.reorder_exits_within p (fun y => p.ancestor y e1)
      (fun v u hv hu => Relation.ReflTransGen.head hu hv) [e1] st1 {} stA locA eA wc.program rfl
      (by
        intro e he
        rw [List.mem_singleton] at he
        rw [he]; exact Relation.ReflTransGen.refl)
  have hsubA : ∀ x ∈ locA.sorted_nodes, p.ancestor x e1 := by
    intro x hx
    rw [xA1] at hx
    exact xA2 x (by simpa using hx)
  -- the run over the second exit
  have e2run : pre_scheduling_impl.reorder_exits [e2] stA locA = some (st2, loc) := by
    have := pre_scheduling_impl.reorder_exits_append [e1] [e2] st1 {}
    rw [eA] at this
    simp only [List.singleton_append, Option.some_bind] at this
    rw [← this, ← hex]
    exact c2
  obtain ⟨_, _, extraB, xB1, _⟩ :=
    pre_scheduling_impl.reorder_exits_within p (fun _ => True) (fun _ _ _ _ => trivial) [e2]
      stA locA st2 loc e2run pA sA (fun _ _ => trivial)
  have hmemp : ∀ v u, v ∈ p.instructions → u ∈ (p.ins v).inputs → u ∈ p.instructions := by
    intro v u hv hu
    have h1 := hwf.2.1 v hv u hu
    have h2 : p.pos v < p.instructions.length := List.indexOf_lt_length.mpr hv
    exact List.indexOf_lt_length.mp (lt_trans h1 h2)
  have horder : ∀ a b, p.ancestor a e1 → p.ancestor b e2 →
      loc.sorted_nodes.indexOf a < loc.sorted_nodes.indexOf b := by
    intro a b ha hb
    have haA := hancA a ha
    have hbA : b ∉ locA.sorted_nodes := fun h => hdisj b (hsubA b h) hb
    rw [xB1, List.indexOf_append_of_mem haA, List.indexOf_append_of_not_mem hbA]
    have := List.indexOf_lt_length.mpr haA
    omega
  refine ⟨horder, ?_⟩
  intro hS
  obtain ⟨h31, h32⟩ := hS0 hS
  subst h31
  subst h32
  have hlen : 2 ≤ loc.sorted_nodes.length := by
    rw [perm.length_eq]
    have hsub : [e1, e2].Subperm p.instructions :=
      List.subperm_of_subset (by simp [hne]) (by
        intro x hx
        simp only [List.mem_cons, List.mem_singleton, List.not_mem_nil, or_false] at hx
        rcases hx with rfl | rfl
        · exact he1
        · exact he2)
    simpa using hsub.length_le
  obtain ⟨st', es, i1, _⟩ := pre_scheduling_impl.splice_spec st3 loc.sorted_nodes nd
    (by rw [gr3.1]; exact perm) hlen
  refine ⟨st', by rw [crun, es], ?_⟩
  intro a b ha hb
  show st'.p_program.instructions.indexOf a < st'.p_program.instructions.indexOf b
  rw [i1]
  exact horder a b ha hb

theorem C21_exit_subtrees_witness :
    ∃ (st1 st2 : pre_scheduling_impl) (loc : pre_scheduling_impl.reorder_locals),
      (pre_scheduling_impl.create two_sinks_example two_sinks_weights 0 by_weight_sum 2
        stable_sort).compute_weights = some st1 ∧
      pre_scheduling_impl.reorder_exits st1.exit_nodes st1 {} = some (st2, loc) ∧
      ((st1.nodes 1).weight_sum > (st1.nodes 2).weight_sum →
        (∀ a b, two_sinks_example.ancestor a 1 → two_sinks_example.ancestor b 2 →
          loc.sorted_nodes.indexOf a < loc.sorted_nodes.indexOf b) ∧
        (0 = 0 →
          ∃ st', (pre_scheduling_impl.create two_sinks_example two_sinks_weights 0 by_weight_sum
              2 stable_sort).run = some st' ∧
            ∀ a b, two_sinks_example.ancestor a 1 → two_sinks_example.ancestor b 2 →
              st'.p_program.pos a < st'.p_program.pos b)) :=
  C21_exit_subtrees two_sinks_example (by decide) two_sinks_weights 0 by_weight_sum 2
    stable_sort stable_sort_contract 1 2 (by decide) (by decide) (by decide) (by decide)
    (by
      intro x h1 h2
      have a1 : x = 0 ∨ x = 1 := by
        refine program.ancestor_closed two_sinks_example (fun y => y = 0 ∨ y = 1) ?_ 1
          (Or.inr rfl) x h1
        intro v u hv hu
        rcases hv with rfl | rfl
        · cases hu
        · left
          simpa [two_sinks_example, mk_ins, instruction.inputs] using hu
      have a2 : x = 2 := by
        refine program.ancestor_closed two_sinks_example (fun y => y = 2) ?_ 2 rfl x h2
        intro v u hv hu
        subst hv
        cases hu
      subst a2
      rcases a1 with h | h <;> exact absurd h (by decide))

/-- C27 (evaluation at the failing input): on `mixed_example` the first run of
the pass fuses the two `convolution` consumers of `x` and leaves the two
`gpu::convolution` consumers, which the counting loop of `process` did not
flag; a second run, on the program the first one produced, flags and fuses
them: it removes the instructions `2`, `4` and `8`, adds the literal `11` and
the split `12`, and widens the instruction `6`. -/
theorem C27_second_run_changes :
    ((horizontal_fusion_impl.create mixed_example).run branch_env).map
      (fun st => (st.p_program.instructions, (st.p_program.ins 0).outputs,
        (st.p_program.ins 5).get_shape.lens, (st.p_program.ins 5).inputs,
        (st.p_program.ins 6).get_shape.lens, (st.p_program.ins 6).inputs))
      = some ([9, 0, 2, 4, 5, 10, 6, 8], [5, 6, 8], [1, 3, 8, 8], [0, 9],
          [1, 2, 8, 8], [0, 2]) ∧
    (((horizontal_fusion_impl.create mixed_example).run branch_env).bind
        (fun st => (horizontal_fusion_impl.create st.p_program).run branch_env)).map
      (fun st => (st.p_program.instructions, (st.p_program.ins 0).outputs,
        (st.p_program.ins 5).get_shape.lens, (st.p_program.ins 5).inputs,
        (st.p_program.ins 6).get_shape.lens, (st.p_program.ins 6).inputs))
      = some ([11, 9, 0, 5, 10, 6, 12], [5, 6], [1, 3, 8, 8], [0, 9],
          [1, 3, 8, 8], [0, 11]) := by
  refine ⟨by rfl, by rfl⟩

namespace pre_scheduling_impl

/-- Writing a node and recasting commute. -/
theorem recast_set_node (L : List instruction_ref) (idx : instruction_ref → Int)
    (ann : instruction_ref → Int × Nat) (st : pre_scheduling_impl) (k : instruction_ref)
    (v : dag_node) :
    recast L idx ann { st with nodes := Function.update st.nodes k v }
      = { recast L idx ann st with
          nodes := Function.update (recast L idx ann st).nodes k { v with ins_ndx := idx k } } := by
  simp only [recast]
  congr 1
  funext x
  by_cases hx : x = k
  · subst hx; simp
  · simp [Function.update_noteq hx]

/-- The children loop does not read the positions, the program order or the
annotations. -/
theorem pop_children_recast (L : List instruction_ref) (idx : instruction_ref → Int)
    (ann : instruction_ref → Int × Nat) (cur : instruction_ref) :
    ∀ (children : List instruction_ref) (st : pre_scheduling_impl)
      (stack : List instruction_ref),
      pop_children cur children (recast L idx ann st) stack
        = (recast L idx ann (pop_children cur children st stack).1,
            (pop_children cur children st stack).2) := by
  intro children
  induction children with
  | nil => intro st stack; rfl
  | cons child rest ih =>
    intro st stack
    rw [pop_children, pop_children]
    simp only
    by_cases h1 : (st.nodes child).weight_sum < st.min_partition_threshold
    · have h1' : ((recast L idx ann st).nodes child).weight_sum
          < (recast L idx ann st).min_partition_threshold := h1
      rw [if_pos h1, if_pos h1']
      rw [← ih]
      congr 1
      simp only [recast, dag_partition.add_weight, Function.update_same]
      congr 1
      funext x
      simp only [Function.update_apply]
      split_ifs <;> simp_all
    · have h1' : ¬ ((recast L idx ann st).nodes child).weight_sum
          < (recast L idx ann st).min_partition_threshold := h1
      rw [if_neg h1, if_neg h1']
      by_cases h2 : (!rest.isEmpty) = true
      · rw [if_pos h2, if_pos h2]
        rw [← ih]
        congr 1
        simp only [recast, dag_partition.add_weight, dag_partition.create_partition,
          Function.update_same]
        congr 1
        funext x
        simp only [Function.update_apply]
        split_ifs <;> simp_all
      · rw [if_neg h2, if_neg h2]
        rw [← ih]
        congr 1
        simp only [recast, dag_partition.add_weight, Function.update_same]
        congr 1
        · funext x
          simp only [Function.update_apply]
          split_ifs <;> simp_all
        · simp only [Function.update_apply]
          split_ifs <;> simp_all

/-- One iteration of the loop over the stack does not read the positions, the
program order or the annotations, for a comparator of the child queue that
does not read the positions. -/
theorem reorder_step_recast (L : List instruction_ref) (idx : instruction_ref → Int)
    (ann : instruction_ref → Int × Nat) (st : pre_scheduling_impl)
    (hwto : ∀ (d1 d2 : dag_node) (i j : Int),
      st.weighted_topology_ordering { d1 with ins_ndx := i } { d2 with ins_ndx := j }
        = st.weighted_topology_ordering d1 d2)
    (loc : reorder_locals) (cur : instruction_ref) (rest : List instruction_ref) :
    reorder_step (recast L idx ann st) loc cur rest
      = (recast L idx ann (reorder_step st loc cur rest).1, (reorder_step st loc cur rest).2) := by
  unfold reorder_step
  by_cases hd : loc.dequeued cur = true
  · rw [if_pos hd, if_pos hd]
  · rw [if_neg hd, if_neg hd]
    have hin : ((recast L idx ann st).p_program.ins cur).inputs = (st.p_program.ins cur).inputs :=
      rfl
    rw [hin]
    by_cases hv : (loc.visited cur || (st.p_program.ins cur).inputs.isEmpty) = true
    · rw [if_pos hv, if_pos hv]
    · rw [if_neg hv, if_neg hv]
      simp only
      have hcmp : (fun a b => (recast L idx ann st).weighted_topology_ordering
            ((recast L idx ann st).nodes a) ((recast L idx ann st).nodes b))
          = (fun a b => st.weighted_topology_ordering (st.nodes a) (st.nodes b)) := by
        funext a b
        exact hwto (st.nodes a) (st.nodes b) (idx a) (idx b)
      rw [hcmp, pop_children_recast]

/-- One iteration of the loop over the stack writes partitions only. -/
theorem reorder_step_rel (st : pre_scheduling_impl) (loc : reorder_locals)
    (cur : instruction_ref) (rest : List instruction_ref) :
    dfs_rel st (reorder_step st loc cur rest).1 := by
  unfold reorder_step
  split
  · exact dfs_rel_refl st
  · split
    · exact dfs_rel_refl st
    · exact (pop_children_spec cur _ st (cur :: rest)).2.1

/-- The loop over the stack does not read the positions, the program order or
the annotations. -/
theorem reorder_while_recast (L : List instruction_ref) (idx : instruction_ref → Int)
    (ann : instruction_ref → Int × Nat) (wto : dag_node → dag_node → Bool)
    (hwto : ∀ (d1 d2 : dag_node) (i j : Int),
      wto { d1 with ins_ndx := i } { d2 with ins_ndx := j } = wto d1 d2) :
    ∀ (fuel : Nat) (st : pre_scheduling_impl) (loc : reorder_locals),
      st.weighted_topology_ordering = wto →
      reorder_while fuel (recast L idx ann st) loc
        = (reorder_while fuel st loc).map (fun r => (recast L idx ann r.1, r.2)) := by
  intro fuel
  induction fuel with
  | zero =>
    intro st loc _
    cases hs : loc.stack with
    | nil => simp [reorder_while, hs]
    | cons c r => simp [reorder_while, hs]
  | succ f ih =>
    intro st loc hw
    cases hs : loc.stack with
    | nil => simp [reorder_while, hs]
    | cons c r =>
      rw [reorder_while_step f _ loc c r hs, reorder_while_step f st loc c r hs,
        reorder_step_recast L idx ann st (by rw [hw]; exact hwto)]
      simp only
      apply ih
      exact (reorder_step_rel st loc c r).params.weighted_topology_ordering.trans hw

/-- The loop over the stack writes partitions only. -/
theorem reorder_while_rel : ∀ (fuel : Nat) (st : pre_scheduling_impl) (loc : reorder_locals)
    (r : pre_scheduling_impl × reorder_locals),
    reorder_while fuel st loc = some r → dfs_rel st r.1 := by
  intro fuel
  induction fuel with
  | zero =>
    intro st loc r h
    cases hs : loc.stack with
    | nil =>
      simp [reorder_while, hs] at h
      rw [← h]
      exact dfs_rel_refl st
    | cons c t => simp [reorder_while, hs] at h
  | succ f ih =>
    intro st loc r h
    cases hs : loc.stack with
    | nil =>
      simp [reorder_while, hs] at h
      rw [← h]
      exact dfs_rel_refl st
    | cons c t =>
      rw [reorder_while_step f st loc c t hs] at h
      exact dfs_rel_trans (reorder_step_rel st loc c t) (ih _ _ r h)

/-- The bound on the iterations of the loop over the stack does not depend on
the order in which the program lists its instructions. -/
theorem reorder_fuel_recast (L : List instruction_ref) (idx : instruction_ref → Int)
    (ann : instruction_ref → Int × Nat) (st : pre_scheduling_impl)
    (hL : L.Perm st.p_program.instructions) :
    reorder_fuel (recast L idx ann st).p_program = reorder_fuel st.p_program := by
  unfold reorder_fuel
  congr 1
  exact (hL.map _).sum_eq

/-- The loop of `reorder` over the exits does not read the positions, the
program order or the annotations. -/
theorem reorder_exits_recast (L : List instruction_ref) (idx : instruction_ref → Int)
    (ann : instruction_ref → Int × Nat) (wto : dag_node → dag_node → Bool)
    (hwto : ∀ (d1 d2 : dag_node) (i j : Int),
      wto { d1 with ins_ndx := i } { d2 with ins_ndx := j } = wto d1 d2) :
    ∀ (exits : List instruction_ref) (st : pre_scheduling_impl) (loc : reorder_locals),
      st.weighted_topology_ordering = wto → L.Perm st.p_program.instructions →
      reorder_exits exits (recast L idx ann st) loc
        = (reorder_exits exits st loc).map (fun r => (recast L idx ann r.1, r.2)) := by
  intro exits
  induction exits with
  | nil => intro st loc _ _; rfl
  | cons node rest ih =>
    intro st loc hw hL
    -- the state after the partition of the exit has been created
    obtain ⟨sa, hsa⟩ : ∃ sa : pre_scheduling_impl, sa =
        { ({ st with partition_info := st.partition_info.create_partition.1
                     nodes := Function.update st.nodes node
                       { st.nodes node with partition := st.partition_info.create_partition.2 } }
              : pre_scheduling_impl) with
          partition_info := st.partition_info.create_partition.1.add_weight
            (Function.update st.nodes node
              { st.nodes node with partition := st.partition_info.create_partition.2 } node) } :=
      ⟨_, rfl⟩
    have e1 : reorder_exits (node :: rest) st loc
        = match reorder_while (reorder_fuel sa.p_program) sa
            { loc with stack := node :: loc.stack } with
          | none => none
          | some r => reorder_exits rest r.1 r.2 := by
      rw [hsa]; rfl
    have e2 : reorder_exits (node :: rest) (recast L idx ann st) loc
        = match reorder_while (reorder_fuel (recast L idx ann sa).p_program) (recast L idx ann sa)
            { loc with stack := node :: loc.stack } with
          | none => none
          | some r => reorder_exits rest r.1 r.2 := by
      have : ({ ({ (recast L idx ann st) with
              partition_info := (recast L idx ann st).partition_info.create_partition.1
              nodes := Function.update (recast L idx ann st).nodes node
                { (recast L idx ann st).nodes node with
                  partition := (recast L idx ann st).partition_info.create_partition.2 } }
              : pre_scheduling_impl) with
          partition_info := (recast L idx ann st).partition_info.create_partition.1.add_weight
            (Function.update (recast L idx ann st).nodes node
              { (recast L idx ann st).nodes node with
                partition := (recast L idx ann st).partition_info.create_partition.2 } node) }
            : pre_scheduling_impl) = recast L idx ann sa := by
        rw [hsa]
        simp only [recast, dag_partition.add_weight, dag_partition.create_partition,
          Function.update_same]
        congr 1
        funext x
        simp only [Function.update_apply]
        split_ifs <;> simp_all
      rw [← this]; rfl
    have hpa : sa.p_program = st.p_program := by rw [hsa]
    have hwa : sa.weighted_topology_ordering = wto := by rw [hsa]; exact hw
    rw [e1, e2, reorder_fuel_recast L idx ann sa (by rw [hpa]; exact hL),
      reorder_while_recast L idx ann wto hwto _ sa _ hwa]
    cases hr : reorder_while (reorder_fuel sa.p_program) sa { loc with stack := node :: loc.stack } with
    | none => rfl
    | some r =>
      simp only [Option.map_some']
      have hrel := reorder_while_rel _ _ _ r hr
      exact ih r.1 r.2 (hrel.params.weighted_topology_ordering.trans hwa)
        (by rw [hrel.program, hpa]; exact hL)

/-- A program with the instructions of `p` up to stream annotations and event
masks is `p` with its own order and annotations put in. -/
theorem program_of_fields (p q : program) (hn : q.next_ref = p.next_ref)
    (h : ∀ r, (q.ins r).op = (p.ins r).op ∧ (q.ins r).result = (p.ins r).result ∧
      (q.ins r).output = (p.ins r).output ∧ (q.ins r).arguments = (p.ins r).arguments ∧
      (q.ins r).lit = (p.ins r).lit) :
    q = { p with
          instructions := q.instructions
          ins := fun r => { p.ins r with stream := (q.ins r).stream, mask := (q.ins r).mask } } := by
  cases q with
  | mk qi qins qn =>
    simp only at hn h ⊢
    subst hn
    congr 1
    funext r
    obtain ⟨h1, h2, h3, h4, h5⟩ := h r
    cases hq : qins r with
    | mk o re ou ar li s m =>
      rw [hq] at h1 h2 h3 h4 h5
      simp only at h1 h2 h3 h4 h5
      subst h1 h2 h3 h4 h5
      rfl

/-- The loop of `record` over the outputs does not read the positions, the
program order or the annotations. -/
theorem raise_earliest_recast (L : List instruction_ref) (idx : instruction_ref → Int)
    (ann : instruction_ref → Int × Nat) (next_cycle : Int) :
    ∀ (l : List instruction_ref) (st : pre_scheduling_impl),
      raise_earliest next_cycle l (recast L idx ann st)
        = (raise_earliest next_cycle l st).map (recast L idx ann) := by
  intro l
  induction l with
  | nil => intro st; rfl
  | cons a rest ih =>
    intro st
    unfold raise_earliest
    have hi : (recast L idx ann st).instr2_node a = st.instr2_node a := rfl
    rw [hi]
    by_cases h : st.instr2_node a = true
    · rw [if_pos h, if_pos h, ← ih, recast_set_node]
      rfl
    · rw [if_neg h, if_neg h]
      rfl

/-- Replacing the program of a recast state by one over the same graph in the
same order gives a recast state again. -/
theorem recast_program (L : List instruction_ref) (idx : instruction_ref → Int)
    (ann : instruction_ref → Int × Nat) (st : pre_scheduling_impl) (P1 P2 : program)
    (h1 : same_graph st.p_program P1) (h2 : same_graph (recast L idx ann st).p_program P2) :
    ({ recast L idx ann st with p_program := P2 } : pre_scheduling_impl)
      = recast L idx (fun r => ((P2.ins r).stream, (P2.ins r).mask))
          { st with p_program := P1 } := by
  have hq := program_of_fields P1 P2 (by rw [h2.2.1, h1.2.1]; rfl) (fun r => by
    obtain ⟨a1, a2, a3, a4, a5⟩ := h1.2.2 r
    obtain ⟨b1, b2, b3, b4, b5⟩ := h2.2.2 r
    exact ⟨b1.trans a1.symm, b2.trans a2.symm, b3.trans a3.symm, b4.trans a4.symm,
      b5.trans a5.symm⟩)
  have hL : P2.instructions = L := h2.1
  rw [hL] at hq
  simp only [recast]
  rw [← hq]

/-- The body of `record`, with the stream, the scheduled cycle and the weight
of the node named. -/
theorem record_form (st : pre_scheduling_impl) (info : stream_info) (node : instruction_ref)
    (stream sc w : Int) (h1 : stream = (st.nodes node).stream)
    (h2 : sc = max (st.nodes node).earliest_cycle (info.next_cycles stream.toNat))
    (h3 : w = (st.nodes node).weight)
    (s1 : pre_scheduling_impl)
    (h4 : s1 = { st with nodes := Function.update st.nodes node
                           { st.nodes node with sched_cycle := sc } })
    (info1 : stream_info)
    (h5 : info1 = { info with
                    next_cycles := Function.update info.next_cycles stream.toNat
                      (to_int (sc + w))
                    max_cycle := max info.max_cycle (to_int (sc + w)) }) :
    record st info node =
      match raise_earliest (to_int (sc + w)) (st.p_program.ins node).outputs s1 with
      | none => none
      | some s2 =>
        if (s2.nodes node).can_use_stream then
          some ({ s2 with
                  p_program := mark_events node stream (s2.p_program.ins node).inputs
                                (s2.p_program.set node
                                  ((s2.p_program.ins node).set_stream stream)) },
                info1)
        else
          some (s2, info1) := by
  subst h1 h2 h3 h4 h5
  unfold record
  simp only [Function.update_same, program.set, instruction.inputs, instruction.set_stream]

/-- `record` does not read the positions or the program order, and reads the
annotations only to write annotations. -/
theorem record_recast (L : List instruction_ref) (idx : instruction_ref → Int)
    (ann : instruction_ref → Int × Nat) (st : pre_scheduling_impl) (info : stream_info)
    (node : instruction_ref) :
    ∃ ann', record (recast L idx ann st) info node
      = (record st info node).map (fun r => (recast L idx ann' r.1, r.2)) := by
  obtain ⟨s1, hs1⟩ : ∃ s1 : pre_scheduling_impl, s1 =
      { st with
        nodes := Function.update st.nodes node
                  { st.nodes node with
                    sched_cycle := max (st.nodes node).earliest_cycle
                                    (info.next_cycles (st.nodes node).stream.toNat) } } := ⟨_, rfl⟩
  have hs : recast L idx ann s1 = { recast L idx ann st with
        nodes := Function.update (recast L idx ann st).nodes node
                  { (recast L idx ann st).nodes node with
                    sched_cycle := max ((recast L idx ann st).nodes node).earliest_cycle
                                    (info.next_cycles (st.nodes node).stream.toNat) } } := by
    rw [hs1, recast_set_node]; rfl
  rw [record_form st info node _ _ _ rfl rfl rfl s1 hs1 _ rfl,
    record_form (recast L idx ann st) info node (st.nodes node).stream _
      (st.nodes node).weight rfl rfl rfl (recast L idx ann s1) hs _ rfl]
  have ho : ((recast L idx ann st).p_program.ins node).outputs = (st.p_program.ins node).outputs :=
    rfl
  have he : ((recast L idx ann st).nodes node).earliest_cycle = (st.nodes node).earliest_cycle :=
    rfl
  rw [ho, he, raise_earliest_recast]
  cases hr : raise_earliest
      (to_int (max (st.nodes node).earliest_cycle (info.next_cycles (st.nodes node).stream.toNat)
        + (st.nodes node).weight)) (st.p_program.ins node).outputs s1 with
  | none => exact ⟨ann, rfl⟩
  | some s2 =>
    simp only [Option.map_some']
    have hc : ((recast L idx ann s2).nodes node).can_use_stream = (s2.nodes node).can_use_stream :=
      rfl
    rw [hc]
    by_cases hcu : (s2.nodes node).can_use_stream = true
    · rw [if_pos hcu, if_pos hcu]
      simp only [Option.map_some']
      obtain ⟨P2, hP2⟩ : ∃ P2 : program, P2 =
          mark_events node (st.nodes node).stream ((recast L idx ann s2).p_program.ins node).inputs
            ((recast L idx ann s2).p_program.set node
              (((recast L idx ann s2).p_program.ins node).set_stream (st.nodes node).stream)) :=
        ⟨_, rfl⟩
      refine ⟨fun r => ((P2.ins r).stream, (P2.ins r).mask), ?_⟩
      rw [← hP2, recast_program L idx ann s2
        (mark_events node (st.nodes node).stream (s2.p_program.ins node).inputs
          (s2.p_program.set node ((s2.p_program.ins node).set_stream (st.nodes node).stream)))
        P2
        (same_graph_trans
          (same_graph_set s2.p_program node
            ((s2.p_program.ins node).set_stream (st.nodes node).stream) ⟨rfl, rfl, rfl, rfl, rfl⟩)
          (mark_events_graph _ _ _ _))
        (by
          rw [hP2]
          exact same_graph_trans
            (same_graph_set (recast L idx ann s2).p_program node
              (((recast L idx ann s2).p_program.ins node).set_stream (st.nodes node).stream)
              ⟨rfl, rfl, rfl, rfl, rfl⟩)
            (mark_events_graph _ _ _ _))]
    · rw [if_neg hcu, if_neg hcu]
      exact ⟨ann, rfl⟩

/-- One iteration of the loop of `schedule`, with the stream of the node
named. -/
theorem schedule_loop_cons (node : instruction_ref) (rest : List instruction_ref)
    (st : pre_scheduling_impl) (info : stream_info) (p2s : Int → Option Int)
    (queue : List instruction_ref) (stream : Int)
    (h1 : stream = match p2s (st.nodes node).partition with
      | some s => s
      | none => st.get_stream info node)
    (s1 : pre_scheduling_impl)
    (h2 : s1 = { st with
                 nodes := Function.update st.nodes node { st.nodes node with stream := stream } }) :
    schedule_loop (node :: rest) st info p2s queue =
      if (st.nodes node).partition < 0 then none
      else if stream < 0 then none
      else
        match s1.record info node with
        | none => none
        | some r =>
          schedule_loop rest r.1 r.2
            (Function.update p2s (st.nodes node).partition (some (r.1.nodes node).stream))
            (queue ++ [node]) := by
  subst h1 h2
  rw [schedule_loop]

/-- The loop of `schedule` does not read the positions or the program order,
and reads the annotations only to write annotations. -/
theorem schedule_loop_recast (L : List instruction_ref) (idx : instruction_ref → Int) :
    ∀ (rest : List instruction_ref) (ann : instruction_ref → Int × Nat)
      (st : pre_scheduling_impl) (info : stream_info) (p2s : Int → Option Int)
      (queue : List instruction_ref),
      ∃ ann', schedule_loop rest (recast L idx ann st) info p2s queue
        = (schedule_loop rest st info p2s queue).map (fun r => (recast L idx ann' r.1, r.2)) := by
  intro rest
  induction rest with
  | nil => intro ann st info p2s queue; exact ⟨ann, rfl⟩
  | cons node rest ih =>
    intro ann st info p2s queue
    obtain ⟨stream, hstream⟩ : ∃ stream : Int, stream =
        match p2s (st.nodes node).partition with
        | some s => s
        | none => st.get_stream info node := ⟨_, rfl⟩
    obtain ⟨s1, hs1⟩ : ∃ s1 : pre_scheduling_impl, s1 =
        { st with
          nodes := Function.update st.nodes node { st.nodes node with stream := stream } } :=
      ⟨_, rfl⟩
    have hs : recast L idx ann s1 = { recast L idx ann st with
          nodes := Function.update (recast L idx ann st).nodes node
                    { (recast L idx ann st).nodes node with stream := stream } } := by
      rw [hs1, recast_set_node]; rfl
    rw [schedule_loop_cons node rest st info p2s queue stream hstream s1 hs1,
      schedule_loop_cons node rest (recast L idx ann st) info p2s queue stream hstream
        (recast L idx ann s1) hs]
    have hp : ((recast L idx ann st).nodes node).partition = (st.nodes node).partition := rfl
    rw [hp]
    by_cases h1 : (st.nodes node).partition < 0
    · rw [if_pos h1, if_pos h1]; exact ⟨ann, rfl⟩
    · rw [if_neg h1, if_neg h1]
      by_cases h2 : stream < 0
      · rw [if_pos h2, if_pos h2]; exact ⟨ann, rfl⟩
      · rw [if_neg h2, if_neg h2]
        obtain ⟨ann1, hrec⟩ := record_recast L idx ann s1 info node
        rw [hrec]
        cases hr : s1.record info node with
        | none => exact ⟨ann, rfl⟩
        | some r =>
          simp only [Option.map_some']
          exact ih ann1 r.1 r.2 _ _

/-- The loop of `schedule` appends the nodes it walks to the queue. -/
theorem schedule_loop_queue :
    ∀ (rest : List instruction_ref) (st : pre_scheduling_impl) (info : stream_info)
      (p2s : Int → Option Int) (queue : List instruction_ref)
      (r : pre_scheduling_impl × stream_info × (Int → Option Int) × List instruction_ref),
      schedule_loop rest st info p2s queue = some r → r.2.2.2 = queue ++ rest := by
  intro rest
  induction rest with
  | nil =>
    intro st info p2s queue r h
    simp only [schedule_loop, Option.some.injEq] at h
    rw [← h]; simp
  | cons node rest ih =>
    intro st info p2s queue r h
    rw [schedule_loop_cons node rest st info p2s queue _ rfl _ rfl] at h
    split at h
    · cases h
    · split at h
      · cases h
      · split at h
        · cases h
        · rw [ih _ _ _ _ r h]; simp

/-- `schedule` with at least one stream on a list that is not empty: the loop,
and then the queue emptied. -/
theorem schedule_form (st : pre_scheduling_impl) (l : List instruction_ref)
    (hS : st.num_of_streams ≠ 0) (hne : l ≠ []) :
    st.schedule l = (schedule_loop l st {} (fun _ => none) []).map (fun r =>
      (r.1, pq_pop_all (fun a b => post_schedule_ordering (r.1.nodes a) (r.1.nodes b)) l)) := by
  unfold schedule
  rw [if_neg hS]
  cases hr : schedule_loop l st {} (fun _ => none) [] with
  | none => rfl
  | some r =>
    have hq := schedule_loop_queue l st {} (fun _ => none) [] r hr
    simp only [List.nil_append] at hq
    have he : (!l.isEmpty) = true := by
      cases l with
      | nil => exact absurd rfl hne
      | cons a t => rfl
    simp only [he, if_true, Option.map_some', hq]

/-- `schedule` does not read the program order, reads the annotations only to
write annotations, and reads the positions only to order its result. -/
theorem schedule_recast (L : List instruction_ref) (idx : instruction_ref → Int)
    (ann : instruction_ref → Int × Nat) (st : pre_scheduling_impl)
    (l : List instruction_ref) (hS : st.num_of_streams ≠ 0) (hne : l ≠ []) :
    ∃ ann', (recast L idx ann st).schedule l
      = (schedule_loop l st {} (fun _ => none) []).map (fun r =>
          (recast L idx ann' r.1,
            pq_pop_all (fun a b => post_schedule_ordering ((recast L idx ann' r.1).nodes a)
              ((recast L idx ann' r.1).nodes b)) l)) := by
  obtain ⟨ann1, h⟩ := schedule_loop_recast L idx l ann st {} (fun _ => none) []
  refine ⟨ann1, ?_⟩
  rw [schedule_form (recast L idx ann st) l hS hne, h]
  cases schedule_loop l st {} (fun _ => none) [] with
  | none => rfl
  | some r => rfl

/-- Two states with the same fields are the same state. -/
theorem eq_of_fields (a b : pre_scheduling_impl) (h1 : a.p_program = b.p_program)
    (h2 : a.weight_func = b.weight_func) (h3 : a.num_of_streams = b.num_of_streams)
    (h4 : a.weighted_topology_ordering = b.weighted_topology_ordering)
    (h5 : a.min_partition_threshold = b.min_partition_threshold) (h6 : a.std_sort = b.std_sort)
    (h7 : a.nodes = b.nodes) (h8 : a.exit_nodes = b.exit_nodes)
    (h9 : a.instr2_node = b.instr2_node) (h10 : a.partition_info = b.partition_info) : a = b := by
  cases a
  cases b
  simp only at h1 h2 h3 h4 h5 h6 h7 h8 h9 h10
  subst h1 h2 h3 h4 h5 h6 h7 h8 h9 h10
  rfl

/-- Two lists with the same elements, both ordered by a relation that is
antisymmetric on these elements, are the same list. -/
theorem sorted_perm_unique {α : Type} (r : α → α → Prop) :
    ∀ (l1 l2 : List α), l1.Perm l2 → l1.Pairwise r → l2.Pairwise r →
      (∀ a ∈ l1, ∀ b ∈ l1, r a b → r b a → a = b) → l1 = l2 := by
  intro l1
  induction l1 with
  | nil =>
    intro l2 hp _ _ _
    exact (List.Perm.nil_eq hp)
  | cons a t ih =>
    intro l2 hp h1 h2 has
    cases l2 with
    | nil => exact absurd hp.length_eq (by simp)
    | cons b t2 =>
      have hab : a = b := by
        by_contra hne
        have ha : a ∈ t2 := by
          have : a ∈ b :: t2 := hp.subset (List.mem_cons_self _ _)
          rcases List.mem_cons.mp this with h | h
          · exact absurd h hne
          · exact h
        have hb : b ∈ t := by
          have : b ∈ a :: t := hp.symm.subset (List.mem_cons_self _ _)
          rcases List.mem_cons.mp this with h | h
          · exact absurd h.symm hne
          · exact h
        have r1 : r a b := (List.pairwise_cons.mp h1).1 b hb
        have r2 : r b a := (List.pairwise_cons.mp h2).1 a ha
        exact hne (has a (List.mem_cons_self _ _) b (List.mem_cons_of_mem _ hb) r1 r2)
      subst hab
      congr 1
      exact ih t2 (List.Perm.cons_inv hp) (List.pairwise_cons.mp h1).2
        (List.pairwise_cons.mp h2).2
        (fun x hx y hy => has x (List.mem_cons_of_mem _ hx) y (List.mem_cons_of_mem _ hy))

/-- The loop of `compute_weights` leaves the partition table alone. -/
theorem compute_weights_loop_partition_info :
    ∀ (l : List instruction_ref) (n : Int) (st st' : pre_scheduling_impl),
      compute_weights_loop l n st = some st' → st'.partition_info = st.partition_info := by
  intro l
  induction l with
  | nil =>
    intro n st st' h
    simp only [compute_weights_loop, Option.some.injEq] at h
    rw [← h]
  | cons a t ih =>
    intro n st st' h
    rw [compute_weights_loop] at h
    simp only at h
    split at h
    · cases h
    · exact (ih _ _ _ h).trans rfl

/-- `compute_weights` leaves the partition table alone. -/
theorem compute_weights_partition_info (st st' : pre_scheduling_impl)
    (h : st.compute_weights = some st') : st'.partition_info = st.partition_info := by
  unfold compute_weights at h
  split at h
  · cases h
  · rename_i s hs
    have := compute_weights_loop_partition_info _ _ _ _ hs
    split at h
    · simp only [Option.some.injEq] at h
      rw [← h]; exact this
    · simp only [Option.some.injEq] at h
      rw [← h]; exact this

/-- The weight sums that `compute_weights` stores depend on the graph and not
on the order in which the program lists its instructions. -/
theorem weight_sums_agree (p p' : program) (weight_func : String → Int × Bool)
    (st st' : pre_scheduling_impl)
    (hdbu : ∀ v ∈ p.instructions, ∀ u ∈ (p.ins v).inputs, p.pos u < p.pos v)
    (hperm : p'.instructions.Perm p.instructions)
    (hins : ∀ r, (p'.ins r).op = (p.ins r).op ∧ (p'.ins r).arguments = (p.ins r).arguments)
    (hwc : weights_computed p weight_func p.instructions st)
    (hwc' : weights_computed p' weight_func p'.instructions st') :
    ∀ x, (st'.nodes x).weight_sum = (st.nodes x).weight_sum := by
  have key : ∀ n x, p.pos x < n → x ∈ p.instructions →
      (st'.nodes x).weight_sum = (st.nodes x).weight_sum := by
    intro n
    induction n with
    | zero => intro x h; exact absurd h (Nat.not_lt_zero _)
    | succ n ih =>
      intro x hlt hx
      have e1 := congrArg dag_node.weight_sum (hwc.node x hx)
      have e2 := congrArg dag_node.weight_sum (hwc'.node x (hperm.mem_iff.mpr hx))
      simp only at e1 e2
      rw [e1, e2]
      have hname : (p'.ins x).name = (p.ins x).name := by
        unfold instruction.name; rw [(hins x).1]
      have hinp : (p'.ins x).inputs = (p.ins x).inputs := (hins x).2
      rw [hname, hinp]
      congr 1
      congr 1
      apply Finset.sum_congr rfl
      intro D hD
      have hD' : D ∈ (p.ins x).inputs := List.mem_toFinset.mp hD
      have hpos := hdbu x hx D hD'
      have hDm : D ∈ p.instructions := by
        apply List.indexOf_lt_length.mp
        exact lt_trans hpos (List.indexOf_lt_length.mpr hx)
      exact ih D (by omega) hDm
  intro x
  by_cases hx : x ∈ p.instructions
  · exact key (p.pos x + 1) x (Nat.lt_succ_self _) hx
  · rw [hwc.untouched x hx, hwc'.untouched x (fun h => hx (hperm.mem_iff.mp h))]

/-- `compute_weights` on the same graph listed in another order: the node
table differs in the positions only, and the exit list is the same if the
exits have pairwise different weight sums. -/
theorem compute_weights_recast (p p' : program) (weight_func : String → Int × Bool)
    (num_of_streams : Nat) (wto : dag_node → dag_node → Bool) (thr : Int)
    (srt : std_sort_fn) (hsrt : std_sort_contract srt)
    (hnd : p.instructions.Nodup)
    (hdbu : ∀ v ∈ p.instructions, ∀ u ∈ (p.ins v).inputs, p.pos u < p.pos v)
    (hnd' : p'.instructions.Nodup)
    (hdbu' : ∀ v ∈ p'.instructions, ∀ u ∈ (p'.ins v).inputs, p'.pos u < p'.pos v)
    (hperm : p'.instructions.Perm p.instructions)
    (hn : p'.next_ref = p.next_ref)
    (hins : ∀ r, (p'.ins r).op = (p.ins r).op ∧ (p'.ins r).result = (p.ins r).result ∧
      (p'.ins r).output = (p.ins r).output ∧ (p'.ins r).arguments = (p.ins r).arguments ∧
      (p'.ins r).lit = (p.ins r).lit)
    (st1 : pre_scheduling_impl)
    (h1 : (create p weight_func num_of_streams wto thr srt).compute_weights = some st1)
    (hdist : st1.exit_nodes.Pairwise
      (fun a b => (st1.nodes a).weight_sum ≠ (st1.nodes b).weight_sum)) :
    (create p' weight_func num_of_streams wto thr srt).compute_weights
      = some (recast p'.instructions
          (fun x => if x ∈ p'.instructions then (p'.instructions.indexOf x : Int) else -1)
          (fun r => ((p'.ins r).stream, (p'.ins r).mask)) st1) := by
  obtain ⟨sa, ha, hwc, hpar, _⟩ :=
    compute_weights_spec p weight_func num_of_streams wto thr srt hsrt hnd hdbu
  obtain ⟨sb, hb, _, hex, hsorted⟩ :=
    compute_weights_exits p weight_func num_of_streams wto thr srt hsrt hnd hdbu
  obtain ⟨sa', ha', hwc', hpar', _⟩ :=
    compute_weights_spec p' weight_func num_of_streams wto thr srt hsrt hnd' hdbu'
  obtain ⟨sb', hb', _, hex', hsorted'⟩ :=
    compute_weights_exits p' weight_func num_of_streams wto thr srt hsrt hnd' hdbu'
  have e1 : sa = st1 := Option.some.inj (ha.symm.trans h1)
  have e2 : sb = st1 := Option.some.inj (hb.symm.trans h1)
  have e3 : sb' = sa' := Option.some.inj (hb'.symm.trans ha')
  subst e1 e2 e3
  rw [ha']
  congr 1
  have hpi := compute_weights_partition_info _ _ ha
  have hpi' := compute_weights_partition_info _ _ ha'
  have hws := weight_sums_agree p p' weight_func sb sb' hdbu hperm
    (fun r => ⟨(hins r).1, (hins r).2.2.2.1⟩) hwc hwc'
  apply eq_of_fields
  · rw [hwc'.program]
    simp only [recast]
    rw [hwc.program]
    exact program_of_fields p p' hn hins
  · exact hpar'.weight_func.trans hpar.weight_func.symm
  · exact hpar'.num_of_streams.trans hpar.num_of_streams.symm
  · exact hpar'.weighted_topology_ordering.trans hpar.weighted_topology_ordering.symm
  · exact hpar'.min_partition_threshold.trans hpar.min_partition_threshold.symm
  · exact hpar'.std_sort.trans hpar.std_sort.symm
  · funext x
    simp only [recast]
    by_cases hx : x ∈ p'.instructions
    · have hxp : x ∈ p.instructions := hperm.mem_iff.mp hx
      have hname : (p'.ins x).name = (p.ins x).name := by
        unfold instruction.name; rw [(hins x).1]
      have n1 := hwc.node x hxp
      have n2 := hwc'.node x hx
      have w1 := congrArg dag_node.weight_sum n1
      have w2 := congrArg dag_node.weight_sum n2
      simp only at w1 w2
      rw [n2, if_pos hx, n1, ← w2, ← w1, hws x, hname]
    · have hxp : x ∉ p.instructions := fun h => hx (hperm.mem_iff.mpr h)
      rw [hwc'.untouched x hx, hwc.untouched x hxp, if_neg hx]
  · have hfil : (p'.instructions.filter (fun x => (p'.ins x).outputs.isEmpty)).Perm
        (p.instructions.filter (fun x => (p.ins x).outputs.isEmpty)) := by
      have : (fun x => (p'.ins x).outputs.isEmpty) = (fun x => (p.ins x).outputs.isEmpty) := by
        funext x
        unfold instruction.outputs
        rw [(hins x).2.2.1]
      rw [this]
      exact hperm.filter _
    have hpe : sb'.exit_nodes.Perm sb.exit_nodes := (hex'.trans hfil).trans hex.symm
    have hs' : sb'.exit_nodes.Pairwise
        (fun a b => (sb.nodes a).weight_sum ≥ (sb.nodes b).weight_sum) := by
      refine hsorted'.imp ?_
      intro a b hab
      rw [← hws a, ← hws b]
      exact hab
    have hsym : Symmetric (fun a b => (sb.nodes a).weight_sum ≠ (sb.nodes b).weight_sum) :=
      fun a b h => h.symm
    exact sorted_perm_unique _ _ _ hpe hs' hsorted (fun a ha b hb r1 r2 => by
      by_contra hne
      exact hdist.forall hsym (hpe.mem_iff.mp ha) (hpe.mem_iff.mp hb) hne (le_antisymm r2 r1))
  · funext x
    rw [hwc'.paired x]
    simp only [recast]
    rw [hwc.paired x]
    exact decide_eq_decide.mpr hperm.mem_iff
  · rw [hpi']
    simp only [recast]
    rw [hpi]
    rfl

/-- The loop of `reorder` over the exits writes partitions only. -/
theorem reorder_exits_rel : ∀ (exits : List instruction_ref) (st : pre_scheduling_impl)
    (loc : reorder_locals) (r : pre_scheduling_impl × reorder_locals),
    reorder_exits exits st loc = some r → dfs_rel st r.1 := by
  intro exits
  induction exits with
  | nil =>
    intro st loc r h
    simp only [reorder_exits, Option.some.injEq] at h
    rw [← h]
    exact dfs_rel_refl st
  | cons node rest ih =>
    intro st loc r h
    rw [reorder_exits] at h
    simp only at h
    split at h
    · cases h
    · rename_i r1 h1
      have a1 := reorder_while_rel _ _ _ r1 h1
      have a2 := ih _ _ r h
      refine dfs_rel_trans (dfs_rel_trans ?_ a1) a2
      refine ⟨rfl, ⟨rfl, rfl, rfl, rfl, rfl⟩, rfl, rfl, fun x => ?_⟩
      by_cases hx : x = node
      · subst hx
        simp [same_node_weights]
      · simp [same_node_weights, Function.update_noteq hx]

/-- The loop of `record` over the inputs leaves the stream annotations
alone. -/
theorem mark_events_stream (node : instruction_ref) (s : Int) :
    ∀ (args : List instruction_ref) (p : program) (y : instruction_ref),
      ((mark_events node s args p).ins y).stream = (p.ins y).stream := by
  intro args
  induction args with
  | nil => intro p y; rfl
  | cons a rest ih =>
    intro p y
    unfold mark_events
    simp only []
    split
    · exact ih p y
    · rw [ih]
      have e1 : ∀ (q : program) (k : instruction_ref) (m : Nat) (z : instruction_ref),
          ((q.set k ((q.ins k).add_mask m)).ins z).stream = (q.ins z).stream := by
        intro q k m z
        by_cases hz : z = k
        · subst hz
          simp only [program.set, Function.update_same]
          exact (add_mask_fields _ _).2.2.2.2.2
        · simp only [program.set, Function.update_noteq hz]
      rw [e1, e1]

/-- The loop of `record` over the outputs leaves the streams of the nodes and
their `run_on_cpu` alone. -/
theorem raise_earliest_keeps (next_cycle : Int) :
    ∀ (args : List instruction_ref) (st st' : pre_scheduling_impl),
      raise_earliest next_cycle args st = some st' →
      ∀ y, (st'.nodes y).stream = (st.nodes y).stream ∧
        (st'.nodes y).run_on_cpu = (st.nodes y).run_on_cpu := by
  intro args
  induction args with
  | nil =>
    intro st st' h y
    simp only [raise_earliest, Option.some.injEq] at h
    rw [← h]
    exact ⟨rfl, rfl⟩
  | cons a rest ih =>
    intro st st' h y
    unfold raise_earliest at h
    split at h
    · have := ih _ _ h y
      simp only at this
      by_cases hy : y = a
      · subst hy
        simpa using this
      · simpa [Function.update_noteq hy] using this
    · cases h

/-- What `record` does to the streams: the streams of the nodes stay, and the
instruction of the recorded node gets the stream of the node if the node can
use a stream. -/
theorem record_streams (st : pre_scheduling_impl) (info : stream_info) (node : instruction_ref)
    (r : pre_scheduling_impl × stream_info) (h : st.record info node = some r) :
    (∀ y, (r.1.nodes y).stream = (st.nodes y).stream ∧
      (r.1.nodes y).run_on_cpu = (st.nodes y).run_on_cpu) ∧
    ∀ x, (r.1.p_program.ins x).stream =
      if x = node ∧ (st.nodes node).can_use_stream = true then (st.nodes node).stream
      else (st.p_program.ins x).stream := by
  rw [record_form st info node _ _ _ rfl rfl rfl _ rfl _ rfl] at h
  split at h
  · cases h
  · rename_i s2 h2
    have hk := raise_earliest_keeps _ _ _ _ h2
    have hp := raise_earliest_program _ _ _ _ h2
    simp only at hp
    have hk' : ∀ y, (s2.nodes y).stream = (st.nodes y).stream ∧
        (s2.nodes y).run_on_cpu = (st.nodes y).run_on_cpu := by
      intro y
      have := hk y
      by_cases hy : y = node
      · subst hy
        simpa using this
      · simpa [Function.update_noteq hy] using this
    have hcu : (s2.nodes node).can_use_stream = (st.nodes node).can_use_stream := by
      unfold dag_node.can_use_stream
      rw [(hk' node).2]
    rw [hcu] at h
    by_cases hc : (st.nodes node).can_use_stream = true
    · rw [if_pos hc] at h
      simp only [Option.some.injEq] at h
      rw [← h]
      refine ⟨hk', fun x => ?_⟩
      simp only
      rw [mark_events_stream, hp]
      by_cases hx : x = node
      · subst hx
        simp [program.set, instruction.set_stream, hc]
      · simp [program.set, Function.update_noteq hx, hx]
    · rw [if_neg hc] at h
      simp only [Option.some.injEq] at h
      rw [← h]
      refine ⟨hk', fun x => ?_⟩
      simp only
      rw [hp]
      simp [hc]

/-- What the loop of `schedule` does to the streams: an instruction gets the
stream of its node if the node is walked and can use a stream, and keeps its
stream otherwise. -/
theorem schedule_loop_streams :
    ∀ (rest : List instruction_ref) (st : pre_scheduling_impl) (info : stream_info)
      (p2s : Int → Option Int) (queue : List instruction_ref)
      (r : pre_scheduling_impl × stream_info × (Int → Option Int) × List instruction_ref),
      rest.Nodup → schedule_loop rest st info p2s queue = some r →
      (∀ y, (r.1.nodes y).run_on_cpu = (st.nodes y).run_on_cpu) ∧
      (∀ y, y ∉ rest → (r.1.nodes y).stream = (st.nodes y).stream) ∧
      ∀ x, (r.1.p_program.ins x).stream =
        if x ∈ rest ∧ (st.nodes x).can_use_stream = true then (r.1.nodes x).stream
        else (st.p_program.ins x).stream := by
  intro rest
  induction rest with
  | nil =>
    intro st info p2s queue r _ h
    simp only [schedule_loop, Option.some.injEq] at h
    rw [← h]
    exact ⟨fun _ => rfl, fun _ _ => rfl, fun x => by simp⟩
  | cons node rest ih =>
    intro st info p2s queue r hnd h
    rw [schedule_loop_cons node rest st info p2s queue _ rfl _ rfl] at h
    split at h
    · cases h
    · split at h
      · cases h
      · split at h
        · cases h
        · rename_i r1 h1
          obtain ⟨k1, k2⟩ := record_streams _ info node r1 h1
          obtain ⟨i1, i2, i3⟩ := ih _ _ _ _ r (List.nodup_cons.mp hnd).2 h
          have hnr : node ∉ rest := (List.nodup_cons.mp hnd).1
          have hcpu : ∀ y, (r1.1.nodes y).run_on_cpu = (st.nodes y).run_on_cpu := by
            intro y
            rw [(k1 y).2]
            by_cases hy : y = node
            · subst hy; simp
            · simp [Function.update_noteq hy]
          refine ⟨fun y => (i1 y).trans (hcpu y), ?_, ?_⟩
          · intro y hy
            have hy1 : y ≠ node := fun e => hy (e ▸ List.mem_cons_self _ _)
            have hy2 : y ∉ rest := fun e => hy (List.mem_cons_of_mem _ e)
            rw [i2 y hy2, (k1 y).1]
            simp [Function.update_noteq hy1]
          · intro x
            rw [i3 x, k2 x]
            have hcx : (r1.1.nodes x).can_use_stream = (st.nodes x).can_use_stream := by
              unfold dag_node.can_use_stream
              rw [hcpu x]
            rw [hcx]
            by_cases hx : x = node
            · subst hx
              have hs : (r.1.nodes x).stream
                  = (match p2s (st.nodes x).partition with
                    | some s => s
                    | none => st.get_stream info x) := by
                rw [i2 x hnr, (k1 x).1]
                simp
              have hc1 : ∀ (v : dag_node), ({ v with stream :=
                  (match p2s (st.nodes x).partition with
                    | some s => s
                    | none => st.get_stream info x) } : dag_node).can_use_stream
                  = v.can_use_stream := fun v => rfl
              simp only [Function.update_same, hc1, hs, hnr, false_and, if_false, true_and,
                List.mem_cons, true_or]
            · by_cases hm : x ∈ rest
              · by_cases hc : (st.nodes x).can_use_stream = true
                · simp [hm, hc, hx]
                · simp [hm, hc, hx]
              · simp [hm, hx]

/-- In a list without repetition every element stands at a lower index than
the elements after it. -/
theorem pairwise_indexOf_lt : ∀ (l : List instruction_ref), l.Nodup →
    l.Pairwise (fun a b => l.indexOf a < l.indexOf b) := by
  intro l
  induction l with
  | nil => intro _; exact List.Pairwise.nil
  | cons a t ih =>
    intro hnd
    obtain ⟨hat, hnt⟩ := List.nodup_cons.mp hnd
    refine List.pairwise_cons.mpr ⟨?_, ?_⟩
    · intro b hb
      have hne : b ≠ a := fun e => hat (e ▸ hb)
      rw [List.indexOf_cons_self, List.indexOf_cons_ne _ hne.symm]
      exact Nat.succ_pos _
    · refine (ih hnt).imp_of_mem ?_
      intro x y hx hy hxy
      have hx1 : x ≠ a := fun e => hat (e ▸ hx)
      have hy1 : y ≠ a := fun e => hat (e ▸ hy)
      rw [List.indexOf_cons_ne _ hx1.symm, List.indexOf_cons_ne _ hy1.symm]
      exact Nat.succ_lt_succ hxy

/-- Emptying the queue of `schedule` again, with the positions of its first
result as the tiebreak, gives that result again. -/
theorem post_schedule_again (st : pre_scheduling_impl) (l : List instruction_ref)
    (hnd : l.Nodup) (L3 : List instruction_ref)
    (hL3 : L3 = pq_pop_all (fun a b => post_schedule_ordering (st.nodes a) (st.nodes b)) l)
    (L : List instruction_ref) (ann : instruction_ref → Int × Nat) :
    pq_pop_all (fun a b => post_schedule_ordering
        ((recast L (fun x => if x ∈ L3 then (L3.indexOf x : Int) else -1) ann st).nodes a)
        ((recast L (fun x => if x ∈ L3 then (L3.indexOf x : Int) else -1) ann st).nodes b)) l
      = L3 := by
  have hp3 : L3.Perm l := by rw [hL3]; exact pq_pop_all_perm _ l
  have hnd3 : L3.Nodup := hp3.nodup_iff.mpr hnd
  have hs3 : L3.Pairwise
      (fun a b => post_schedule_ordering (st.nodes a) (st.nodes b) = false) := by
    rw [hL3]; exact post_schedule_sorted st l
  apply sorted_perm_unique (fun a b => post_schedule_ordering
        ((recast L (fun x => if x ∈ L3 then (L3.indexOf x : Int) else -1) ann st).nodes a)
        ((recast L (fun x => if x ∈ L3 then (L3.indexOf x : Int) else -1) ann st).nodes b)
        = false)
  · exact (pq_pop_all_perm _ l).trans hp3.symm
  · exact post_schedule_sorted _ l
  · refine ((hs3.and (pairwise_indexOf_lt L3 hnd3)).imp_of_mem ?_)
    intro a b ha hb hab
    obtain ⟨h1, h2⟩ := hab
    rw [post_schedule_ordering_false_iff] at h1 ⊢
    simp only [recast, if_pos ha, if_pos hb]
    rcases h1 with h | h
    · exact Or.inl h
    · exact Or.inr ⟨h.1, by exact_mod_cast le_of_lt h2⟩
  · intro a ha b hb r1 r2
    have ha3 : a ∈ L3 := hp3.mem_iff.mpr ((pq_pop_all_perm _ l).mem_iff.mp ha)
    have hb3 : b ∈ L3 := hp3.mem_iff.mpr ((pq_pop_all_perm _ l).mem_iff.mp hb)
    rw [post_schedule_ordering_false_iff] at r1 r2
    simp only [recast, if_pos ha3, if_pos hb3] at r1 r2
    have : L3.indexOf a = L3.indexOf b := by
      rcases r1 with h | h <;> rcases r2 with h' | h' <;> omega
    exact (List.indexOf_inj ha3 hb3).mp this

end pre_scheduling_impl

/-- C26 (counterexample): the sinks `E` and `Z` of `tie_example` have the same
weight sum.  With two streams the first run leaves the order `X`, `Z`, `E`
with `X` and `E` on stream `0` and `Z` on stream `1`; the second run, on that
program, keeps the order and puts `X` and `E` on stream `1` and `Z` on stream
`0`, because the exit that stands first in the program is now `Z`. -/
theorem C26_tie_counterexample :
    ((pre_scheduling_impl.create tie_example tie_weights 2 by_weight_sum 2
        stable_sort).run.bind (fun st1 =>
      (pre_scheduling_impl.create st1.p_program tie_weights 2 by_weight_sum 2
          stable_sort).run.map (fun st2 =>
        (st1.p_program.instructions,
          [0, 1, 2].map (fun x => (st1.p_program.ins x).get_stream),
          st2.p_program.instructions,
          [0, 1, 2].map (fun x => (st2.p_program.ins x).get_stream)))))
      = some ([0, 2, 1], [0, 0, 1], [0, 2, 1], [1, 1, 0]) := by
  rfl

/-- C35 (evaluation at the failing inputs): on a well-formed program that
consists of exactly one instruction, the list handed to `splice` has one
element, so the first `iter--` of its `do ... while` steps before `begin()`:
the run has no defined result, for every weight function, number of streams,
comparator, threshold and `std::sort`. -/
theorem C35_single_instruction_splice (p : program) (hwf : p.well_formed)
    (weight_func : String → Int × Bool) (num_of_streams : Nat)
    (wto : dag_node → dag_node → Bool) (thr : Int) (srt : std_sort_fn)
    (hsrt : std_sort_contract srt) (hlen : p.instructions.length = 1) :
    (pre_scheduling_impl.create p weight_func num_of_streams wto thr srt).run = none := by
  obtain ⟨st1, st2, loc, st3, L3, _, _, _, hrun, _, _, _, _, hperm, _, _⟩ :=
    pre_scheduling_impl.run_stages p hwf weight_func num_of_streams wto thr srt hsrt
      (by rw [hlen]; decide)
  rw [hrun]
  have h1 : L3.length = 1 := by rw [hperm.length_eq, hlen]
  match L3, h1 with
  | [x], _ => rfl

theorem C35_single_instruction_splice_witness :
    (pre_scheduling_impl.create single_example (fun _ => (1, false)) 2 by_weight_sum 2
      stable_sort).run = none :=
  C35_single_instruction_splice single_example (by decide) (fun _ => (1, false)) 2 by_weight_sum 2
    stable_sort stable_sort_contract (by decide)

/-- The conv-like encoding of in-range fields: the encoder returns a valid
key, which is the sum of the four shifted fields, and the generic encoder
returns the sum of the first two. -/
theorem conv_key_of_fields (p : program) (ins : instruction_ref) (v : Ins2Val)
    (opcode id : Nat) (a b : instruction_ref) (rest : List instruction_ref)
    (pre : List Nat) (f k : Nat)
    (hin : (p.ins ins).inputs = a :: b :: rest) (hval : v a = some id)
    (hl : (p.ins b).get_shape.lens = pre ++ [f, k])
    (ho : opcode < 2 ^ 16) (hi : id < 2 ^ 16) (hf : f < 2 ^ 8) (hk : k < 2 ^ 8) :
    EncodeConvCommon p ins v opcode
      = some { key := opcode * 2 ^ 48 + id * 2 ^ 32 + f * 2 ^ 24 + k * 2 ^ 16,
               valid := true, inputs := [id] } ∧
    EncodeCommon p ins v opcode
      = some { key := opcode * 2 ^ 48 + id * 2 ^ 32, valid := true, inputs := [id] } := by
  have hgen : EncodeCommon p ins v opcode
      = some { key := opcode * 2 ^ 48 + id * 2 ^ 32, valid := true, inputs := [id] } := by
    rw [EncodeCommon_of_fields p ins v opcode a id (b :: rest) hin hval,
      if_neg (by omega), generic_key_eq opcode id ho hi]
  refine ⟨?_, hgen⟩
  rw [EncodeConvCommon_of_fields p ins v opcode _ a b rest pre f k hgen hin hl]
  have hsum := conv_key_eq (opcode * 2 ^ 16 + id) f k hf hk
  have e : (opcode * 2 ^ 16 + id) * 2 ^ 32 = opcode * 2 ^ 48 + id * 2 ^ 32 := by ring
  rw [e] at hsum
  simp only [Bool.true_eq_false, if_false, if_pos (And.intro hf hk), hsum]

/-- C31: for opcodes and first-input ids below `2^16` and filter and kernel
dimensions below `2^8`, the conv-like encoder returns valid keys, and the keys
of two instructions are equal exactly when opcode, first-input id, filter and
kernel are all equal; the four fields are recovered from the key by shifting
and masking; and the generic key of the instruction is the conv-like key when
filter and kernel are `0`, also when these belong to another instruction with
the same opcode and first-input id. -/
theorem C31_conv_key_injective (p1 p2 : program) (ins1 ins2 : instruction_ref)
    (v1 v2 : Ins2Val) (opcode1 opcode2 id1 id2 : Nat) (a1 b1 a2 b2 : instruction_ref)
    (rest1 rest2 : List instruction_ref) (pre1 pre2 : List Nat) (f1 k1 f2 k2 : Nat)
    (hin1 : (p1.ins ins1).inputs = a1 :: b1 :: rest1) (hval1 : v1 a1 = some id1)
    (hl1 : (p1.ins b1).get_shape.lens = pre1 ++ [f1, k1])
    (hin2 : (p2.ins ins2).inputs = a2 :: b2 :: rest2) (hval2 : v2 a2 = some id2)
    (hl2 : (p2.ins b2).get_shape.lens = pre2 ++ [f2, k2])
    (ho1 : opcode1 < 2 ^ 16) (hi1 : id1 < 2 ^ 16) (hf1 : f1 < 2 ^ 8) (hk1 : k1 < 2 ^ 8)
    (ho2 : opcode2 < 2 ^ 16) (hi2 : id2 < 2 ^ 16) (hf2 : f2 < 2 ^ 8) (hk2 : k2 < 2 ^ 8) :
    ∃ key1 key2 g1,
      EncodeConvCommon p1 ins1 v1 opcode1
        = some { key := key1, valid := true, inputs := [id1] } ∧
      EncodeConvCommon p2 ins2 v2 opcode2
        = some { key := key2, valid := true, inputs := [id2] } ∧
      (key1 = key2 ↔ opcode1 = opcode2 ∧ id1 = id2 ∧ f1 = f2 ∧ k1 = k2) ∧
      key1 >>> 48 = opcode1 ∧ (key1 >>> 32) &&& (2 ^ 16 - 1) = id1 ∧
      (key1 >>> 24) &&& (2 ^ 8 - 1) = f1 ∧ (key1 >>> 16) &&& (2 ^ 8 - 1) = k1 ∧
      EncodeCommon p1 ins1 v1 opcode1 = some { key := g1, valid := true, inputs := [id1] } ∧
      (f1 = 0 → k1 = 0 → key1 = g1) ∧
      (opcode2 = opcode1 → id2 = id1 → f2 = 0 → k2 = 0 → key2 = g1) := by
  obtain ⟨c1, g1⟩ := conv_key_of_fields p1 ins1 v1 opcode1 id1 a1 b1 rest1 pre1 f1 k1 hin1 hval1
    hl1 ho1 hi1 hf1 hk1
  obtain ⟨c2, _⟩ := conv_key_of_fields p2 ins2 v2 opcode2 id2 a2 b2 rest2 pre2 f2 k2 hin2 hval2
    hl2 ho2 hi2 hf2 hk2
  refine ⟨_, _, _, c1, c2, ?_, ?_, ?_, ?_, ?_, g1, ?_, ?_⟩
  · constructor
    · intro h; omega
    · rintro ⟨rfl, rfl, rfl, rfl⟩; rfl
  · rw [Nat.shiftRight_eq_div_pow]; omega
  · rw [Nat.shiftRight_eq_div_pow, Nat.and_pow_two_sub_one_eq_mod]; omega
  · rw [Nat.shiftRight_eq_div_pow, Nat.and_pow_two_sub_one_eq_mod]; omega
  · rw [Nat.shiftRight_eq_div_pow, Nat.and_pow_two_sub_one_eq_mod]; omega
  · intro h1 h2; subst h1 h2; omega
  · intro h1 h2 h3 h4; subst h1 h2 h3 h4; omega

theorem C31_conv_key_injective_witness :
    ∃ key1 key2 g1,
      EncodeConvCommon conv_example 2 conv_example_values 7
        = some { key := key1, valid := true, inputs := [5] } ∧
      EncodeConvCommon conv_example 2 conv_example_values 3
        = some { key := key2, valid := true, inputs := [5] } ∧
      (key1 = key2 ↔ 7 = 3 ∧ 5 = 5 ∧ 3 = 3 ∧ 5 = 5) ∧
      key1 >>> 48 = 7 ∧ (key1 >>> 32) &&& (2 ^ 16 - 1) = 5 ∧
      (key1 >>> 24) &&& (2 ^ 8 - 1) = 3 ∧ (key1 >>> 16) &&& (2 ^ 8 - 1) = 5 ∧
      EncodeCommon conv_example 2 conv_example_values 7
        = some { key := g1, valid := true, inputs := [5] } ∧
      (3 = 0 → 5 = 0 → key1 = g1) ∧
      (3 = 7 → 5 = 5 → 3 = 0 → 5 = 0 → key2 = g1) :=
  C31_conv_key_injective conv_example conv_example 2 2 conv_example_values conv_example_values
    7 3 5 5 0 1 0 1 [] [] [4, 3] [4, 3] 3 5 3 5 (by rfl) (by rfl) (by rfl) (by rfl) (by rfl)
    (by rfl) (by norm_num) (by norm_num) (by norm_num) (by norm_num) (by norm_num) (by norm_num)
    (by norm_num) (by norm_num)

namespace horizontal_fusion_impl

/-- Marking an unvisited instruction of a list leaves fewer unvisited
instructions in the list. -/
theorem unvisited_update_lt (visited : instruction_ref → Bool) (top : instruction_ref)
    (hv : visited top = false) :
    ∀ (l : List instruction_ref),
      (l.filter (fun x => !(Function.update visited top true x))).length
        ≤ (l.filter (fun x => !visited x)).length ∧
      (top ∈ l →
        (l.filter (fun x => !(Function.update visited top true x))).length + 1
          ≤ (l.filter (fun x => !visited x)).length) := by
  intro l
  induction l with
  | nil => exact ⟨le_refl _, fun h => by cases h⟩
  | cons a t ih =>
    by_cases ha : a = top
    · subst ha
      have e1 : ((a :: t).filter (fun x => !(Function.update visited a true x)))
          = t.filter (fun x => !(Function.update visited a true x)) := by
        rw [List.filter_cons_of_neg]
        simp
      have e2 : ((a :: t).filter (fun x => !visited x))
          = a :: t.filter (fun x => !visited x) := by
        rw [List.filter_cons_of_pos]
        simp [hv]
      rw [e1, e2]
      simp only [List.length_cons]
      exact ⟨Nat.le_succ_of_le ih.1, fun _ => Nat.succ_le_succ ih.1⟩
    · have hu : Function.update visited top true a = visited a := Function.update_noteq ha _ _
      by_cases hva : visited a = true
      · have e1 : ((a :: t).filter (fun x => !(Function.update visited top true x)))
            = t.filter (fun x => !(Function.update visited top true x)) := by
          rw [List.filter_cons_of_neg]
          simp [hu, hva]
        have e2 : ((a :: t).filter (fun x => !visited x)) = t.filter (fun x => !visited x) := by
          rw [List.filter_cons_of_neg]
          simp [hva]
        rw [e1, e2]
        refine ⟨ih.1, fun h => ih.2 ?_⟩
        rcases List.mem_cons.mp h with h | h
        · exact absurd h.symm ha
        · exact h
      · have hva' : visited a = false := by simpa using hva
        have e1 : ((a :: t).filter (fun x => !(Function.update visited top true x)))
            = a :: t.filter (fun x => !(Function.update visited top true x)) := by
          rw [List.filter_cons_of_pos]
          simp [hu, hva']
        have e2 : ((a :: t).filter (fun x => !visited x))
            = a :: t.filter (fun x => !visited x) := by
          rw [List.filter_cons_of_pos]
          simp [hva']
        rw [e1, e2]
        simp only [List.length_cons]
        refine ⟨Nat.succ_le_succ ih.1, fun h => Nat.succ_le_succ (ih.2 ?_)⟩
        rcases List.mem_cons.mp h with h | h
        · exact absurd h.symm ha
        · exact h

/-- One iteration of the loop of `walk` returns, pops the stack, or marks the
unvisited top as visited and pushes its first input. -/
theorem walk_loop_iteration (p : program) (fuel : Nat) (top : instruction_ref)
    (stk : List instruction_ref) (visited : instruction_ref → Bool)
    (ret : List instruction_ref) :
    walk_loop p (fuel + 1) (top :: stk) visited ret = some ([], visited) ∨
    walk_loop p (fuel + 1) (top :: stk) visited ret
      = walk_loop p fuel stk visited (ret ++ [top]) ∨
    (visited top = false ∧ ∃ input, input ∈ (p.ins top).inputs ∧
      walk_loop p (fuel + 1) (top :: stk) visited ret
        = walk_loop p fuel (input :: top :: stk) (Function.update visited top true) ret) := by
  rw [walk_loop]
  by_cases h1 : (p.ins top).inputs.length > 1 ∨ (p.ins top).outputs.length > 1
      ∨ ((p.ins top).inputs.isEmpty ∧ (p.ins top).name ≠ "@literal")
  · left
    rw [if_pos h1]
  · rw [if_neg h1]
    by_cases h2 : (p.ins top).inputs.isEmpty ∨ visited top
    · right; left
      rw [if_pos h2]
    · right; right
      rw [if_neg h2]
      have hv : visited top = false := by
        cases hvt : visited top with
        | false => rfl
        | true => exact absurd (Or.inr hvt) h2
      refine ⟨hv, ?_⟩
      cases hin : (p.ins top).inputs with
      | nil => exact absurd (Or.inl (by rw [hin]; rfl)) h2
      | cons input rest => exact ⟨input, List.mem_cons_self _ _, rfl⟩

/-- The loop of `walk` ends within as many iterations as the stack has elements
plus twice the number of unvisited instructions of the program, whatever the
input edges are. -/
theorem walk_loop_total (p : program)
    (hcl : ∀ v ∈ p.instructions, ∀ u ∈ (p.ins v).inputs, u ∈ p.instructions) :
    ∀ (fuel : Nat) (stk : List instruction_ref) (visited : instruction_ref → Bool)
      (ret : List instruction_ref),
      (∀ x ∈ stk, x ∈ p.instructions) →
      stk.length + 2 * (p.instructions.filter (fun x => !visited x)).length ≤ fuel →
      ∃ r, walk_loop p fuel stk visited ret = some r := by
  intro fuel
  induction fuel with
  | zero =>
    intro stk visited ret _ hle
    cases stk with
    | nil => exact ⟨_, by rw [walk_loop]⟩
    | cons a t => simp at hle
  | succ f ih =>
    intro stk visited ret hmem hle
    cases stk with
    | nil => exact ⟨_, by rw [walk_loop]⟩
    | cons top stk =>
      have htop : top ∈ p.instructions := hmem top (List.mem_cons_self _ _)
      have hrest : ∀ x ∈ stk, x ∈ p.instructions :=
        fun x hx => hmem x (List.mem_cons_of_mem _ hx)
      rcases walk_loop_iteration p f top stk visited ret with h | h | ⟨hv, input, hi, h⟩
      · exact ⟨_, h⟩
      · rw [h]
        apply ih stk visited _ hrest
        simp only [List.length_cons] at hle
        omega
      · rw [h]
        apply ih
        · intro x hx
          rcases List.mem_cons.mp hx with rfl | hx
          · exact hcl top htop _ hi
          · exact hmem x hx
        · have := (unvisited_update_lt visited top hv p.instructions).2 htop
          simp only [List.length_cons] at hle ⊢
          omega

/-- More iterations allowed do not change what the loop of `walk` returns. -/
theorem walk_loop_mono (p : program) :
    ∀ (fuel : Nat) (stk : List instruction_ref) (visited : instruction_ref → Bool)
      (ret : List instruction_ref) (r : List instruction_ref × (instruction_ref → Bool)),
      walk_loop p fuel stk visited ret = some r →
      walk_loop p (fuel + 1) stk visited ret = some r := by
  intro fuel
  induction fuel with
  | zero =>
    intro stk visited ret r h
    cases stk with
    | nil => rw [walk_loop] at h ⊢; exact h
    | cons a t => rw [walk_loop] at h; cases h
  | succ f ih =>
    intro stk visited ret r h
    cases stk with
    | nil => rw [walk_loop] at h ⊢; exact h
    | cons top stk =>
      rw [walk_loop] at h ⊢
      by_cases h1 : (p.ins top).inputs.length > 1 ∨ (p.ins top).outputs.length > 1
          ∨ ((p.ins top).inputs.isEmpty ∧ (p.ins top).name ≠ "@literal")
      · rw [if_pos h1] at h ⊢
        exact h
      · rw [if_neg h1] at h ⊢
        by_cases h2 : (p.ins top).inputs.isEmpty ∨ visited top
        · rw [if_pos h2] at h ⊢
          exact ih _ _ _ r h
        · rw [if_neg h2] at h ⊢
          generalize (p.ins top).inputs = l at h ⊢
          cases l with
          | nil => cases h
          | cons input rest => exact ih _ _ _ r h

end horizontal_fusion_impl

/-- C37: on a program whose input edges stay inside the program (they may
contain cycles), for every instruction `ins` with inputs in the program and
every initial map `visited`: an iteration of the loop of `walk` returns, pops
the stack, or marks the unvisited top as visited and pushes its first input;
the loop ends within `|inputs of ins| + 2 * |instructions|` iterations; and
`walk` returns what the loop returns within that many iterations. -/
theorem C37_walk_terminates (st : horizontal_fusion_impl) (ins : instruction_ref)
    (visited : instruction_ref → Bool)
    (hin : ∀ u ∈ (st.p_program.ins ins).inputs, u ∈ st.p_program.instructions)
    (hcl : ∀ v ∈ st.p_program.instructions, ∀ u ∈ (st.p_program.ins v).inputs,
      u ∈ st.p_program.instructions) :
    (∀ (fuel : Nat) (top : instruction_ref) (stk : List instruction_ref)
        (vis : instruction_ref → Bool) (ret : List instruction_ref),
      horizontal_fusion_impl.walk_loop st.p_program (fuel + 1) (top :: stk) vis ret
        = some ([], vis) ∨
      horizontal_fusion_impl.walk_loop st.p_program (fuel + 1) (top :: stk) vis ret
        = horizontal_fusion_impl.walk_loop st.p_program fuel stk vis (ret ++ [top]) ∨
      (vis top = false ∧ ∃ input, input ∈ (st.p_program.ins top).inputs ∧
        horizontal_fusion_impl.walk_loop st.p_program (fuel + 1) (top :: stk) vis ret
          = horizontal_fusion_impl.walk_loop st.p_program fuel (input :: top :: stk)
              (Function.update vis top true) ret)) ∧
    ∃ r,
      horizontal_fusion_impl.walk_loop st.p_program
        ((st.p_program.ins ins).inputs.length + 2 * st.p_program.instructions.length)
        ((st.p_program.ins ins).inputs.filter (fun input => !visited input)).reverse
        visited [] = some r ∧
      st.walk ins visited = some r := by
  refine ⟨fun fuel top stk vis ret =>
    horizontal_fusion_impl.walk_loop_iteration st.p_program fuel top stk vis ret, ?_⟩
  obtain ⟨r, hr⟩ := horizontal_fusion_impl.walk_loop_total st.p_program hcl
    ((st.p_program.ins ins).inputs.length + 2 * st.p_program.instructions.length)
    ((st.p_program.ins ins).inputs.filter (fun input => !visited input)).reverse visited []
    (by
      intro x hx
      exact hin x (List.mem_filter.mp (List.mem_reverse.mp hx)).1)
    (by
      have h1 := List.length_filter_le (fun input => !visited input)
        (st.p_program.ins ins).inputs
      have h2 := List.length_filter_le (fun x => !visited x) st.p_program.instructions
      rw [List.length_reverse]
      omega)
  exact ⟨r, hr, horizontal_fusion_impl.walk_loop_mono st.p_program _ _ _ _ r hr⟩

theorem C37_walk_terminates_witness :
    (∀ (fuel : Nat) (top : instruction_ref) (stk : List instruction_ref)
        (vis : instruction_ref → Bool) (ret : List instruction_ref),
      horizontal_fusion_impl.walk_loop
          (horizontal_fusion_impl.create cycle_example).p_program (fuel + 1) (top :: stk) vis ret
        = some ([], vis) ∨
      horizontal_fusion_impl.walk_loop
          (horizontal_fusion_impl.create cycle_example).p_program (fuel + 1) (top :: stk) vis ret
        = horizontal_fusion_impl.walk_loop
            (horizontal_fusion_impl.create cycle_example).p_program fuel stk vis (ret ++ [top]) ∨
      (vis top = false ∧ ∃ input,
        input ∈ ((horizontal_fusion_impl.create cycle_example).p_program.ins top).inputs ∧
        horizontal_fusion_impl.walk_loop
            (horizontal_fusion_impl.create cycle_example).p_program (fuel + 1) (top :: stk) vis ret
          = horizontal_fusion_impl.walk_loop
              (horizontal_fusion_impl.create cycle_example).p_program fuel (input :: top :: stk)
              (Function.update vis top true) ret)) ∧
    ∃ r,
      horizontal_fusion_impl.walk_loop (horizontal_fusion_impl.create cycle_example).p_program
        (((horizontal_fusion_impl.create cycle_example).p_program.ins 2).inputs.length
          + 2 * (horizontal_fusion_impl.create cycle_example).p_program.instructions.length)
        (((horizontal_fusion_impl.create cycle_example).p_program.ins 2).inputs.filter
          (fun input => !(fun _ => false) input)).reverse
        (fun _ => false) [] = some r ∧
      (horizontal_fusion_impl.create cycle_example).walk 2 (fun _ => false) = some r :=
  C37_walk_terminates (horizontal_fusion_impl.create cycle_example) 2 (fun _ => false)
    (by decide) (by decide)

/-- C34 (evaluation at the failing input): `three_conv_example` has three
sibling convolutions whose consumers are, in order, a `tanh`, a `concat` and a
`tanh`.  The hashing phase and the cluster loop fuse the convolutions into the
instruction `5`; the tail part inserts the split `12` with the selector
`(0, 2)` and finds `enum2_concat` set for the index `1` only.  The round for
the first consumer (index `0`) inserts a load and leaves the selector `(0, 2)`;
the round for the second consumer calls `break_split(1, split)`, whose
assertion `enum_ndx == first || enum_ndx == second` fails, and so the tail
loop and the pass as a whole have no defined result. -/
theorem C34_break_split_interior_index :
    ((((horizontal_fusion_impl.create three_conv_example).hashing_phase
          three_conv_example.instructions).bind (fun st =>
        horizontal_fusion_impl.transform_cluster branch_env [1] st {})).bind (fun r =>
      (r.1.insert_tail_split r.2 branch_env.op_shape).map (fun o => o.map (fun t =>
        (t.2.split_ins, (t.1.p_program.ins t.2.split_ins).op.params, t.2.outputs,
          t.2.outputs.map t.2.enum_in_cluster, [0, 1, 2].map t.2.enum2_concat)))))
      = some (some (12, op_params.split 1 [1, 1, 1] (0, 2), [8, 9, 10],
          [some 0, some 1, some 2], [none, some true, none])) ∧
    ((((horizontal_fusion_impl.create three_conv_example).hashing_phase
          three_conv_example.instructions).bind (fun st =>
        horizontal_fusion_impl.transform_cluster branch_env [1] st {})).bind (fun r =>
      (r.1.insert_tail_split r.2 branch_env.op_shape).bind (fun o => o.bind (fun t =>
        (horizontal_fusion_impl.tail_step
            (horizontal_fusion_impl.make_tail_env t.1 r.2 t.2 branch_env.type_size
              branch_env.op_shape) (t.1, fun _ => none) 8).map (fun acc =>
          ((acc.1.p_program.ins 12).op.params,
            (acc.1.break_split branch_env.op_shape 1 12).isNone,
            (horizontal_fusion_impl.tail_step
              (horizontal_fusion_impl.make_tail_env t.1 r.2 t.2 branch_env.type_size
                branch_env.op_shape) acc 9).isNone)))))
      = some (op_params.split 1 [1, 1, 1] (0, 2), true, true)) ∧
    ((horizontal_fusion_impl.create three_conv_example).run branch_env).isNone = true := by
  refine ⟨by rfl, by rfl, by rfl⟩

namespace pre_scheduling_impl

/-- `get_stream` returns one of the streams. -/
theorem get_stream_lt (st : pre_scheduling_impl) (info : stream_info) (node : instruction_ref)
    (hS : 1 ≤ st.num_of_streams) :
    ∃ r : Nat, st.get_stream info node = (r : Int) ∧ r < st.num_of_streams := by
  unfold get_stream
  simp only
  by_cases h0 : info.max_cycle = 0
  · rw [if_pos h0]
    exact ⟨0, rfl, hS⟩
  · rw [if_neg h0]
    obtain ⟨r, h1, h2, _⟩ := get_stream_loop_spec info
      (st.partition_info.weight_sum (st.nodes node).partition) (st.nodes node).earliest_cycle
      info.max_cycle st.num_of_streams 0 (-1) (-1) (by omega)
      (fun s hs => absurd hs (Nat.not_lt_zero s)) (Or.inl ⟨rfl, rfl⟩)
    rw [← List.range_eq_range'] at h1
    exact ⟨r, h1, by omega⟩

/-- The loop of `record` over the outputs writes `earliest_cycle` only. -/
theorem raise_earliest_fields (next_cycle : Int) :
    ∀ (args : List instruction_ref) (st st' : pre_scheduling_impl),
      raise_earliest next_cycle args st = some st' →
      st'.num_of_streams = st.num_of_streams ∧
      ∀ y, (st'.nodes y).stream = (st.nodes y).stream ∧
        (st'.nodes y).sched_cycle = (st.nodes y).sched_cycle ∧
        (st'.nodes y).weight = (st.nodes y).weight := by
  intro args
  induction args with
  | nil =>
    intro st st' h
    simp only [raise_earliest, Option.some.injEq] at h
    rw [← h]
    exact ⟨rfl, fun _ => ⟨rfl, rfl, rfl⟩⟩
  | cons a rest ih =>
    intro st st' h
    unfold raise_earliest at h
    split at h
    · obtain ⟨i1, i2⟩ := ih _ _ h
      refine ⟨i1, fun y => ?_⟩
      have := i2 y
      simp only at this
      by_cases hy : y = a
      · subst hy
        simpa using this
      · simpa [Function.update_noteq hy] using this
    · cases h

/-- What `record` does to the cycles: the node starts at the later of its
`earliest_cycle` and the next free cycle of its stream, the stream is busy
until the node ends, and `max_cycle` is raised to that cycle if it was
lower. -/
theorem record_cycles (st : pre_scheduling_impl) (info : stream_info) (node : instruction_ref)
    (r : pre_scheduling_impl × stream_info) (h : st.record info node = some r) :
    r.1.num_of_streams = st.num_of_streams ∧
    r.2.next_cycles = Function.update info.next_cycles (st.nodes node).stream.toNat
      (to_int (max (st.nodes node).earliest_cycle (info.next_cycles (st.nodes node).stream.toNat)
        + (st.nodes node).weight)) ∧
    r.2.max_cycle = max info.max_cycle
      (to_int (max (st.nodes node).earliest_cycle (info.next_cycles (st.nodes node).stream.toNat)
        + (st.nodes node).weight)) ∧
    (r.1.nodes node).sched_cycle
      = max (st.nodes node).earliest_cycle (info.next_cycles (st.nodes node).stream.toNat) ∧
    (∀ y, y ≠ node → (r.1.nodes y).sched_cycle = (st.nodes y).sched_cycle) ∧
    ∀ y, (r.1.nodes y).stream = (st.nodes y).stream ∧
      (r.1.nodes y).weight = (st.nodes y).weight := by
  rw [record_form st info node _ _ _ rfl rfl rfl _ rfl _ rfl] at h
  split at h
  · cases h
  · rename_i s2 h2
    obtain ⟨k1, k2⟩ := raise_earliest_fields _ _ _ _ h2
    have hk : (s2.nodes node).sched_cycle
          = max (st.nodes node).earliest_cycle (info.next_cycles (st.nodes node).stream.toNat) ∧
        (∀ y, y ≠ node → (s2.nodes y).sched_cycle = (st.nodes y).sched_cycle) ∧
        ∀ y, (s2.nodes y).stream = (st.nodes y).stream ∧
          (s2.nodes y).weight = (st.nodes y).weight := by
      refine ⟨?_, ?_, ?_⟩
      · rw [(k2 node).2.1]
        simp
      · intro y hy
        rw [(k2 y).2.1]
        simp [Function.update_noteq hy]
      · intro y
        rw [(k2 y).1, (k2 y).2.2]
        by_cases hy : y = node
        · subst hy; simp
        · simp [Function.update_noteq hy]
    split at h
    · simp only [Option.some.injEq] at h
      rw [← h]
      exact ⟨k1, rfl, rfl, hk⟩
    · simp only [Option.some.injEq] at h
      rw [← h]
      exact ⟨k1, rfl, rfl, hk⟩

/-- The loop of `record` over the outputs raises `earliest_cycle` of a node at
most to `next_cycle`, and at least to `next_cycle` for every output. -/
theorem raise_earliest_bounds (next_cycle : Int) :
    ∀ (args : List instruction_ref) (st st' : pre_scheduling_impl),
      raise_earliest next_cycle args st = some st' →
      (∀ y, (st.nodes y).earliest_cycle ≤ (st'.nodes y).earliest_cycle ∧
        (st'.nodes y).earliest_cycle ≤ max (st.nodes y).earliest_cycle next_cycle) ∧
      ∀ a ∈ args, next_cycle ≤ (st'.nodes a).earliest_cycle := by
  intro args
  induction args with
  | nil =>
    intro st st' h
    simp only [raise_earliest, Option.some.injEq] at h
    rw [← h]
    exact ⟨fun y => ⟨le_refl _, le_max_left _ _⟩, fun a ha => by cases ha⟩
  | cons a rest ih =>
    intro st st' h
    unfold raise_earliest at h
    split at h
    · obtain ⟨i1, i2⟩ := ih _ _ h
      have hstep : ∀ y, (st.nodes y).earliest_cycle
            ≤ ((Function.update st.nodes a
                { st.nodes a with
                  earliest_cycle := max (st.nodes a).earliest_cycle next_cycle }) y).earliest_cycle ∧
          ((Function.update st.nodes a
                { st.nodes a with
                  earliest_cycle := max (st.nodes a).earliest_cycle next_cycle }) y).earliest_cycle
            ≤ max (st.nodes y).earliest_cycle next_cycle := by
        intro y
        by_cases hy : y = a
        · subst hy
          simp
        · simp [Function.update_noteq hy]
      refine ⟨fun y => ?_, fun b hb => ?_⟩
      · have h1 := i1 y
        have h2 := hstep y
        simp only at h1
        constructor
        · exact le_trans h2.1 h1.1
        · refine le_trans h1.2 ?_
          exact max_le h2.2 (le_max_right _ _)
      · rcases List.mem_cons.mp hb with hb | hb
        · subst hb
          have h1 := (i1 b).1
          simp only [Function.update_same] at h1
          exact le_trans (le_max_right _ _) h1
        · exact i2 b hb
    · cases h

/-- What `record` does to the earliest cycles: with `next_cycle` the `int` in
which the end of the node is stored, the earliest cycle of a node is raised at
most to `next_cycle`, and at least to `next_cycle` for every output of the
node. -/
theorem record_earliest (st : pre_scheduling_impl) (info : stream_info) (node : instruction_ref)
    (r : pre_scheduling_impl × stream_info) (h : st.record info node = some r) :
    (∀ y, (st.nodes y).earliest_cycle ≤ (r.1.nodes y).earliest_cycle ∧
      (r.1.nodes y).earliest_cycle ≤ max (st.nodes y).earliest_cycle
        (to_int (max (st.nodes node).earliest_cycle
          (info.next_cycles (st.nodes node).stream.toNat) + (st.nodes node).weight))) ∧
    ∀ v ∈ (st.p_program.ins node).outputs,
      to_int (max (st.nodes node).earliest_cycle
          (info.next_cycles (st.nodes node).stream.toNat) + (st.nodes node).weight)
        ≤ (r.1.nodes v).earliest_cycle := by
  rw [record_form st info node _ _ _ rfl rfl rfl _ rfl _ rfl] at h
  split at h
  · cases h
  · rename_i s2 h2
    obtain ⟨k1, k2⟩ := raise_earliest_bounds _ _ _ _ h2
    have hk : (∀ y, (st.nodes y).earliest_cycle ≤ (s2.nodes y).earliest_cycle ∧
        (s2.nodes y).earliest_cycle ≤ max (st.nodes y).earliest_cycle
          (to_int (max (st.nodes node).earliest_cycle
            (info.next_cycles (st.nodes node).stream.toNat) + (st.nodes node).weight))) ∧
        ∀ v ∈ (st.p_program.ins node).outputs,
          to_int (max (st.nodes node).earliest_cycle
              (info.next_cycles (st.nodes node).stream.toNat) + (st.nodes node).weight)
            ≤ (s2.nodes v).earliest_cycle := by
      refine ⟨fun y => ?_, k2⟩
      have := k1 y
      by_cases hy : y = node
      · subst hy
        simpa using this
      · simpa [Function.update_noteq hy] using this
    split at h
    · simp only [Option.some.injEq] at h
      rw [← h]
      exact hk
    · simp only [Option.some.injEq] at h
      rw [← h]
      exact hk

/-- `record` keeps the cycles in range. -/
theorem record_range (st : pre_scheduling_impl) (info : stream_info) (node : instruction_ref)
    (r : pre_scheduling_impl × stream_info) (hr : cycle_range st info)
    (h : st.record info node = some r) : cycle_range r.1 r.2 := by
  obtain ⟨_, c2, c3, _, _, _⟩ := record_cycles st info node r h
  obtain ⟨d1, _⟩ := record_earliest st info node r h
  obtain ⟨nc, hnc⟩ : ∃ nc : Int, nc = to_int (max (st.nodes node).earliest_cycle
      (info.next_cycles (st.nodes node).stream.toNat) + (st.nodes node).weight) := ⟨_, rfl⟩
  rw [← hnc] at c2 c3 d1
  have hlt : nc < 2 ^ 31 := by rw [hnc]; exact (to_int_range _).2
  refine ⟨fun x => ?_, fun s => ?_, ?_⟩
  · obtain ⟨a1, a2⟩ := hr.earliest x
    obtain ⟨b1, b2⟩ := d1 x
    rw [c3]
    refine ⟨le_trans a1 b1, le_trans b2 ?_⟩
    exact max_le (le_trans a2 (le_max_left _ _)) (le_max_right _ _)
  · rw [c2, c3]
    by_cases hs : s = (st.nodes node).stream.toNat
    · rw [hs, Function.update_same]
      exact le_max_right _ _
    · rw [Function.update_noteq hs]
      exact le_trans (hr.next_le s) (le_max_left _ _)
  · rw [c3]
    exact max_lt hr.max_lt hlt

/-- The loop of `schedule` keeps the cycles in range. -/
theorem schedule_loop_range :
    ∀ (rest : List instruction_ref) (st : pre_scheduling_impl) (info : stream_info)
      (p2s : Int → Option Int) (queue : List instruction_ref)
      (r : pre_scheduling_impl × stream_info × (Int → Option Int) × List instruction_ref),
      cycle_range st info → schedule_loop rest st info p2s queue = some r →
      cycle_range r.1 r.2.1 := by
  intro rest
  induction rest with
  | nil =>
    intro st info p2s queue r hr h
    simp only [schedule_loop, Option.some.injEq] at h
    rw [← h]
    exact hr
  | cons node rest ih =>
    intro st info p2s queue r hr h
    rw [schedule_loop_cons node rest st info p2s queue _ rfl _ rfl] at h
    split at h
    · cases h
    · split at h
      · cases h
      · split at h
        · cases h
        · rename_i r1 h1
          refine ih r1.1 r1.2 _ _ r (record_range _ info node r1 ?_ h1) h
          refine ⟨fun x => ?_, hr.next_le, hr.max_lt⟩
          have := hr.earliest x
          by_cases hx : x = node
          · subst hx
            simpa using this
          · simpa [Function.update_noteq hx] using this

/-- The loop of `schedule` on a list is the loop on its first part followed by
the loop on the rest. -/
theorem schedule_loop_append :
    ∀ (l1 l2 : List instruction_ref) (st : pre_scheduling_impl) (info : stream_info)
      (p2s : Int → Option Int) (queue : List instruction_ref),
      schedule_loop (l1 ++ l2) st info p2s queue
        = (schedule_loop l1 st info p2s queue).bind
            (fun r => schedule_loop l2 r.1 r.2.1 r.2.2.1 r.2.2.2) := by
  intro l1
  induction l1 with
  | nil => intro l2 st info p2s queue; rfl
  | cons a l ih =>
    intro l2 st info p2s queue
    rw [List.cons_append, schedule_loop_cons a (l ++ l2) st info p2s queue _ rfl _ rfl,
      schedule_loop_cons a l st info p2s queue _ rfl _ rfl]
    split
    · rfl
    · split
      · rfl
      · split
        · rfl
        · exact ih _ _ _ _ _

/-- The loop of `schedule` keeps the invariant on the cycles when no weight is
negative and no node is walked twice; `max_cycle` does not decrease. -/
theorem schedule_loop_stream_inv (S : Nat) (hS : 1 ≤ S) :
    ∀ (rest : List instruction_ref) (st : pre_scheduling_impl) (info : stream_info)
      (p2s : Int → Option Int) (queue : List instruction_ref)
      (r : pre_scheduling_impl × stream_info × (Int → Option Int) × List instruction_ref),
      st.num_of_streams = S → (∀ x, 0 ≤ (st.nodes x).weight) → (queue ++ rest).Nodup →
      cycle_range st info →
      ((queue ++ rest).map (fun a => (st.nodes a).weight)).sum < 2 ^ 31 →
      stream_inv S st info p2s queue → schedule_loop rest st info p2s queue = some r →
      stream_inv S r.1 r.2.1 r.2.2.1 r.2.2.2 ∧ info.max_cycle ≤ r.2.1.max_cycle ∧
      r.2.2.2 = queue ++ rest ∧ (∀ x, (r.1.nodes x).weight = (st.nodes x).weight) ∧
      r.1.num_of_streams = S := by
  intro rest
  induction rest with
  | nil =>
    intro st info p2s queue r hSn _ _ _ _ hinv h
    simp only [schedule_loop, Option.some.injEq] at h
    rw [← h]
    exact ⟨hinv, le_refl _, by simp, fun _ => rfl, hSn⟩
  | cons node rest ih =>
    intro st info p2s queue r hSn hw hnd hrange hfit hinv h
    obtain ⟨stream, hstream⟩ : ∃ stream : Int, stream =
        match p2s (st.nodes node).partition with
        | some s => s
        | none => st.get_stream info node := ⟨_, rfl⟩
    obtain ⟨s1, hs1⟩ : ∃ s1 : pre_scheduling_impl, s1 =
        { st with
          nodes := Function.update st.nodes node { st.nodes node with stream := stream } } :=
      ⟨_, rfl⟩
    rw [schedule_loop_cons node rest st info p2s queue stream hstream s1 hs1] at h
    split at h
    · cases h
    · split at h
      · cases h
      · rename_i hneg
        split at h
        · cases h
        · rename_i r1 h1
          -- the stream is one of the `S` streams
          have hlt : stream.toNat < S := by
            cases hp : p2s (st.nodes node).partition with
            | some v =>
              rw [hp] at hstream
              rw [hstream]
              exact (hinv.streams _ v hp).2
            | none =>
              rw [hp] at hstream
              obtain ⟨k, hk1, hk2⟩ := get_stream_lt st info node (by rw [hSn]; exact hS)
              rw [hstream, hk1, ← hSn]
              simpa using hk2
          have h0 : 0 ≤ stream := not_lt.mp hneg
          -- the node table before `record`
          have hn1 : ∀ y, y ≠ node → s1.nodes y = st.nodes y := by
            intro y hy
            rw [hs1]
            simp [Function.update_noteq hy]
          have hn2 : (s1.nodes node).stream = stream ∧
              (s1.nodes node).weight = (st.nodes node).weight := by
            rw [hs1]
            simp
          have hnq : node ∉ queue := by
            intro hq
            have := List.nodup_append.mp hnd
            exact this.2.2 hq (List.mem_cons_self _ _)
          obtain ⟨c1, c2, c3, c4, c5, c6⟩ := record_cycles s1 info node r1 h1
          rw [hn2.1] at c2 c3 c4
          rw [hn2.2] at c2 c3
          obtain ⟨e, he⟩ : ∃ e : Int, e = (s1.nodes node).earliest_cycle := ⟨_, rfl⟩
          rw [← he] at c2 c3 c4
          have hwn : 0 ≤ (st.nodes node).weight := hw node
          -- the end of the node fits in an `int`
          have hrange1 : cycle_range s1 info := by
            refine ⟨fun x => ?_, hrange.next_le, hrange.max_lt⟩
            have := hrange.earliest x
            rw [hs1]
            by_cases hx : x = node
            · subst hx
              simpa using this
            · simpa [Function.update_noteq hx] using this
          have hsum : ((queue ++ node :: rest).map (fun a => (st.nodes a).weight)).sum
              = (queue.map (fun a => (st.nodes a).weight)).sum + (st.nodes node).weight
                + (rest.map (fun a => (st.nodes a).weight)).sum := by
            simp only [List.map_append, List.map_cons, List.sum_append, List.sum_cons]
            ring
          have hrest0 : 0 ≤ (rest.map (fun a => (st.nodes a).weight)).sum := by
            apply List.sum_nonneg
            intro x hx
            obtain ⟨a, _, rfl⟩ := List.mem_map.mp hx
            exact hw a
          have he0 : 0 ≤ e ∧ e ≤ info.max_cycle := by
            rw [he]
            exact hrange1.earliest node
          have hnx := hrange.next_le stream.toNat
          have hb := hinv.bound
          have hmx : max e (info.next_cycles stream.toNat) ≤ info.max_cycle := max_le he0.2 hnx
          have hmn : e ≤ max e (info.next_cycles stream.toNat) := le_max_left _ _
          have hfitn : to_int (max e (info.next_cycles stream.toNat) + (st.nodes node).weight)
              = max e (info.next_cycles stream.toNat) + (st.nodes node).weight := by
            apply to_int_of_range
            · omega
            · omega
          rw [hfitn] at c2 c3
          have hsn : r1.1.num_of_streams = S := by
            rw [c1, hs1]
            exact hSn
          have hw1 : ∀ x, (r1.1.nodes x).weight = (st.nodes x).weight := by
            intro x
            rw [(c6 x).2]
            by_cases hx : x = node
            · rw [hx]; exact hn2.2
            · rw [hn1 x hx]
          have hstr : ∀ x, x ≠ node → (r1.1.nodes x).stream = (st.nodes x).stream := by
            intro x hx
            rw [(c6 x).1, hn1 x hx]
          have hstrn : (r1.1.nodes node).stream = stream := by
            rw [(c6 node).1]; exact hn2.1
          have hsc : ∀ x, x ≠ node → (r1.1.nodes x).sched_cycle = (st.nodes x).sched_cycle := by
            intro x hx
            rw [c5 x hx, hn1 x hx]
          -- the invariant after `record`
          have hinv1 : stream_inv S r1.1 r1.2
              (Function.update p2s (st.nodes node).partition (some (r1.1.nodes node).stream))
              (queue ++ [node]) := by
            refine ⟨?_, ?_, ?_, ?_, ?_, ?_⟩
            rotate_right
            · rw [c3, List.map_congr_left (fun a _ => hw1 a)]
              simp only [List.map_append, List.map_cons, List.map_nil, List.sum_append,
                List.sum_cons, List.sum_nil, add_zero]
              apply max_le
              · omega
              · omega
            · intro s
              rw [c2, c3]
              by_cases hs : s = stream.toNat
              · rw [hs, Function.update_same]
                exact le_max_right _ _
              · rw [Function.update_noteq hs]
                exact le_trans (hinv.max_ge s) (le_max_left _ _)
            · obtain ⟨s0, hs0, hs0m⟩ := hinv.max_attained
              by_cases hc : info.max_cycle ≤ max e (info.next_cycles stream.toNat)
                  + (st.nodes node).weight
              · refine ⟨stream.toNat, hlt, ?_⟩
                rw [c2, c3, Function.update_same, max_eq_right hc]
              · refine ⟨s0, hs0, ?_⟩
                have hne : s0 ≠ stream.toNat := by
                  intro e0
                  rw [e0] at hs0m
                  have := le_max_right e (info.next_cycles stream.toNat)
                  omega
                rw [c2, c3, Function.update_noteq hne, hs0m, max_eq_left (by omega)]
            · intro k v hk
              by_cases hkk : k = (st.nodes node).partition
              · rw [hkk, Function.update_same, hstrn] at hk
                cases hk
                exact ⟨h0, hlt⟩
              · rw [Function.update_noteq hkk] at hk
                exact hinv.streams k v hk
            · intro a ha
              rcases List.mem_append.mp ha with ha | ha
              · have han : a ≠ node := fun e0 => hnq (e0 ▸ ha)
                obtain ⟨q1, q2⟩ := hinv.recorded a ha
                rw [hstr a han, hsc a han, hw1 a, c2]
                refine ⟨q1, ?_⟩
                by_cases hs : (st.nodes a).stream.toNat = stream.toNat
                · rw [hs, Function.update_same]
                  rw [hs] at q2
                  have := le_max_right e (info.next_cycles stream.toNat)
                  omega
                · rw [Function.update_noteq hs]
                  exact q2
              · rw [List.mem_singleton] at ha
                rw [ha, hstrn, c4, hw1 node, c2, Function.update_same]
                exact ⟨h0, le_refl _⟩
            · rw [List.pairwise_append]
              refine ⟨?_, List.pairwise_singleton _ _, ?_⟩
              · refine hinv.no_overlap.imp_of_mem ?_
                intro a b ha hb hab hst
                have han : a ≠ node := fun e0 => hnq (e0 ▸ ha)
                have hbn : b ≠ node := fun e0 => hnq (e0 ▸ hb)
                rw [hstr a han, hstr b hbn] at hst
                rw [hsc a han, hsc b hbn, hw1 a]
                exact hab hst
              · intro a ha b hb hst
                rw [List.mem_singleton] at hb
                subst hb
                have han : a ≠ b := fun e0 => hnq (e0 ▸ ha)
                obtain ⟨q1, q2⟩ := hinv.recorded a ha
                rw [hstr a han, hstrn] at hst
                rw [hsc a han, hw1 a, c4]
                rw [hst] at q2
                exact le_trans q2 (le_max_right _ _)
          obtain ⟨i1, i2, i3, i4, i5⟩ := ih r1.1 r1.2 _ (queue ++ [node]) r hsn
            (fun x => by rw [hw1 x]; exact hw x)
            (by simpa using hnd) (record_range s1 info node r1 hrange1 h1)
            (by
              rw [List.map_congr_left (fun a _ => hw1 a)]
              simpa using hfit)
            hinv1 h
          refine ⟨i1, ?_, by rw [i3]; simp, fun x => (i4 x).trans (hw1 x), i5⟩
          refine le_trans ?_ i2
          rw [c3]
          exact le_max_left _ _

end pre_scheduling_impl

namespace pre_scheduling_impl

/-- `record` keeps the graph of the program. -/
theorem record_graph (st : pre_scheduling_impl) (info : stream_info) (node : instruction_ref)
    (r : pre_scheduling_impl × stream_info) (h : st.record info node = some r) :
    same_graph st.p_program r.1.p_program := by
  rcases record_program st info node r.1 r.2 h with e | e
  · rw [e]; exact same_graph_refl _
  · rw [e]
    refine same_graph_trans ?_ (mark_events_graph _ _ _ _)
    apply same_graph_set
    exact ⟨rfl, rfl, rfl, rfl, rfl⟩

/-- The sum of non-negative numbers over a list is not negative. -/
theorem sum_map_nonneg (f : instruction_ref → Int) (hf : ∀ x, 0 ≤ f x) :
    ∀ l : List instruction_ref, 0 ≤ (l.map f).sum := by
  intro l
  induction l with
  | nil => simp
  | cons a l ih =>
    simp only [List.map_cons, List.sum_cons]
    have := hf a
    omega

/-- The loop of `schedule` over a list that names every node after its inputs,
when the absolute values of the weights of the list sum to less than `2^31`:
no cycle leaves the range of `int`, every recorded node starts no earlier than
each of its inputs ends, and no user of a recorded node may start before the
node ends. -/
theorem schedule_loop_edges (p : program) (hwf : p.well_formed) (L : List instruction_ref)
    (hLnd : L.Nodup) (hLmem : ∀ x ∈ L, x ∈ p.instructions)
    (hLtopo : ∀ v ∈ L, ∀ u ∈ (p.ins v).inputs, L.indexOf u < L.indexOf v) :
    ∀ (rest done : List instruction_ref) (st : pre_scheduling_impl) (info : stream_info)
      (p2s : Int → Option Int) (queue : List instruction_ref)
      (r : pre_scheduling_impl × stream_info × (Int → Option Int) × List instruction_ref),
      L = done ++ rest → same_graph p st.p_program →
      cycle_range st info →
      (L.map (fun a => |(st.nodes a).weight|)).sum < 2 ^ 31 →
      info.max_cycle ≤ (done.map (fun a => |(st.nodes a).weight|)).sum →
      edges_inv p done st →
      schedule_loop rest st info p2s queue = some r →
      same_graph p r.1.p_program ∧ (∀ x, (r.1.nodes x).weight = (st.nodes x).weight) ∧
      cycle_range r.1 r.2.1 ∧
      r.2.1.max_cycle ≤ (L.map (fun a => |(st.nodes a).weight|)).sum ∧
      edges_inv p L r.1 := by
  intro rest
  induction rest with
  | nil =>
    intro done st info p2s queue r hL hg hrange _ hbound hedges h
    simp only [schedule_loop, Option.some.injEq] at h
    rw [← h]
    have hL' : L = done := by simpa using hL
    rw [hL']
    exact ⟨hg, fun _ => rfl, hrange, hbound, hedges⟩
  | cons node rest ih =>
    intro done st info p2s queue r hL hg hrange hfit hbound hedges h
    obtain ⟨stream, hstream⟩ : ∃ stream : Int, stream =
        match p2s (st.nodes node).partition with
        | some s => s
        | none => st.get_stream info node := ⟨_, rfl⟩
    obtain ⟨s1, hs1⟩ : ∃ s1 : pre_scheduling_impl, s1 =
        { st with
          nodes := Function.update st.nodes node { st.nodes node with stream := stream } } :=
      ⟨_, rfl⟩
    rw [schedule_loop_cons node rest st info p2s queue stream hstream s1 hs1] at h
    split at h
    · cases h
    · split at h
      · cases h
      · split at h
        · cases h
        · rename_i r1 h1
          have hs1n : ∀ y, (s1.nodes y).earliest_cycle = (st.nodes y).earliest_cycle ∧
              (s1.nodes y).weight = (st.nodes y).weight ∧
              (s1.nodes y).sched_cycle = (st.nodes y).sched_cycle := by
            intro y
            rw [hs1]
            by_cases hy : y = node
            · subst hy; simp
            · simp [Function.update_noteq hy]
          have hs1s : (s1.nodes node).stream = stream := by rw [hs1]; simp
          have hs1p : s1.p_program = st.p_program := by rw [hs1]
          obtain ⟨_, _, c3, c4, c5, c6⟩ := record_cycles s1 info node r1 h1
          obtain ⟨d1, d2⟩ := record_earliest s1 info node r1 h1
          have g1 := record_graph s1 info node r1 h1
          rw [hs1p] at g1 d2
          rw [hs1s, (hs1n node).1] at c3 c4 d1 d2
          rw [(hs1n node).2.1] at c3 d1 d2
          obtain ⟨e, he⟩ : ∃ e : Int, e = (st.nodes node).earliest_cycle := ⟨_, rfl⟩
          obtain ⟨nx, hnx⟩ : ∃ nx : Int, nx = info.next_cycles stream.toNat := ⟨_, rfl⟩
          obtain ⟨w, hwd⟩ : ∃ w : Int, w = (st.nodes node).weight := ⟨_, rfl⟩
          rw [← he, ← hnx] at c3 c4 d1 d2
          rw [← hwd] at c3 d1 d2
          obtain ⟨aw, haw⟩ : ∃ aw : Int, aw = |w| := ⟨_, rfl⟩
          have hw0 : 0 ≤ aw ∧ w ≤ aw ∧ -aw ≤ w := by
            rw [haw]
            exact ⟨abs_nonneg w, le_abs_self w, neg_abs_le w⟩
          have he0 : 0 ≤ e ∧ e ≤ info.max_cycle := by rw [he]; exact hrange.earliest node
          have hnx0 : nx ≤ info.max_cycle := by rw [hnx]; exact hrange.next_le _
          have hsum : (L.map (fun a => |(st.nodes a).weight|)).sum
              = (done.map (fun a => |(st.nodes a).weight|)).sum + aw
                + (rest.map (fun a => |(st.nodes a).weight|)).sum := by
            rw [hL, haw, hwd]
            simp only [List.map_append, List.map_cons, List.sum_append, List.sum_cons]
            ring
          have hrest := sum_map_nonneg (fun a => |(st.nodes a).weight|)
            (fun a => abs_nonneg _) rest
          have hid : to_int (max e nx + w) = max e nx + w := by
            apply to_int_of_range <;> omega
          rw [hid] at c3 d1 d2
          have hw1 : ∀ x, (r1.1.nodes x).weight = (st.nodes x).weight := fun x =>
            ((c6 x).2).trans (hs1n x).2.1
          have hmap : ∀ l : List instruction_ref,
              l.map (fun a => |(r1.1.nodes a).weight|)
                = l.map (fun a => |(st.nodes a).weight|) :=
            fun l => List.map_congr_left (fun a _ => by rw [hw1 a])
          have hnd' : (done ++ node :: rest).Nodup := hL ▸ hLnd
          have hnq : node ∉ done := by
            intro hq
            exact (List.nodup_append.mp hnd').2.2 hq (List.mem_cons_self _ _)
          have hpre := inputs_in_prefix p done rest node hnd' (hL ▸ hLtopo)
          have hnode : node ∈ p.instructions := hLmem node (by rw [hL]; simp)
          have hsame : ∀ y, y ≠ node → (r1.1.nodes y).sched_cycle = (st.nodes y).sched_cycle :=
            fun y hy => (c5 y hy).trans (hs1n y).2.2
          have hrange1 : cycle_range s1 info := by
            refine ⟨fun x => ?_, hrange.next_le, hrange.max_lt⟩
            rw [(hs1n x).1]
            exact hrange.earliest x
          have hedges1 : edges_inv p (done ++ [node]) r1.1 := by
            refine ⟨?_, ?_⟩
            · intro v hv u hu
              have hud : u ∈ done := hpre v hv u hu
              have hun : u ≠ node := fun h' => hnq (h' ▸ hud)
              rw [hsame u hun, hw1 u]
              rcases List.mem_append.mp hv with hvd | hvn
              · have hvn : v ≠ node := fun h' => hnq (h' ▸ hvd)
                rw [hsame v hvn]
                exact hedges.sched_ge v hvd u hu
              · rw [List.mem_singleton.mp hvn] at hu ⊢
                have hout := hwf.2.2.1 node hnode u hu
                have := hedges.earliest_ge u hud node hout
                rw [c4]
                rw [← he] at this
                exact le_trans this (le_max_left _ _)
            · intro u hu v hv
              rcases List.mem_append.mp hu with hud | hun
              · have hun : u ≠ node := fun h' => hnq (h' ▸ hud)
                rw [hsame u hun, hw1 u]
                have := hedges.earliest_ge u hud v hv
                refine le_trans this ?_
                rw [← (hs1n v).1]
                exact (d1 v).1
              · rw [List.mem_singleton.mp hun] at hv ⊢
                rw [c4, hw1 node, ← hwd]
                apply d2 v
                have := (hg.2.2 node).2.2.1
                unfold instruction.outputs at hv ⊢
                rw [this]
                exact hv
          have hbound1 : r1.2.max_cycle
              ≤ ((done ++ [node]).map (fun a => |(r1.1.nodes a).weight|)).sum := by
            rw [hmap, c3]
            simp only [List.map_append, List.map_cons, List.map_nil, List.sum_append,
              List.sum_cons, List.sum_nil, ← hwd, ← haw]
            omega
          obtain ⟨i1, i2, i3, i4, i5⟩ := ih (done ++ [node]) r1.1 r1.2 _ _ r (by simp [hL])
            (same_graph_trans hg g1)
            (record_range s1 info node r1 hrange1 h1) (by rw [hmap]; exact hfit) hbound1
            hedges1 h
          refine ⟨i1, fun x => (i2 x).trans (hw1 x), i3, ?_, i5⟩
          rw [← hmap]
          exact i4

/-- The state in which the loop of `schedule` starts on a well-formed program:
the nodes are listed once each, every node after its inputs, every node has
the weight of the oracle, a partition and no earliest cycle yet. -/
theorem schedule_start (p : program) (hwf : p.well_formed)
    (weight_func : String → Int × Bool)
    (num_of_streams : Nat) (wto : dag_node → dag_node → Bool) (thr : Int)
    (srt : std_sort_fn) (hsrt : std_sort_contract srt) :
    ∃ (st1 st2 : pre_scheduling_impl) (loc : reorder_locals),
      (create p weight_func num_of_streams wto thr srt).compute_weights = some st1 ∧
      reorder_exits st1.exit_nodes st1 {} = some (st2, loc) ∧
      loc.sorted_nodes.Nodup ∧ loc.sorted_nodes.Perm p.instructions ∧
      (∀ x ∈ loc.sorted_nodes, ∀ u ∈ (p.ins x).inputs,
        loc.sorted_nodes.indexOf u < loc.sorted_nodes.indexOf x) ∧
      st2.p_program = p ∧ st2.num_of_streams = num_of_streams ∧
      (∀ x ∈ p.instructions, (st2.nodes x).weight = (weight_func (p.ins x).name).1) ∧
      (∀ x, x ∉ p.instructions → (st2.nodes x).weight = 0) ∧
      cycle_range st2 {} ∧
      (∀ x ∈ p.instructions, st2.instr2_node x = true) ∧
      (∀ x ∈ p.instructions, 0 ≤ (st2.nodes x).partition) := by
  obtain ⟨st1, e1, wc, par1, hexits⟩ :=
    compute_weights_spec p weight_func num_of_streams wto thr srt hsrt hwf.1 hwf.2.1
  obtain ⟨st2, loc2, e2, rel2, perm2, nd2, topo2, part2⟩ :=
    weighted_topological_sort_spec p hwf st1 wc.program
      (by rw [wc.partition_info_num]) hexits
  have hp2 : st2.p_program = p := rel2.program.trans wc.program
  have hearly : ∀ x, (st2.nodes x).earliest_cycle = 0 := by
    intro x
    rw [(rel2.nodes x).2.2.2.2.2.2]
    by_cases hx : x ∈ p.instructions
    · rw [wc.node x hx]
    · rw [wc.untouched x hx]
  refine ⟨st1, st2, loc2, e1, e2, nd2, perm2, topo2, hp2, ?_, ?_, ?_, ?_, ?_, part2⟩
  · rw [rel2.params.num_of_streams, par1.num_of_streams]; rfl
  · intro x hx
    rw [(rel2.nodes x).1, wc.node x hx]
  · intro x hx
    rw [(rel2.nodes x).1, wc.untouched x hx]
  · refine ⟨fun x => ?_, fun s => le_refl _, by decide⟩
    rw [hearly x]
    exact ⟨le_refl _, le_refl _⟩
  · intro x hx
    rw [rel2.instr2_node, wc.paired x]
    exact decide_eq_true hx

/-- When the oracle returns no negative weight and the weights of the
instructions sum to less than `2^31`, no node has a negative weight and the
weights of any listing of the instructions sum to less than `2^31`. -/
theorem weights_fit (p : program) (weight_func : String → Int × Bool)
    (hw : ∀ name, 0 ≤ (weight_func name).1)
    (hsum : (p.instructions.map (fun x => (weight_func (p.ins x).name).1)).sum < 2 ^ 31)
    (st : pre_scheduling_impl) (L : List instruction_ref) (hperm : L.Perm p.instructions)
    (hwt : ∀ x ∈ p.instructions, (st.nodes x).weight = (weight_func (p.ins x).name).1)
    (hw0 : ∀ x, x ∉ p.instructions → (st.nodes x).weight = 0) :
    (∀ x, 0 ≤ (st.nodes x).weight) ∧ (L.map (fun a => (st.nodes a).weight)).sum < 2 ^ 31 := by
  refine ⟨fun x => ?_, ?_⟩
  · by_cases hx : x ∈ p.instructions
    · rw [hwt x hx]; exact hw _
    · rw [hw0 x hx]
  · have h1 : L.map (fun a => (st.nodes a).weight)
        = L.map (fun x => (weight_func (p.ins x).name).1) :=
      List.map_congr_left (fun a ha => hwt a (hperm.mem_iff.mp ha))
    rw [h1, (hperm.map _).sum_eq]
    exact hsum

/-- When the absolute values of the weights that the oracle returns for the
instructions sum to less than `2^31`, so do the absolute values of the weights
of the nodes in any listing of the instructions. -/
theorem weights_fit_abs (p : program) (weight_func : String → Int × Bool)
    (habs : (p.instructions.map (fun x => |(weight_func (p.ins x).name).1|)).sum < 2 ^ 31)
    (st : pre_scheduling_impl) (L : List instruction_ref) (hperm : L.Perm p.instructions)
    (hwt : ∀ x ∈ p.instructions, (st.nodes x).weight = (weight_func (p.ins x).name).1) :
    (L.map (fun a => |(st.nodes a).weight|)).sum < 2 ^ 31 := by
  have h1 : L.map (fun a => |(st.nodes a).weight|)
      = L.map (fun x => |(weight_func (p.ins x).name).1|) :=
    List.map_congr_left (fun a ha => by rw [hwt a (hperm.mem_iff.mp ha)])
  rw [h1, (hperm.map _).sum_eq]
  exact habs

/-- Weights that are not negative and sum to less than `2^31` have absolute
values that sum to less than `2^31`. -/
theorem abs_sum_of_nonneg (p : program) (weight_func : String → Int × Bool)
    (hw : ∀ name, 0 ≤ (weight_func name).1)
    (hsum : (p.instructions.map (fun x => (weight_func (p.ins x).name).1)).sum < 2 ^ 31) :
    (p.instructions.map (fun x => |(weight_func (p.ins x).name).1|)).sum < 2 ^ 31 := by
  have h1 : p.instructions.map (fun x => |(weight_func (p.ins x).name).1|)
      = p.instructions.map (fun x => (weight_func (p.ins x).name).1) :=
    List.map_congr_left (fun a _ => abs_of_nonneg (hw _))
  rw [h1]
  exact hsum

/-- Stream assignment on a well-formed program with at least one stream, when
the absolute values of the weights of the instructions sum to less than
`2^31`: it completes, and every instruction starts no earlier than each of its
inputs ends. -/
theorem scheduled_edges (p : program) (hwf : p.well_formed)
    (weight_func : String → Int × Bool)
    (habs : (p.instructions.map (fun x => |(weight_func (p.ins x).name).1|)).sum < 2 ^ 31)
    (num_of_streams : Nat) (wto : dag_node → dag_node → Bool) (thr : Int)
    (srt : std_sort_fn) (hsrt : std_sort_contract srt) (hS : num_of_streams ≠ 0) :
    ∃ (st1 st2 : pre_scheduling_impl) (loc : reorder_locals) (st3 : pre_scheduling_impl),
      (create p weight_func num_of_streams wto thr srt).compute_weights = some st1 ∧
      reorder_exits st1.exit_nodes st1 {} = some (st2, loc) ∧
      st2.schedule loc.sorted_nodes = some (st3,
        pq_pop_all (fun a b => post_schedule_ordering (st3.nodes a) (st3.nodes b))
          loc.sorted_nodes) ∧
      (∀ x ∈ p.instructions, (st3.nodes x).weight = (weight_func (p.ins x).name).1) ∧
      ∀ v ∈ p.instructions, ∀ u ∈ (p.ins v).inputs,
        (st3.nodes u).sched_cycle + (st3.nodes u).weight ≤ (st3.nodes v).sched_cycle := by
  obtain ⟨st1, st2, loc, e1, e2, nd, perm, topo, hp, hS2, hwt, hw0, hrange, hpaired, hpart⟩ :=
    schedule_start p hwf weight_func num_of_streams wto thr srt hsrt
  have hS2' : st2.num_of_streams ≠ 0 := by rw [hS2]; exact hS
  obtain ⟨st3, p2s, e3, inv⟩ :=
    schedule_nodes_spec p hwf st2 loc.sorted_nodes nd perm topo hp hpaired hpart hS2'
  have hw3 : ∀ x ∈ p.instructions, (st3.nodes x).weight = (weight_func (p.ins x).name).1 :=
    fun x hx => ((inv.static x).1).trans (hwt x hx)
  refine ⟨st1, st2, loc, st3, e1, e2, e3, hw3, ?_⟩
  by_cases hne : loc.sorted_nodes = []
  · intro v hv
    have := perm.mem_iff.mpr hv
    rw [hne] at this
    cases this
  · have e3' := e3
    rw [schedule_form st2 loc.sorted_nodes hS2' hne] at e3'
    cases hr : schedule_loop loc.sorted_nodes st2 {} (fun _ => none) [] with
    | none => rw [hr] at e3'; cases e3'
    | some r =>
      rw [hr] at e3'
      simp only [Option.map_some', Option.some.injEq, Prod.mk.injEq] at e3'
      have hfit := weights_fit_abs p weight_func habs st2 loc.sorted_nodes perm hwt
      obtain ⟨_, i2, _, _, i5⟩ :=
        schedule_loop_edges p hwf loc.sorted_nodes nd (fun x hx => perm.mem_iff.mp hx) topo
          loc.sorted_nodes [] st2 {} (fun _ => none) [] r (by simp)
          (hp ▸ same_graph_refl _) hrange hfit (by simp)
          ⟨(fun v hv => by cases hv), (fun u hu => by cases hu)⟩ hr
      rw [← e3'.1]
      intro v hv u hu
      exact i5.sched_ge v (perm.mem_iff.mpr hv) u hu

/-- A completed `run` with at least one stream on a well-formed program, when
the absolute values of the weights of the instructions sum to less than
`2^31`: every instruction starts no earlier than each of its inputs ends. -/
theorem run_edges (p : program) (hwf : p.well_formed)
    (weight_func : String → Int × Bool)
    (habs : (p.instructions.map (fun x => |(weight_func (p.ins x).name).1|)).sum < 2 ^ 31)
    (num_of_streams : Nat) (wto : dag_node → dag_node → Bool) (thr : Int)
    (srt : std_sort_fn) (hsrt : std_sort_contract srt) (hS : num_of_streams ≠ 0)
    (st' : pre_scheduling_impl)
    (hrun : (create p weight_func num_of_streams wto thr srt).run = some st') :
    (∀ x ∈ p.instructions, (st'.nodes x).weight = (weight_func (p.ins x).name).1) ∧
    ∀ v ∈ p.instructions, ∀ u ∈ (p.ins v).inputs,
      (st'.nodes u).sched_cycle + (st'.nodes u).weight ≤ (st'.nodes v).sched_cycle := by
  by_cases hn : p.instructions.length = 0
  · have : p.instructions = [] := List.eq_nil_of_length_eq_zero hn
    rw [this]
    exact ⟨(fun x hx => by cases hx), (fun v hv => by cases hv)⟩
  · obtain ⟨st1, st2, loc, st3, e1, e2, e3, hw3, hedge⟩ :=
      scheduled_edges p hwf weight_func habs num_of_streams wto thr srt hsrt hS
    have hlen : ¬ (create p weight_func num_of_streams wto thr
        srt).p_program.instructions.length = 0 := hn
    simp only [run, if_neg hlen, e1, reorder, e2, e3] at hrun
    have hnodes : st'.nodes = st3.nodes := by
      simp only [splice] at hrun
      split at hrun
      · cases hrun
      · cases hrun
      · cases hrun; rfl
    rw [hnodes]
    exact ⟨hw3, hedge⟩

/-- The weights of an initial part of a list sum to no more than the weights
of the list, when no weight is negative. -/
theorem sum_prefix_le (f : instruction_ref → Int) (hf : ∀ x, 0 ≤ f x)
    (l1 l2 : List instruction_ref) : (l1.map f).sum ≤ ((l1 ++ l2).map f).sum := by
  rw [List.map_append, List.sum_append]
  have := sum_map_nonneg f hf l2
  omega

end pre_scheduling_impl

/-- C16 (counterexample): on the chain `x -> relu -> tanh` with one stream and
every static weight `2^30`, `relu` starts at cycle `2^30` and its end,
`2^30 + 2^30`, does not fit the `int` `next_cycle`, which holds `-2^31`; `tanh`,
a consumer of `relu`, is given `sched_cycle = 0`. -/
theorem C16_overflow_counterexample :
    heavy_chain_example.well_formed ∧ 1 ∈ (heavy_chain_example.ins 2).inputs ∧
    ((pre_scheduling_impl.create heavy_chain_example heavy_weights 1 by_weight_sum 2
        stable_sort).compute_weights.bind (fun st1 =>
      (pre_scheduling_impl.reorder_exits st1.exit_nodes st1 {}).bind (fun r =>
        (r.1.schedule r.2.sorted_nodes).map (fun q =>
          ((q.1.nodes 1).sched_cycle, (heavy_weights (heavy_chain_example.ins 1).name).1,
            (q.1.nodes 2).sched_cycle)))))
      = some (1073741824, 1073741824, 0) := by
  refine ⟨by decide, by decide, by rfl⟩

/-- C16 (amended): stream assignment of a well-formed (acyclic) program with
at least one stream, with static weights whose absolute values sum over the
instructions to less than `2^31`, completes, and afterwards every def/use
edge `u → v` has `v.sched_cycle >= u.sched_cycle + weight(u)`; the same holds
for the nodes at the end of every completed `run`. -/
theorem C16_consumer_after_producer (p : program) (hwf : p.well_formed)
    (weight_func : String → Int × Bool)
    (habs : (p.instructions.map (fun x => |(weight_func (p.ins x).name).1|)).sum < 2 ^ 31)
    (num_of_streams : Nat) (wto : dag_node → dag_node → Bool) (thr : Int)
    (srt : std_sort_fn) (hsrt : std_sort_contract srt) (hS : 1 ≤ num_of_streams) :
    (∃ (st1 st2 : pre_scheduling_impl) (loc : pre_scheduling_impl.reorder_locals)
        (st3 : pre_scheduling_impl) (L3 : List instruction_ref),
      (pre_scheduling_impl.create p weight_func num_of_streams wto thr srt).compute_weights
        = some st1 ∧
      pre_scheduling_impl.reorder_exits st1.exit_nodes st1 {} = some (st2, loc) ∧
      st2.schedule loc.sorted_nodes = some (st3, L3) ∧
      ∀ v ∈ p.instructions, ∀ u ∈ (p.ins v).inputs,
        (st3.nodes v).sched_cycle
          ≥ (st3.nodes u).sched_cycle + (weight_func (p.ins u).name).1) ∧
    ∀ st', (pre_scheduling_impl.create p weight_func num_of_streams wto thr srt).run = some st' →
      ∀ v ∈ p.instructions, ∀ u ∈ (p.ins v).inputs,
        (st'.nodes v).sched_cycle
          ≥ (st'.nodes u).sched_cycle + (weight_func (p.ins u).name).1 := by
  have hmem : ∀ v ∈ p.instructions, ∀ u ∈ (p.ins v).inputs, u ∈ p.instructions := by
    intro v hv u hu
    have h1 := hwf.2.1 v hv u hu
    have h2 : p.pos v < p.instructions.length := List.indexOf_lt_length.mpr hv
    exact List.indexOf_lt_length.mp (lt_trans h1 h2)
  obtain ⟨st1, st2, loc, st3, e1, e2, e3, hw3, hedge⟩ :=
    pre_scheduling_impl.scheduled_edges p hwf weight_func habs num_of_streams wto thr srt
      hsrt (by omega)
  refine ⟨⟨st1, st2, loc, st3, _, e1, e2, e3, ?_⟩, ?_⟩
  · intro v hv u hu
    rw [← hw3 u (hmem v hv u hu)]
    exact hedge v hv u hu
  · intro st' hrun v hv u hu
    obtain ⟨k1, k2⟩ := pre_scheduling_impl.run_edges p hwf weight_func habs num_of_streams
      wto thr srt hsrt (by omega) st' hrun
    rw [← k1 u (hmem v hv u hu)]
    exact k2 v hv u hu

theorem C16_consumer_after_producer_witness :
    (∃ (st1 st2 : pre_scheduling_impl) (loc : pre_scheduling_impl.reorder_locals)
        (st3 : pre_scheduling_impl) (L3 : List instruction_ref),
      (pre_scheduling_impl.create diamond_example diamond_weights 2 (fun _ _ => false) 2
        stable_sort).compute_weights = some st1 ∧
      pre_scheduling_impl.reorder_exits st1.exit_nodes st1 {} = some (st2, loc) ∧
      st2.schedule loc.sorted_nodes = some (st3, L3) ∧
      ∀ v ∈ diamond_example.instructions, ∀ u ∈ (diamond_example.ins v).inputs,
        (st3.nodes v).sched_cycle
          ≥ (st3.nodes u).sched_cycle + (diamond_weights (diamond_example.ins u).name).1) ∧
    ∀ st', (pre_scheduling_impl.create diamond_example diamond_weights 2 (fun _ _ => false) 2
        stable_sort).run = some st' →
      ∀ v ∈ diamond_example.instructions, ∀ u ∈ (diamond_example.ins v).inputs,
        (st'.nodes v).sched_cycle
          ≥ (st'.nodes u).sched_cycle + (diamond_weights (diamond_example.ins u).name).1 :=
  C16_consumer_after_producer diamond_example (by decide) diamond_weights (by decide)
    2 (fun _ _ => false) 2 stable_sort stable_sort_contract (by decide)

/-- C1 (counterexample): the chain `x -> relu -> tanh` is well formed and the
weight `2^30` of every instruction is not negative; with one stream the end of
`relu` does not fit an `int`, `tanh` is given cycle `0`, and the run leaves
the order `x`, `tanh`, `relu`, in which `tanh` stands before its input
`relu`. -/
theorem C1_overflow_counterexample :
    heavy_chain_example.well_formed ∧ (∀ name, 0 ≤ (heavy_weights name).1) ∧
    ((pre_scheduling_impl.create heavy_chain_example heavy_weights 1 by_weight_sum 2
        stable_sort).run.map (fun st' =>
      (st'.p_program.instructions, (st'.p_program.ins 2).inputs,
        decide (st'.p_program.pos 1 < st'.p_program.pos 2))))
      = some ([0, 2, 1], [1], false) := by
  refine ⟨by decide, fun _ => by unfold heavy_weights; decide, by rfl⟩

/-- C1 (amended): after `pre_scheduling_impl::run` on a well-formed program
(acyclic, listed def-before-use), with any `std::sort`, a weight oracle that
returns non-negative weights and either no stream or weights that sum over the
instructions to less than `2^31`, every instruction stands in the final
program order strictly after each of its inputs, and the final order lists
the same instructions.  The pass completes on every program that does not
consist of exactly one instruction. -/
theorem C1_inputs_precede_users (p : program) (hwf : p.well_formed)
    (weight_func : String → Int × Bool) (hw : ∀ name, 0 ≤ (weight_func name).1)
    (num_of_streams : Nat)
    (hsum : num_of_streams = 0 ∨
      (p.instructions.map (fun x => (weight_func (p.ins x).name).1)).sum < 2 ^ 31)
    (wto : dag_node → dag_node → Bool) (thr : Int)
    (srt : std_sort_fn) (hsrt : std_sort_contract srt) :
    (p.instructions.length ≠ 1 →
      ∃ st', (pre_scheduling_impl.create p weight_func num_of_streams wto thr srt).run = some st') ∧
    ∀ st', (pre_scheduling_impl.create p weight_func num_of_streams wto thr srt).run = some st' →
      st'.p_program.instructions.Perm p.instructions ∧
      ∀ v ∈ st'.p_program.instructions, ∀ u ∈ (st'.p_program.ins v).inputs,
        st'.p_program.pos u < st'.p_program.pos v := by
  obtain ⟨h1, h2⟩ :=
    pre_scheduling_impl.run_spec p hwf weight_func hw num_of_streams wto thr srt hsrt
  refine ⟨h1, fun st' h => ⟨(h2 st' h).1, (h2 st' h).2.1 (fun hS => ?_)⟩⟩
  rcases hsum with h0 | hs
  · exact absurd h0 hS
  · exact (pre_scheduling_impl.run_edges p hwf weight_func
      (pre_scheduling_impl.abs_sum_of_nonneg p weight_func hw hs) num_of_streams wto thr srt
      hsrt hS st' h).2

theorem C1_inputs_precede_users_witness :
    (diamond_example.instructions.length ≠ 1 →
      ∃ st', (pre_scheduling_impl.create diamond_example diamond_weights 2
        (fun _ _ => false) 2 stable_sort).run = some st') ∧
    ∀ st', (pre_scheduling_impl.create diamond_example diamond_weights 2
        (fun _ _ => false) 2 stable_sort).run = some st' →
      st'.p_program.instructions.Perm diamond_example.instructions ∧
      ∀ v ∈ st'.p_program.instructions, ∀ u ∈ (st'.p_program.ins v).inputs,
        st'.p_program.pos u < st'.p_program.pos v :=
  C1_inputs_precede_users diamond_example (by decide) diamond_weights
    (by intro name; unfold diamond_weights; split_ifs <;> decide) 2 (Or.inr (by decide))
    (fun _ _ => false) 2 stable_sort stable_sort_contract

/-- C32 (counterexample): on the chain `x -> relu -> tanh` with one stream and
every static weight `2^30`, after `x` and `relu` have been recorded
`next_cycles[0]` holds `-2^31` while `max_cycle` is `2^30`, so `max_cycle` is
not the largest entry of `next_cycles`; and `tanh`, recorded after `relu` on
stream `0`, starts at cycle `0`, before `relu` (started at `2^30`) ends. -/
theorem C32_overflow_counterexample :
    heavy_chain_example.well_formed ∧ (∀ name, 0 ≤ (heavy_weights name).1) ∧
    ((pre_scheduling_impl.create heavy_chain_example heavy_weights 1 by_weight_sum 2
        stable_sort).compute_weights.bind (fun st1 =>
      (pre_scheduling_impl.reorder_exits st1.exit_nodes st1 {}).bind (fun r =>
        (pre_scheduling_impl.schedule_loop (r.2.sorted_nodes.take 2) r.1 {}
            (fun _ => none) []).bind (fun r2 =>
          (pre_scheduling_impl.schedule_loop r.2.sorted_nodes r.1 {}
              (fun _ => none) []).map (fun r3 =>
            (r.2.sorted_nodes, r2.2.1.max_cycle, r2.2.1.next_cycles 0,
              [1, 2].map (fun x => ((r3.1.nodes x).stream, (r3.1.nodes x).sched_cycle,
                (r3.1.nodes x).weight))))))))
      = some ([0, 1, 2], 1073741824, -2147483648,
          [(0, 1073741824, 1073741824), (0, 0, 1073741824)]) := by
  refine ⟨by decide, fun _ => by unfold heavy_weights; decide, by rfl⟩

/-- C32 (amended): on a well-formed program with at least one stream and
static weights that are not negative and sum over the instructions to less
than `2^31`, the loop of `schedule` completes on every initial part of the
list that the weighted topological sort emits, and after every `record`:
`max_cycle` is the largest entry of `next_cycles` over the streams and is not
lower than it was after any earlier `record`; every recorded node is on a
stream `>= 0`; and a node recorded after another one on the same stream starts
no earlier than the other one ends (`sched_cycle(b) >= sched_cycle(a) +
weight(a)`), the weights being those of the weight function. -/
theorem C32_streams_do_not_overlap (p : program) (hwf : p.well_formed)
    (weight_func : String → Int × Bool) (hw : ∀ name, 0 ≤ (weight_func name).1)
    (hsum : (p.instructions.map (fun x => (weight_func (p.ins x).name).1)).sum < 2 ^ 31)
    (num_of_streams : Nat) (wto : dag_node → dag_node → Bool) (thr : Int)
    (srt : std_sort_fn) (hsrt : std_sort_contract srt) (hS : num_of_streams ≠ 0) :
    ∃ (st1 st2 : pre_scheduling_impl) (loc : pre_scheduling_impl.reorder_locals),
      (pre_scheduling_impl.create p weight_func num_of_streams wto thr srt).compute_weights
        = some st1 ∧
      pre_scheduling_impl.reorder_exits st1.exit_nodes st1 {} = some (st2, loc) ∧
      loc.sorted_nodes.Perm p.instructions ∧
      ∀ (done1 done2 rest : List instruction_ref), loc.sorted_nodes = done1 ++ done2 ++ rest →
        ∃ r1 r2,
          pre_scheduling_impl.schedule_loop done1 st2 {} (fun _ => none) [] = some r1 ∧
          pre_scheduling_impl.schedule_loop (done1 ++ done2) st2 {} (fun _ => none) []
            = some r2 ∧
          r1.2.1.max_cycle ≤ r2.2.1.max_cycle ∧
          (∀ s, r2.2.1.next_cycles s ≤ r2.2.1.max_cycle) ∧
          (∃ s, s < num_of_streams ∧ r2.2.1.next_cycles s = r2.2.1.max_cycle) ∧
          (done1 ++ done2).Pairwise (fun a b =>
            (r2.1.nodes a).stream = (r2.1.nodes b).stream →
            (r2.1.nodes a).sched_cycle + (r2.1.nodes a).weight ≤ (r2.1.nodes b).sched_cycle) ∧
          (∀ a ∈ done1 ++ done2, 0 ≤ (r2.1.nodes a).stream) ∧
          (∀ a ∈ p.instructions, (r2.1.nodes a).weight = (weight_func (p.ins a).name).1) := by
  obtain ⟨st1, st2, loc, hcw, hre, hLnd, hLperm, topo, hp, hS2, hwt, hw0, hrange, hpaired,
    hpart⟩ := pre_scheduling_impl.schedule_start p hwf weight_func num_of_streams wto thr srt hsrt
  obtain ⟨hw2, hfit⟩ :=
    pre_scheduling_impl.weights_fit p weight_func hw hsum st2 loc.sorted_nodes hLperm hwt hw0
  refine ⟨st1, st2, loc, hcw, hre, hLperm, ?_⟩
  intro done1 done2 rest hL
  -- the loop completes on the whole list, hence on its initial parts
  have hinv0 : pre_scheduling_impl.sched_inv p st2 [] st2 (fun _ => none) [] :=
    ⟨hp ▸ pre_scheduling_impl.same_graph_refl _, pre_scheduling_impl.same_params_refl _, rfl,
      (fun x => ⟨rfl, rfl, rfl, rfl, rfl, rfl⟩), rfl, (fun s v h => by cases h)⟩
  obtain ⟨st', info', p2s', queue', hr, _⟩ :=
    pre_scheduling_impl.schedule_loop_spec p hwf st2 loc.sorted_nodes hLnd
      (fun x hx => hLperm.mem_iff.mp hx) topo hpaired hpart (by rw [hS2]; exact hS)
      loc.sorted_nodes [] st2 {} _ [] (by simp) hinv0
  rw [hL, pre_scheduling_impl.schedule_loop_append] at hr
  cases h2 : pre_scheduling_impl.schedule_loop (done1 ++ done2) st2 {} (fun _ => none) [] with
  | none => rw [h2] at hr; cases hr
  | some r2 =>
    have h2' := h2
    rw [pre_scheduling_impl.schedule_loop_append] at h2'
    cases h1 : pre_scheduling_impl.schedule_loop done1 st2 {} (fun _ => none) [] with
    | none => rw [h1] at h2'; cases h2'
    | some r1 =>
      rw [h1] at h2'
      simp only [Option.some_bind] at h2'
      have hnd12 : (done1 ++ done2).Nodup := by
        rw [hL] at hLnd
        exact (List.nodup_append.mp hLnd).1
      have hfit12 : ((done1 ++ done2).map (fun a => (st2.nodes a).weight)).sum < 2 ^ 31 := by
        have := pre_scheduling_impl.sum_prefix_le (fun a => (st2.nodes a).weight) hw2
          (done1 ++ done2) rest
        rw [← hL] at this
        omega
      have hfit1 : (([] ++ done1).map (fun a => (st2.nodes a).weight)).sum < 2 ^ 31 := by
        have := pre_scheduling_impl.sum_prefix_le (fun a => (st2.nodes a).weight) hw2
          done1 done2
        rw [List.nil_append]
        omega
      have inv0 : pre_scheduling_impl.stream_inv num_of_streams st2 {} (fun _ => none) [] :=
        ⟨fun _ => le_refl _, ⟨0, Nat.pos_of_ne_zero hS, rfl⟩, (fun k v h => by cases h),
          (fun a h => by cases h), List.Pairwise.nil, le_refl _⟩
      obtain ⟨a1, _, a3, a4, a5⟩ := pre_scheduling_impl.schedule_loop_stream_inv num_of_streams
        (Nat.pos_of_ne_zero hS) done1 st2 {} (fun _ => none) [] r1 hS2 hw2
        (by simpa using (List.nodup_append.mp hnd12).1) hrange hfit1 inv0 h1
      simp only [List.nil_append] at a3
      rw [a3] at a1
      have hmap : ∀ l : List instruction_ref,
          l.map (fun a => (r1.1.nodes a).weight) = l.map (fun a => (st2.nodes a).weight) :=
        fun l => List.map_congr_left (fun a _ => a4 a)
      obtain ⟨b1, b2, b3, b4, _⟩ := pre_scheduling_impl.schedule_loop_stream_inv num_of_streams
        (Nat.pos_of_ne_zero hS) done2 r1.1 r1.2.1 r1.2.2.1 r1.2.2.2 r2 a5
        (fun x => by rw [a4 x]; exact hw2 x) (by rw [a3]; exact hnd12)
        (pre_scheduling_impl.schedule_loop_range done1 st2 {} _ [] r1 hrange h1)
        (by rw [a3, hmap]; exact hfit12) (by rw [a3]; exact a1) h2'
      rw [b3, a3] at b1
      refine ⟨r1, r2, rfl, rfl, b2, b1.max_ge, b1.max_attained, b1.no_overlap,
        fun a ha => (b1.recorded a ha).1, fun a ha => ?_⟩
      rw [b4 a, a4 a, hwt a ha]

theorem C32_streams_do_not_overlap_witness :
    ∃ (st1 st2 : pre_scheduling_impl) (loc : pre_scheduling_impl.reorder_locals),
      (pre_scheduling_impl.create diamond_example diamond_weights 2 by_weight_sum 2
        stable_sort).compute_weights = some st1 ∧
      pre_scheduling_impl.reorder_exits st1.exit_nodes st1 {} = some (st2, loc) ∧
      loc.sorted_nodes.Perm diamond_example.instructions ∧
      ∀ (done1 done2 rest : List instruction_ref), loc.sorted_nodes = done1 ++ done2 ++ rest →
        ∃ r1 r2,
          pre_scheduling_impl.schedule_loop done1 st2 {} (fun _ => none) [] = some r1 ∧
          pre_scheduling_impl.schedule_loop (done1 ++ done2) st2 {} (fun _ => none) []
            = some r2 ∧
          r1.2.1.max_cycle ≤ r2.2.1.max_cycle ∧
          (∀ s, r2.2.1.next_cycles s ≤ r2.2.1.max_cycle) ∧
          (∃ s, s < 2 ∧ r2.2.1.next_cycles s = r2.2.1.max_cycle) ∧
          (done1 ++ done2).Pairwise (fun a b =>
            (r2.1.nodes a).stream = (r2.1.nodes b).stream →
            (r2.1.nodes a).sched_cycle + (r2.1.nodes a).weight ≤ (r2.1.nodes b).sched_cycle) ∧
          (∀ a ∈ done1 ++ done2, 0 ≤ (r2.1.nodes a).stream) ∧
          (∀ a ∈ diamond_example.instructions,
            (r2.1.nodes a).weight = (diamond_weights (diamond_example.ins a).name).1) :=
  C32_streams_do_not_overlap diamond_example (by decide) diamond_weights
    (by
      intro name
      unfold diamond_weights
      split
      · decide
      · split <;> decide)
    (by decide) 2 by_weight_sum 2 stable_sort stable_sort_contract (by decide)

/-- C26 (amended): on a well-formed program that does not consist of exactly
one instruction, with static weights that are not negative and, unless there
is no stream, sum over the instructions to less than `2^31`, a comparator of
the child queue that does not read the position index, and exit instructions
whose weight sums are pairwise different, pre-scheduling completes, a second
run on its output with the same weight function and the same number of
streams completes as well, and the second run leaves the program order and
the stream of every instruction as the first run left them. -/
theorem C26_second_run_keeps_order_and_streams (p : program) (hwf : p.well_formed)
    (weight_func : String → Int × Bool) (hw : ∀ name, 0 ≤ (weight_func name).1)
    (num_of_streams : Nat)
    (hsum : num_of_streams = 0 ∨
      (p.instructions.map (fun x => (weight_func (p.ins x).name).1)).sum < 2 ^ 31)
    (wto : dag_node → dag_node → Bool)
    (hwto : ∀ (d1 d2 : dag_node) (i j : Int),
      wto { d1 with ins_ndx := i } { d2 with ins_ndx := j } = wto d1 d2)
    (thr : Int) (srt : std_sort_fn) (hsrt : std_sort_contract srt)
    (hlen : p.instructions.length ≠ 1)
    (hex : ∀ st1,
      (pre_scheduling_impl.create p weight_func num_of_streams wto thr srt).compute_weights
        = some st1 →
      st1.exit_nodes.Pairwise (fun a b => (st1.nodes a).weight_sum ≠ (st1.nodes b).weight_sum)) :
    ∃ st' stb,
      (pre_scheduling_impl.create p weight_func num_of_streams wto thr srt).run = some st' ∧
      (pre_scheduling_impl.create st'.p_program weight_func num_of_streams wto thr srt).run
        = some stb ∧
      stb.p_program.instructions = st'.p_program.instructions ∧
      ∀ x, (stb.p_program.ins x).get_stream = (st'.p_program.ins x).get_stream := by
  by_cases hn : p.instructions.length = 0
  · have h0 : (pre_scheduling_impl.create p weight_func num_of_streams wto thr srt).run
        = some (pre_scheduling_impl.create p weight_func num_of_streams wto thr srt) := by
      unfold pre_scheduling_impl.run
      rw [if_pos]
      exact hn
    exact ⟨_, _, h0, h0, rfl, fun _ => rfl⟩
  · obtain ⟨st1, st2, loc, st3, L3, hcw, hre, hsch, hrun, hLnd, hLperm, _, hL3nd, hL3perm, hgr,
      hzero⟩ := pre_scheduling_impl.run_stages p hwf weight_func num_of_streams wto thr srt hsrt hn
    have hlen2 : 2 ≤ L3.length := by rw [hL3perm.length_eq]; omega
    obtain ⟨st', hsp, hi1, hi2, hi3, _⟩ := pre_scheduling_impl.splice_spec st3 L3 hL3nd
      (by rw [hgr.1]; exact hL3perm) hlen2
    have hrun' : (pre_scheduling_impl.create p weight_func num_of_streams wto thr srt).run
        = some st' := hrun.trans hsp
    have hspec := (pre_scheduling_impl.run_spec p hwf weight_func hw num_of_streams wto thr srt
      hsrt).2 st' hrun'
    have hdbu' : ∀ v ∈ st'.p_program.instructions, ∀ u ∈ (st'.p_program.ins v).inputs,
        st'.p_program.pos u < st'.p_program.pos v := by
      refine hspec.2.1 (fun hS => ?_)
      rcases hsum with h0 | hs
      · exact absurd h0 hS
      · exact (pre_scheduling_impl.run_edges p hwf weight_func
          (pre_scheduling_impl.abs_sum_of_nonneg p weight_func hw hs) num_of_streams wto thr
          srt hsrt hS st' hrun').2
    have hnd' : st'.p_program.instructions.Nodup := by rw [hi1]; exact hL3nd
    have hn' : st'.p_program.next_ref = p.next_ref := hi3.trans hgr.2.1
    have hins' : ∀ r, (st'.p_program.ins r).op = (p.ins r).op ∧
        (st'.p_program.ins r).result = (p.ins r).result ∧
        (st'.p_program.ins r).output = (p.ins r).output ∧
        (st'.p_program.ins r).arguments = (p.ins r).arguments ∧
        (st'.p_program.ins r).lit = (p.ins r).lit := fun r => by rw [hi2]; exact hgr.2.2 r
    have hcw' := pre_scheduling_impl.compute_weights_recast p st'.p_program weight_func
      num_of_streams wto thr srt hsrt hwf.1 hwf.2.1 hnd' hdbu' hspec.1 hn' hins' st1 hcw
      (hex st1 hcw)
    rw [hi1] at hcw'
    obtain ⟨idx, hidx⟩ : ∃ idx : instruction_ref → Int,
        idx = fun x => if x ∈ L3 then (L3.indexOf x : Int) else -1 := ⟨_, rfl⟩
    obtain ⟨ann0, hann0⟩ : ∃ ann0 : instruction_ref → Int × Nat,
        ann0 = fun r => ((st'.p_program.ins r).stream, (st'.p_program.ins r).mask) := ⟨_, rfl⟩
    rw [← hidx, ← hann0] at hcw'
    obtain ⟨sa, ha, hwc, hpar, _⟩ := pre_scheduling_impl.compute_weights_spec p weight_func
      num_of_streams wto thr srt hsrt hwf.1 hwf.2.1
    have esa : sa = st1 := Option.some.inj (ha.symm.trans hcw)
    rw [esa] at hwc hpar
    have hp1 : st1.p_program = p := hwc.program
    have hw1 : st1.weighted_topology_ordering = wto := hpar.weighted_topology_ordering
    have hre' : pre_scheduling_impl.reorder_exits st1.exit_nodes
        (pre_scheduling_impl.recast L3 idx ann0 st1) {}
        = some (pre_scheduling_impl.recast L3 idx ann0 st2, loc) := by
      rw [pre_scheduling_impl.reorder_exits_recast L3 idx ann0 wto hwto _ st1 {} hw1
        (by rw [hp1]; exact hL3perm), hre]
      rfl
    have hrel := pre_scheduling_impl.reorder_exits_rel _ _ _ _ hre
    have hS2 : st2.num_of_streams = num_of_streams :=
      hrel.params.num_of_streams.trans hpar.num_of_streams
    have hp2 : st2.p_program = p := hrel.program.trans hp1
    have hlen' : ¬ (pre_scheduling_impl.create st'.p_program weight_func num_of_streams wto thr
        srt).p_program.instructions.length = 0 := by
      show ¬ st'.p_program.instructions.length = 0
      rw [hi1]; omega
    by_cases hS : num_of_streams = 0
    · obtain ⟨e1, e2⟩ := hzero hS
      have hsch' : (pre_scheduling_impl.recast L3 idx ann0 st2).schedule loc.sorted_nodes
          = some (pre_scheduling_impl.recast L3 idx ann0 st2, loc.sorted_nodes) := by
        unfold pre_scheduling_impl.schedule
        rw [if_pos (show (pre_scheduling_impl.recast L3 idx ann0 st2).num_of_streams = 0 from
          hS2.trans hS)]
      obtain ⟨stb, hsp', j1, j2, _, _⟩ := pre_scheduling_impl.splice_spec
        (pre_scheduling_impl.recast L3 idx ann0 st2) L3 hL3nd (List.Perm.refl _) hlen2
      refine ⟨st', stb, hrun', ?_, by rw [j1, hi1], fun x => ?_⟩
      · unfold pre_scheduling_impl.run
        rw [if_neg hlen', hcw']
        simp only [pre_scheduling_impl.reorder]
        have hex1 : (pre_scheduling_impl.recast L3 idx ann0 st1).exit_nodes = st1.exit_nodes :=
          rfl
        rw [hex1, hre']
        simp only
        rw [hsch']
        simp only
        rw [← e2]
        exact hsp'
      · rw [j2, hann0]
        rfl
    · have hne : loc.sorted_nodes ≠ [] := by
        intro e
        have := hLperm.length_eq
        rw [e] at this
        exact hn this.symm
      have hf1 := pre_scheduling_impl.schedule_form st2 loc.sorted_nodes
        (by rw [hS2]; exact hS) hne
      rw [hsch] at hf1
      cases hr : pre_scheduling_impl.schedule_loop loc.sorted_nodes st2 {} (fun _ => none) [] with
      | none => rw [hr] at hf1; cases hf1
      | some r =>
        rw [hr] at hf1
        simp only [Option.map_some', Option.some.injEq, Prod.mk.injEq] at hf1
        obtain ⟨e1, e2⟩ := hf1
        obtain ⟨ann1, hl'⟩ := pre_scheduling_impl.schedule_loop_recast L3 idx loc.sorted_nodes
          ann0 st2 {} (fun _ => none) []
        rw [hr] at hl'
        simp only [Option.map_some'] at hl'
        have hf2 := pre_scheduling_impl.schedule_form
          (pre_scheduling_impl.recast L3 idx ann0 st2) loc.sorted_nodes
          (show (pre_scheduling_impl.recast L3 idx ann0 st2).num_of_streams ≠ 0 by
            show st2.num_of_streams ≠ 0
            rw [hS2]; exact hS) hne
        rw [hl'] at hf2
        simp only [Option.map_some'] at hf2
        have hagain := pre_scheduling_impl.post_schedule_again r.1 loc.sorted_nodes hLnd L3
          e2 L3 ann1
        rw [← hidx] at hagain
        rw [hagain] at hf2
        obtain ⟨stb, hsp', j1, j2, _, _⟩ := pre_scheduling_impl.splice_spec
          (pre_scheduling_impl.recast L3 idx ann1 r.1) L3 hL3nd (List.Perm.refl _) hlen2
        refine ⟨st', stb, hrun', ?_, by rw [j1, hi1], fun x => ?_⟩
        · unfold pre_scheduling_impl.run
          rw [if_neg hlen', hcw']
          simp only [pre_scheduling_impl.reorder]
          have hex1 : (pre_scheduling_impl.recast L3 idx ann0 st1).exit_nodes = st1.exit_nodes :=
            rfl
          rw [hex1, hre']
          simp only
          rw [hf2]
          simp only
          exact hsp'
        · have c1 := (pre_scheduling_impl.schedule_loop_streams _ _ _ _ _ r hLnd hr).2.2 x
          have c2 := (pre_scheduling_impl.schedule_loop_streams _ _ _ _ _ _ hLnd hl').2.2 x
          simp only at c2
          have c3 : ((pre_scheduling_impl.recast L3 idx ann0 st2).p_program.ins x).stream
              = (st'.p_program.ins x).stream := by rw [hann0]; rfl
          have c4 : ((pre_scheduling_impl.recast L3 idx ann0 st2).nodes x).can_use_stream
              = (st2.nodes x).can_use_stream := rfl
          have c5 : ((pre_scheduling_impl.recast L3 idx ann1 r.1).nodes x).stream
              = (r.1.nodes x).stream := rfl
          rw [c3, c4, c5] at c2
          have c6 : (st'.p_program.ins x).stream = (r.1.p_program.ins x).stream := by
            rw [hi2, e1]
          unfold instruction.get_stream
          rw [j2, c2]
          by_cases hc : x ∈ loc.sorted_nodes ∧ (st2.nodes x).can_use_stream = true
          · rw [if_pos hc, c6, c1, if_pos hc]
          · rw [if_neg hc]

theorem C26_second_run_keeps_order_and_streams_witness :
    ∃ st' stb,
      (pre_scheduling_impl.create two_sinks_example two_sinks_weights 2 by_weight_sum 2
        stable_sort).run = some st' ∧
      (pre_scheduling_impl.create st'.p_program two_sinks_weights 2 by_weight_sum 2
        stable_sort).run = some stb ∧
      stb.p_program.instructions = st'.p_program.instructions ∧
      ∀ x, (stb.p_program.ins x).get_stream = (st'.p_program.ins x).get_stream :=
  C26_second_run_keeps_order_and_streams two_sinks_example (by decide) two_sinks_weights
    (by
      intro name
      unfold two_sinks_weights
      split <;> decide)
    2 (Or.inr (by decide)) by_weight_sum (fun _ _ _ _ => rfl) 2 stable_sort
    stable_sort_contract (by decide)
    (by
      intro st1 h
      have key : ((pre_scheduling_impl.create two_sinks_example two_sinks_weights 2 by_weight_sum
          2 stable_sort).compute_weights.map (fun s => decide (s.exit_nodes.Pairwise
            (fun a b => (s.nodes a).weight_sum ≠ (s.nodes b).weight_sum)))) = some true := by
        rfl
      rw [h] at key
      simpa using key)

namespace pre_scheduling_impl

/-- Adding an event to a mask sets no other event. -/
theorem add_mask_has (i : instruction) (m m' : Nat) (hm : m < 2) (hm' : m' < 2)
    (h : i.mask < 4) (hh : (i.add_mask m').has_mask m = true) :
    i.has_mask m = true ∨ m = m' := by
  obtain ⟨op, result, output, arguments, lit, stream, mask⟩ := i
  simp only [instruction.add_mask, instruction.has_mask] at hh ⊢
  simp only [] at h
  have key : ∀ k < 4, ∀ m < 2, ∀ m' < 2,
      ((if k &&& 1 <<< m' = 0 then k + 1 <<< m' else k) &&& 1 <<< m != 0) = true →
      (k &&& 1 <<< m != 0) = true ∨ m = m' := by
    decide
  apply key mask h m hm m' hm'
  by_cases hc : mask &&& 1 <<< m' = 0
  · rw [if_pos hc] at hh ⊢
    exact hh
  · rw [if_neg hc] at hh ⊢
    exact hh

/-- The loop of `record` over the inputs sets `WAIT_EVENT` on the node only,
and only if an input has a stream other than the node's; it sets
`RECORD_EVENT` only on inputs that have a stream other than the node's. -/
theorem mark_events_sound (node : instruction_ref) (s : Int) :
    ∀ (args : List instruction_ref) (p : program), (∀ y, (p.ins y).mask < 4) →
      ∀ y,
        (((mark_events node s args p).ins y).has_mask WAIT_EVENT = true →
          (p.ins y).has_mask WAIT_EVENT = true ∨
          (y = node ∧ ∃ a ∈ args, ¬ ((p.ins a).stream < 0 ∨ (p.ins a).stream = s))) ∧
        (((mark_events node s args p).ins y).has_mask RECORD_EVENT = true →
          (p.ins y).has_mask RECORD_EVENT = true ∨
          (y ∈ args ∧ ¬ ((p.ins y).stream < 0 ∨ (p.ins y).stream = s))) := by
  intro args
  induction args with
  | nil =>
    intro p _ y
    exact ⟨fun h => Or.inl h, fun h => Or.inl h⟩
  | cons a rest ih =>
    intro p hp y
    by_cases hc : (p.ins a).get_stream < 0 ∨ (p.ins a).get_stream = s
    · have e : mark_events node s (a :: rest) p = mark_events node s rest p := by
        simp only [mark_events, if_pos hc]
      rw [e]
      obtain ⟨i1, i2⟩ := ih p hp y
      refine ⟨fun h => ?_, fun h => ?_⟩
      · rcases i1 h with h1 | ⟨h1, b, hb, hb2⟩
        · exact Or.inl h1
        · exact Or.inr ⟨h1, b, List.mem_cons_of_mem _ hb, hb2⟩
      · rcases i2 h with h1 | ⟨h1, h2⟩
        · exact Or.inl h1
        · exact Or.inr ⟨List.mem_cons_of_mem _ h1, h2⟩
    · obtain ⟨p1, hp1⟩ : ∃ p1 : program, p1 = p.set a ((p.ins a).add_mask RECORD_EVENT) :=
        ⟨_, rfl⟩
      obtain ⟨p2, hp2⟩ : ∃ p2 : program, p2 = p1.set node ((p1.ins node).add_mask WAIT_EVENT) :=
        ⟨_, rfl⟩
      have e : mark_events node s (a :: rest) p = mark_events node s rest p2 := by
        rw [hp2, hp1]
        simp only [mark_events, if_neg hc]
      rw [e]
      -- the two writes
      have m1 : ∀ z, (p1.ins z).mask < 4 := by
        intro z
        rw [hp1]
        by_cases hz : z = a
        · subst hz
          simp only [program.set, Function.update_same]
          exact (add_mask_small _ _ (by decide) (hp z)).1
        · simp only [program.set, Function.update_noteq hz]
          exact hp z
      have m2 : ∀ z, (p2.ins z).mask < 4 := by
        intro z
        rw [hp2]
        by_cases hz : z = node
        · subst hz
          simp only [program.set, Function.update_same]
          exact (add_mask_small _ _ (by decide) (m1 z)).1
        · simp only [program.set, Function.update_noteq hz]
          exact m1 z
      have s1 : ∀ z, (p1.ins z).stream = (p.ins z).stream := by
        intro z
        rw [hp1]
        by_cases hz : z = a
        · subst hz
          simp only [program.set, Function.update_same]
          exact (add_mask_fields _ _).2.2.2.2.2
        · simp only [program.set, Function.update_noteq hz]
      have s2 : ∀ z, (p2.ins z).stream = (p.ins z).stream := by
        intro z
        rw [hp2]
        by_cases hz : z = node
        · subst hz
          simp only [program.set, Function.update_same]
          rw [(add_mask_fields _ _).2.2.2.2.2]
          exact s1 z
        · simp only [program.set, Function.update_noteq hz]
          exact s1 z
      have w1 : ∀ z, (p1.ins z).has_mask WAIT_EVENT = true → (p.ins z).has_mask WAIT_EVENT = true := by
        intro z hz
        rw [hp1] at hz
        by_cases hza : z = a
        · subst hza
          simp only [program.set, Function.update_same] at hz
          rcases add_mask_has _ _ _ (by decide) (by decide) (hp z) hz with h | h
          · exact h
          · exact absurd h (by decide)
        · simpa only [program.set, Function.update_noteq hza] using hz
      have r1 : ∀ z, (p1.ins z).has_mask RECORD_EVENT = true →
          (p.ins z).has_mask RECORD_EVENT = true ∨ z = a := by
        intro z hz
        by_cases hza : z = a
        · exact Or.inr hza
        · left
          rw [hp1] at hz
          simpa only [program.set, Function.update_noteq hza] using hz
      have w2 : ∀ z, (p2.ins z).has_mask WAIT_EVENT = true →
          (p.ins z).has_mask WAIT_EVENT = true ∨ z = node := by
        intro z hz
        by_cases hzn : z = node
        · exact Or.inr hzn
        · left
          rw [hp2] at hz
          simp only [program.set, Function.update_noteq hzn] at hz
          exact w1 z hz
      have r2 : ∀ z, (p2.ins z).has_mask RECORD_EVENT = true →
          (p.ins z).has_mask RECORD_EVENT = true ∨ z = a := by
        intro z hz
        rw [hp2] at hz
        by_cases hzn : z = node
        · subst hzn
          simp only [program.set, Function.update_same] at hz
          rcases add_mask_has _ _ _ (by decide) (by decide) (m1 z) hz with h | h
          · exact r1 z h
          · exact absurd h (by decide)
        · simp only [program.set, Function.update_noteq hzn] at hz
          exact r1 z hz
      have hc' : ¬ ((p.ins a).stream < 0 ∨ (p.ins a).stream = s) := hc
      obtain ⟨i1, i2⟩ := ih p2 m2 y
      refine ⟨fun h => ?_, fun h => ?_⟩
      · rcases i1 h with h1 | ⟨h1, b, hb, hb2⟩
        · rcases w2 y h1 with h2 | h2
          · exact Or.inl h2
          · exact Or.inr ⟨h2, a, List.mem_cons_self _ _, hc'⟩
        · rw [s2 b] at hb2
          exact Or.inr ⟨h1, b, List.mem_cons_of_mem _ hb, hb2⟩
      · rcases i2 h with h1 | ⟨h1, h2⟩
        · rcases r2 y h1 with h2 | h2
          · exact Or.inl h2
          · rw [h2]
            exact Or.inr ⟨List.mem_cons_self _ _, hc'⟩
        · rw [s2 y] at h2
          exact Or.inr ⟨List.mem_cons_of_mem _ h1, h2⟩

/-- The loop of `schedule` sets an event only across an edge whose ends are on
different streams. -/
theorem schedule_loop_sound (p : program) (L : List instruction_ref) (hLnd : L.Nodup)
    (hLtopo : ∀ v ∈ L, ∀ u ∈ (p.ins v).inputs, L.indexOf u < L.indexOf v)
    (S : Nat) (hS : 1 ≤ S) :
    ∀ (rest done : List instruction_ref) (st : pre_scheduling_impl) (info : stream_info)
      (p2s : Int → Option Int) (queue : List instruction_ref)
      (r : pre_scheduling_impl × stream_info × (Int → Option Int) × List instruction_ref),
      L = done ++ rest → same_graph p st.p_program → st.num_of_streams = S →
      (∀ k v, p2s k = some v → 0 ≤ v ∧ v.toNat < S) →
      events_sound p S done st.p_program →
      schedule_loop rest st info p2s queue = some r → events_sound p S L r.1.p_program := by
  intro rest
  induction rest with
  | nil =>
    intro done st info p2s queue r hL _ _ _ hinv h
    simp only [schedule_loop, Option.some.injEq] at h
    rw [← h, hL, List.append_nil]
    exact hinv
  | cons x rest ih =>
    intro done st info p2s queue r hL hgr hSn hp2s hinv h
    have hnd' : (done ++ x :: rest).Nodup := hL ▸ hLnd
    have hxnd : x ∉ done := fun h =>
      (List.nodup_append.mp hnd').2.2 h (List.mem_cons_self _ _)
    have hpre := inputs_in_prefix p done rest x hnd' (hL ▸ hLtopo)
    obtain ⟨stream, hstream⟩ : ∃ stream : Int, stream =
        match p2s (st.nodes x).partition with
        | some s => s
        | none => st.get_stream info x := ⟨_, rfl⟩
    obtain ⟨s1, hs1⟩ : ∃ s1 : pre_scheduling_impl, s1 =
        { st with
          nodes := Function.update st.nodes x { st.nodes x with stream := stream } } :=
      ⟨_, rfl⟩
    rw [schedule_loop_cons x rest st info p2s queue stream hstream s1 hs1] at h
    split at h
    · cases h
    · split at h
      · cases h
      · rename_i hneg
        split at h
        · cases h
        · rename_i r1 h1
          have hlt : stream.toNat < S := by
            cases hp : p2s (st.nodes x).partition with
            | some v =>
              rw [hp] at hstream
              rw [hstream]
              exact (hp2s _ v hp).2
            | none =>
              rw [hp] at hstream
              obtain ⟨k, hk1, hk2⟩ := get_stream_lt st info x (by rw [hSn]; exact hS)
              rw [hstream, hk1, ← hSn]
              simpa using hk2
          have h0 : 0 ≤ stream := not_lt.mp hneg
          have hsp : s1.p_program = st.p_program := by rw [hs1]
          have hss : (s1.nodes x).stream = stream := by rw [hs1]; simp
          obtain ⟨c1, _, _, _, _, c6⟩ := record_cycles s1 info x r1 h1
          have hsn : r1.1.num_of_streams = S := by
            rw [c1, hs1]
            exact hSn
          have hstrn : (r1.1.nodes x).stream = stream := by
            rw [(c6 x).1]; exact hss
          have hp2s' : ∀ k v, Function.update p2s (st.nodes x).partition
              (some (r1.1.nodes x).stream) k = some v → 0 ≤ v ∧ v.toNat < S := by
            intro k v hk
            by_cases hkk : k = (st.nodes x).partition
            · rw [hkk, Function.update_same, hstrn] at hk
              cases hk
              exact ⟨h0, hlt⟩
            · rw [Function.update_noteq hkk] at hk
              exact hp2s k v hk
          have hrp := record_program s1 info x r1.1 r1.2 h1
          rw [hsp, hss] at hrp
          obtain ⟨p3, hp3⟩ : ∃ p3 : program,
              p3 = st.p_program.set x ((st.p_program.ins x).set_stream stream) := ⟨_, rfl⟩
          rw [← hp3] at hrp
          have hg3 : same_graph st.p_program p3 := by
            rw [hp3]
            apply same_graph_set
            simp [instruction.set_stream]
          have hargs : (p3.ins x).inputs = (p.ins x).inputs :=
            ((hg3.2.2 x).2.2.2.1).trans ((hgr.2.2 x).2.2.2.1)
          have hnext : events_sound p S (done ++ [x]) r1.1.p_program ∧
              same_graph p r1.1.p_program := by
            rcases hrp with hrp | hrp
            · rw [hrp]
              refine ⟨⟨?_, hinv.masks, hinv.range, ?_, ?_⟩, hgr⟩
              · intro y hy
                exact hinv.pending y (fun h => hy (List.mem_append_left _ h))
              · intro v hv
                obtain ⟨q1, q2, q3⟩ := hinv.wait v hv
                exact ⟨List.mem_append_left _ q1, q2, q3⟩
              · intro u hu
                obtain ⟨q1, v, q2, q3⟩ := hinv.record u hu
                exact ⟨q1, v, List.mem_append_left _ q2, q3⟩
            · have hm3 : ∀ y, (p3.ins y).mask < 4 := by
                intro y
                rw [hp3]
                by_cases hy : y = x
                · subst hy
                  simpa [program.set, instruction.set_stream] using hinv.masks y
                · simpa [program.set, Function.update_noteq hy] using hinv.masks y
              have hs3 : ∀ y, y ≠ x → (p3.ins y).stream = (st.p_program.ins y).stream := by
                intro y hy
                rw [hp3]
                simp [program.set, Function.update_noteq hy]
              have hh3 : ∀ y m, (p3.ins y).has_mask m = (st.p_program.ins y).has_mask m := by
                intro y m
                rw [hp3]
                by_cases hy : y = x
                · subst hy
                  simp [program.set, instruction.set_stream, instruction.has_mask]
                · simp [program.set, Function.update_noteq hy]
              have hsx : (p3.ins x).stream = stream := by
                rw [hp3]
                simp [program.set, instruction.set_stream]
              have m1 := mark_events_stream x stream (p3.ins x).inputs p3
              obtain ⟨_, m2, _, _⟩ := mark_events_spec x stream (p3.ins x).inputs p3 hm3
              have m5 := mark_events_sound x stream (p3.ins x).inputs p3 hm3
              have hP : r1.1.p_program = mark_events x stream (p3.ins x).inputs p3 := hrp
              rw [hP]
              -- streams after the round
              have hst' : ∀ y, y ≠ x →
                  ((mark_events x stream (p3.ins x).inputs p3).ins y).stream
                    = (st.p_program.ins y).stream := by
                intro y hy
                rw [m1 y, hs3 y hy]
              have hstx : ((mark_events x stream (p3.ins x).inputs p3).ins x).stream = stream := by
                rw [m1 x, hsx]
              refine ⟨⟨?_, m2, ?_, ?_, ?_⟩, ?_⟩
              · intro y hy
                have hy1 : y ∉ done := fun h => hy (List.mem_append_left _ h)
                have hy2 : y ≠ x := fun h => hy (by simp [h])
                rw [hst' y hy2]
                exact hinv.pending y hy1
              · intro y
                by_cases hy : y = x
                · rw [hy, hstx]
                  exact Or.inr ⟨h0, hlt⟩
                · rw [hst' y hy]
                  exact hinv.range y
              · intro v hv
                rcases (m5 v).1 hv with hv1 | ⟨hv1, a, ha, ha2⟩
                · rw [hh3] at hv1
                  obtain ⟨q1, q2, u, q3, q4, q5⟩ := hinv.wait v hv1
                  have hvx : v ≠ x := fun e => hxnd (e ▸ q1)
                  have hud : u ∈ done := hpre v (List.mem_append_left _ q1) u q3
                  have hux : u ≠ x := fun e => hxnd (e ▸ hud)
                  rw [hst' v hvx]
                  exact ⟨List.mem_append_left _ q1, q2, u, q3, by rw [hst' u hux]; exact q4,
                    by rw [hst' u hux]; exact q5⟩
                · subst hv1
                  rw [hargs] at ha
                  have had : a ∈ done := hpre v (by simp) a ha
                  have hav : a ≠ v := fun e => hxnd (e ▸ had)
                  rw [hs3 a hav] at ha2
                  rw [hstx]
                  refine ⟨by simp, h0, a, ha, ?_, ?_⟩
                  · rw [hst' a hav]
                    by_contra hc
                    exact ha2 (Or.inl (not_le.mp hc))
                  · rw [hst' a hav]
                    intro hc
                    exact ha2 (Or.inr hc)
              · intro u hu
                rcases (m5 u).2 hu with hu1 | ⟨hu1, hu2⟩
                · rw [hh3] at hu1
                  obtain ⟨q1, v, q2, q3, q4, q5⟩ := hinv.record u hu1
                  have hvx : v ≠ x := fun e => hxnd (e ▸ q2)
                  have hux : u ≠ x := by
                    intro e
                    rw [e, hinv.pending x hxnd] at q1
                    exact absurd q1 (by decide)
                  rw [hst' u hux]
                  refine ⟨q1, v, List.mem_append_left _ q2, q3, ?_, ?_⟩
                  · rw [hst' v hvx]; exact q4
                  · rw [hst' v hvx]; exact q5
                · rw [hargs] at hu1
                  have hud : u ∈ done := hpre x (by simp) u hu1
                  have hux : u ≠ x := fun e => hxnd (e ▸ hud)
                  rw [hs3 u hux] at hu2
                  rw [hst' u hux]
                  refine ⟨?_, x, by simp, hu1, ?_, ?_⟩
                  · by_contra hc
                    exact hu2 (Or.inl (not_le.mp hc))
                  · rw [hstx]; exact h0
                  · rw [hstx]
                    intro hc
                    exact hu2 (Or.inr hc.symm)
              · exact same_graph_trans hgr (same_graph_trans hg3 (mark_events_graph _ _ _ _))
          exact ih (done ++ [x]) r1.1 r1.2 _ _ r (by rw [hL]; simp) hnext.2 hsn hp2s' hnext.1 h

end pre_scheduling_impl

/-- C33: on a well-formed program that does not consist of exactly one
instruction and starts with stream `-1` and an empty mask everywhere,
pre-scheduling completes, and in the program it leaves: an instruction whose
mask contains `WAIT_EVENT` has an input with a stream `>= 0` different from
its own; an instruction whose mask contains `RECORD_EVENT` has a consumer with
a stream different from its own; and with a single stream every mask is
empty. -/
theorem C33_no_spurious_events (p : program) (hwf : p.well_formed)
    (weight_func : String → Int × Bool)
    (num_of_streams : Nat) (wto : dag_node → dag_node → Bool) (thr : Int)
    (srt : std_sort_fn) (hsrt : std_sort_contract srt)
    (hlen : p.instructions.length ≠ 1)
    (hinit : ∀ x, (p.ins x).stream = -1 ∧ (p.ins x).mask = 0) :
    ∃ st', (pre_scheduling_impl.create p weight_func num_of_streams wto thr srt).run = some st' ∧
      (∀ v, (st'.p_program.ins v).has_mask WAIT_EVENT = true →
        ∃ u ∈ (st'.p_program.ins v).inputs, 0 ≤ (st'.p_program.ins u).get_stream ∧
          (st'.p_program.ins u).get_stream ≠ (st'.p_program.ins v).get_stream) ∧
      (∀ u, (st'.p_program.ins u).has_mask RECORD_EVENT = true →
        ∃ v ∈ (st'.p_program.ins u).outputs,
          (st'.p_program.ins v).get_stream ≠ (st'.p_program.ins u).get_stream) ∧
      (num_of_streams = 1 → ∀ x, (st'.p_program.ins x).mask = 0) := by
  have hno : ∀ (i : instruction) (m : Nat), i.mask = 0 → i.has_mask m = false := by
    intro i m h
    simp [instruction.has_mask, h]
  by_cases hn : p.instructions.length = 0
  · have h0 : (pre_scheduling_impl.create p weight_func num_of_streams wto thr srt).run
        = some (pre_scheduling_impl.create p weight_func num_of_streams wto thr srt) := by
      unfold pre_scheduling_impl.run
      rw [if_pos]
      exact hn
    refine ⟨_, h0, ?_, ?_, fun _ x => (hinit x).2⟩
    · intro v hv
      have : (p.ins v).has_mask WAIT_EVENT = false := hno _ _ (hinit v).2
      exact absurd hv (by rw [show (pre_scheduling_impl.create p weight_func num_of_streams wto
        thr srt).p_program = p from rfl, this]; decide)
    · intro u hu
      have : (p.ins u).has_mask RECORD_EVENT = false := hno _ _ (hinit u).2
      exact absurd hu (by rw [show (pre_scheduling_impl.create p weight_func num_of_streams wto
        thr srt).p_program = p from rfl, this]; decide)
  · obtain ⟨st1, st2, loc, st3, L3, hcw, hre, hsch, hrun, hLnd, hLperm, hLtopo, hL3nd, hL3perm,
      hgr, hzero⟩ :=
      pre_scheduling_impl.run_stages p hwf weight_func num_of_streams wto thr srt hsrt hn
    have hlen2 : 2 ≤ L3.length := by rw [hL3perm.length_eq]; omega
    obtain ⟨st', hsp, _, hi2, _, _⟩ := pre_scheduling_impl.splice_spec st3 L3 hL3nd
      (by rw [hgr.1]; exact hL3perm) hlen2
    obtain ⟨sa, ha, hwc, hpar, _⟩ := pre_scheduling_impl.compute_weights_spec p weight_func
      num_of_streams wto thr srt hsrt hwf.1 hwf.2.1
    have esa : sa = st1 := Option.some.inj (ha.symm.trans hcw)
    rw [esa] at hwc hpar
    have hrel := pre_scheduling_impl.reorder_exits_rel _ _ _ _ hre
    have hS2 : st2.num_of_streams = num_of_streams :=
      hrel.params.num_of_streams.trans hpar.num_of_streams
    have hp2 : st2.p_program = p := hrel.program.trans hwc.program
    -- the annotations that `schedule` leaves
    have hinv : pre_scheduling_impl.events_sound p num_of_streams loc.sorted_nodes
        st3.p_program := by
      have inv0 : pre_scheduling_impl.events_sound p num_of_streams [] p :=
        ⟨fun x _ => (hinit x).1, (fun x => by rw [(hinit x).2]; decide),
          fun x => Or.inl (hinit x).1,
          (fun v hv => by rw [hno _ _ (hinit v).2] at hv; cases hv),
          (fun u hu => by rw [hno _ _ (hinit u).2] at hu; cases hu)⟩
      by_cases hS : num_of_streams = 0
      · rw [(hzero hS).1, hp2]
        exact ⟨fun x _ => (hinit x).1, inv0.masks, inv0.range,
          (fun v hv => by rw [hno _ _ (hinit v).2] at hv; cases hv),
          (fun u hu => by rw [hno _ _ (hinit u).2] at hu; cases hu)⟩
      · have hne : loc.sorted_nodes ≠ [] := by
          intro e
          have := hLperm.length_eq
          rw [e] at this
          exact hn this.symm
        have hf1 := pre_scheduling_impl.schedule_form st2 loc.sorted_nodes
          (by rw [hS2]; exact hS) hne
        rw [hsch] at hf1
        cases hr : pre_scheduling_impl.schedule_loop loc.sorted_nodes st2 {} (fun _ => none)
            [] with
        | none => rw [hr] at hf1; cases hf1
        | some r =>
          rw [hr] at hf1
          simp only [Option.map_some', Option.some.injEq, Prod.mk.injEq] at hf1
          rw [hf1.1]
          exact pre_scheduling_impl.schedule_loop_sound p loc.sorted_nodes hLnd hLtopo
            num_of_streams (Nat.pos_of_ne_zero hS) loc.sorted_nodes [] st2 {} (fun _ => none) []
            r rfl (by rw [hp2]; exact pre_scheduling_impl.same_graph_refl p) hS2
            (fun k v h => by cases h) (by rw [hp2]; exact inv0) hr
    have hinp : ∀ x, (st3.p_program.ins x).inputs = (p.ins x).inputs :=
      fun x => (hgr.2.2 x).2.2.2.1
    have hout : ∀ x, (st3.p_program.ins x).outputs = (p.ins x).outputs :=
      fun x => (hgr.2.2 x).2.2.1
    refine ⟨st', hrun.trans hsp, ?_, ?_, ?_⟩
    · intro v hv
      rw [hi2] at hv ⊢
      obtain ⟨_, _, u, q3, q4, q5⟩ := hinv.wait v hv
      exact ⟨u, by rw [hinp]; exact q3, q4, q5⟩
    · intro u hu
      rw [hi2] at hu ⊢
      obtain ⟨_, v, q2, q3, _, q5⟩ := hinv.record u hu
      refine ⟨v, ?_, q5⟩
      rw [hout]
      exact hwf.2.2.1 v (hLperm.mem_iff.mp q2) u q3
    · intro hS1 x
      rw [hi2]
      have hzero' : ∀ y, 0 ≤ (st3.p_program.ins y).stream → (st3.p_program.ins y).stream = 0 := by
        intro y hy
        rcases hinv.range y with h | ⟨_, h⟩
        · rw [h] at hy; exact absurd hy (by decide)
        · rw [hS1] at h
          omega
      have hw : (st3.p_program.ins x).has_mask WAIT_EVENT = false := by
        cases hh : (st3.p_program.ins x).has_mask WAIT_EVENT with
        | false => rfl
        | true =>
          obtain ⟨_, q2, u, _, q4, q5⟩ := hinv.wait x hh
          rw [hzero' x q2, hzero' u q4] at q5
          exact absurd rfl q5
      have hr : (st3.p_program.ins x).has_mask RECORD_EVENT = false := by
        cases hh : (st3.p_program.ins x).has_mask RECORD_EVENT with
        | false => rfl
        | true =>
          obtain ⟨q1, v, _, _, q4, q5⟩ := hinv.record x hh
          rw [hzero' x q1, hzero' v q4] at q5
          exact absurd rfl q5
      have key : ∀ k < 4, (k &&& 1 <<< RECORD_EVENT != 0) = false →
          (k &&& 1 <<< WAIT_EVENT != 0) = false → k = 0 := by
        decide
      exact key _ (hinv.masks x) hr hw

theorem C33_no_spurious_events_witness :
    ∃ st', (pre_scheduling_impl.create diamond_example diamond_weights 2 by_weight_sum 2
        stable_sort).run = some st' ∧
      (∀ v, (st'.p_program.ins v).has_mask WAIT_EVENT = true →
        ∃ u ∈ (st'.p_program.ins v).inputs, 0 ≤ (st'.p_program.ins u).get_stream ∧
          (st'.p_program.ins u).get_stream ≠ (st'.p_program.ins v).get_stream) ∧
      (∀ u, (st'.p_program.ins u).has_mask RECORD_EVENT = true →
        ∃ v ∈ (st'.p_program.ins u).outputs,
          (st'.p_program.ins v).get_stream ≠ (st'.p_program.ins u).get_stream) ∧
      (2 = 1 → ∀ x, (st'.p_program.ins x).mask = 0) :=
  C33_no_spurious_events diamond_example (by decide) diamond_weights 2 by_weight_sum 2
    stable_sort stable_sort_contract (by decide)
    (by
      intro x
      unfold diamond_example mk_ins
      simp only
      split <;> exact ⟨rfl, rfl⟩)

/-- A valid conv-like encoding comes from a valid generic encoding. -/
theorem EncodeConvCommon_valid_inv (p : program) (ins : instruction_ref) (instr2_value : Ins2Val)
    (opcode : Nat) (info : encode_info)
    (h : EncodeConvCommon p ins instr2_value opcode = some info) (hv : info.valid = true) :
    ∃ info0, EncodeCommon p ins instr2_value opcode = some info0 ∧ info0.valid = true := by
  unfold EncodeConvCommon at h
  split at h
  · cases h
  · rename_i info0 h0
    refine ⟨info0, h0, ?_⟩
    split at h
    · rename_i hinv
      simp only [Option.some.injEq] at h
      rw [h] at hinv
      rw [hv] at hinv
      exact absurd hinv (by decide)
    · rename_i hval
      simpa using hval

namespace horizontal_fusion_impl

/-- An encoder that returns a valid encoding has read the node of the first
input. -/
theorem encoder_valid_input (e : Encoder) (p : program) (ins : instruction_ref)
    (instr2_value : Ins2Val) (opcode : Nat) (info : encode_info)
    (h : e.call p ins instr2_value opcode = some info) (hv : info.valid = true) :
    ∃ op1 id, instr2_value op1 = some id := by
  cases e with
  | Common =>
    obtain ⟨op1, _, id, _, h2, _⟩ := EncodeCommon_valid_inv p ins instr2_value opcode info h hv
    exact ⟨op1, id, h2⟩
  | ConvCommon =>
    obtain ⟨info0, h0, hv0⟩ := EncodeConvCommon_valid_inv p ins instr2_value opcode info h hv
    obtain ⟨op1, _, id, _, h2, _⟩ := EncodeCommon_valid_inv p ins instr2_value opcode info0 h0 hv0
    exact ⟨op1, id, h2⟩

theorem flag_all_values (outs : List instruction_ref) :
    ∀ st : horizontal_fusion_impl, (st.flag_all outs).values = st.values := by
  induction outs with
  | nil => intro st; rfl
  | cons o outs ih =>
    intro st
    exact (ih { st with instr2_hash := Function.update st.instr2_hash o (some true) }).trans rfl

theorem flag_children_values (op2_cnt : String → Option Nat) (outs : List instruction_ref) :
    ∀ st : horizontal_fusion_impl, (st.flag_children op2_cnt outs).values = st.values := by
  induction outs with
  | nil => intro st; rfl
  | cons o outs ih =>
    intro st
    by_cases hc : (op2_cnt (st.p_program.ins o).name).getD 0 > 1
    · have e : st.flag_children op2_cnt (o :: outs) =
          flag_children { st with instr2_hash := Function.update st.instr2_hash o (some true) }
            op2_cnt outs := by
        simp only [flag_children, List.foldl_cons, if_pos hc]
      rw [e]
      exact (ih _).trans rfl
    · have e : st.flag_children op2_cnt (o :: outs) = st.flag_children op2_cnt outs := by
        simp only [flag_children, List.foldl_cons, if_neg hc]
      rw [e]
      exact ih st

theorem hash_opcode_values (st : horizontal_fusion_impl) (ins : instruction_ref) :
    (st.hash_opcode ins).1.values = st.values := by
  unfold hash_opcode
  simp only []
  split <;> rfl

theorem add_edges_values (hash_val : Nat) (inputs : List Nat) :
    ∀ st : horizontal_fusion_impl,
      (inputs.foldl (fun st input => (st.add_input hash_val input).add_output input hash_val)
        st).values = st.values := by
  induction inputs with
  | nil => intro st; rfl
  | cons i inputs ih =>
    intro st
    simp only [List.foldl_cons]
    rw [ih]
    have h1 : (st.add_input hash_val i).values = st.values := by
      unfold add_input
      split
      · rfl
      · split <;> rfl
    have h2 : ((st.add_input hash_val i).add_output i hash_val).values
        = (st.add_input hash_val i).values := by
      unfold add_output
      split
      · rfl
      · split <;> rfl
    rw [h2, h1]

theorem create_value_values (st : horizontal_fusion_impl) (ins : instruction_ref) :
    (st.create_value ins).1.values
      = st.values ++ [{ id := st.values.length, cur_point := st.cur_point, root := false }] := by
  let val : hash_value := { id := st.values.length, cur_point := st.cur_point }
  let st1 : horizontal_fusion_impl := { st with values := st.values ++ [val] }
  have e : st.create_value ins =
      ({ st1.add_instr st.values.length with
          instr2_value := Function.update (st1.add_instr st.values.length).instr2_value ins
            (some st.values.length) }, st.values.length) := rfl
  rw [e]
  show (st1.add_instr st.values.length).values = _
  rw [(add_instr_fields st1 st.values.length).2.2.2.2.2.1]

/-- What `hash` does to the vector `values`: nothing, or (when it returns a
node) it appends a node that is not a root under a key that was absent. -/
theorem hash_values (st : horizontal_fusion_impl) (ins : instruction_ref)
    (st' : horizontal_fusion_impl) (r : Option Nat) (h : st.hash ins = some (st', r)) :
    (r = none → st'.values = st.values) ∧ (r ≠ none → values_effect st st') := by
  unfold hash at h
  split at h
  · simp only [Option.some.injEq, Prod.mk.injEq] at h
    exact ⟨(fun _ => by rw [← h.1]), fun hr => absurd h.2.symm hr⟩
  · rename_i encode_func _
    simp only [] at h
    have hop := hash_opcode_tables st ins
    have hv := hash_opcode_values st ins
    generalize (st.hash_opcode ins).1 = st1 at h hop hv
    generalize (st.hash_opcode ins).2 = opcode at h
    split at h
    · cases h
    · rename_i encode_val henc
      split at h
      · simp only [Option.some.injEq, Prod.mk.injEq] at h
        exact ⟨(fun _ => by rw [← h.1]; exact hv), fun hr => absurd h.2.symm hr⟩
      · rename_i hvalid
        have hval : encode_val.valid = true := by simpa using hvalid
        simp only [Option.some.injEq, Prod.mk.injEq] at h
        obtain ⟨hst, hr⟩ := h
        refine ⟨(fun hn => by rw [hn] at hr; cases hr), fun _ => ?_⟩
        cases hk : st1.encode2_value encode_val.key with
        | none =>
          rw [hk] at hst
          simp only [] at hst
          obtain ⟨c1, _, c3, _, _⟩ := create_value_effect st1 ins
          obtain ⟨op1, id, hin⟩ := encoder_valid_input encode_func st1.p_program ins
            st1.instr2_value opcode encode_val henc hval
          refine values_effect.fresh encode_val.key ?_ (by rw [← hop.encode]; exact hk) ?_
            ⟨op1, id, by rw [← hop.value]; exact hin⟩
          · rw [← hst]
            refine (add_edges_values _ encode_val.inputs _).trans ?_
            show (st1.create_value ins).1.values = _
            rw [create_value_values, hv, hop.cur_point]
          · rw [← hst]
            refine (congrFun (add_edges_tables _ encode_val.inputs _).encode _).trans ?_
            show Function.update (st1.create_value ins).1.encode2_value encode_val.key _
              encode_val.key = _
            rw [Function.update_same, c1, hv]
        | some v =>
          rw [hk] at hst
          simp only [] at hst
          refine values_effect.same ?_
          rw [← hst]
          refine (add_edges_values _ encode_val.inputs _).trans ?_
          show (st1.add_instr v).values = _
          rw [(add_instr_fields st1 v).2.2.2.2.2.1, hv]

/-- What the root detection of `process` does to the vector `values`. -/
theorem process_root_values (st : horizontal_fusion_impl) (ins : instruction_ref)
    (hids : ∀ v ∈ st.values, v.id < st.values.length) :
    values_effect st (st.process_root ins) := by
  unfold process_root
  simp only []
  split
  · refine values_effect.root ?_ ?_
    · rw [flag_children_values]
      show ((st.create_value ins).1.values.map _) = _
      rw [create_value_values, (create_value_effect st ins).1, List.map_append]
      congr 1
      · conv_rhs => rw [← List.map_id st.values]
        apply List.map_congr_left
        intro v hv
        have := hids v hv
        rw [if_neg (by omega)]
        rfl
      · simp
    · rw [(flag_children_tables _ _ _).encode]
      show (st.create_value ins).1.encode2_value = _
      exact (create_value_effect st ins).2.2.1
  · exact values_effect.same rfl

/-- What `process` does to the vector `values`. -/
theorem process_values (st : horizontal_fusion_impl) (ins : instruction_ref)
    (st' : horizontal_fusion_impl) (hids : ∀ v ∈ st.values, v.id < st.values.length)
    (h : st.process ins = some st') : values_effect st st' := by
  unfold process at h
  split at h
  · simp only [Option.some.injEq] at h
    exact h ▸ values_effect.same rfl
  · split at h
    · split at h
      · cases h
      · rename_i st1 v e
        simp only [Option.some.injEq] at h
        have hv := (hash_values st ins st1 (some v) e).2 (by simp)
        rw [← h]
        cases hv with
        | same values => exact values_effect.same (by rw [flag_all_values, values])
        | root values encode =>
          exact values_effect.root (by rw [flag_all_values, values])
            (by rw [(flag_all_tables _ st1).encode, encode])
        | fresh key values absent encode valued =>
          exact values_effect.fresh key (by rw [flag_all_values, values]) absent
            (by rw [(flag_all_tables _ st1).encode, encode]) valued
      · rename_i st1 e
        simp only [Option.some.injEq] at h
        have hv := (hash_values st ins st1 none e).1 rfl
        have ht : same_tables st st1 := by
          rcases hash_effect st ins st1 none e with ⟨_, h2⟩ | ⟨h1, _⟩
          · exact h2
          · exact absurd rfl h1
        rw [← h]
        have := process_root_values st1 ins (by rw [hv]; exact hids)
        cases this with
        | same values => exact values_effect.same (by rw [values, hv])
        | root values encode =>
          exact values_effect.root (by rw [values, hv, ht.cur_point])
            (by rw [encode, ht.encode])
        | fresh key values absent encode valued =>
          exact values_effect.fresh key (by rw [values, hv, ht.cur_point])
            (by rw [← ht.encode]; exact absent) (by rw [encode, hv])
            (by rw [← ht.value]; exact valued)
    · simp only [Option.some.injEq] at h
      rw [← h]
      exact process_root_values st ins hids

theorem root_inv_ids_lt {st : horizontal_fusion_impl} (hinv : root_inv st) :
    ∀ v ∈ st.values, v.id < st.values.length := by
  intro v hv
  obtain ⟨i, hi⟩ := List.mem_iff_get?.mp hv
  have := hinv.ids i v hi
  rw [this]
  exact (List.get?_eq_some.mp hi).1

/-- The invariant on the root nodes when a call of `process` appends a node. -/
theorem root_inv_append (st st' : horizontal_fusion_impl) (ins : instruction_ref) (b : Bool)
    (hinv : root_inv st) (hm : mapped_to st st' ins st.values.length)
    (values : st'.values = st.values ++
      [{ id := st.values.length, cur_point := st.cur_point, root := b }])
    (henc : ∀ k w, st'.encode2_value k = some w →
      st.encode2_value k = some w ∨ (w = st.values.length ∧ b = false))
    (hfirst : st.values = [] → b = true) : root_inv st' := by
  have hlt := root_inv_ids_lt hinv
  have hnew : ((st'.hash_instrs st.values.length).getD []).length = 1 := by
    rw [hm.instrs, if_pos rfl, hinv.fresh _ (le_refl _)]
    rfl
  refine ⟨?_, ?_, ?_, ?_, ?_, ?_⟩
  · intro i v hi
    rw [values] at hi
    by_cases hlti : i < st.values.length
    · rw [List.get?_append hlti] at hi
      exact hinv.ids i v hi
    · have hle : st.values.length ≤ i := by omega
      rw [List.get?_append_right hle] at hi
      cases hsub : i - st.values.length with
      | zero =>
        rw [hsub] at hi
        simp only [List.get?_cons_zero, Option.some.injEq] at hi
        rw [← hi]
        show st.values.length = i
        omega
      | succ n =>
        rw [hsub] at hi
        simp at hi
  · intro v hv hr
    rw [values, List.mem_append, List.mem_singleton] at hv
    rcases hv with hv | hv
    · have := hlt v hv
      rw [hm.instrs, if_neg (by omega)]
      exact hinv.roots v hv hr
    · rw [hv]
      exact hnew
  · intro k w hk
    rcases henc k w hk with h1 | ⟨h1, h2⟩
    · obtain ⟨e1, e2⟩ := hinv.encoded k w h1
      refine ⟨by rw [values, List.length_append]; omega, ?_⟩
      intro v hv hid
      rw [values, List.mem_append, List.mem_singleton] at hv
      rcases hv with hv | hv
      · exact e2 v hv hid
      · rw [hv] at hid
        have : st.values.length = w := hid
        omega
    · refine ⟨by rw [values, List.length_append, h1]; simp, ?_⟩
      intro v hv hid
      rw [values, List.mem_append, List.mem_singleton] at hv
      rcases hv with hv | hv
      · have := hlt v hv
        omega
      · rw [hv]
        exact h2
  · intro i w hw
    rw [hm.value] at hw
    rw [values, List.length_append]
    by_cases hi : i = ins
    · subst hi
      rw [Function.update_same] at hw
      cases hw
      simp
    · rw [Function.update_noteq hi] at hw
      have := hinv.valued i w hw
      omega
  · intro w hw
    rw [values, List.length_append] at hw
    simp only [List.length_singleton] at hw
    rw [hm.instrs, if_neg (by omega)]
    exact hinv.fresh w (by omega)
  · intro v hv
    rw [values] at hv
    cases hvals : st.values with
    | nil =>
      rw [hvals] at hv
      simp only [List.nil_append, List.head?_cons, Option.some.injEq] at hv
      rw [← hv]
      exact hfirst hvals
    | cons a l =>
      rw [hvals] at hv
      simp only [List.cons_append, List.head?_cons, Option.some.injEq] at hv
      rw [← hv]
      exact hinv.first a (by rw [hvals]; rfl)

/-- The invariant on the root nodes is kept by `process`. -/
theorem process_root_inv (st st' : horizontal_fusion_impl) (ins : instruction_ref)
    (hinv : root_inv st) (h : st.process ins = some st') : root_inv st' := by
  have hlt := root_inv_ids_lt hinv
  have heff := process_has_effect st ins st' h
  have hval := process_values st ins st' hlt h
  cases heff with
  | skip ht =>
    have hvs : st'.values = st.values := by
      cases hval with
      | same values => exact values
      | root values _ =>
        have := ht.values
        rw [values, List.length_append] at this
        simp at this
      | fresh _ values _ _ _ =>
        have := ht.values
        rw [values, List.length_append] at this
        simp at this
    refine ⟨?_, ?_, ?_, ?_, ?_, ?_⟩
    · rw [hvs]; exact hinv.ids
    · rw [hvs, ht.instrs]; exact hinv.roots
    · rw [hvs, ht.encode]; exact hinv.encoded
    · rw [hvs, ht.value]; exact hinv.valued
    · rw [hvs, ht.instrs]; exact hinv.fresh
    · rw [hvs]; exact hinv.first
  | root hm encode values hashed =>
    cases hval with
    | same hvs => rw [hvs] at values; omega
    | root hvs _ =>
      exact root_inv_append st st' ins true hinv hm hvs
        (fun k w hk => Or.inl (by rw [← encode]; exact hk)) (fun _ => rfl)
    | fresh key hvs absent henc _ =>
      rw [encode, absent] at henc
      cases henc
  | fresh key hm absent encode values hashed =>
    cases hval with
    | same hvs => rw [hvs] at values; omega
    | root hvs henc =>
      have := congrFun henc key
      rw [encode, Function.update_same, absent] at this
      cases this
    | fresh key2 hvs _ _ valued =>
      refine root_inv_append st st' ins false hinv hm hvs ?_ ?_
      · intro k w hk
        rw [encode] at hk
        by_cases hkk : k = key
        · subst hkk
          rw [Function.update_same] at hk
          cases hk
          exact Or.inr ⟨rfl, rfl⟩
        · rw [Function.update_noteq hkk] at hk
          exact Or.inl hk
      · intro hnil
        obtain ⟨op1, id, hid⟩ := valued
        have := hinv.valued op1 id hid
        rw [hnil] at this
        simp at this
  | known key v hm present encode values hashed =>
    have hvs : st'.values = st.values := by
      cases hval with
      | same values => exact values
      | root hvs _ => rw [hvs, List.length_append] at values; simp at values
      | fresh _ hvs _ _ _ => rw [hvs, List.length_append] at values; simp at values
    obtain ⟨e1, e2⟩ := hinv.encoded key v present
    refine ⟨?_, ?_, ?_, ?_, ?_, ?_⟩
    · rw [hvs]; exact hinv.ids
    · rw [hvs]
      intro w hw hr
      have hne : w.id ≠ v := by
        intro hid
        have := e2 w hw hid
        rw [hr] at this
        cases this
      rw [hm.instrs, if_neg hne]
      exact hinv.roots w hw hr
    · rw [hvs, encode]; exact hinv.encoded
    · rw [hvs]
      intro i w hw
      rw [hm.value] at hw
      by_cases hi : i = ins
      · subst hi
        rw [Function.update_same] at hw
        cases hw
        exact e1
      · rw [Function.update_noteq hi] at hw
        exact hinv.valued i w hw
    · rw [hvs]
      intro w hw
      rw [hm.instrs, if_neg (by omega)]
      exact hinv.fresh w hw
    · rw [hvs]; exact hinv.first

/-- The invariant on the root nodes holds throughout the hashing phase. -/
theorem hashing_phase_root_inv :
    ∀ (L : List instruction_ref) (st st' : horizontal_fusion_impl),
      root_inv st → hashing_phase L st = some st' → root_inv st' := by
  intro L
  induction L with
  | nil =>
    intro st st' hinv h
    simp only [hashing_phase, Option.some.injEq] at h
    rw [← h]
    exact hinv
  | cons ins rest ih =>
    intro st st' hinv h
    unfold hashing_phase at h
    split at h
    · cases h
    · rename_i st1 e
      have h1 := process_root_inv st st1 ins hinv e
      refine ih _ st' ?_ h
      exact ⟨h1.ids, h1.roots, h1.encoded, h1.valued, h1.fresh, h1.first⟩

theorem create_root_inv (p : program) : root_inv (create p) := by
  refine ⟨?_, ?_, ?_, ?_, ?_, ?_⟩
  · intro i v h; cases h
  · intro v h; cases h
  · intro k w h; cases h
  · intro i w h; cases h
  · intro w _; rfl
  · intro v h; cases h

theorem concat_apply_instrs (st : horizontal_fusion_impl) (env : fusion_env)
    (instrs : List instruction_ref) (ins0 output : instruction_ref) (axis sum : Int)
    (base_lens : List Nat) (st' : horizontal_fusion_impl)
    (h : concat_apply st env instrs ins0 output axis sum base_lens = some st') :
    st'.hash_instrs = st.hash_instrs := by
  unfold concat_apply at h
  simp only [] at h
  split at h
  · split at h
    · cases h
    · rw [Option.map_eq_some'] at h
      obtain ⟨p, _, hp⟩ := h
      rw [← hp]
  · split at h
    · simp only [Option.some.injEq] at h
      rw [← h]
    · cases h

theorem concat_instrs (st : horizontal_fusion_impl) (env : fusion_env)
    (instrs : List instruction_ref) (root : instruction_ref → Option instruction_ref)
    (root_axis : Int) (st' : horizontal_fusion_impl)
    (h : st.concat env instrs root root_axis = some st') :
    st'.hash_instrs = st.hash_instrs := by
  unfold concat at h
  split at h
  · cases h
  · split at h
    · cases h
    · split at h
      · cases h
      · split at h
        · cases h
        · simp only [] at h
          split at h
          · split at h
            · exact concat_apply_instrs _ _ _ _ _ _ _ _ _ h
            · cases h
          · cases h

theorem concat_positions_instrs (env : fusion_env)
    (root : instruction_ref → Option instruction_ref) (axis : Int)
    (all_inputs : List (List instruction_ref)) :
    ∀ (ndxs : List Nat) (st st' : horizontal_fusion_impl),
      concat_positions env root axis all_inputs ndxs st = some st' →
      st'.hash_instrs = st.hash_instrs := by
  intro ndxs
  induction ndxs with
  | nil =>
    intro st st' h
    simp only [concat_positions, Option.some.injEq] at h
    rw [← h]
  | cons ndx rest ih =>
    intro st st' h
    unfold concat_positions at h
    split at h
    · cases h
    · split at h
      · cases h
      · rename_i st1 e
        rw [ih st1 st' h, concat_instrs _ _ _ _ _ _ e]

theorem remove_redundant_roots_instrs (st : horizontal_fusion_impl)
    (base_instrs : List instruction_ref) (st' : horizontal_fusion_impl)
    (h : st.remove_redundant_roots base_instrs = some st') :
    st'.hash_instrs = st.hash_instrs := by
  unfold remove_redundant_roots at h
  split at h
  · cases h
  · simp only [Option.some.injEq] at h
    rw [← h]

theorem update_hash_tree_instrs (st : horizontal_fusion_impl) (hash_id : Nat)
    (st' : horizontal_fusion_impl) (h : st.update_hash_tree hash_id = some st') :
    ∃ first rest, (st.hash_instrs hash_id).getD [] = first :: rest ∧
      st'.hash_instrs = Function.update st.hash_instrs hash_id (some [first]) := by
  unfold update_hash_tree at h
  split at h
  · cases h
  · rename_i first rest e
    simp only [Option.some.injEq] at h
    exact ⟨first, rest, e, by rw [← h]⟩

theorem collect_loop_last (st : horizontal_fusion_impl) (env : fusion_env) :
    ∀ (instrs : List instruction_ref) (loc : cluster_locals) (axis : Int)
      (all_inputs : List (List instruction_ref)) (c : collect_result),
      collect_loop st env instrs loc axis all_inputs = some c →
      c.loc.last_hash_id = loc.last_hash_id := by
  intro instrs
  induction instrs with
  | nil =>
    intro loc axis all_inputs c h
    simp only [collect_loop, Option.some.injEq] at h
    rw [← h]
  | cons ins rest ih =>
    intro loc axis all_inputs c h
    unfold collect_loop at h
    simp only [] at h
    generalize (if axis = -1 then find_axis_common st env ins loc.visited else axis) = ax at h
    split at h
    · simp only [Option.some.injEq] at h
      rw [← h]
    · split at h
      · cases h
      · split at h
        · simp only [Option.some.injEq] at h
          rw [← h]
        · split at h
          · cases h
          · simp only [Option.some.injEq] at h
            rw [← h]
          · exact (ih _ _ _ _ h).trans rfl

/-- What one iteration of the loop over the cluster does to the instr sets and
to `last_hash_id`: it leaves the state and `last_hash_id` as they were, or it
reduces the instr set of the element to its first member and stores the
element in `last_hash_id`. -/
theorem transform_element_effect (st : horizontal_fusion_impl) (env : fusion_env)
    (loc : cluster_locals) (hash_id : Nat) (r : horizontal_fusion_impl × cluster_locals)
    (h : st.transform_element env loc hash_id = some r) :
    (r.1 = st ∧ r.2.last_hash_id = loc.last_hash_id) ∨
    (r.2.last_hash_id = hash_id ∧ ∃ first rest,
      (st.hash_instrs hash_id).getD [] = first :: rest ∧
      r.1.hash_instrs = Function.update st.hash_instrs hash_id (some [first])) := by
  unfold transform_element at h
  split at h
  · cases h
  · rename_i inputs _
    split at h
    · simp only [Option.some.injEq] at h
      rw [← h]
      exact Or.inl ⟨rfl, rfl⟩
    · split at h
      · cases h
      · rename_i ins0 rest _
        simp only [] at h
        split at h
        · rename_i input _
          unfold fuse_single_input at h
          split at h
          · simp only [Option.some.injEq] at h
            rw [← h]
            exact Or.inl ⟨rfl, rfl⟩
          · simp only [] at h
            split at h
            · cases h
            · rename_i st2 e2
              split at h
              · cases h
              · rename_i st3 e3
                simp only [Option.some.injEq] at h
                obtain ⟨first, rest2, hf, hu⟩ := update_hash_tree_instrs st2 hash_id st3 e3
                have e := remove_redundant_roots_instrs _ _ _ e2
                rw [← h]
                refine Or.inr ⟨rfl, first, rest2, ?_, ?_⟩
                · rw [← hf, e]
                · show st3.hash_instrs = _
                  rw [hu, e]
        · split at h
          · cases h
          · rename_i c ec
            split at h
            · simp only [Option.some.injEq] at h
              rw [← h]
              exact Or.inl ⟨rfl, (collect_loop_last st env _ _ _ _ c ec).trans rfl⟩
            · unfold fuse_element at h
              split at h
              · cases h
              · split at h
                · cases h
                · rename_i st1 e1
                  split at h
                  · cases h
                  · rename_i st2 e2
                    simp only [] at h
                    split at h
                    · cases h
                    · rename_i st4 e4
                      simp only [Option.some.injEq] at h
                      obtain ⟨first, rest2, hf, hu⟩ := update_hash_tree_instrs _ hash_id st4 e4
                      have ea := concat_positions_instrs _ _ _ _ _ _ _ e1
                      have eb := remove_redundant_roots_instrs _ _ _ e2
                      rw [← h]
                      refine Or.inr ⟨rfl, first, rest2, ?_, ?_⟩
                      · rw [← hf]
                        show _ = (st2.hash_instrs hash_id).getD []
                        rw [eb, ea]
                      · show st4.hash_instrs = _
                        rw [hu]
                        show Function.update st2.hash_instrs _ _ = _
                        rw [eb, ea]

theorem break_split_instrs (st : horizontal_fusion_impl) (split_shape : operation → shape → shape)
    (enum_ndx : Int) (split_ins : instruction_ref)
    (r : horizontal_fusion_impl × instruction_ref)
    (h : st.break_split split_shape enum_ndx split_ins = some r) :
    r.1.hash_instrs = st.hash_instrs := by
  unfold break_split at h
  split at h
  · split at h
    · cases h
    · split at h
      · cases h
      · split at h
        · simp only [Option.some.injEq] at h
          rw [← h]
        · split at h
          · cases h
          · simp only [Option.some.injEq] at h
            rw [← h]
  · cases h

theorem tail_step_instrs (env : tail_env)
    (acc : horizontal_fusion_impl × (Int → Option instruction_ref)) (output : instruction_ref)
    (acc' : horizontal_fusion_impl × (Int → Option instruction_ref))
    (h : tail_step env acc output = some acc') :
    acc'.1.hash_instrs = acc.1.hash_instrs := by
  unfold tail_step at h
  simp only [] at h
  split at h
  · cases h
  · split at h
    · cases h
    · split at h
      · cases h
      · split at h
        · simp only [Option.some.injEq] at h
          rw [← h]
        · split at h
          · cases h
          · rename_i st1 hb
            have hst1 : st1.hash_instrs = acc.1.hash_instrs := by
              split at hb
              · split at hb
                · cases hb
                · rename_i r e
                  simp only [Option.some.injEq, Prod.mk.injEq] at hb
                  rw [← hb.1]
                  exact break_split_instrs _ _ _ _ r e
              · simp only [Option.some.injEq, Prod.mk.injEq] at hb
                rw [← hb.1]
            split at h
            · cases h
            · simp only [Option.some.injEq] at h
              rw [← h]
              exact hst1
          · rename_i st1 new_split hb
            have hst1 : st1.hash_instrs = acc.1.hash_instrs := by
              split at hb
              · split at hb
                · cases hb
                · rename_i r e
                  simp only [Option.some.injEq, Prod.mk.injEq] at hb
                  rw [← hb.1]
                  exact break_split_instrs _ _ _ _ r e
              · simp only [Option.some.injEq, Prod.mk.injEq] at hb
                rw [← hb.1]
            simp only [Option.some.injEq] at h
            rw [← h]
            exact hst1

theorem tail_loop_instrs (env : tail_env) :
    ∀ (outs : List instruction_ref)
      (acc acc' : horizontal_fusion_impl × (Int → Option instruction_ref)),
      tail_loop env outs acc = some acc' → acc'.1.hash_instrs = acc.1.hash_instrs := by
  intro outs
  induction outs with
  | nil =>
    intro acc acc' h
    simp only [tail_loop, Option.some.injEq] at h
    rw [← h]
  | cons o rest ih =>
    intro acc acc' h
    unfold tail_loop at h
    split at h
    · cases h
    · rename_i acc1 e
      rw [ih acc1 acc' h, tail_step_instrs env acc o acc1 e]

theorem transform_tail_instrs (st : horizontal_fusion_impl) (loc : cluster_locals)
    (type_size : Nat → Nat) (op_shape : operation → shape → shape)
    (st' : horizontal_fusion_impl) (h : st.transform_tail loc type_size op_shape = some st') :
    st'.hash_instrs = st.hash_instrs := by
  unfold transform_tail at h
  split at h
  · cases h
  · simp only [Option.some.injEq] at h
    rw [← h]
  · rename_i r e
    rw [Option.map_eq_some'] at h
    obtain ⟨a, ha, hst⟩ := h
    unfold tail_loads at ha
    have h1 := tail_loop_instrs _ _ _ _ ha
    have h2 : r.1.hash_instrs = st.hash_instrs := by
      unfold insert_tail_split at e
      split at e
      · split at e
        · split at e
          · cases e
          · split at e
            · cases e
            · simp only [Option.some.injEq] at e
              rw [← e]
        · cases e
      · cases e
    rw [← hst, h1]
    exact h2

/-- Every element of a cluster has as many member instructions as the node the
cluster was started from. -/
theorem find_cluster_loop_sizes (st : horizontal_fusion_impl) (size : Nat) :
    ∀ (fuel cur : Nat) (cluster result : List Nat),
      (∀ c ∈ cluster, ∃ pts, st.hash_instrs c = some pts ∧ pts.length = size) →
      find_cluster_loop st size fuel cur cluster = some result →
      ∀ c ∈ result, ∃ pts, st.hash_instrs c = some pts ∧ pts.length = size := by
  intro fuel
  induction fuel with
  | zero =>
    intro cur cluster result _ h
    cases h
  | succ fuel ih =>
    intro cur cluster result hc h
    unfold find_cluster_loop at h
    split at h
    · rename_i output _
      split at h
      · rename_i points e
        split at h
        · rename_i hlen
          refine ih output _ result ?_ h
          intro c hcm
          rw [List.mem_append, List.mem_singleton] at hcm
          rcases hcm with hcm | hcm
          · exact hc c hcm
          · exact ⟨points, by rw [hcm]; exact e, hlen⟩
        · simp only [Option.some.injEq] at h
          rw [← h]
          exact hc
      · simp only [Option.some.injEq] at h
        rw [← h]
        exact hc
    · simp only [Option.some.injEq] at h
      rw [← h]
      exact hc

/-- What the loop over the cluster does to the instr sets and to
`last_hash_id`. -/
theorem transform_cluster_effect (env : fusion_env) :
    ∀ (cluster : List Nat) (st : horizontal_fusion_impl) (loc : cluster_locals)
      (r : horizontal_fusion_impl × cluster_locals),
      transform_cluster env cluster st loc = some r →
      ((r.1 = st ∧ r.2.last_hash_id = loc.last_hash_id) ∨
        (r.2.last_hash_id ∈ cluster ∧ ∃ x, r.1.hash_instrs r.2.last_hash_id = some [x])) ∧
      (∀ w x, st.hash_instrs w = some [x] → r.1.hash_instrs w = some [x]) ∧
      (∀ w, ((st.hash_instrs w).getD []).length ≤ 1 →
        ((r.1.hash_instrs w).getD []).length ≤ 1) := by
  intro cluster
  induction cluster with
  | nil =>
    intro st loc r h
    simp only [transform_cluster, Option.some.injEq] at h
    rw [← h]
    exact ⟨Or.inl ⟨rfl, rfl⟩, fun _ _ h => h, fun _ h => h⟩
  | cons hash_id rest ih =>
    intro st loc r h
    unfold transform_cluster at h
    split at h
    · cases h
    · rename_i r1 e
      obtain ⟨i1, i2, i3⟩ := ih r1.1 r1.2 r h
      rcases transform_element_effect st env loc hash_id r1 e with ⟨e1, e2⟩ | ⟨e1, first, rest2, e2, e3⟩
      · rw [e1] at i1 i2 i3
        refine ⟨?_, i2, i3⟩
        rcases i1 with ⟨a, b⟩ | ⟨a, b⟩
        · exact Or.inl ⟨a, b.trans e2⟩
        · exact Or.inr ⟨List.mem_cons_of_mem _ a, b⟩
      · have hsingle : r1.1.hash_instrs hash_id = some [first] := by
          rw [e3, Function.update_same]
        refine ⟨Or.inr ?_, ?_, ?_⟩
        · rcases i1 with ⟨a, b⟩ | ⟨a, b⟩
          · rw [b, e1]
            exact ⟨List.mem_cons_self _ _, first, by rw [a]; exact hsingle⟩
          · exact ⟨List.mem_cons_of_mem _ a, b⟩
        · intro w x hw
          apply i2
          rw [e3]
          by_cases hwk : w = hash_id
          · subst hwk
            rw [hw] at e2
            simp only [Option.getD_some, List.cons.injEq] at e2
            rw [Function.update_same, e2.1]
          · rw [Function.update_noteq hwk]
            exact hw
        · intro w hw
          apply i3
          rw [e3]
          by_cases hwk : w = hash_id
          · subst hwk
            rw [Function.update_same]
            simp
          · rw [Function.update_noteq hwk]
            exact hw

/-- One iteration of the loop of `transform` keeps a node with at most one
member a node with at most one member. -/
theorem transform_value_single (st : horizontal_fusion_impl) (env : fusion_env) (id : Nat)
    (st' : horizontal_fusion_impl) (h : st.transform_value env id = some st') :
    ∀ w, ((st.hash_instrs w).getD []).length ≤ 1 →
      ((st'.hash_instrs w).getD []).length ≤ 1 := by
  unfold transform_value at h
  split at h
  · simp only [Option.some.injEq] at h
    rw [← h]
    exact fun _ h => h
  · split at h
    · simp only [Option.some.injEq] at h
      rw [← h]
      exact fun _ h => h
    · split at h
      · cases h
      · rename_i cluster _
        split at h
        · cases h
        · rename_i r e
          intro w hw
          rw [transform_tail_instrs _ _ _ _ _ h]
          exact (transform_cluster_effect env cluster st _ r e).2.2 w hw

theorem transform_loop_single (env : fusion_env) :
    ∀ (vals : List hash_value) (st st' : horizontal_fusion_impl),
      transform_loop env vals st = some st' →
      ∀ w, ((st.hash_instrs w).getD []).length ≤ 1 →
        ((st'.hash_instrs w).getD []).length ≤ 1 := by
  intro vals
  induction vals with
  | nil =>
    intro st st' h
    simp only [transform_loop, Option.some.injEq] at h
    rw [← h]
    exact fun _ h => h
  | cons val rest ih =>
    intro st st' h
    unfold transform_loop at h
    split at h
    · cases h
    · rename_i st1 e
      intro w hw
      exact ih st1 st' h w (transform_value_single st env val.id st1 e w hw)

/-- After the hashing phase the node `0` has at most one member. -/
theorem root_inv_zero (st : horizontal_fusion_impl) (hinv : root_inv st) :
    ((st.hash_instrs 0).getD []).length ≤ 1 := by
  cases hvals : st.values with
  | nil =>
    rw [hinv.fresh 0 (by rw [hvals]; exact le_refl _)]
    exact Nat.zero_le _
  | cons a l =>
    have hr := hinv.first a (by rw [hvals]; rfl)
    have hid := hinv.ids 0 a (by rw [hvals]; rfl)
    have := hinv.roots a (by rw [hvals]; exact List.mem_cons_self _ _) hr
    rw [hid] at this
    omega

end horizontal_fusion_impl

/-- C36: in every state that the hashing phase reaches from a freshly
constructed `horizontal_fusion_impl` (after any sequence `L` of processed
instructions), the id of a node is its index in `values`, every root node has
exactly one member instruction, and the node with id `0`, which is the first
node if there is any node, is a root.  Consequently, in every state `st1` at
which the loop of `transform` arrives afterwards, a cluster grown from a node
with more than one member does not contain the id `0`, and after the loop over
the elements of the cluster `last_hash_id = 0` holds exactly when the member
set of no element has been reduced to the surviving instruction (no element was
fused): then the state is the one before the loop, and otherwise
`last_hash_id` is an element of the cluster whose member set is a single
instruction. -/
theorem C36_roots_have_one_member (p : program) (L : List instruction_ref)
    (st : horizontal_fusion_impl)
    (h : (horizontal_fusion_impl.create p).hashing_phase L = some st) :
    (∀ (i : Nat) (v : hash_value), st.values.get? i = some v → v.id = i) ∧
    (∀ v ∈ st.values, v.root = true → ((st.hash_instrs v.id).getD []).length = 1) ∧
    (∀ v, st.values.head? = some v → v.id = 0) ∧
    (∀ v ∈ st.values, v.id = 0 → v.root = true) ∧
    (∀ (env : horizontal_fusion_impl.fusion_env) (vals : List hash_value)
        (st1 : horizontal_fusion_impl),
      horizontal_fusion_impl.transform_loop env vals st = some st1 →
      ∀ (id : Nat) (points : List Nat) (cluster : List Nat),
        st1.hash_instrs id = some points → 1 < points.length →
        st1.find_cluster_loop points.length (st1.values.length + 1) id [id] = some cluster →
        0 ∉ cluster ∧
        ∀ r, horizontal_fusion_impl.transform_cluster env cluster st1 {} = some r →
          (r.2.last_hash_id = 0 ↔ ∀ c ∈ cluster, r.1.hash_instrs c = st1.hash_instrs c) ∧
          (r.2.last_hash_id = 0 → r.1 = st1) ∧
          (r.2.last_hash_id ≠ 0 →
            r.2.last_hash_id ∈ cluster ∧ ∃ x, r.1.hash_instrs r.2.last_hash_id = some [x])) := by
  have hinv := horizontal_fusion_impl.hashing_phase_root_inv L _ st
    (horizontal_fusion_impl.create_root_inv p) h
  have hhead : ∀ v, st.values.head? = some v → v.id = 0 := by
    intro v hv
    apply hinv.ids 0 v
    cases hvals : st.values with
    | nil => rw [hvals] at hv; cases hv
    | cons a l => rw [hvals] at hv; exact hv
  refine ⟨hinv.ids, hinv.roots, hhead, ?_, ?_⟩
  · intro v hv hid
    obtain ⟨i, hi⟩ := List.mem_iff_get?.mp hv
    have := hinv.ids i v hi
    rw [hid] at this
    rw [← this] at hi
    apply hinv.first v
    cases hvals : st.values with
    | nil => rw [hvals] at hi; cases hi
    | cons a l => rw [hvals] at hi; exact hi
  · intro env vals st1 hloop id points cluster hpts hlen hcl
    have hzero := horizontal_fusion_impl.transform_loop_single env vals st st1 hloop 0
      (horizontal_fusion_impl.root_inv_zero st hinv)
    have hsizes := horizontal_fusion_impl.find_cluster_loop_sizes st1 points.length _ id [id]
      cluster (by
        intro c hc
        rw [List.mem_singleton] at hc
        rw [hc]
        exact ⟨points, hpts, rfl⟩) hcl
    have hnot : 0 ∉ cluster := by
      intro hm
      obtain ⟨pts, e1, e2⟩ := hsizes 0 hm
      rw [e1] at hzero
      simp only [Option.getD_some] at hzero
      omega
    refine ⟨hnot, ?_⟩
    intro r hr
    have heff := (horizontal_fusion_impl.transform_cluster_effect env cluster st1 {} r hr).1
    have h2 : r.2.last_hash_id = 0 → r.1 = st1 := by
      intro hl
      rcases heff with ⟨a, _⟩ | ⟨m, _⟩
      · exact a
      · rw [hl] at m
        exact absurd m hnot
    have h3 : r.2.last_hash_id ≠ 0 →
        r.2.last_hash_id ∈ cluster ∧ ∃ x, r.1.hash_instrs r.2.last_hash_id = some [x] := by
      intro hl
      rcases heff with ⟨_, b⟩ | hb
      · exact absurd b hl
      · exact hb
    refine ⟨⟨?_, ?_⟩, h2, h3⟩
    · intro hl c _
      rw [h2 hl]
    · intro hall
      by_contra hl
      obtain ⟨m, x, hx⟩ := h3 hl
      obtain ⟨pts, e1, e2⟩ := hsizes _ m
      rw [hall _ m, e1] at hx
      simp only [Option.some.injEq] at hx
      rw [hx] at e2
      simp only [List.length_singleton] at e2
      omega

theorem C36_roots_have_one_member_witness :
    (∀ (i : Nat) (v : hash_value), fanout_hashed.values.get? i = some v → v.id = i) ∧
    (∀ v ∈ fanout_hashed.values, v.root = true →
      ((fanout_hashed.hash_instrs v.id).getD []).length = 1) ∧
    (∀ v, fanout_hashed.values.head? = some v → v.id = 0) ∧
    (∀ v ∈ fanout_hashed.values, v.id = 0 → v.root = true) ∧
    (∀ (env : horizontal_fusion_impl.fusion_env) (vals : List hash_value)
        (st1 : horizontal_fusion_impl),
      horizontal_fusion_impl.transform_loop env vals fanout_hashed = some st1 →
      ∀ (id : Nat) (points : List Nat) (cluster : List Nat),
        st1.hash_instrs id = some points → 1 < points.length →
        st1.find_cluster_loop points.length (st1.values.length + 1) id [id] = some cluster →
        0 ∉ cluster ∧
        ∀ r, horizontal_fusion_impl.transform_cluster env cluster st1 {} = some r →
          (r.2.last_hash_id = 0 ↔ ∀ c ∈ cluster, r.1.hash_instrs c = st1.hash_instrs c) ∧
          (r.2.last_hash_id = 0 → r.1 = st1) ∧
          (r.2.last_hash_id ≠ 0 →
            r.2.last_hash_id ∈ cluster ∧ ∃ x, r.1.hash_instrs r.2.last_hash_id = some [x])) :=
  C36_roots_have_one_member fanout_example fanout_example.instructions fanout_hashed (by rfl)

namespace horizontal_fusion_impl

end horizontal_fusion_impl

end migraphx
